import Mathlib

/-!
# desertbit/options: `SetDefaults` and `StripDefaults`

A shallow embedding of `options.go`.  The Go code walks two `reflect.Value`s in
lockstep, so the embedding has three layers:

* `Ty` / `Val`: Go types and values for the kinds that occur in the sample
  (`int`, `string`, `bool`, `float32`, `[]int`, `map[int]string`, structs and
  pointers to structs);
* `Mem` / `RValue`: the storage the walk mutates.  The struct the caller passes
  by pointer lives in `Mem.root`; every struct reached through a pointer field
  lives in `Mem.heap`.  An `RValue` is a `reflect.Value`: invalid, a held copy
  (the `def` argument), or an addressable location;
* the functions of `options.go` themselves, reading and writing `Mem`.

A call ends in a `Res`: it returns `nil`, or it ends with a returned `error`, a
run-time panic of the `reflect` package or an exhausted call stack (the recursion
is bounded by an explicit depth); in each case the storage it leaves is recorded.

What the storage model covers and what it leaves out:

* in the definitions given first, pointers hold the address of a whole heap struct,
  so structs may be shared between the target and the defaults, or between two
  fields, and a heap may be cyclic;
* the section on pointers into a struct runs the same code over storage in which a
  pointer may also refer to a field of a struct, to a variable that is no struct,
  or to the root variable itself; the statements on `SetDefaults` and
  `StripDefaults` that need it carry the hypothesis that the table `I` of such
  pointers is empty, and the counterexamples show what happens when it is not;
* the section on structs behind pointers gives the vocabulary for leaves that are
  reached through non-nil pointers: the target read through its pointers
  (`deepVal`), and the conditions that the structs behind its pointers are separate
  (`separate`) and that the defaults have its shape (`alike`); under these
  conditions the calls are shown to return;
* the kinds of field are those of `Ty`; a field of interface, array, channel or
  function type, or a slice or map with pointer elements, is not represented;
* a pointer whose address is not allocated behaves like a nil pointer under
  `Elem`; Go has no such pointers;
* a float is not-a-number or a number, kept up to `==`: negative zero and zero
  are the one value `num 0`.  `IsZero` (from Go 1.22 on), `DeepEqual`, `Set` and
  `Zero` do not tell the two apart except that `Zero` gives the positive one, so a
  statement that a float field holds a value reads: it holds a float `==` to it;
* `Set` accepts a value of the identical type only.
-/

namespace Options

/-! ## Types and values -/

/-- A `float32`, as far as the walk can tell floats apart: not-a-number or a number. -/
inductive FloatVal where
  | nan
  | num (q : Int)
  deriving DecidableEq, Repr

/-- A struct field: its name, whether the name is exported, and its content. -/
structure FieldOf (α : Type) where
  name : String
  exported : Bool
  val : α
  deriving DecidableEq, Repr

/-- Go types.  A struct type carries its package path and name (both empty for an
unnamed struct type) and its field declarations. -/
inductive Ty where
  | int | str | bool | float | ints | mapIS
  | ptr (elem : Ty)
  | struct (pkg name : String) (fields : List (FieldOf Ty))
  deriving Repr

/-- Go values.  `ints none` is the nil slice and `ints (some [])` an allocated
empty one; likewise for maps, whose entries are kept in ascending key order.
A pointer carries its element type and is nil or the address of a heap struct. -/
inductive Val where
  | int (n : Int)
  | str (s : String)
  | bool (b : Bool)
  | float (f : FloatVal)
  | ints (xs : Option (List Int))
  | mapIS (m : Option (List (Int × String)))
  | ptr (elem : Ty) (a : Option Nat)
  | struct (pkg name : String) (fs : List (FieldOf Val))
  deriving Repr

mutual
/-- Type identity, as a boolean test. -/
def Ty.beq : Ty → Ty → Bool
  | .int, .int => true
  | .str, .str => true
  | .bool, .bool => true
  | .float, .float => true
  | .ints, .ints => true
  | .mapIS, .mapIS => true
  | .ptr a, .ptr b => Ty.beq a b
  | .struct p n fs, .struct q m gs => p == q && n == m && beqFields fs gs
  | _, _ => false
/-- Identity of field declaration lists. -/
def beqFields : List (FieldOf Ty) → List (FieldOf Ty) → Bool
  | [], [] => true
  | f :: r, g :: s =>
      f.name == g.name && f.exported == g.exported && Ty.beq f.val g.val && beqFields r s
  | _, _ => false
end

/-- `reflect.Type.Name`: the declared name of a type, empty for unnamed types. -/
def Ty.Name : Ty → String
  | .int => "int"
  | .str => "string"
  | .bool => "bool"
  | .float => "float32"
  | .ints => ""
  | .mapIS => ""
  | .ptr _ => ""
  | .struct _ n _ => n

mutual
/-- The dynamic type of a value. -/
def Val.typeOf : Val → Ty
  | .int _ => .int
  | .str _ => .str
  | .bool _ => .bool
  | .float _ => .float
  | .ints _ => .ints
  | .mapIS _ => .mapIS
  | .ptr e _ => .ptr e
  | .struct p n fs => .struct p n (typeOfFields fs)
/-- The field declarations of a list of field values. -/
def typeOfFields : List (FieldOf Val) → List (FieldOf Ty)
  | [] => []
  | f :: r => ⟨f.name, f.exported, f.val.typeOf⟩ :: typeOfFields r
end

mutual
/-- `reflect.Zero`: the zero value of a type. -/
def Ty.zero : Ty → Val
  | .int => .int 0
  | .str => .str ""
  | .bool => .bool false
  | .float => .float (.num 0)
  | .ints => .ints none
  | .mapIS => .mapIS none
  | .ptr e => .ptr e none
  | .struct p n fs => .struct p n (zeroFields fs)
/-- Zero values for a list of field declarations. -/
def zeroFields : List (FieldOf Ty) → List (FieldOf Val)
  | [] => []
  | f :: r => ⟨f.name, f.exported, f.val.zero⟩ :: zeroFields r
end

mutual
/-- `reflect.Value.IsZero`: a slice or map is zero only when it is nil, a struct
when all its fields are. -/
def Val.isZero : Val → Bool
  | .int n => n == 0
  | .str s => s == ""
  | .bool b => !b
  | .float f => f == .num 0
  | .ints xs => xs.isNone
  | .mapIS m => m.isNone
  | .ptr _ a => a.isNone
  | .struct _ _ fs => isZeroFields fs
/-- All fields are zero. -/
def isZeroFields : List (FieldOf Val) → Bool
  | [] => true
  | f :: r => f.val.isZero && isZeroFields r
end

mutual
/-- `reflect.DeepEqual` on two values: different types are never equal, a NaN is
not equal to itself, a nil slice or map differs from an allocated empty one.
Pointers are compared by address: the walk hands a pointer to `DeepEqual` only
when the target side is nil. -/
def Val.deepEqual : Val → Val → Bool
  | .int a, .int b => a == b
  | .str a, .str b => a == b
  | .bool a, .bool b => a == b
  | .float a, .float b => a != .nan && a == b
  | .ints a, .ints b => a == b
  | .mapIS a, .mapIS b => a == b
  | .ptr e a, .ptr e' b => Ty.beq e e' && a == b
  | .struct p n fs, .struct q m gs => p == q && n == m && deepEqualFields fs gs
  | _, _ => false
/-- Field-wise deep equality of two structs of one type. -/
def deepEqualFields : List (FieldOf Val) → List (FieldOf Val) → Bool
  | [], [] => true
  | f :: r, g :: s =>
      f.name == g.name && f.exported == g.exported && Val.deepEqual f.val g.val
        && deepEqualFields r s
  | _, _ => false
end

/-- The sub-value at a path of field indices. -/
def Val.getPath : Val → List Nat → Option Val
  | v, [] => some v
  | .struct _ _ fs, i :: p =>
      match fs[i]? with
      | some f => f.val.getPath p
      | none => none
  | _, _ :: _ => none

/-- Overwrite the sub-value at a path of field indices. -/
def Val.setPath : Val → List Nat → Val → Option Val
  | _, [], w => some w
  | .struct pk n fs, i :: p, w =>
      match fs[i]? with
      | some f =>
          match f.val.setPath p w with
          | some x => some (.struct pk n (fs.set i { f with val := x }))
          | none => none
      | none => none
  | _, _ :: _, _ => none

/-! ## Storage and `reflect.Value` -/

/-- A struct allocated on the heap. -/
structure Obj where
  pkg : String
  name : String
  fs : List (FieldOf Val)
  deriving Repr

/-- The struct value held by a heap cell. -/
def Obj.toVal (o : Obj) : Val := .struct o.pkg o.name o.fs

/-- Storage: `root` is the variable whose address the caller passes as `v`;
`heap` holds the structs that pointer values refer to, by index. -/
structure Mem where
  root : Val
  heap : List Obj
  deriving Repr

/-- Where an addressable value starts: the root variable or a heap cell. -/
inductive Base where
  | root
  | obj (a : Nat)
  deriving DecidableEq, Repr

/-- The content of a base. -/
def Mem.base (m : Mem) : Base → Option Val
  | .root => some m.root
  | .obj a => m.heap[a]?.map Obj.toVal

/-- Read the value stored at a path below a base. -/
def Mem.read (m : Mem) (b : Base) (path : List Nat) : Option Val :=
  match m.base b with
  | some v => v.getPath path
  | none => none

/-- Store a value at a path below a base. -/
def Mem.write (m : Mem) (b : Base) (path : List Nat) (w : Val) : Option Mem :=
  match b with
  | .root =>
      match m.root.setPath path w with
      | some r => some { m with root := r }
      | none => none
  | .obj a =>
      match m.heap[a]? with
      | some o =>
          match o.toVal.setPath path w with
          | some (.struct pk n fs) => some { m with heap := m.heap.set a ⟨pk, n, fs⟩ }
          | _ => none
      | none => none

/-- A `reflect.Value`: the zero Value, a copy held in an interface (not
addressable), or an addressable location.  `ro` is set on values obtained through
an unexported field. -/
inductive RValue where
  | invalid
  | held (v : Val) (ro : Bool)
  | ref (b : Base) (path : List Nat) (ro : Bool)
  deriving Repr

/-- What a call leaves behind when it does not return `nil`. -/
inductive Err where
  | error (msg : String)
  | panic
  | stackOverflow
  deriving DecidableEq, Repr

/-- `reflect.Kind`, as far as `options.go` distinguishes kinds. -/
inductive Kind where
  | Invalid | Struct | Ptr | Other
  deriving DecidableEq, Repr

/-- The kind of a type. -/
def Ty.Kind : Ty → Kind
  | .struct _ _ _ => .Struct
  | .ptr _ => .Ptr
  | _ => .Other

/-- The kind of a value. -/
def Val.Kind : Val → Kind
  | .struct _ _ _ => .Struct
  | .ptr _ _ => .Ptr
  | _ => .Other

/-- The value a `reflect.Value` currently denotes. -/
def RValue.load (m : Mem) : RValue → Option Val
  | .invalid => none
  | .held v _ => some v
  | .ref b p _ => m.read b p

/-- `reflect.Value.IsValid`. -/
def RValue.IsValid (m : Mem) (v : RValue) : Bool := (v.load m).isSome

/-- `reflect.Value.Kind`; the zero Value has kind `Invalid`. -/
def RValue.Kind (m : Mem) (v : RValue) : Kind :=
  match v.load m with
  | some x => x.Kind
  | none => .Invalid

/-- The read-only flag of a `reflect.Value`. -/
def RValue.ro : RValue → Bool
  | .invalid => false
  | .held _ r => r
  | .ref _ _ r => r

/-- `reflect.Value.CanSet`: addressable and not obtained through an unexported field. -/
def RValue.CanSet : RValue → Bool
  | .ref _ _ r => !r
  | _ => false

/-- `reflect.Value.CanInterface`. -/
def RValue.CanInterface : RValue → Bool
  | .invalid => false
  | .held _ r => !r
  | .ref _ _ r => !r

/-- `reflect.Value.NumField`; panics unless the kind is `Struct`. -/
def RValue.NumField (m : Mem) (v : RValue) : Except Err Nat :=
  match v.load m with
  | some (.struct _ _ fs) => .ok fs.length
  | _ => .error .panic

/-- `reflect.Value.Field`; panics unless the kind is `Struct` and the index is in range. -/
def RValue.Field (m : Mem) (v : RValue) (i : Nat) : Except Err RValue :=
  match v.load m with
  | some (.struct _ _ fs) =>
      match fs[i]? with
      | some f =>
          match v with
          | .invalid => .error .panic
          | .held _ r => .ok (.held f.val (r || !f.exported))
          | .ref b p r => .ok (.ref b (p ++ [i]) (r || !f.exported))
      | none => .error .panic
  | _ => .error .panic

/-- `reflect.Value.Elem` of a pointer: the location it points to, the zero Value
for a nil pointer. -/
def RValue.Elem (m : Mem) (v : RValue) : RValue :=
  match v.load m with
  | some (.ptr _ (some a)) => if a < m.heap.length then .ref (.obj a) [] v.ro else .invalid
  | _ => .invalid

/-- `reflect.Value.IsZero`; panics on the zero Value. -/
def RValue.IsZero (m : Mem) (v : RValue) : Except Err Bool :=
  match v.load m with
  | some x => .ok x.isZero
  | none => .error .panic

/-- `reflect.Value.Set`: panics unless `v` is settable, `x` is valid, was not
obtained through an unexported field, and has the type of `v`. -/
def RValue.Set (m : Mem) (v x : RValue) : Except Err Mem :=
  match v, v.load m, x.load m with
  | .ref b p false, some old, some new =>
      if x.ro then .error .panic
      else if Ty.beq new.typeOf old.typeOf then
        match m.write b p new with
        | some m2 => .ok m2
        | none => .error .panic
      else .error .panic
  | _, _, _ => .error .panic

/-- `reflect.Value.Interface`; panics on a value obtained through an unexported field. -/
def RValue.Interface (m : Mem) (v : RValue) : Except Err Val :=
  match v.load m with
  | some x => if v.ro then .error .panic else .ok x
  | none => .error .panic

/-- `reflect.Value.Type`. -/
def RValue.Type (m : Mem) (v : RValue) : Except Err Ty :=
  match v.load m with
  | some x => .ok x.typeOf
  | none => .error .panic

/-! ## `options.go` -/

/-- How a call ends: it returns `nil` (`ok`), or it returns an error, panics or
exhausts the stack (`fail`).  Either way the storage is left in some state. -/
inductive Res where
  | ok (m : Mem)
  | fail (e : Err) (m : Mem)
  deriving Repr

/-- The storage a call leaves behind. -/
def Res.mem : Res → Mem
  | .ok m => m
  | .fail _ m => m

/-- How a call failed, `none` when it returned `nil`. -/
def Res.err : Res → Option Err
  | .ok _ => none
  | .fail e _ => some e

/-- The Go function `toStructOrStructPointer`: the struct itself, the struct a
non-nil pointer refers to, or the zero Value. -/
def toStructOrStructPointer (m : Mem) (v : RValue) : RValue :=
  if !v.IsValid m then .invalid
  else if v.Kind m = .Struct then v
  else if v.Kind m = .Ptr && (v.Elem m).Kind m = .Struct then v.Elem m
  else .invalid

/-- The loop body of `setStruct` for the field indices `is`, in order; `recur` is
the recursive call of `setStruct`. -/
def setFields (recur : Mem → RValue → RValue → Res) (vStr defStr : RValue) :
    List Nat → Mem → Res
  | [], m => .ok m
  | i :: is, m =>
      match vStr.Field m i with
      | .error e => .fail e m
      | .ok vf =>
      match defStr.Field m i with
      | .error e => .fail e m
      | .ok df =>
        if !vf.CanSet || !vf.CanInterface then
          setFields recur vStr defStr is m
        else if (toStructOrStructPointer m vf).IsValid m then
          match recur m (toStructOrStructPointer m vf) (toStructOrStructPointer m df) with
          | .fail e m1 => .fail e m1
          | .ok m1 => setFields recur vStr defStr is m1
        else
          match vf.IsZero m with
          | .error e => .fail e m
          | .ok false => setFields recur vStr defStr is m
          | .ok true =>
              match vf.Set m df with
              | .error e => .fail e m
              | .ok m1 => setFields recur vStr defStr is m1

/-- The Go function `setStruct`, with `depth` nested calls available on the stack. -/
def setStruct : Nat → Mem → RValue → RValue → Res
  | 0, m, _, _ => .fail .stackOverflow m
  | depth + 1, m, vStr, defStr =>
      match vStr.NumField m with
      | .error e => .fail e m
      | .ok n => setFields (setStruct depth) vStr defStr (List.range n) m

/-- The loop body of `stripStruct` for the field indices `is`, in order. -/
def stripFields (recur : Mem → RValue → RValue → Res) (vStr defStr : RValue) :
    List Nat → Mem → Res
  | [], m => .ok m
  | i :: is, m =>
      match vStr.Field m i with
      | .error e => .fail e m
      | .ok vf =>
      match defStr.Field m i with
      | .error e => .fail e m
      | .ok df =>
        if !vf.CanSet || !vf.CanInterface then
          stripFields recur vStr defStr is m
        else if (toStructOrStructPointer m vf).IsValid m then
          match recur m (toStructOrStructPointer m vf) (toStructOrStructPointer m df) with
          | .fail e m1 => .fail e m1
          | .ok m1 => stripFields recur vStr defStr is m1
        else
          match vf.Interface m with
          | .error e => .fail e m
          | .ok x =>
          match df.Interface m with
          | .error e => .fail e m
          | .ok d =>
            if x.deepEqual d then
              match vf.Type m with
              | .error e => .fail e m
              | .ok t =>
                  match vf.Set m (.held t.zero false) with
                  | .error e => .fail e m
                  | .ok m1 => stripFields recur vStr defStr is m1
            else
              stripFields recur vStr defStr is m

/-- The Go function `stripStruct`, with `depth` nested calls available on the stack. -/
def stripStruct : Nat → Mem → RValue → RValue → Res
  | 0, m, _, _ => .fail .stackOverflow m
  | depth + 1, m, vStr, defStr =>
      match vStr.NumField m with
      | .error e => .fail e m
      | .ok n => stripFields (stripStruct depth) vStr defStr (List.range n) m

/-- The argument `v` of type `interface{}`: nil, a value, or the address of the
root variable. -/
inductive Arg where
  | nil
  | val (x : Val)
  | rootPtr
  deriving Repr

/-- `reflect.TypeOf(v)`; `none` is the nil type of a nil interface. -/
def Arg.TypeOf (m : Mem) : Arg → Option Ty
  | .nil => none
  | .val x => some x.typeOf
  | .rootPtr => some (.ptr m.root.typeOf)

/-- `reflect.ValueOf(v).Elem()` for an argument of pointer kind. -/
def Arg.Elem (m : Mem) : Arg → RValue
  | .nil => .invalid
  | .val x => (RValue.held x false).Elem m
  | .rootPtr => .ref .root [] false

/-- `reflect.Type.Elem` of a pointer type. -/
def Ty.Elem : Ty → Ty
  | .ptr e => e
  | t => t

/-- The Go function `SetDefaults`.  The argument `d` is `def`: the nil interface
or a value. -/
def SetDefaults (depth : Nat) (m : Mem) (v : Arg) (d : Option Val) : Res :=
  match v.TypeOf m with
  | none => .fail (.error "value must be a struct pointer") m
  | some vType =>
    if vType.Kind ≠ .Ptr then .fail (.error "value must be a struct pointer") m
    else
      let vVal := v.Elem m
      if vVal.Kind m ≠ .Struct then .fail (.error "value must be a struct pointer") m
      else
        match d with
        | none => .fail (.error "def must be a struct value") m
        | some dv =>
          if dv.typeOf.Kind ≠ .Struct then .fail (.error "def must be a struct value") m
          else if vType.Elem.Name ≠ dv.typeOf.Name then
            .fail (.error "value and def have different struct types") m
          else setStruct depth m vVal (.held dv false)

/-- The Go function `StripDefaults`. -/
def StripDefaults (depth : Nat) (m : Mem) (v : Arg) (d : Option Val) : Res :=
  match v.TypeOf m with
  | none => .fail (.error "value must be a struct pointer") m
  | some vType =>
    if vType.Kind ≠ .Ptr then .fail (.error "value must be a struct pointer") m
    else
      let vVal := v.Elem m
      if vVal.Kind m ≠ .Struct then .fail (.error "value must be a struct pointer") m
      else
        match d with
        | none => .fail (.error "def must be a struct value") m
        | some dv =>
          if dv.typeOf.Kind ≠ .Struct then .fail (.error "def must be a struct value") m
          else if vType.Elem.Name ≠ dv.typeOf.Name then
            .fail (.error "value and def have different struct types") m
          else stripStruct depth m vVal (.held dv false)

/-! ## The shape shared by the two walks

`setStruct` and `stripStruct` differ only in what they do at a leaf field.  The
definitions below state that shared shape once; `setStruct_eq_walk` and
`stripStruct_eq_walk` show that the two Go functions are instances of it. -/

/-- What `setStruct` does at a leaf field: overwrite it with the default when it is zero. -/
def setLeaf (m : Mem) (vf df : RValue) : Res :=
  match vf.IsZero m with
  | .error e => .fail e m
  | .ok false => .ok m
  | .ok true =>
      match vf.Set m df with
      | .error e => .fail e m
      | .ok m1 => .ok m1

/-- What `stripStruct` does at a leaf field: zero it when it deep-equals the default. -/
def stripLeaf (m : Mem) (vf df : RValue) : Res :=
  match vf.Interface m with
  | .error e => .fail e m
  | .ok x =>
  match df.Interface m with
  | .error e => .fail e m
  | .ok d =>
    if x.deepEqual d then
      match vf.Type m with
      | .error e => .fail e m
      | .ok t =>
          match vf.Set m (.held t.zero false) with
          | .error e => .fail e m
          | .ok m1 => .ok m1
    else .ok m

/-- The loop of either walk, with the leaf action as a parameter. -/
def walkFields (leaf : Mem → RValue → RValue → Res) (recur : Mem → RValue → RValue → Res)
    (vStr defStr : RValue) : List Nat → Mem → Res
  | [], m => .ok m
  | i :: is, m =>
      match vStr.Field m i with
      | .error e => .fail e m
      | .ok vf =>
      match defStr.Field m i with
      | .error e => .fail e m
      | .ok df =>
        if !vf.CanSet || !vf.CanInterface then
          walkFields leaf recur vStr defStr is m
        else if (toStructOrStructPointer m vf).IsValid m then
          match recur m (toStructOrStructPointer m vf) (toStructOrStructPointer m df) with
          | .fail e m1 => .fail e m1
          | .ok m1 => walkFields leaf recur vStr defStr is m1
        else
          match leaf m vf df with
          | .fail e m1 => .fail e m1
          | .ok m1 => walkFields leaf recur vStr defStr is m1

/-- Either walk, with the leaf action as a parameter. -/
def walkStruct (leaf : Mem → RValue → RValue → Res) : Nat → Mem → RValue → RValue → Res
  | 0, m, _, _ => .fail .stackOverflow m
  | depth + 1, m, vStr, defStr =>
      match vStr.NumField m with
      | .error e => .fail e m
      | .ok n => walkFields leaf (walkStruct leaf depth) vStr defStr (List.range n) m

/-! ## Vocabulary of the statements -/

/-- The argument is a pointer (to the root variable or into the heap, or nil). -/
def Arg.isPtr : Arg → Bool
  | .rootPtr => true
  | .val (.ptr _ _) => true
  | _ => false

/-- The argument is a nil pointer. -/
def Arg.isNullPtr : Arg → Bool
  | .val (.ptr _ none) => true
  | _ => false

/-- What a non-nil pointer argument points to. -/
def Arg.pointee (m : Mem) : Arg → Option Val
  | .rootPtr => some m.root
  | .val (.ptr _ (some a)) => m.heap[a]?.map Obj.toVal
  | _ => none

/-- The argument is a non-nil pointer to a struct. -/
def Arg.pointsToStruct (m : Mem) (v : Arg) : Bool :=
  match v.pointee m with
  | some x => x.Kind == .Struct
  | none => false

/-- The `def` argument is a struct value. -/
def isStructValue : Option Val → Bool
  | some x => x.Kind == .Struct
  | none => false
/-- A non-nil pointer whose address is allocated: the kind of field value the walk
follows into the heap. -/
def Val.isLivePtr (h : Nat) : Val → Bool
  | .ptr _ (some a) => decide (a < h)
  | _ => false

/-- The field value is descended into by the walk (a struct or a live pointer)
instead of being treated as a leaf. -/
def Val.isRecursed (h : Nat) (x : Val) : Bool :=
  x.Kind == .Struct || x.isLivePtr h
/-- The argument checks that `SetDefaults` and `StripDefaults` share, followed by
the walk `walk` that distinguishes them. -/
def entry (walk : Mem → RValue → RValue → Res) (m : Mem) (v : Arg) (d : Option Val) : Res :=
  match v.TypeOf m with
  | none => .fail (.error "value must be a struct pointer") m
  | some vType =>
    if vType.Kind ≠ .Ptr then .fail (.error "value must be a struct pointer") m
    else
      let vVal := v.Elem m
      if vVal.Kind m ≠ .Struct then .fail (.error "value must be a struct pointer") m
      else
        match d with
        | none => .fail (.error "def must be a struct value") m
        | some dv =>
          if dv.typeOf.Kind ≠ .Struct then .fail (.error "def must be a struct value") m
          else if vType.Elem.Name ≠ dv.typeOf.Name then
            .fail (.error "value and def have different struct types") m
          else walk m vVal (.held dv false)

/-- The error message the argument checks produce, `none` when the arguments pass. -/
def validationError (m : Mem) (v : Arg) (d : Option Val) : Option String :=
  match v.TypeOf m with
  | none => some "value must be a struct pointer"
  | some vType =>
    if vType.Kind ≠ .Ptr then some "value must be a struct pointer"
    else if (v.Elem m).Kind m ≠ .Struct then some "value must be a struct pointer"
    else
      match d with
      | none => some "def must be a struct value"
      | some dv =>
        if dv.typeOf.Kind ≠ .Struct then some "def must be a struct value"
        else if vType.Elem.Name ≠ dv.typeOf.Name then
          some "value and def have different struct types"
        else none

/-- Every field along the path exists and is exported. -/
def Val.exportedPath : Val → List Nat → Bool
  | _, [] => true
  | .struct _ _ fs, i :: p =>
      match fs[i]? with
      | some f => f.exported && f.val.exportedPath p
      | none => false
  | _, _ :: _ => false

/-- The path runs through an unexported field: it names that field or something
nested below it. -/
def Val.hiddenPath : Val → List Nat → Bool
  | _, [] => false
  | .struct _ _ fs, i :: p =>
      match fs[i]? with
      | some f => !f.exported || f.val.hiddenPath p
      | none => false
  | _, _ :: _ => false
/-- What a run may do to one stored value: it keeps the type, and keeps the
content of every path that runs through an unexported field. -/
def Val.Frame (v v' : Val) : Prop :=
  v'.typeOf = v.typeOf ∧ ∀ q, v.hiddenPath q = true → v'.getPath q = v.getPath q

/-- What a run may do to the storage: the root and every heap cell are framed,
and no cell is allocated or freed. -/
def Mem.Frame (m m' : Mem) : Prop :=
  Val.Frame m.root m'.root ∧ m'.heap.length = m.heap.length ∧
    ∀ (a : Nat) (o o' : Obj), m.heap[a]? = some o → m'.heap[a]? = some o' →
      Val.Frame o.toVal o'.toVal

/-- A settable location is one reached from its base through exported fields only. -/
def RValue.wf (m : Mem) : RValue → Prop
  | .ref b p false => ∃ x, m.base b = some x ∧ x.exportedPath p = true
  | _ => True
/-- A target with an unexported field `a` and an exported field `B`, both zero. -/
def hiddenFieldMem : Mem :=
  ⟨.struct "main" "T" [⟨"a", false, .int 0⟩, ⟨"B", true, .int 0⟩], []⟩

/-- The location is not in the root variable. -/
def RValue.offRoot : RValue → Prop
  | .ref .root _ _ => False
  | _ => True
/-- The leaf action `leaf` of a walk computes the leaf rule `lf`: at a leaf `x` of
the root variable, with a default `g` of the same type, it stores `lf x g` and
returns. -/
def LeafSpec (leaf : Mem → RValue → RValue → Res) (lf : Val → Val → Val) : Prop :=
  ∀ (m : Mem) (p : List Nat) (x g : Val), m.root.getPath p = some x →
    x.isRecursed m.heap.length = false → g.typeOf = x.typeOf →
    ∃ r, m.root.setPath p (lf x g) = some r ∧
      leaf m (.ref .root p false) (.held g false) = .ok { m with root := r }

/-- The value holds no live pointer in an exported position and nests fewer than
`n` structs through exported fields: a walk of stack depth `n` over it stays in
the root variable. -/
def Val.plain (h : Nat) : Nat → Val → Bool
  | 0, .struct _ _ _ => false
  | n + 1, .struct _ _ fs => fs.all (fun f => !f.exported || Val.plain h n f.val)
  | _, x => !x.isLivePtr h

mutual
/-- Every exported leaf field `x` of the target, with the field `g` of the defaults
in the same place, satisfies `P x g`. -/
def leavesAll (P : Val → Val → Bool) (h : Nat) : Val → Val → Bool
  | .struct _ _ fs, .struct _ _ gs => leavesAllFields P h fs gs
  | x, d => x.isLivePtr h || P x d
/-- The same, for the fields of two structs. -/
def leavesAllFields (P : Val → Val → Bool) (h : Nat) :
    List (FieldOf Val) → List (FieldOf Val) → Bool
  | f :: r, g :: s => (!f.exported || leavesAll P h f.val g.val) && leavesAllFields P h r s
  | _, _ => true
end

/-- No exported leaf field of the target is at its zero value while differing
from the corresponding field of the defaults. -/
def noZeroOverride (h : Nat) (t d : Val) : Bool :=
  leavesAll (fun x g => !x.isZero || x.deepEqual g) h t d
/-- The type `N`, declared as `struct{ X int }`. -/
def tyN : Ty := .struct "main" "N" [⟨"X", true, .int⟩]

/-! ## The walks as functions on values

Seen from the root variable, a walk rewrites the target value field by field.
`walkVal lf h t d` is that rewriting for a leaf rule `lf`, on a heap of `h` cells:
struct fields are rewritten recursively, live pointer fields stay as they are
(their struct is rewritten in the heap), unexported fields are skipped. -/

mutual
/-- The value a walk leaves in place of `t`, given the defaults `d`. -/
def walkVal (lf : Val → Val → Val) (h : Nat) : Val → Val → Val
  | .struct p n fs, .struct _ _ gs => .struct p n (walkVals lf h fs gs)
  | x, d => if x.isLivePtr h then x else lf x d
/-- The fields a walk leaves in place of `fs`, given the fields `gs` of the defaults. -/
def walkVals (lf : Val → Val → Val) (h : Nat) :
    List (FieldOf Val) → List (FieldOf Val) → List (FieldOf Val)
  | f :: r, g :: s =>
      (if f.exported then { f with val := walkVal lf h f.val g.val } else f)
        :: walkVals lf h r s
  | fs, _ => fs
end

/-- The leaf rule of `setStruct`: a zero value is replaced by the default. -/
def fillLeaf (x d : Val) : Val := if x.isZero then d else x

/-- The leaf rule of `stripStruct`: a value deeply equal to the default is replaced
by the zero value of its type. -/
def stripLeafVal (x d : Val) : Val := if x.deepEqual d then x.typeOf.zero else x

/-- The value `SetDefaults` leaves in the target, as a function of target and defaults. -/
def fillVal (h : Nat) (t d : Val) : Val := walkVal fillLeaf h t d

/-- The value `StripDefaults` leaves in the target. -/
def stripVal (h : Nat) (t d : Val) : Val := walkVal stripLeafVal h t d

/-! ## The sample program (`sample/sample.go`) and other concrete storage -/

/-- The type `NestedOptions` of the sample. -/
def tyNestedOptions : Ty :=
  .struct "main" "NestedOptions" [⟨"F", true, .float⟩, ⟨"I", true, .int⟩]

/-- A value `NestedOptions{F: f, I: i}`; floats are given in thousandths. -/
def NestedOptions (f : Int) (i : Int) : Val :=
  .struct "main" "NestedOptions" [⟨"F", true, .float (.num f)⟩, ⟨"I", true, .int i⟩]

/-- The same value as a heap cell, for `&NestedOptions{F: f, I: i}`. -/
def NestedOptionsObj (f : Int) (i : Int) : Obj :=
  ⟨"main", "NestedOptions", [⟨"F", true, .float (.num f)⟩, ⟨"I", true, .int i⟩]⟩

/-- A value of the sample type `Options`, field by field in declaration order. -/
def mkOptions (s : String) (i : Int) (is : Option (List Int))
    (mis : Option (List (Int × String))) (no : Val) (ss : String) (p : Option Nat) : Val :=
  .struct "main" "Options"
    [⟨"S", true, .str s⟩, ⟨"I", true, .int i⟩, ⟨"IS", true, .ints is⟩,
     ⟨"MIS", true, .mapIS mis⟩, ⟨"NO", true, no⟩,
     ⟨"NestedInlineOptions", true,
        .struct "main" "NestedInlineOptions" [⟨"SS", true, .str ss⟩]⟩,
     ⟨"PointerTest", true, .ptr tyNestedOptions p⟩]

/-- The sample function `DefaultOptions`; `PointerTest` is left nil. -/
def DefaultOptions : Val :=
  mkOptions "hello" 8 (some [1, 2, 3]) (some [(1, "first"), (2, "second"), (3, "third")])
    (NestedOptions 800 1) "test" none

/-- The storage of `main` before its call of `StripDefaults`: `o` is
`DefaultOptions()` with `S`, `NO.F` changed and `PointerTest = &NestedOptions{}`. -/
def sampleStripMem : Mem :=
  ⟨mkOptions "something-different" 8 (some [1, 2, 3])
      (some [(1, "first"), (2, "second"), (3, "third")]) (NestedOptions 1500 1) "test" (some 0),
    [NestedOptionsObj 0 0]⟩

/-- The storage of `main` before its call of `SetDefaults`:
`o = Options{I: 5, IS: []int{-1}, NO: {F: 0.666}, PointerTest: &NestedOptions{F: 3.66}}`. -/
def sampleSetMem : Mem :=
  ⟨mkOptions "" 5 (some [-1]) none (NestedOptions 666 0) "" (some 0), [NestedOptionsObj 3660 0]⟩

/-- A target of the unnamed type `struct{ A int }`, holding its zero value. -/
def unnamedTargetMem : Mem := ⟨.struct "" "" [⟨"A", true, .int 0⟩], []⟩

/-- A defaults value of the unnamed type `struct{ B string }`. -/
def unnamedDefaults : Val := .struct "" "" [⟨"B", true, .str "x"⟩]

/-- A target of type `a.Config`, declared as `struct{ A int }` in package `a`. -/
def pkgATargetMem : Mem := ⟨.struct "a" "Config" [⟨"A", true, .int 0⟩], []⟩

/-- A defaults value of type `b.Config`, declared as `struct{ B string }` in package `b`. -/
def pkgBDefaults : Val := .struct "b" "Config" [⟨"B", true, .str "x"⟩]

/-- Defaults for `hiddenFieldMem`: `T{a: 7, B: 9}`. -/
def hiddenFieldDefaults : Val :=
  .struct "main" "T" [⟨"a", false, .int 7⟩, ⟨"B", true, .int 9⟩]

/-- The sample's target for `SetDefaults` with `PointerTest` left nil:
`Options{I: 5, IS: []int{-1}, NO: {F: 0.666}}`. -/
def fillTargetMem : Mem :=
  ⟨mkOptions "" 5 (some [-1]) none (NestedOptions 666 0) "" none, []⟩

/-- What `SetDefaults(&o, DefaultOptions())` leaves in `fillTargetMem`. -/
def fillTargetResult : Mem :=
  ⟨mkOptions "hello" 5 (some [-1]) (some [(1, "first"), (2, "second"), (3, "third")])
    (NestedOptions 666 1) "test" none, []⟩

/-- The sample's target for `StripDefaults` with `PointerTest` left nil:
`DefaultOptions()` with `S` and `NO.F` changed. -/
def stripTargetMem : Mem :=
  ⟨mkOptions "something-different" 8 (some [1, 2, 3])
      (some [(1, "first"), (2, "second"), (3, "third")]) (NestedOptions 1500 1) "test" none, []⟩

/-- What `StripDefaults(&o, DefaultOptions())` leaves in `stripTargetMem`. -/
def stripTargetResult : Mem :=
  ⟨mkOptions "something-different" 0 none none (NestedOptions 1500 0) "" none, []⟩

/-- A heap cell `N{X: x}`. -/
def objN (x : Int) : Obj := ⟨"main", "N", [⟨"X", true, .int x⟩]⟩

/-- A value of type `O`, declared as `struct{ P, Q *N }`. -/
def mkO (p q : Option Nat) : Val :=
  .struct "main" "O" [⟨"P", true, .ptr tyN p⟩, ⟨"Q", true, .ptr tyN q⟩]

/-- Target and defaults that share a struct: `n := &N{X: 1}`, target `O{P: n}`,
defaults `O{P: n}`. -/
def sharedMem : Mem := ⟨mkO (some 0) none, [objN 1]⟩

/-- The defaults for `sharedMem`: their `P` is the target's `P`. -/
def sharedDefaults : Val := mkO (some 0) none

/-- A target whose `Q` points at the struct that the defaults' `P` points at:
`b, d, e := &N{}, &N{}, &N{X: 5}`, target `O{P: b, Q: d}`, defaults `O{P: d, Q: e}`. -/
def aliasMem : Mem := ⟨mkO (some 0) (some 1), [objN 0, objN 0, objN 5]⟩

/-- The defaults for `aliasMem`. -/
def aliasDefaults : Val := mkO (some 1) (some 2)

/-- A target whose slice `IS` and map `MIS` are allocated but empty:
`Options{IS: []int{}, MIS: map[int]string{}}`. -/
def emptyContainersMem : Mem :=
  ⟨mkOptions "" 0 (some []) (some []) (NestedOptions 0 0) "" none, []⟩

/-- `len` of a slice or a map; `none` for a value of another kind. -/
def Val.len : Val → Option Nat
  | .ints none => some 0
  | .ints (some xs) => some xs.length
  | .mapIS none => some 0
  | .mapIS (some kv) => some kv.length
  | _ => none

/-- The value is a nil slice or a nil map. -/
def Val.isNilContainer : Val → Bool
  | .ints none => true
  | .mapIS none => true
  | _ => false

/-- A target `O{}` with both pointers nil, next to a struct `N{X: 1}` on the heap
that the defaults `O{P: n}` of `sharedDefaults` point to. -/
def nilPtrMem : Mem := ⟨mkO none none, [objN 1]⟩

/-- Every field of the type is exported, at every nesting level of structs held by
value, and the type nests fewer than `n` structs. -/
def Ty.allExported : Nat → Ty → Bool
  | 0, .struct _ _ _ => false
  | n + 1, .struct _ _ fs => fs.all (fun f => f.exported && Ty.allExported n f.val)
  | _, _ => true

/-- Defaults `NestedOptions{F: NaN}`. -/
def nanDefaults : Val :=
  .struct "main" "NestedOptions" [⟨"F", true, .float .nan⟩, ⟨"I", true, .int 0⟩]

/-- The type holds no pointer field, at any nesting level of structs held by value,
and nests fewer than `n` structs. -/
def Ty.noPtr : Nat → Ty → Bool
  | _, .ptr _ => false
  | 0, .struct _ _ _ => false
  | n + 1, .struct _ _ fs => fs.all (fun f => Ty.noPtr n f.val)
  | _, _ => true

/-- Every exported leaf field of the defaults, in the place of a leaf field of the
target, is deeply equal to itself (it is not a NaN). -/
def selfEqualLeaves (h : Nat) (t d : Val) : Bool :=
  leavesAll (fun _ g => g.deepEqual g) h t d

/-- What `StripDefaults` may do to one stored value: it keeps the type, and every
value that is not a struct, at any path, is kept or, unless it is a live pointer,
replaced by the zero value of its type. -/
def Val.Zeroed (h : Nat) (v v' : Val) : Prop :=
  v'.typeOf = v.typeOf ∧ ∀ p x, v.getPath p = some x → x.Kind ≠ .Struct →
    v'.getPath p = some x ∨ (x.isLivePtr h = false ∧ v'.getPath p = some x.typeOf.zero)

/-- What `StripDefaults` may do to the storage: the root and every heap cell are
zeroed in places, and no cell is allocated or freed. -/
def Mem.Zeroed (m m' : Mem) : Prop :=
  Val.Zeroed m.heap.length m.root m'.root ∧ m'.heap.length = m.heap.length ∧
    ∀ (a : Nat) (o o' : Obj), m.heap[a]? = some o → m'.heap[a]? = some o' →
      Val.Zeroed m.heap.length o.toVal o'.toVal
/-- The defaults `Options{S: "hello", I: 8, IS: [1, 2, 3], NO: {F: 0.8, I: 1}}`. -/
def partialDefaults : Val :=
  mkOptions "hello" 8 (some [1, 2, 3]) none (NestedOptions 800 1) "" none

/-- A target `Options{S: "something-different", NO: {F: 1.5}}`. -/
def sparseTargetMem : Mem :=
  ⟨mkOptions "something-different" 0 none none (NestedOptions 1500 0) "" none, []⟩

/-- The type `H`, declared as `struct{ a int; B int }` with an unexported field `a`. -/
def tyH : Ty := .struct "main" "H" [⟨"a", false, .int⟩, ⟨"B", true, .int⟩]

/-- A heap cell `H{a: a, B: b}`. -/
def objH (a b : Int) : Obj := ⟨"main", "H", [⟨"a", false, .int a⟩, ⟨"B", true, .int b⟩]⟩

/-- A value of type `W`, declared as `struct{ P *H }`. -/
def mkW (p : Option Nat) : Val := .struct "main" "W" [⟨"P", true, .ptr tyH p⟩]

/-- A target `W{P: &H{a: 5, B: 1}}`, next to the struct `H{a: 5, B: 1}` of the
defaults `hiddenPointeeDefaults`. -/
def hiddenPointeeMem : Mem := ⟨mkW (some 0), [objH 5 1, objH 5 1]⟩

/-- The defaults `W{P: &H{a: 5, B: 1}}`, with a struct of their own. -/
def hiddenPointeeDefaults : Val := mkW (some 1)

/-- A target `O{P: &N{X: 1}}`, next to the struct `N{X: 1}` of the defaults
`equalPointeeDefaults`. -/
def equalPointeeMem : Mem := ⟨mkO (some 0) none, [objN 1, objN 1]⟩

/-- The defaults `O{P: &N{X: 1}}`, with a struct of their own. -/
def equalPointeeDefaults : Val := mkO (some 1) none

/-- What `StripDefaults` leaves of `equalPointeeMem`: the struct behind `P` is `N{}`. -/
def equalPointeeResult : Mem := ⟨mkO (some 0) none, [objN 0, objN 1]⟩

mutual
/-- The addresses of the live pointers that a value holds in exported fields, at any
nesting depth by value: the structs a walk over the value descends into. -/
def Val.livePtrs (h : Nat) : Val → List Nat
  | .ptr _ (some a) => if a < h then [a] else []
  | .struct _ _ fs => livePtrsFields h fs
  | _ => []
/-- The same, for the fields of a struct. -/
def livePtrsFields (h : Nat) : List (FieldOf Val) → List Nat
  | [] => []
  | f :: r => (if f.exported then Val.livePtrs h f.val else []) ++ livePtrsFields h r
end

/-- The set `S` of heap addresses holds every struct that the target can reach
through exported pointer fields: the live pointers of the root variable lead into
`S`, and so do those of every struct in `S`. -/
def Mem.closedUnder (m : Mem) (S : Nat → Bool) : Bool :=
  (m.root.livePtrs m.heap.length).all S &&
    (List.range m.heap.length).all (fun a =>
      !S a ||
        match m.heap[a]? with
        | some o => (o.toVal.livePtrs m.heap.length).all S
        | none => true)

/-- The base is the root variable or a heap cell in `S`. -/
def Base.within (S : Nat → Bool) : Base → Bool
  | .root => true
  | .obj a => S a

/-- The same closure, stated on paths: a live pointer at the end of an exported path
below the root variable or a heap cell in `S` leads into `S`. -/
def Mem.PathClosed (m : Mem) (S : Nat → Bool) : Prop :=
  ∀ (B : Base) (v : Val) (p : List Nat) (e : Ty) (a : Nat), m.base B = some v →
    B.within S = true → v.exportedPath p = true → v.getPath p = some (.ptr e (some a)) →
    a < m.heap.length → S a = true

/-- The location lies in the root variable or in a heap cell in `S`. -/
def RValue.within (S : Nat → Bool) : RValue → Bool
  | .ref b _ _ => b.within S
  | _ => true

/-! ## Pointers into a struct

In Go a pointer may refer to a field of a struct, or to the variable whose address
the caller passes, as well as to a struct allocated by itself.  The definitions
above give every pointer the address of a whole heap struct.  The definitions of
this section run the same code over storage in which a pointer may also refer to a
location inside the root variable or inside a heap struct: the addresses from
`heap.length` on are looked up in a table `I` of such locations.  A pointer to a
location that holds no struct (an `*int`, say) is a leaf of the walk whose deep
equality depends on what is stored at the location.  Only `Elem` and `DeepEqual`
differ from the definitions above; with the empty table the two agree
(`interior_SetDefaults_nil`, `interior_StripDefaults_nil`). -/

/-- What the address `a` refers to: a whole heap struct, or the location that the
table `I` lists for an address from `heap.length` on. -/
def resolve (I : List (Base × List Nat)) (m : Mem) (a : Nat) : Option (Base × List Nat) :=
  if a < m.heap.length then some (.obj a, []) else I[a - m.heap.length]?

/-- `reflect.Value.Elem` of a pointer, over storage with interior pointers. -/
def Interior.Elem (I : List (Base × List Nat)) (m : Mem) (v : RValue) : RValue :=
  match v.load m with
  | some (.ptr _ (some a)) =>
      match resolve I m a with
      | some (b, p) => if (m.read b p).isSome then .ref b p v.ro else .invalid
      | none => .invalid
  | _ => .invalid

mutual
/-- `reflect.DeepEqual` on two values, with the comparison of two non-nil pointers
left to `cmp`. -/
def Val.deepEqualWith (cmp : Nat → Nat → Bool) : Val → Val → Bool
  | .int a, .int b => a == b
  | .str a, .str b => a == b
  | .bool a, .bool b => a == b
  | .float a, .float b => a != .nan && a == b
  | .ints a, .ints b => a == b
  | .mapIS a, .mapIS b => a == b
  | .ptr e (some a), .ptr e' (some b) => Ty.beq e e' && cmp a b
  | .ptr e none, .ptr e' none => Ty.beq e e'
  | .struct p n fs, .struct q m gs => p == q && n == m && deepEqualFieldsWith cmp fs gs
  | _, _ => false
/-- Field-wise deep equality, with the comparison of two non-nil pointers left to `cmp`. -/
def deepEqualFieldsWith (cmp : Nat → Nat → Bool) :
    List (FieldOf Val) → List (FieldOf Val) → Bool
  | [], [] => true
  | f :: r, g :: s =>
      f.name == g.name && f.exported == g.exported && Val.deepEqualWith cmp f.val g.val
        && deepEqualFieldsWith cmp r s
  | _, _ => false
end

/-- How `reflect.DeepEqual` compares two non-nil pointers of one type: equal
addresses are equal, and so are two pointers to one location; otherwise what they
point to is compared.  `fuel` bounds the number of pointers followed in a row; Go
cuts a comparison short, with the answer `true`, when it meets a pair of pointers
that it is already comparing. -/
def Interior.ptrEqual (I : List (Base × List Nat)) (m : Mem) : Nat → Nat → Nat → Bool
  | 0, _, _ => true
  | fuel + 1, a, b =>
      a == b ||
        match resolve I m a, resolve I m b with
        | some la, some lb =>
            la == lb ||
              match m.read la.1 la.2, m.read lb.1 lb.2 with
              | some u, some w => u.deepEqualWith (Interior.ptrEqual I m fuel) w
              | _, _ => false
        | _, _ => false

/-- `reflect.DeepEqual` over storage with interior pointers.  There are at most
`(heap.length + I.length) ^ 2` pairs of addresses, so the fuel suffices to meet
every pair. -/
def Interior.DeepEqual (I : List (Base × List Nat)) (m : Mem) (x d : Val) : Bool :=
  x.deepEqualWith (Interior.ptrEqual I m ((m.heap.length + I.length) ^ 2 + 1)) d

/-- The Go function `toStructOrStructPointer`, over storage with interior pointers. -/
def Interior.toStructOrStructPointer (I : List (Base × List Nat)) (m : Mem) (v : RValue) :
    RValue :=
  if !v.IsValid m then .invalid
  else if v.Kind m = .Struct then v
  else if v.Kind m = .Ptr && (Interior.Elem I m v).Kind m = .Struct then Interior.Elem I m v
  else .invalid

/-- The loop body of `setStruct`, over storage with interior pointers. -/
def Interior.setFields (I : List (Base × List Nat)) (recur : Mem → RValue → RValue → Res)
    (vStr defStr : RValue) : List Nat → Mem → Res
  | [], m => .ok m
  | i :: is, m =>
      match vStr.Field m i with
      | .error e => .fail e m
      | .ok vf =>
      match defStr.Field m i with
      | .error e => .fail e m
      | .ok df =>
        if !vf.CanSet || !vf.CanInterface then
          Interior.setFields I recur vStr defStr is m
        else if (Interior.toStructOrStructPointer I m vf).IsValid m then
          match recur m (Interior.toStructOrStructPointer I m vf)
              (Interior.toStructOrStructPointer I m df) with
          | .fail e m1 => .fail e m1
          | .ok m1 => Interior.setFields I recur vStr defStr is m1
        else
          match vf.IsZero m with
          | .error e => .fail e m
          | .ok false => Interior.setFields I recur vStr defStr is m
          | .ok true =>
              match vf.Set m df with
              | .error e => .fail e m
              | .ok m1 => Interior.setFields I recur vStr defStr is m1

/-- The Go function `setStruct`, over storage with interior pointers. -/
def Interior.setStruct (I : List (Base × List Nat)) : Nat → Mem → RValue → RValue → Res
  | 0, m, _, _ => .fail .stackOverflow m
  | depth + 1, m, vStr, defStr =>
      match vStr.NumField m with
      | .error e => .fail e m
      | .ok n => Interior.setFields I (Interior.setStruct I depth) vStr defStr (List.range n) m

/-- The loop body of `stripStruct`, over storage with interior pointers. -/
def Interior.stripFields (I : List (Base × List Nat)) (recur : Mem → RValue → RValue → Res)
    (vStr defStr : RValue) : List Nat → Mem → Res
  | [], m => .ok m
  | i :: is, m =>
      match vStr.Field m i with
      | .error e => .fail e m
      | .ok vf =>
      match defStr.Field m i with
      | .error e => .fail e m
      | .ok df =>
        if !vf.CanSet || !vf.CanInterface then
          Interior.stripFields I recur vStr defStr is m
        else if (Interior.toStructOrStructPointer I m vf).IsValid m then
          match recur m (Interior.toStructOrStructPointer I m vf)
              (Interior.toStructOrStructPointer I m df) with
          | .fail e m1 => .fail e m1
          | .ok m1 => Interior.stripFields I recur vStr defStr is m1
        else
          match vf.Interface m with
          | .error e => .fail e m
          | .ok x =>
          match df.Interface m with
          | .error e => .fail e m
          | .ok d =>
            if Interior.DeepEqual I m x d then
              match vf.Type m with
              | .error e => .fail e m
              | .ok t =>
                  match vf.Set m (.held t.zero false) with
                  | .error e => .fail e m
                  | .ok m1 => Interior.stripFields I recur vStr defStr is m1
            else
              Interior.stripFields I recur vStr defStr is m

/-- The Go function `stripStruct`, over storage with interior pointers. -/
def Interior.stripStruct (I : List (Base × List Nat)) : Nat → Mem → RValue → RValue → Res
  | 0, m, _, _ => .fail .stackOverflow m
  | depth + 1, m, vStr, defStr =>
      match vStr.NumField m with
      | .error e => .fail e m
      | .ok n =>
          Interior.stripFields I (Interior.stripStruct I depth) vStr defStr (List.range n) m

/-- `reflect.ValueOf(v).Elem()` for an argument of pointer kind, over storage with
interior pointers. -/
def Interior.argElem (I : List (Base × List Nat)) (m : Mem) : Arg → RValue
  | .nil => .invalid
  | .val x => Interior.Elem I m (RValue.held x false)
  | .rootPtr => .ref .root [] false

/-- The Go function `SetDefaults`, over storage with interior pointers. -/
def Interior.SetDefaults (I : List (Base × List Nat)) (depth : Nat) (m : Mem) (v : Arg)
    (d : Option Val) : Res :=
  match v.TypeOf m with
  | none => .fail (.error "value must be a struct pointer") m
  | some vType =>
    if vType.Kind ≠ .Ptr then .fail (.error "value must be a struct pointer") m
    else
      let vVal := Interior.argElem I m v
      if vVal.Kind m ≠ .Struct then .fail (.error "value must be a struct pointer") m
      else
        match d with
        | none => .fail (.error "def must be a struct value") m
        | some dv =>
          if dv.typeOf.Kind ≠ .Struct then .fail (.error "def must be a struct value") m
          else if vType.Elem.Name ≠ dv.typeOf.Name then
            .fail (.error "value and def have different struct types") m
          else Interior.setStruct I depth m vVal (.held dv false)

/-- The Go function `StripDefaults`, over storage with interior pointers. -/
def Interior.StripDefaults (I : List (Base × List Nat)) (depth : Nat) (m : Mem) (v : Arg)
    (d : Option Val) : Res :=
  match v.TypeOf m with
  | none => .fail (.error "value must be a struct pointer") m
  | some vType =>
    if vType.Kind ≠ .Ptr then .fail (.error "value must be a struct pointer") m
    else
      let vVal := Interior.argElem I m v
      if vVal.Kind m ≠ .Struct then .fail (.error "value must be a struct pointer") m
      else
        match d with
        | none => .fail (.error "def must be a struct value") m
        | some dv =>
          if dv.typeOf.Kind ≠ .Struct then .fail (.error "def must be a struct value") m
          else if vType.Elem.Name ≠ dv.typeOf.Name then
            .fail (.error "value and def have different struct types") m
          else Interior.stripStruct I depth m vVal (.held dv false)
/-- A value of `type T struct { P *N; A N }`. -/
def mkT (p : Option Nat) (x : Int) : Val :=
  .struct "main" "T" [⟨"P", true, .ptr tyN p⟩, ⟨"A", true, (objN x).toVal⟩]

/-- One interior location: the address `1` (the first after the only heap struct)
is `&t.A`, the field `A` of the root variable. -/
def fieldATable : List (Base × List Nat) := [(.root, [1])]

/-- A target `t` of type `T` with `t.P = &t.A` and `t.A.X = x`; the heap holds the
struct `N{X: y}` that the defaults' `P` points to. -/
def selfPointerMem (x y : Int) : Mem := ⟨mkT (some 1) x, [objN y]⟩

/-- A value of `type U struct { P *N; a N }`, whose second field is unexported. -/
def mkU (p : Option Nat) (x : Int) : Val :=
  .struct "main" "U" [⟨"P", true, .ptr tyN p⟩, ⟨"a", false, (objN x).toVal⟩]

/-- A value of `type V struct { p *N; Q *N }`, whose first field is unexported. -/
def mkV (p q : Option Nat) : Val :=
  .struct "main" "V" [⟨"p", false, .ptr tyN p⟩, ⟨"Q", true, .ptr tyN q⟩]

/-- The type `M`, declared as `struct{ P *N }`. -/
def tyM : Ty := .struct "main" "M" [⟨"P", true, .ptr tyN⟩]

/-- A heap struct of type `M`. -/
def objM (p : Option Nat) : Obj := ⟨"main", "M", [⟨"P", true, .ptr tyN p⟩]⟩

/-- A value of `type T2 struct { X *M; Y *M }`. -/
def mkT2 (x y : Option Nat) : Val :=
  .struct "main" "T2" [⟨"X", true, .ptr tyM x⟩, ⟨"Y", true, .ptr tyM y⟩]

/-- A target `T2{X: a, Y: a}` with `a = &M{P: nil}` at address `0`.  The defaults are
`T2{X: &M{P: &N{X: 7}}, Y: &M{P: &N{X: 9}}}`, at the addresses `1` to `4`. -/
def twiceReachedMem : Mem := ⟨mkT2 (some 0) (some 0),
  [objM none, objM (some 2), objN 7, objM (some 4), objN 9]⟩

/-- The defaults for `twiceReachedMem`. -/
def twiceReachedDefaults : Val := mkT2 (some 1) (some 3)

/-- A value of `type W2 struct { PI *int; X int }`. -/
def mkPI (p : Option Nat) (x : Int) : Val :=
  .struct "main" "W2" [⟨"PI", true, .ptr .int p⟩, ⟨"X", true, .int x⟩]

/-- An `int` variable `v`, kept as the only field of a heap struct. -/
def intVar (v : Int) : Obj := ⟨"", "", [⟨"v", true, .int v⟩]⟩

/-- Two interior locations: the address `1` is `&t.X`, the field `X` of the root
variable, and the address `2` is `&v`, the variable in the heap cell `0`. -/
def intPointerTable : List (Base × List Nat) := [(.root, [1]), (.obj 0, [0])]

/-- A target `t` of type `W2` with `t.PI = &t.X` and `t.X = x`, and a variable `v`. -/
def intPointerMem (x v : Int) : Mem := ⟨mkPI (some 1) x, [intVar v]⟩

/-! ## Structs behind pointers

The vocabulary for statements that follow the target through its non-nil pointers:
the heap cells a walk descends into (`reach`), the value of the target with every
struct behind such a pointer written in place of the pointer (`deepVal`), and the
condition that target and defaults have matching shapes (`alike`). -/

/-- The cells a walk descends into from one field value, given the cells `r` it
descends into from a struct one level down. -/
def reachField (heap : List Obj) (r : Val → List Nat) : Val → List Nat
  | .struct pk nm fs => r (.struct pk nm fs)
  | .ptr _ (some a) =>
      match heap[a]? with
      | some o => a :: r o.toVal
      | none => []
  | _ => []

/-- The same, for the exported fields of a struct, in order. -/
def reachFields (heap : List Obj) (r : Val → List Nat) : List (FieldOf Val) → List Nat
  | [] => []
  | f :: fs => (if f.exported then reachField heap r f.val else []) ++ reachFields heap r fs

/-- The heap cells that a walk of stack depth `n` over the struct `v` descends into,
through exported fields and non-nil pointers, once for every way of reaching them. -/
def reach (heap : List Obj) : Nat → Val → List Nat
  | 0, _ => []
  | n + 1, .struct _ _ fs => reachFields heap (reach heap n) fs
  | _ + 1, _ => []

/-- A field value with the struct behind a non-nil pointer in place of the pointer,
given the rewriting `r` of a struct one level down. -/
def deepField (heap : List Obj) (r : Val → Val) : Val → Val
  | .struct pk nm fs => r (.struct pk nm fs)
  | .ptr e (some a) =>
      match heap[a]? with
      | some o => r o.toVal
      | none => .ptr e (some a)
  | v => v

/-- The same, for the exported fields of a struct. -/
def deepFields (heap : List Obj) (r : Val → Val) : List (FieldOf Val) → List (FieldOf Val)
  | [] => []
  | f :: fs =>
      (if f.exported then { f with val := deepField heap r f.val } else f)
        :: deepFields heap r fs

/-- The struct `v` with, in every exported field down to depth `n`, the struct
behind a non-nil pointer written in place of the pointer: what `v` holds when read
through its pointers. -/
def deepVal (heap : List Obj) : Nat → Val → Val
  | n + 1, .struct pk nm fs => .struct pk nm (deepFields heap (deepVal heap n) fs)
  | _, v => v

/-- Target and defaults match at one field, given the test `r` for two structs one
level down: where the target holds a struct so do the defaults, and where the target
holds a non-nil pointer to a struct the defaults hold one too. -/
def alikeField (heap : List Obj) (r : Val → Val → Bool) : Val → Val → Bool
  | .struct pk nm fs, .struct pk' nm' gs => r (.struct pk nm fs) (.struct pk' nm' gs)
  | .struct _ _ _, _ => false
  | .ptr _ (some a), g =>
      match heap[a]? with
      | some o =>
          match g with
          | .ptr _ (some b) =>
              match heap[b]? with
              | some ob => r o.toVal ob.toVal
              | none => false
          | _ => false
      | none => true
  | _, _ => true

/-- The same, for the exported fields of two structs. -/
def alikeFields (heap : List Obj) (r : Val → Val → Bool) :
    List (FieldOf Val) → List (FieldOf Val) → Bool
  | f :: fs, g :: gs =>
      (!f.exported || alikeField heap r f.val g.val) && alikeFields heap r fs gs
  | _, _ => true

/-- The target struct `t` and the defaults `d` have one type, also behind the
pointers the walk follows; the defaults hold a non-nil pointer wherever the target
does; and a stack of depth `n` suffices for the walk. -/
def alike (heap : List Obj) : Nat → Val → Val → Bool
  | n + 1, .struct pk nm fs, .struct pk' nm' gs =>
      Ty.beq (Val.struct pk nm fs).typeOf (Val.struct pk' nm' gs).typeOf &&
        alikeFields heap (alike heap n) fs gs
  | _, _, _ => false

/-- The target needs no filling at one field, given the test `r` for two structs one
level down: a leaf is not zero or is deeply equal to the default. -/
def settledField (heap : List Obj) (r : Val → Val → Bool) : Val → Val → Bool
  | .struct pk nm fs, .struct pk' nm' gs => r (.struct pk nm fs) (.struct pk' nm' gs)
  | .struct _ _ _, _ => false
  | .ptr _ (some a), g =>
      match heap[a]? with
      | some o =>
          match g with
          | .ptr _ (some b) =>
              match heap[b]? with
              | some ob => r o.toVal ob.toVal
              | none => false
          | _ => false
      | none => true
  | x, g => !x.isZero || x.deepEqual g

/-- The same, for the exported fields of two structs. -/
def settledFields (heap : List Obj) (r : Val → Val → Bool) :
    List (FieldOf Val) → List (FieldOf Val) → Bool
  | f :: fs, g :: gs =>
      (!f.exported || settledField heap r f.val g.val) && settledFields heap r fs gs
  | _, _ => true

/-- The target struct `t` needs no filling from the defaults `d`: they have one type,
also behind the pointers the walk follows, which may lead target and defaults to the
same struct; the defaults hold a non-nil pointer wherever the target does; a stack of
depth `n` suffices for the walk; and every leaf the walk reaches is not zero or is
deeply equal to the default. -/
def settled (heap : List Obj) : Nat → Val → Val → Bool
  | n + 1, .struct pk nm fs, .struct pk' nm' gs =>
      Ty.beq (Val.struct pk nm fs).typeOf (Val.struct pk' nm' gs).typeOf &&
        settledFields heap (settled heap n) fs gs
  | _, _, _ => false

/-- The structs behind the pointers of the target are separate: a walk of depth `n`
reaches each of them in one way only, and reaches none of the structs it reaches
from the defaults. -/
def separate (heap : List Obj) (n : Nat) (t d : Val) : Bool :=
  decide (reach heap n t).Nodup &&
    (reach heap n t).all (fun c => !(reach heap n d).contains c)

/-- The leaf action `leaf` computes the leaf rule `lf` at any location: at a leaf `x`
with a default `g` of the same type, read through `df`, it stores `lf x g`. -/
def LeafAt (leaf : Mem → RValue → RValue → Res) (lf : Val → Val → Val) : Prop :=
  ∀ (m : Mem) (B : Base) (p : List Nat) (x : Val) (df : RValue) (g : Val),
    m.read B p = some x → x.isRecursed m.heap.length = false → df.load m = some g →
    df.ro = false → g.typeOf = x.typeOf →
    ∃ m1, m.write B p (lf x g) = some m1 ∧ leaf m (.ref B p false) df = .ok m1

/-- The leaf rule keeps the leaf, zeroes it, or takes the default, and what it
does is the same when the default is read through its pointer. -/
def LeafRule (lf : Val → Val → Val) : Prop :=
  ∀ (h : Nat) (x g : Val), x.isRecursed h = false → g.typeOf = x.typeOf →
    ((lf x g = x ∨ lf x g = x.typeOf.zero) ∧
      ∀ G : Val, (g.isLivePtr h = true ∧ G.Kind = .Struct) → lf x G = lf x g) ∨
    (lf x g = g ∧ ∀ G : Val, lf x G = G)

/-- The leaf rule keeps the leaf or zeroes it: it never stores a pointer. -/
def LeafKeeps (lf : Val → Val → Val) : Prop :=
  ∀ (h : Nat) (x g : Val), x.isRecursed h = false → g.typeOf = x.typeOf →
    lf x g = x ∨ lf x g = x.typeOf.zero

/-- The leaf rule keeps a leaf that is not zero, or takes the default. -/
def LeafSettles (lf : Val → Val → Val) : Prop :=
  ∀ (h : Nat) (x g : Val), x.isRecursed h = false → g.typeOf = x.typeOf →
    (lf x g = x ∧ x.isZero = false) ∨ lf x g = g

/-- The defaults are read from a copy or from a heap cell in `P`. -/
def RValue.heldOrIn (P : Nat → Prop) : RValue → Prop
  | .invalid => False
  | .held _ _ => True
  | .ref .root _ _ => False
  | .ref (.obj b) _ _ => P b

/-- What a walk over the struct `t` at the location `(B, q)` needs, with the
defaults `d` read through `Dv`: matching shapes, and structs behind the pointers of
`t` that are reached in one way only, that lie outside the set `P`, which holds the
structs the defaults reach, and that do not hold the location itself. -/
def WalkPre (P : Nat → Prop) (n : Nat) (m : Mem) (B : Base) (q : List Nat) (Dv : RValue)
    (t d : Val) : Prop :=
  m.read B q = some t ∧ Dv.load m = some d ∧ Dv.ro = false ∧ Dv.heldOrIn P ∧
    alike m.heap n t d = true ∧ (reach m.heap n t).Nodup ∧
    (∀ c ∈ reach m.heap n t, ¬ P c ∧ B ≠ .obj c) ∧ (∀ c ∈ reach m.heap n d, P c) ∧
    (∀ a, B = .obj a → ¬ P a)

/-- What such a walk leaves: read through its pointers, the struct at `(B, q)` is
`walkVal lf` of what it was and of the defaults; nothing else below `B` has changed,
and no heap cell outside the ones the walk reached; a leaf rule that stores no
pointer leaves the shape of the target as it was; a leaf rule that fills leaves a
target that needs no filling. -/
def WalkPost (lf : Val → Val → Val) (P : Nat → Prop) (n : Nat) (m : Mem) (B : Base)
    (q : List Nat) (t d : Val) (m' : Mem) : Prop :=
  ∃ t', m'.read B q = some t' ∧
    (∃ vB vB', m.base B = some vB ∧ vB.setPath q t' = some vB' ∧ m'.base B = some vB') ∧
    t'.typeOf = t.typeOf ∧
    deepVal m'.heap n t' = walkVal lf m.heap.length (deepVal m.heap n t) (deepVal m.heap n d) ∧
    (∀ c ∈ reach m'.heap n t', c ∈ reach m.heap n t ∨ P c) ∧
    (∀ c, c ∉ reach m.heap n t → B ≠ .obj c → m'.heap[c]? = m.heap[c]?) ∧
    (B ≠ .root → m'.root = m.root) ∧ m'.heap.length = m.heap.length ∧
    (LeafKeeps lf → reach m'.heap n t' = reach m.heap n t ∧ alike m'.heap n t' d = true) ∧
    (LeafSettles lf → settled m.heap n d d = true → settled m'.heap n t' d = true)

mutual
/-- The defaults `d` hold a struct wherever the target `t` holds one, with the same
fields exported. -/
def matching : Val → Val → Bool
  | .struct _ _ fs, .struct _ _ gs => matchingFields fs gs
  | .struct _ _ _, _ => false
  | _, _ => true
/-- The same, for the fields of two structs. -/
def matchingFields : List (FieldOf Val) → List (FieldOf Val) → Bool
  | [], [] => true
  | f :: fs, g :: gs =>
      (f.exported == g.exported) && (!f.exported || matching f.val g.val) &&
        matchingFields fs gs
  | _, _ => false
end

/-- A target `O{P: &N{X: x}}` whose struct is its own; the heap also holds the
structs `N{X: y}` and `N{X: 4}` of the defaults `apartDefaults`. -/
def apartMem (x y : Int) : Mem := ⟨mkO (some 0) none, [objN x, objN y, objN 4]⟩

/-- The defaults `O{P: &N{X: y}, Q: &N{X: 4}}` for `apartMem x y`. -/
def apartDefaults : Val := mkO (some 1) (some 2)

/-- A target `T2{X: a, Y: b}` with `a = &M{P: nil}` at address `0` and
`b = &M{P: nil}` at address `5`; the defaults `twiceReachedDefaults` are at the
addresses `1` to `4`. -/
def onceReachedMem : Mem := ⟨mkT2 (some 0) (some 5),
  [objM none, objM (some 2), objN 7, objM (some 4), objN 9, objM none]⟩

/-- A heap struct of type `C`, declared as `struct{ IS []int }`. -/
def objC (xs : Option (List Int)) : Obj := ⟨"main", "C", [⟨"IS", true, .ints xs⟩]⟩

/-- A value of `type PC struct { P *C }`. -/
def mkPC (p : Option Nat) : Val :=
  .struct "main" "PC" [⟨"P", true, .ptr (objC none).toVal.typeOf p⟩]

/-- A target `PC{P: &C{IS: nil}}`, next to the struct `C{IS: []int{9}}` of the
defaults `PC{P: &C{IS: []int{9}}}`. -/
def nilSliceMem : Mem := ⟨mkPC (some 0), [objC none, objC (some [9])]⟩

/-- A target `V{p: a, Q: b}` with the unexported pointer `p` to `N{X: 0}` at address
`0` and the exported pointer `Q` to `N{X: 0}` at address `1`; the struct `N{X: 5}` of
the defaults `V{Q: &N{X: 5}}` is at address `2`. -/
def behindHiddenMem : Mem := ⟨mkV (some 0) (some 1), [objN 0, objN 0, objN 5]⟩

/-- A target `O{P: a, Q: a}` whose two pointers lead to the one struct `N{X: x}`;
the heap also holds the structs `N{X: 1}` and `N{X: y}` of the defaults
`O{P: &N{X: 1}, Q: &N{X: y}}`. -/
def sameStructMem (x y : Int) : Mem := ⟨mkO (some 0) (some 0), [objN x, objN 1, objN y]⟩

/-! ## Lemmas on types and values -/

mutual
theorem Ty.beq_iff : ∀ (a b : Ty), Ty.beq a b = true ↔ a = b
  | .int, b => by cases b <;> simp [Ty.beq]
  | .str, b => by cases b <;> simp [Ty.beq]
  | .bool, b => by cases b <;> simp [Ty.beq]
  | .float, b => by cases b <;> simp [Ty.beq]
  | .ints, b => by cases b <;> simp [Ty.beq]
  | .mapIS, b => by cases b <;> simp [Ty.beq]
  | .ptr a, b => by
      cases b <;> simp [Ty.beq]
      exact Ty.beq_iff a _
  | .struct p n fs, b => by
      cases b <;> simp [Ty.beq]
      rename_i q m gs
      rw [beqFields_iff fs gs, and_assoc]
theorem beqFields_iff : ∀ (fs gs : List (FieldOf Ty)), beqFields fs gs = true ↔ fs = gs
  | [], gs => by cases gs <;> simp [beqFields]
  | f :: r, gs => by
      cases gs with
      | nil => simp [beqFields]
      | cons g s =>
        simp [beqFields]
        rw [Ty.beq_iff f.val g.val, beqFields_iff r s]
        cases f; cases g; simp
        tauto
end

/-! ## The two walks as instances of the shared shape -/

theorem setFields_eq_walk (recur : Mem → RValue → RValue → Res) (vStr defStr : RValue)
    (is : List Nat) (m : Mem) :
    setFields recur vStr defStr is m = walkFields setLeaf recur vStr defStr is m := by
  induction is generalizing m with
  | nil => rfl
  | cons i is ih =>
    simp only [setFields, walkFields, setLeaf]
    cases vStr.Field m i with
    | error e => rfl
    | ok vf =>
      cases defStr.Field m i with
      | error e => rfl
      | ok df =>
        simp only [ih]
        split
        · rfl
        · split
          · rfl
          · cases vf.IsZero m with
            | error e => rfl
            | ok b =>
              cases b with
              | false => rfl
              | true => cases vf.Set m df <;> rfl

theorem setStruct_eq_walk (depth : Nat) (m : Mem) (vStr defStr : RValue) :
    setStruct depth m vStr defStr = walkStruct setLeaf depth m vStr defStr := by
  induction depth generalizing m vStr defStr with
  | zero => rfl
  | succ n ih =>
    simp only [setStruct, walkStruct]
    cases vStr.NumField m with
    | error e => rfl
    | ok k =>
      have : setStruct n = walkStruct setLeaf n := by
        funext a b c; exact ih a b c
      simp only [this, setFields_eq_walk]

theorem stripFields_eq_walk (recur : Mem → RValue → RValue → Res) (vStr defStr : RValue)
    (is : List Nat) (m : Mem) :
    stripFields recur vStr defStr is m = walkFields stripLeaf recur vStr defStr is m := by
  induction is generalizing m with
  | nil => rfl
  | cons i is ih =>
    simp only [stripFields, walkFields, stripLeaf]
    cases vStr.Field m i with
    | error e => rfl
    | ok vf =>
      cases defStr.Field m i with
      | error e => rfl
      | ok df =>
        simp only [ih]
        split
        · rfl
        · split
          · rfl
          · cases vf.Interface m with
            | error e => rfl
            | ok x =>
              cases df.Interface m with
              | error e => rfl
              | ok d =>
                simp only []
                split
                · cases vf.Type m with
                  | error e => rfl
                  | ok t =>
                    simp only []
                    cases vf.Set m (.held t.zero false) <;> rfl
                · rfl

theorem stripStruct_eq_walk (depth : Nat) (m : Mem) (vStr defStr : RValue) :
    stripStruct depth m vStr defStr = walkStruct stripLeaf depth m vStr defStr := by
  induction depth generalizing m vStr defStr with
  | zero => rfl
  | succ n ih =>
    simp only [stripStruct, walkStruct]
    cases vStr.NumField m with
    | error e => rfl
    | ok k =>
      have : stripStruct n = walkStruct stripLeaf n := by
        funext a b c; exact ih a b c
      simp only [this, stripFields_eq_walk]

/-! ## Returned errors -/

theorem Val.typeOf_Kind (x : Val) : x.typeOf.Kind = x.Kind := by
  cases x <;> rfl

theorem RValue.NumField_error {m : Mem} {v : RValue} {e : Err}
    (h : v.NumField m = .error e) : e = .panic := by
  unfold RValue.NumField at h
  split at h <;> simp at h
  exact h.symm

theorem RValue.Field_error {m : Mem} {v : RValue} {i : Nat} {e : Err}
    (h : v.Field m i = .error e) : e = .panic := by
  unfold RValue.Field at h
  repeat' split at h
  all_goals simp at h
  all_goals exact h.symm

theorem RValue.IsZero_error {m : Mem} {v : RValue} {e : Err}
    (h : v.IsZero m = .error e) : e = .panic := by
  unfold RValue.IsZero at h
  split at h <;> simp at h
  exact h.symm

theorem RValue.Set_error {m : Mem} {v x : RValue} {e : Err}
    (h : v.Set m x = .error e) : e = .panic := by
  unfold RValue.Set at h
  repeat' split at h
  all_goals simp at h
  all_goals exact h.symm

theorem RValue.Interface_error {m : Mem} {v : RValue} {e : Err}
    (h : v.Interface m = .error e) : e = .panic := by
  unfold RValue.Interface at h
  repeat' split at h
  all_goals simp at h
  all_goals exact h.symm

theorem RValue.Type_error {m : Mem} {v : RValue} {e : Err}
    (h : v.Type m = .error e) : e = .panic := by
  unfold RValue.Type at h
  split at h <;> simp at h
  exact h.symm

theorem setLeaf_err (m : Mem) (vf df : RValue) (msg : String) :
    (setLeaf m vf df).err ≠ some (.error msg) := by
  unfold setLeaf
  split
  · rename_i e h; simp [Res.err, RValue.IsZero_error h]
  · simp [Res.err]
  · split
    · rename_i e h; simp [Res.err, RValue.Set_error h]
    · simp [Res.err]

theorem stripLeaf_err (m : Mem) (vf df : RValue) (msg : String) :
    (stripLeaf m vf df).err ≠ some (.error msg) := by
  unfold stripLeaf
  split
  · rename_i e h; simp [Res.err, RValue.Interface_error h]
  · split
    · rename_i e h; simp [Res.err, RValue.Interface_error h]
    · split
      · split
        · rename_i e h; simp [Res.err, RValue.Type_error h]
        · split
          · rename_i e h; simp [Res.err, RValue.Set_error h]
          · simp [Res.err]
      · simp [Res.err]

theorem RValue.CanInterface_of_CanSet {v : RValue} (h : v.CanSet = true) :
    v.CanInterface = true := by
  cases v <;> simp_all [RValue.CanSet, RValue.CanInterface]

theorem walkFields_cons_skip {leaf recur : Mem → RValue → RValue → Res} {vStr defStr : RValue}
    {i : Nat} {is : List Nat} {m : Mem} {vf df : RValue}
    (hv : vStr.Field m i = .ok vf) (hd : defStr.Field m i = .ok df) (hs : vf.CanSet = false) :
    walkFields leaf recur vStr defStr (i :: is) m = walkFields leaf recur vStr defStr is m := by
  simp [walkFields, hv, hd, hs]

theorem walkFields_cons_recur {leaf recur : Mem → RValue → RValue → Res} {vStr defStr : RValue}
    {i : Nat} {is : List Nat} {m : Mem} {vf df : RValue}
    (hv : vStr.Field m i = .ok vf) (hd : defStr.Field m i = .ok df) (hs : vf.CanSet = true)
    (hr : (toStructOrStructPointer m vf).IsValid m = true) :
    walkFields leaf recur vStr defStr (i :: is) m =
      match recur m (toStructOrStructPointer m vf) (toStructOrStructPointer m df) with
      | .fail e m1 => .fail e m1
      | .ok m1 => walkFields leaf recur vStr defStr is m1 := by
  simp [walkFields, hv, hd, hs, hr, RValue.CanInterface_of_CanSet hs]

theorem walkFields_cons_leaf {leaf recur : Mem → RValue → RValue → Res} {vStr defStr : RValue}
    {i : Nat} {is : List Nat} {m : Mem} {vf df : RValue}
    (hv : vStr.Field m i = .ok vf) (hd : defStr.Field m i = .ok df) (hs : vf.CanSet = true)
    (hr : (toStructOrStructPointer m vf).IsValid m = false) :
    walkFields leaf recur vStr defStr (i :: is) m =
      match leaf m vf df with
      | .fail e m1 => .fail e m1
      | .ok m1 => walkFields leaf recur vStr defStr is m1 := by
  simp [walkFields, hv, hd, hs, hr, RValue.CanInterface_of_CanSet hs]

/-- A proof rule for the loop: a relation `Q` between the storage before and the
outcome holds of the whole loop when it holds of every recursive call and leaf
action, composes, and keeps the invariant `I`. -/
theorem walkFields_rule {leaf recur : Mem → RValue → RValue → Res} {vStr defStr : RValue}
    (I : Mem → Prop) (Q : Mem → Res → Prop)
    (h_ok : ∀ m, Q m (.ok m)) (h_panic : ∀ m, Q m (.fail .panic m))
    (h_chain : ∀ m m1 r, Q m (.ok m1) → Q m1 r → Q m r)
    (h_inv : ∀ m m1, I m → Q m (.ok m1) → I m1)
    (h_recur : ∀ m i vf df, I m → vStr.Field m i = .ok vf → defStr.Field m i = .ok df →
      vf.CanSet = true → (toStructOrStructPointer m vf).IsValid m = true →
      Q m (recur m (toStructOrStructPointer m vf) (toStructOrStructPointer m df)))
    (h_leaf : ∀ m i vf df, I m → vStr.Field m i = .ok vf → defStr.Field m i = .ok df →
      vf.CanSet = true → (toStructOrStructPointer m vf).IsValid m = false →
      Q m (leaf m vf df))
    (is : List Nat) (m : Mem) (hI : I m) :
    Q m (walkFields leaf recur vStr defStr is m) := by
  induction is generalizing m with
  | nil => exact h_ok m
  | cons i is ih =>
    cases hv : vStr.Field m i with
    | error e =>
      have : walkFields leaf recur vStr defStr (i :: is) m = .fail e m := by
        simp [walkFields, hv]
      rw [this, RValue.Field_error hv]; exact h_panic m
    | ok vf =>
      cases hd : defStr.Field m i with
      | error e =>
        have : walkFields leaf recur vStr defStr (i :: is) m = .fail e m := by
          simp [walkFields, hv, hd]
        rw [this, RValue.Field_error hd]; exact h_panic m
      | ok df =>
        cases hs : vf.CanSet with
        | false => rw [walkFields_cons_skip hv hd hs]; exact ih m hI
        | true =>
          cases hr : (toStructOrStructPointer m vf).IsValid m with
          | true =>
            rw [walkFields_cons_recur hv hd hs hr]
            have hq := h_recur m i vf df hI hv hd hs hr
            cases hres : recur m (toStructOrStructPointer m vf) (toStructOrStructPointer m df) with
            | fail e m1 => rw [hres] at hq; exact hq
            | ok m1 =>
              rw [hres] at hq
              exact h_chain m m1 _ hq (ih m1 (h_inv m m1 hI hq))
          | false =>
            rw [walkFields_cons_leaf hv hd hs hr]
            have hq := h_leaf m i vf df hI hv hd hs hr
            cases hres : leaf m vf df with
            | fail e m1 => rw [hres] at hq; exact hq
            | ok m1 =>
              rw [hres] at hq
              exact h_chain m m1 _ hq (ih m1 (h_inv m m1 hI hq))

theorem walkStruct_err (leaf : Mem → RValue → RValue → Res) (msg : String)
    (hl : ∀ m vf df, (leaf m vf df).err ≠ some (.error msg))
    (depth : Nat) (m : Mem) (vStr defStr : RValue) :
    (walkStruct leaf depth m vStr defStr).err ≠ some (.error msg) := by
  induction depth generalizing m vStr defStr with
  | zero => simp [walkStruct, Res.err]
  | succ n ih =>
    unfold walkStruct
    cases hn : vStr.NumField m with
    | error e => simp [Res.err, RValue.NumField_error hn]
    | ok k =>
      exact walkFields_rule (fun _ => True) (fun _ r => r.err ≠ some (.error msg))
        (fun _ => by simp [Res.err]) (fun _ => by simp [Res.err])
        (fun _ _ _ _ h => h) (fun _ _ _ _ => trivial)
        (fun m _ _ _ _ _ _ _ _ => ih m _ _) (fun m _ vf df _ _ _ _ _ => hl m vf df)
        _ m trivial
/-! ## Reading through a `reflect.Value` -/

theorem Mem.read_root (m : Mem) (p : List Nat) : m.read .root p = m.root.getPath p := rfl

theorem Mem.read_obj_nil {m : Mem} {a : Nat} (h : a < m.heap.length) :
    ∃ o, m.heap[a]? = some o ∧ m.read (.obj a) [] = some o.toVal := by
  refine ⟨m.heap[a], ?_, ?_⟩
  · simp
  · simp [Mem.read, Mem.base, Val.getPath, h, Obj.toVal]

theorem RValue.Kind_invalid (m : Mem) : RValue.invalid.Kind m = .Invalid := rfl

theorem RValue.Elem_nil {m : Mem} {v : RValue} {e : Ty}
    (h : v.load m = some (.ptr e none)) : v.Elem m = .invalid := by
  unfold RValue.Elem; rw [h]

theorem RValue.Elem_dangling {m : Mem} {v : RValue} {e : Ty} {a : Nat}
    (h : v.load m = some (.ptr e (some a))) (ha : m.heap.length ≤ a) :
    v.Elem m = .invalid := by
  unfold RValue.Elem; rw [h]; simp [Nat.not_lt.mpr ha]

theorem RValue.Kind_of_load {m : Mem} {v : RValue} {x : Val} (h : v.load m = some x) :
    v.Kind m = x.Kind := by
  simp [RValue.Kind, h]

theorem RValue.IsValid_of_load {m : Mem} {v : RValue} {x : Val} (h : v.load m = some x) :
    v.IsValid m = true := by
  simp [RValue.IsValid, h]

theorem RValue.Elem_live {m : Mem} {v : RValue} {e : Ty} {a : Nat}
    (h : v.load m = some (.ptr e (some a))) (ha : a < m.heap.length) :
    v.Elem m = .ref (.obj a) [] v.ro := by
  simp [RValue.Elem, h, ha]

theorem RValue.Elem_Kind_live {m : Mem} {a : Nat} {r : Bool} (ha : a < m.heap.length) :
    (RValue.ref (.obj a) [] r).Kind m = .Struct := by
  obtain ⟨o, _, ho⟩ := Mem.read_obj_nil ha
  simp [RValue.Kind, RValue.load, ho, Obj.toVal, Val.Kind]

theorem toStruct_of_struct {m : Mem} {v : RValue} {x : Val} (h : v.load m = some x)
    (hk : x.Kind = .Struct) : toStructOrStructPointer m v = v := by
  simp [toStructOrStructPointer, RValue.IsValid_of_load h, RValue.Kind_of_load h, hk]

theorem toStruct_of_live {m : Mem} {v : RValue} {e : Ty} {a : Nat}
    (h : v.load m = some (.ptr e (some a))) (ha : a < m.heap.length) :
    toStructOrStructPointer m v = .ref (.obj a) [] v.ro := by
  simp [toStructOrStructPointer, RValue.IsValid_of_load h, RValue.Kind_of_load h, Val.Kind,
    RValue.Elem_live h ha, RValue.Elem_Kind_live ha]

theorem toStruct_of_leaf {m : Mem} {v : RValue} {x : Val} (h : v.load m = some x)
    (hl : x.isRecursed m.heap.length = false) : toStructOrStructPointer m v = .invalid := by
  simp only [Val.isRecursed, Bool.or_eq_false_iff, beq_eq_false_iff_ne] at hl
  obtain ⟨hk, hp⟩ := hl
  unfold toStructOrStructPointer
  simp only [RValue.IsValid_of_load h, RValue.Kind_of_load h, hk]
  cases x <;> simp [Val.Kind] at hk ⊢
  rename_i e a
  cases a with
  | none => simp [RValue.Elem_nil h, RValue.Kind_invalid]
  | some a =>
    simp [Val.isLivePtr] at hp
    simp [RValue.Elem_dangling h hp, RValue.Kind_invalid]

theorem toStruct_invalid (m : Mem) : toStructOrStructPointer m .invalid = .invalid := by
  simp [toStructOrStructPointer, RValue.IsValid, RValue.load]

theorem invalid_not_valid (m : Mem) : RValue.invalid.IsValid m = false := by
  simp [RValue.IsValid, RValue.load]

theorem toStruct_valid_iff {m : Mem} {v : RValue} {x : Val} (h : v.load m = some x) :
    (toStructOrStructPointer m v).IsValid m = x.isRecursed m.heap.length := by
  cases hr : x.isRecursed m.heap.length with
  | false => rw [toStruct_of_leaf h hr, invalid_not_valid]
  | true =>
    simp only [Val.isRecursed, Bool.or_eq_true, beq_iff_eq] at hr
    rcases hr with hk | hp
    · rw [toStruct_of_struct h hk]; exact RValue.IsValid_of_load h
    · cases x <;> simp [Val.isLivePtr] at hp
      rename_i e a
      cases a with
      | none => simp at hp
      | some a =>
        simp at hp
        rw [toStruct_of_live h hp]
        obtain ⟨o, _, ho⟩ := Mem.read_obj_nil hp
        simp [RValue.IsValid, RValue.load, ho]
/-! ## The entry points -/

theorem SetDefaults_eq_entry (depth : Nat) (m : Mem) (v : Arg) (d : Option Val) :
    SetDefaults depth m v d = entry (walkStruct setLeaf depth) m v d := by
  unfold SetDefaults entry
  simp only [setStruct_eq_walk]

theorem StripDefaults_eq_entry (depth : Nat) (m : Mem) (v : Arg) (d : Option Val) :
    StripDefaults depth m v d = entry (walkStruct stripLeaf depth) m v d := by
  unfold StripDefaults entry
  simp only [stripStruct_eq_walk]

theorem Arg.pointsToStruct_iff (m : Mem) (v : Arg) :
    v.pointsToStruct m = true ↔
      ∃ t, v.TypeOf m = some t ∧ t.Kind = .Ptr ∧ (v.Elem m).Kind m = .Struct := by
  cases v with
  | nil => simp [Arg.pointsToStruct, Arg.pointee, Arg.TypeOf]
  | rootPtr =>
    simp [Arg.pointsToStruct, Arg.pointee, Arg.TypeOf, Ty.Kind, Arg.Elem, RValue.Kind,
      RValue.load, Mem.read_root, Val.getPath]
  | val x =>
    cases x
    case ptr e a =>
      cases a with
      | none =>
        have h : (RValue.held (.ptr e none) false).load m = some (.ptr e none) := rfl
        simp [Arg.pointsToStruct, Arg.pointee, Arg.TypeOf, Arg.Elem, RValue.Elem_nil h,
          RValue.Kind_invalid]
      | some a =>
        have h : (RValue.held (.ptr e (some a)) false).load m = some (.ptr e (some a)) := rfl
        by_cases ha : a < m.heap.length
        · simp [Arg.pointsToStruct, Arg.pointee, Arg.TypeOf, Arg.Elem, RValue.Elem_live h ha,
            RValue.Elem_Kind_live ha, Val.typeOf, Ty.Kind, ha, Obj.toVal, Val.Kind]
        · have ha2 : m.heap.length ≤ a := Nat.le_of_not_lt ha
          simp [Arg.pointsToStruct, Arg.pointee, Arg.TypeOf, Arg.Elem,
            RValue.Elem_dangling h ha2, RValue.Kind_invalid, List.getElem?_eq_none ha2]
    all_goals simp [Arg.pointsToStruct, Arg.pointee, Arg.TypeOf, Val.typeOf, Ty.Kind]

theorem entry_bad_target {m : Mem} {v : Arg} (h : v.pointsToStruct m = false)
    (walk : Mem → RValue → RValue → Res) (d : Option Val) :
    entry walk m v d = .fail (.error "value must be a struct pointer") m := by
  have hn : ¬ ∃ t, v.TypeOf m = some t ∧ t.Kind = .Ptr ∧ (v.Elem m).Kind m = .Struct := by
    rw [← Arg.pointsToStruct_iff]; simp [h]
  unfold entry
  cases ht : v.TypeOf m with
  | none => rfl
  | some t =>
    simp only []
    by_cases hk : t.Kind = .Ptr
    · by_cases hs : (v.Elem m).Kind m = .Struct
      · exact absurd ⟨t, ht, hk, hs⟩ hn
      · simp [hk, hs]
    · simp [hk]

theorem entry_good_target {m : Mem} {v : Arg} (h : v.pointsToStruct m = true)
    (walk : Mem → RValue → RValue → Res) (d : Option Val) :
    ∃ t, v.TypeOf m = some t ∧ entry walk m v d =
      match d with
      | none => .fail (.error "def must be a struct value") m
      | some dv =>
        if dv.Kind ≠ .Struct then .fail (.error "def must be a struct value") m
        else if t.Elem.Name ≠ dv.typeOf.Name then
          .fail (.error "value and def have different struct types") m
        else walk m (v.Elem m) (.held dv false) := by
  obtain ⟨t, ht, hk, hs⟩ := (Arg.pointsToStruct_iff m v).mp h
  refine ⟨t, ht, ?_⟩
  unfold entry
  simp only [ht, hk, hs, Val.typeOf_Kind]
  simp
theorem Arg.pointsToStruct_false_iff (m : Mem) (v : Arg) :
    v.pointsToStruct m = false ↔
      (v = .nil ∨ v.isPtr = false ∨ v.isNullPtr = true ∨
        (v.isPtr = true ∧ v.isNullPtr = false ∧ v.pointsToStruct m = false)) := by
  constructor
  · intro h
    cases hp : v.isPtr with
    | false => exact Or.inr (Or.inl rfl)
    | true =>
      cases hn : v.isNullPtr with
      | true => exact Or.inr (Or.inr (Or.inl rfl))
      | false => exact Or.inr (Or.inr (Or.inr ⟨rfl, rfl, h⟩))
  · rintro (h | h | h | ⟨_, _, h⟩)
    · subst h; rfl
    · cases v with
      | nil => rfl
      | rootPtr => simp [Arg.isPtr] at h
      | val x => cases x <;> simp [Arg.isPtr] at h <;> rfl
    · cases v with
      | nil => rfl
      | rootPtr => simp [Arg.isNullPtr] at h
      | val x =>
        cases x <;> simp [Arg.isNullPtr] at h
        rename_i e a
        cases a with
        | none => rfl
        | some a => simp [Arg.isNullPtr] at h
    · exact h

theorem entry_of_validationError_some {m : Mem} {v : Arg} {d : Option Val} {msg : String}
    (h : validationError m v d = some msg) (walk : Mem → RValue → RValue → Res) :
    entry walk m v d = .fail (.error msg) m := by
  unfold validationError at h
  unfold entry
  repeat' split at h
  all_goals simp_all

theorem entry_of_validationError_none {m : Mem} {v : Arg} {d : Option Val}
    (h : validationError m v d = none) (walk : Mem → RValue → RValue → Res) :
    ∃ dv, d = some dv ∧ entry walk m v d = walk m (v.Elem m) (.held dv false) := by
  unfold validationError at h
  unfold entry
  repeat' split at h
  all_goals simp_all

theorem validationError_target (m : Mem) (v : Arg) (d : Option Val) :
    validationError m v d = some "value must be a struct pointer" ↔
      v.pointsToStruct m = false := by
  constructor
  · intro h
    by_contra hc
    have hp : v.pointsToStruct m = true := by simpa using hc
    obtain ⟨t, ht, hk, hs⟩ := (Arg.pointsToStruct_iff m v).mp hp
    unfold validationError at h
    simp only [ht, hk, hs, ne_eq, not_true_eq_false, if_false] at h
    repeat' split at h
    all_goals simp at h
  · intro h
    have := entry_bad_target h (fun m _ _ => .ok m) d
    cases hv : validationError m v d with
    | none =>
      obtain ⟨dv, _, he⟩ := entry_of_validationError_none hv (fun m _ _ => .ok m)
      rw [he] at this; simp at this
    | some msg =>
      rw [entry_of_validationError_some hv] at this
      simp at this
      rw [this]

theorem validationError_def (m : Mem) (v : Arg) (d : Option Val) :
    validationError m v d = some "def must be a struct value" ↔
      (v.pointsToStruct m = true ∧ isStructValue d = false) := by
  cases hp : v.pointsToStruct m with
  | false =>
    have := (validationError_target m v d).mpr hp
    simp [this]
  | true =>
    obtain ⟨t, ht, hk, hs⟩ := (Arg.pointsToStruct_iff m v).mp hp
    unfold validationError
    simp only [ht, hk, hs, Val.typeOf_Kind]
    cases d with
    | none => simp [isStructValue]
    | some dv =>
      by_cases hk : dv.Kind = .Struct
      · by_cases hn : t.Elem.Name = dv.typeOf.Name <;> simp [isStructValue, hk, hn]
      · simp [isStructValue, hk]

/-- C6 (argument validation).  `SetDefaults` returns "value must be a struct pointer"
exactly when `v` is nil, is not a pointer, is a nil pointer or points to something
that is not a struct; it returns "def must be a struct value" exactly when `v` is
a valid target and `def` is nil or is not a struct value; `StripDefaults` returns
an error exactly when `SetDefaults` does, and the same one; and whenever either
returns an error the storage is as it was before the call. -/
theorem argument_validation (depth depth' : Nat) (m : Mem) (v : Arg) (d : Option Val) :
    ((SetDefaults depth m v d).err = some (.error "value must be a struct pointer") ↔
      (v = .nil ∨ v.isPtr = false ∨ v.isNullPtr = true ∨
        (v.isPtr = true ∧ v.isNullPtr = false ∧ v.pointsToStruct m = false))) ∧
    ((SetDefaults depth m v d).err = some (.error "def must be a struct value") ↔
      (v.pointsToStruct m = true ∧ (d = none ∨ ∃ x, d = some x ∧ x.Kind ≠ .Struct))) ∧
    (∀ msg, (SetDefaults depth m v d).err = some (.error msg) ↔
      (StripDefaults depth' m v d).err = some (.error msg)) ∧
    (∀ msg, ((SetDefaults depth m v d).err = some (.error msg) →
        (SetDefaults depth m v d).mem = m) ∧
      ((StripDefaults depth' m v d).err = some (.error msg) →
        (StripDefaults depth' m v d).mem = m)) := by
  have hs : ∀ msg, (SetDefaults depth m v d).err = some (.error msg) ↔
      validationError m v d = some msg := by
    intro msg
    rw [SetDefaults_eq_entry]
    cases hv : validationError m v d with
    | none =>
      obtain ⟨dv, _, he⟩ := entry_of_validationError_none hv (walkStruct setLeaf depth)
      rw [he]
      simpa using walkStruct_err setLeaf msg (fun m vf df => setLeaf_err m vf df msg) depth _ _ _
    | some msg' => rw [entry_of_validationError_some hv]; simp [Res.err]
  have ht : ∀ msg, (StripDefaults depth' m v d).err = some (.error msg) ↔
      validationError m v d = some msg := by
    intro msg
    rw [StripDefaults_eq_entry]
    cases hv : validationError m v d with
    | none =>
      obtain ⟨dv, _, he⟩ := entry_of_validationError_none hv (walkStruct stripLeaf depth')
      rw [he]
      simpa using
        walkStruct_err stripLeaf msg (fun m vf df => stripLeaf_err m vf df msg) depth' _ _ _
    | some msg' => rw [entry_of_validationError_some hv]; simp [Res.err]
  have hd : isStructValue d = false ↔ (d = none ∨ ∃ x, d = some x ∧ x.Kind ≠ .Struct) := by
    cases d <;> simp [isStructValue]
  refine ⟨?_, ?_, ?_, ?_⟩
  · rw [hs, validationError_target, ← Arg.pointsToStruct_false_iff]
  · rw [hs, validationError_def, hd]
  · intro msg; rw [hs, ht]
  · intro msg
    constructor
    · intro h
      rw [SetDefaults_eq_entry, entry_of_validationError_some ((hs msg).mp h)]; rfl
    · intro h
      rw [StripDefaults_eq_entry, entry_of_validationError_some ((ht msg).mp h)]; rfl

/-! ## The sample program and other concrete runs -/

/-- C8 (sample usage with an overridden pointer field), evaluated.  On the sample's
own arguments, where `PointerTest` is non-nil in the target and nil in
`DefaultOptions()`, neither call returns `nil` at any stack depth: each panics in
`defStr.Field(0)` as soon as the stack allows the walk to reach `PointerTest`. -/
theorem sample_pointer_field_panics :
    (∀ depth, (StripDefaults depth sampleStripMem .rootPtr (some DefaultOptions)).err ≠ none) ∧
    (∀ depth, (SetDefaults depth sampleSetMem .rootPtr (some DefaultOptions)).err ≠ none) ∧
    (StripDefaults 8 sampleStripMem .rootPtr (some DefaultOptions)).err = some .panic ∧
    (SetDefaults 8 sampleSetMem .rootPtr (some DefaultOptions)).err = some .panic := by
  refine ⟨?_, ?_, rfl, rfl⟩
  · intro depth
    match depth with
    | 0 => exact fun h => nomatch h
    | 1 => exact fun h => nomatch h
    | n + 2 => exact fun h => nomatch h
  · intro depth
    match depth with
    | 0 => exact fun h => nomatch h
    | 1 => exact fun h => nomatch h
    | n + 2 => exact fun h => nomatch h

/-- C7 (complete or fail fast), evaluated on the sample.  `StripDefaults` on the
sample's arguments passes validation, zeroes the fields `I`, `IS` and `MIS` of the
target, and then panics: the call aborts after fields have been written. -/
theorem sample_strip_aborts_after_writes :
    validationError sampleStripMem .rootPtr (some DefaultOptions) = none ∧
    (StripDefaults 8 sampleStripMem .rootPtr (some DefaultOptions)).err = some .panic ∧
    sampleStripMem.root.getPath [1] = some (.int 8) ∧
    (StripDefaults 8 sampleStripMem .rootPtr (some DefaultOptions)).mem.root.getPath [1]
      = some (.int 0) ∧
    sampleStripMem.root.getPath [2] = some (.ints (some [1, 2, 3])) ∧
    (StripDefaults 8 sampleStripMem .rootPtr (some DefaultOptions)).mem.root.getPath [2]
      = some (.ints none) := by
  refine ⟨rfl, rfl, rfl, rfl, rfl, rfl⟩

/-- C5 (type-mismatch rejection), evaluated.  Two distinct unnamed struct types,
and two distinct types of the same name from different packages, pass the name
comparison: neither call returns "value and def have different struct types";
`SetDefaults` panics in `vf.Set(df)` and `StripDefaults` returns `nil`. -/
theorem same_name_types_not_rejected :
    unnamedTargetMem.root.typeOf ≠ unnamedDefaults.typeOf ∧
    (∀ depth, (SetDefaults (depth + 1) unnamedTargetMem .rootPtr (some unnamedDefaults)).err
      = some .panic) ∧
    (∀ depth, (StripDefaults (depth + 1) unnamedTargetMem .rootPtr (some unnamedDefaults)).err
      = none) ∧
    pkgATargetMem.root.typeOf ≠ pkgBDefaults.typeOf ∧
    (∀ depth, (SetDefaults (depth + 1) pkgATargetMem .rootPtr (some pkgBDefaults)).err
      = some .panic) ∧
    (∀ depth, (StripDefaults (depth + 1) pkgATargetMem .rootPtr (some pkgBDefaults)).err
      = none) := by
  refine ⟨?_, fun _ => rfl, fun _ => rfl, ?_, fun _ => rfl, fun _ => rfl⟩
  · simp [unnamedTargetMem, unnamedDefaults, Val.typeOf, typeOfFields]
  · simp [pkgATargetMem, pkgBDefaults, Val.typeOf, typeOfFields]

/-! ## Paths and types -/

theorem typeOfFields_eq_map (fs : List (FieldOf Val)) :
    typeOfFields fs = fs.map (fun f => ⟨f.name, f.exported, f.val.typeOf⟩) := by
  induction fs with
  | nil => simp [typeOfFields]
  | cons f r ih => simp [typeOfFields, ih]

theorem typeOfFields_length (fs : List (FieldOf Val)) :
    (typeOfFields fs).length = fs.length := by
  simp [typeOfFields_eq_map]

theorem typeOfFields_getElem? {fs gs : List (FieldOf Val)}
    (h : typeOfFields fs = typeOfFields gs) {i : Nat} {f : FieldOf Val} (hf : fs[i]? = some f) :
    ∃ g, gs[i]? = some g ∧ g.name = f.name ∧ g.exported = f.exported ∧
      g.val.typeOf = f.val.typeOf := by
  rw [typeOfFields_eq_map, typeOfFields_eq_map] at h
  have h1 := congrArg (fun l => l[i]?) h
  simp only [List.getElem?_map, hf, Option.map_some'] at h1
  cases hg : gs[i]? with
  | none => simp [hg] at h1
  | some g =>
    simp only [hg, Option.map_some', Option.some.injEq, FieldOf.mk.injEq] at h1
    exact ⟨g, rfl, h1.1.symm, h1.2.1.symm, h1.2.2.symm⟩

theorem typeOfFields_set {fs : List (FieldOf Val)} {i : Nat} {f : FieldOf Val}
    (hf : fs[i]? = some f) {x : Val} (hx : x.typeOf = f.val.typeOf) :
    typeOfFields (fs.set i { f with val := x }) = typeOfFields fs := by
  rw [typeOfFields_eq_map, typeOfFields_eq_map]
  apply List.ext_getElem?
  intro j
  simp only [List.getElem?_map, List.getElem?_set]
  by_cases hij : i = j
  · subst hij
    have hlt : i < fs.length := by
      by_contra hc
      rw [List.getElem?_eq_none (Nat.le_of_not_lt hc)] at hf
      simp at hf
    simp [hlt, hf, hx]
  · simp [hij]

theorem Val.typeOf_struct_inj {p n : String} {fs : List (FieldOf Val)} {y : Val}
    (h : (Val.struct p n fs).typeOf = y.typeOf) :
    ∃ gs, y = .struct p n gs ∧ typeOfFields fs = typeOfFields gs := by
  cases y <;> simp [Val.typeOf] at h
  rename_i q k gs
  obtain ⟨h1, h2, h3⟩ := h
  subst h1; subst h2
  exact ⟨gs, rfl, h3⟩

theorem Val.setPath_typeOf {v : Val} {p : List Nat} {old new v' : Val}
    (hg : v.getPath p = some old) (ht : new.typeOf = old.typeOf)
    (hs : v.setPath p new = some v') : v'.typeOf = v.typeOf := by
  induction p generalizing v v' with
  | nil =>
    simp [Val.getPath] at hg
    simp [Val.setPath] at hs
    subst hg; subst hs; exact ht
  | cons i p ih =>
    cases v <;> simp [Val.getPath] at hg
    rename_i pk n fs
    cases hf : fs[i]? with
    | none => simp [hf] at hg
    | some f =>
      simp only [hf] at hg
      simp only [Val.setPath, hf] at hs
      cases hx : f.val.setPath p new with
      | none => simp [hx] at hs
      | some x =>
        simp only [hx, Option.some.injEq] at hs
        subst hs
        simp only [Val.typeOf]
        rw [typeOfFields_set hf (ih hg hx)]

theorem Val.exportedPath_congr {v v' : Val} (h : v.typeOf = v'.typeOf) (p : List Nat) :
    v.exportedPath p = v'.exportedPath p := by
  induction p generalizing v v' with
  | nil => simp [Val.exportedPath]
  | cons i p ih =>
    cases v
    case struct pk n fs =>
      obtain ⟨gs, rfl, hfs⟩ := Val.typeOf_struct_inj h
      simp only [Val.exportedPath]
      cases hf : fs[i]? with
      | none =>
        have : gs[i]? = none := by
          cases hg : gs[i]? with
          | none => rfl
          | some g =>
            obtain ⟨f, hf', _⟩ := typeOfFields_getElem? hfs.symm hg
            simp [hf] at hf'
        simp [this]
      | some f =>
        obtain ⟨g, hg, _, he, ht⟩ := typeOfFields_getElem? hfs hf
        simp only [hg, he]
        rw [ih ht.symm]
    all_goals (cases v' <;> simp [Val.typeOf] at h; rfl)

theorem Val.hiddenPath_congr {v v' : Val} (h : v.typeOf = v'.typeOf) (p : List Nat) :
    v.hiddenPath p = v'.hiddenPath p := by
  induction p generalizing v v' with
  | nil => simp [Val.hiddenPath]
  | cons i p ih =>
    cases v
    case struct pk n fs =>
      obtain ⟨gs, rfl, hfs⟩ := Val.typeOf_struct_inj h
      simp only [Val.hiddenPath]
      cases hf : fs[i]? with
      | none =>
        have : gs[i]? = none := by
          cases hg : gs[i]? with
          | none => rfl
          | some g =>
            obtain ⟨f, hf', _⟩ := typeOfFields_getElem? hfs.symm hg
            simp [hf] at hf'
        simp [this]
      | some f =>
        obtain ⟨g, hg, _, he, ht⟩ := typeOfFields_getElem? hfs hf
        simp only [hg, he]
        rw [ih ht.symm]
    all_goals (cases v' <;> simp [Val.typeOf] at h; rfl)

/-- Writing a leaf at an exported path leaves every hidden path as it was. -/
theorem Val.setPath_hidden {v : Val} {p : List Nat} {old new v' : Val}
    (hg : v.getPath p = some old) (hk : old.Kind ≠ .Struct) (he : v.exportedPath p = true)
    (hs : v.setPath p new = some v') (q : List Nat) (hq : v.hiddenPath q = true) :
    v'.getPath q = v.getPath q := by
  induction p generalizing v v' q with
  | nil =>
    simp [Val.getPath] at hg
    subst hg
    cases q with
    | nil => simp [Val.hiddenPath] at hq
    | cons j q => cases v <;> simp [Val.hiddenPath, Val.Kind] at hq hk
  | cons i p ih =>
    cases v <;> simp [Val.getPath] at hg
    rename_i pk n fs
    cases hf : fs[i]? with
    | none => simp [hf] at hg
    | some f =>
      simp only [hf] at hg
      simp only [Val.exportedPath, hf, Bool.and_eq_true] at he
      simp only [Val.setPath, hf] at hs
      cases hx : f.val.setPath p new with
      | none => simp [hx] at hs
      | some x =>
        simp only [hx, Option.some.injEq] at hs
        subst hs
        cases q with
        | nil => simp [Val.hiddenPath] at hq
        | cons j q =>
          simp only [Val.getPath, List.getElem?_set]
          by_cases hij : i = j
          · subst hij
            have hlt : i < fs.length := by
              by_contra hc
              rw [List.getElem?_eq_none (Nat.le_of_not_lt hc)] at hf
              simp at hf
            simp only [Val.hiddenPath, hf, he.1, Bool.not_true, Bool.false_or] at hq
            simp only [hlt, if_true, hf]
            exact ih hg he.2 hx q hq
          · simp [hij]
/-! ## Framing: what a run can change -/

theorem valFrame_refl (v : Val) : Val.Frame v v := ⟨rfl, fun _ _ => rfl⟩

theorem valFrame_trans {a b c : Val} (h1 : Val.Frame a b) (h2 : Val.Frame b c) :
    Val.Frame a c := by
  refine ⟨h2.1.trans h1.1, fun q hq => ?_⟩
  rw [h2.2 q (by rw [← Val.hiddenPath_congr h1.1.symm]; exact hq), h1.2 q hq]

theorem memFrame_refl (m : Mem) : Mem.Frame m m := by
  refine ⟨valFrame_refl _, rfl, fun a o o' h h' => ?_⟩
  rw [h] at h'
  cases h'
  exact valFrame_refl _

theorem memFrame_trans {a b c : Mem} (h1 : Mem.Frame a b) (h2 : Mem.Frame b c) :
    Mem.Frame a c := by
  refine ⟨valFrame_trans h1.1 h2.1, h2.2.1.trans h1.2.1, fun i o o'' ho ho'' => ?_⟩
  have hlt : i < a.heap.length := by
    by_contra hc
    rw [List.getElem?_eq_none (Nat.le_of_not_lt hc)] at ho
    simp at ho
  have hlt' : i < b.heap.length := by rw [h1.2.1]; exact hlt
  have ho' : b.heap[i]? = some b.heap[i] := by simp [hlt']
  exact valFrame_trans (h1.2.2 i o _ ho ho') (h2.2.2 i _ o'' ho' ho'')

theorem Val.Frame_of_setPath {v : Val} {p : List Nat} {old new v' : Val}
    (hg : v.getPath p = some old) (hk : old.Kind ≠ .Struct) (ht : new.typeOf = old.typeOf)
    (he : v.exportedPath p = true) (hs : v.setPath p new = some v') : Val.Frame v v' :=
  ⟨Val.setPath_typeOf hg ht hs, Val.setPath_hidden hg hk he hs⟩

theorem Mem.Frame_of_write {m m' : Mem} {b : Base} {p : List Nat} {old new x : Val}
    (hw : m.write b p new = some m') (hr : m.read b p = some old) (hk : old.Kind ≠ .Struct)
    (ht : new.typeOf = old.typeOf) (hb : m.base b = some x) (he : x.exportedPath p = true) :
    Mem.Frame m m' := by
  cases b with
  | root =>
    simp only [Mem.base, Option.some.injEq] at hb
    subst hb
    simp only [Mem.write] at hw
    cases hs : m.root.setPath p new with
    | none => simp [hs] at hw
    | some r =>
      simp only [hs, Option.some.injEq] at hw
      subst hw
      refine ⟨Val.Frame_of_setPath hr hk ht he hs, rfl, fun a o o' h h' => ?_⟩
      simp only at h'
      rw [h] at h'; cases h'
      exact valFrame_refl _
  | obj a =>
    simp only [Mem.write] at hw
    cases ho : m.heap[a]? with
    | none => simp [ho] at hw
    | some o =>
      simp only [Mem.base, ho, Option.map_some', Option.some.injEq] at hb
      subst hb
      have hr' : o.toVal.getPath p = some old := by
        simpa [Mem.read, Mem.base, ho] using hr
      simp only [ho] at hw
      cases hs : o.toVal.setPath p new with
      | none => simp [hs] at hw
      | some r =>
        have hf := Val.Frame_of_setPath hr' hk ht he hs
        cases r <;> simp only [hs] at hw
        all_goals first | (simp at hw; done) | skip
        rename_i pk n fs
        injection hw with hw
        subst hw
        refine ⟨valFrame_refl _, by simp, fun i o1 o2 h1 h2 => ?_⟩
        simp only [List.getElem?_set] at h2
        by_cases hia : a = i
        · subst hia
          rw [ho] at h1; cases h1
          have hlt : a < m.heap.length := by
            by_contra hc
            rw [List.getElem?_eq_none (Nat.le_of_not_lt hc)] at ho
            simp at ho
          simp only [hlt, if_true, Option.some.injEq] at h2
          subst h2
          exact hf
        · simp only [hia, if_false] at h2
          rw [h1] at h2; cases h2
          exact valFrame_refl _

theorem Mem.Frame.base {m m' : Mem} (h : Mem.Frame m m') {b : Base} {x : Val}
    (hb : m.base b = some x) : ∃ x', m'.base b = some x' ∧ Val.Frame x x' := by
  cases b with
  | root =>
    simp only [Mem.base, Option.some.injEq] at hb
    subst hb
    exact ⟨m'.root, rfl, h.1⟩
  | obj a =>
    simp only [Mem.base] at hb ⊢
    cases ho : m.heap[a]? with
    | none => simp [ho] at hb
    | some o =>
      simp only [ho, Option.map_some', Option.some.injEq] at hb
      subst hb
      have hlt : a < m'.heap.length := by
        rw [h.2.1]
        by_contra hc
        rw [List.getElem?_eq_none (Nat.le_of_not_lt hc)] at ho
        simp at ho
      refine ⟨m'.heap[a].toVal, by simp [hlt], ?_⟩
      exact h.2.2 a o _ ho (by simp [hlt])

theorem Mem.Frame.read_hidden {m m' : Mem} (h : Mem.Frame m m') {b : Base} {x : Val}
    (hb : m.base b = some x) {p : List Nat} (hp : x.hiddenPath p = true) :
    m'.read b p = m.read b p := by
  obtain ⟨x', hb', hf⟩ := h.base hb
  simp only [Mem.read, hb, hb']
  exact hf.2 p hp

theorem RValue.wf_of_Frame {m m' : Mem} (h : Mem.Frame m m') {v : RValue} (hv : v.wf m) :
    v.wf m' := by
  cases v with
  | invalid => trivial
  | held x r => trivial
  | ref b p r =>
    cases r with
    | true => trivial
    | false =>
      obtain ⟨x, hb, he⟩ := hv
      obtain ⟨x', hb', hf⟩ := h.base hb
      exact ⟨x', hb', by rw [Val.exportedPath_congr hf.1]; exact he⟩
theorem Val.getPath_append (v : Val) (p q : List Nat) :
    v.getPath (p ++ q) = (v.getPath p).bind (fun x => x.getPath q) := by
  induction p generalizing v with
  | nil => simp [Val.getPath]
  | cons i p ih =>
    cases v <;> simp [Val.getPath]
    rename_i pk n fs
    cases fs[i]? with
    | none => simp
    | some f => simp [ih]

theorem Val.exportedPath_snoc {v : Val} {p : List Nat} {pk n : String}
    {fs : List (FieldOf Val)} {i : Nat} {f : FieldOf Val}
    (hg : v.getPath p = some (.struct pk n fs)) (hf : fs[i]? = some f) :
    v.exportedPath (p ++ [i]) = (v.exportedPath p && f.exported) := by
  induction p generalizing v with
  | nil =>
    simp [Val.getPath] at hg
    subst hg
    simp [Val.exportedPath, hf]
  | cons j p ih =>
    cases v <;> simp [Val.getPath] at hg
    rename_i pk' n' gs
    cases hj : gs[j]? with
    | none => simp [hj] at hg
    | some g =>
      simp only [hj] at hg
      have := ih hg
      show (j :: (p ++ [i]) |> (Val.struct pk' n' gs).exportedPath) = _
      simp only [Val.exportedPath, hj, this, Bool.and_assoc]

/-- The shape of a successful `Field` call on a location. -/
theorem RValue.Field_ref {m : Mem} {b : Base} {p : List Nat} {r : Bool} {i : Nat}
    {vf : RValue} (h : (RValue.ref b p r).Field m i = .ok vf) :
    ∃ pk n fs f, m.read b p = some (.struct pk n fs) ∧ fs[i]? = some f ∧
      vf = .ref b (p ++ [i]) (r || !f.exported) ∧ m.read b (p ++ [i]) = some f.val := by
  unfold RValue.Field at h
  simp only [RValue.load] at h
  cases hr : m.read b p with
  | none => simp [hr] at h
  | some x =>
    cases x <;> simp only [hr] at h <;> try (simp at h; done)
    rename_i pk n fs
    cases hf : fs[i]? with
    | none => simp [hf] at h
    | some f =>
      simp only [hf, Except.ok.injEq] at h
      refine ⟨pk, n, fs, f, rfl, hf, h.symm, ?_⟩
      unfold Mem.read at hr ⊢
      cases hb : m.base b with
      | none => simp [hb] at hr
      | some x =>
        simp only [hb] at hr ⊢
        rw [Val.getPath_append, hr]
        simp [Val.getPath, hf]

theorem RValue.CanSet_ref {vf : RValue} (h : vf.CanSet = true) :
    ∃ b p, vf = .ref b p false := by
  cases vf <;> simp [RValue.CanSet] at h
  rename_i b p r
  subst h
  exact ⟨b, p, rfl⟩

theorem RValue.wf_Field {m : Mem} {vStr vf : RValue} {i : Nat} (hw : vStr.wf m)
    (hf : vStr.Field m i = .ok vf) (hs : vf.CanSet = true) : vf.wf m := by
  cases vStr with
  | invalid => simp [RValue.Field, RValue.load] at hf
  | held x r =>
    unfold RValue.Field at hf
    simp only [RValue.load] at hf
    cases x <;> simp at hf
    rename_i pk n fs
    cases hfi : fs[i]? with
    | none => simp [hfi] at hf
    | some f =>
      simp only [hfi, Except.ok.injEq] at hf
      subst hf
      simp [RValue.CanSet] at hs
  | ref b p r =>
    obtain ⟨pk, n, fs, f, hr, hfi, rfl, _⟩ := RValue.Field_ref hf
    simp only [RValue.CanSet, Bool.not_eq_true', Bool.or_eq_false_iff,
      Bool.not_eq_false'] at hs
    obtain ⟨hr0, hex⟩ := hs
    subst hr0
    obtain ⟨x, hb, he⟩ := hw
    simp only [Bool.false_or, hex, Bool.not_true]
    refine ⟨x, hb, ?_⟩
    have hg : x.getPath p = some (.struct pk n fs) := by
      simpa [Mem.read, hb] using hr
    rw [Val.exportedPath_snoc hg hfi, he, hex]
    rfl

theorem RValue.wf_toStruct {m : Mem} {vf : RValue} (hw : vf.wf m) (hs : vf.CanSet = true) :
    (toStructOrStructPointer m vf).wf m := by
  cases hl : vf.load m with
  | none =>
    have : toStructOrStructPointer m vf = .invalid := by
      simp [toStructOrStructPointer, RValue.IsValid, hl]
    rw [this]; trivial
  | some x =>
    cases hr : x.isRecursed m.heap.length with
    | false => rw [toStruct_of_leaf hl hr]; trivial
    | true =>
      simp only [Val.isRecursed, Bool.or_eq_true, beq_iff_eq] at hr
      by_cases hk : x.Kind = .Struct
      · rw [toStruct_of_struct hl hk]; exact hw
      · have hp : x.isLivePtr m.heap.length = true := by
          rcases hr with h | h
          · exact absurd h hk
          · exact h
        cases x <;> simp [Val.isLivePtr] at hp
        rename_i e a
        cases a with
        | none => simp at hp
        | some a =>
          simp at hp
          rw [toStruct_of_live hl hp]
          obtain ⟨b, p, rfl⟩ := RValue.CanSet_ref hs
          obtain ⟨o, ho, _⟩ := Mem.read_obj_nil hp
          exact ⟨o.toVal, by simp [Mem.base, ho], rfl⟩

theorem RValue.Set_frame {m m1 : Mem} {vf x : RValue} (h : vf.Set m x = .ok m1)
    (hw : vf.wf m) (hv : (toStructOrStructPointer m vf).IsValid m = false) :
    Mem.Frame m m1 := by
  unfold RValue.Set at h
  split at h
  · rename_i b p old new hln hlo
    split at h
    · simp at h
    · split at h
      · rename_i hty
        cases hwr : m.write b p new with
        | none => simp [hwr] at h
        | some m2 =>
          simp only [hwr, Except.ok.injEq] at h
          subst h
          obtain ⟨y, hb, he⟩ := hw
          have hrec := toStruct_valid_iff hlo
          rw [hv] at hrec
          have hk : old.Kind ≠ .Struct := by
            intro hk
            simp [Val.isRecursed, hk] at hrec
          exact Mem.Frame_of_write hwr hlo hk ((Ty.beq_iff _ _).mp hty) hb he
      · simp at h
  · simp at h

theorem setLeaf_frame (m : Mem) (vf df : RValue) (hw : vf.wf m)
    (hv : (toStructOrStructPointer m vf).IsValid m = false) :
    Mem.Frame m (setLeaf m vf df).mem := by
  unfold setLeaf
  split
  · exact memFrame_refl m
  · exact memFrame_refl m
  · split
    · exact memFrame_refl m
    · rename_i m1 h
      exact RValue.Set_frame h hw hv

theorem stripLeaf_frame (m : Mem) (vf df : RValue) (hw : vf.wf m)
    (hv : (toStructOrStructPointer m vf).IsValid m = false) :
    Mem.Frame m (stripLeaf m vf df).mem := by
  unfold stripLeaf
  split
  · exact memFrame_refl m
  · split
    · exact memFrame_refl m
    · split
      · split
        · exact memFrame_refl m
        · split
          · exact memFrame_refl m
          · rename_i m1 h
            exact RValue.Set_frame h hw hv
      · exact memFrame_refl m

/-- Either walk frames the storage, whether it returns or aborts. -/
theorem walkStruct_frame (leaf : Mem → RValue → RValue → Res)
    (hl : ∀ m vf df, vf.wf m → (toStructOrStructPointer m vf).IsValid m = false →
      Mem.Frame m (leaf m vf df).mem)
    (depth : Nat) (m : Mem) (vStr defStr : RValue) (hw : vStr.wf m) :
    Mem.Frame m (walkStruct leaf depth m vStr defStr).mem := by
  induction depth generalizing m vStr defStr with
  | zero => exact memFrame_refl m
  | succ n ih =>
    unfold walkStruct
    cases hn : vStr.NumField m with
    | error e => exact memFrame_refl m
    | ok k =>
      exact walkFields_rule (fun m => vStr.wf m) (fun m r => Mem.Frame m r.mem)
        (fun m => memFrame_refl m) (fun m => memFrame_refl m)
        (fun m m1 r h1 h2 => memFrame_trans h1 h2)
        (fun m m1 hI hq => RValue.wf_of_Frame hq hI)
        (fun m i vf df hI hv _ hs _ =>
          ih m _ _ (RValue.wf_toStruct (RValue.wf_Field hI hv hs) hs))
        (fun m i vf df hI hv _ hs hr => hl m vf df (RValue.wf_Field hI hv hs) hr)
        _ m hw
theorem Val.exportedPath_nil (v : Val) : v.exportedPath [] = true := by
  cases v <;> rfl

theorem Arg.Elem_wf (m : Mem) (v : Arg) : (v.Elem m).wf m := by
  cases v with
  | nil => trivial
  | rootPtr => exact ⟨m.root, rfl, Val.exportedPath_nil _⟩
  | val x =>
    simp only [Arg.Elem]
    cases x
    case ptr e a =>
      cases a with
      | none =>
        have h : (RValue.held (.ptr e none) false).load m = some (.ptr e none) := rfl
        rw [RValue.Elem_nil h]; trivial
      | some a =>
        have h : (RValue.held (.ptr e (some a)) false).load m = some (.ptr e (some a)) := rfl
        by_cases ha : a < m.heap.length
        · rw [RValue.Elem_live h ha]
          obtain ⟨o, ho, _⟩ := Mem.read_obj_nil ha
          exact ⟨o.toVal, by simp [Mem.base, ho], rfl⟩
        · rw [RValue.Elem_dangling h (Nat.le_of_not_lt ha)]; trivial
    all_goals (simp only [RValue.Elem, RValue.load]; trivial)

theorem entry_frame (walk : Mem → RValue → RValue → Res)
    (hw : ∀ m vStr defStr, vStr.wf m → Mem.Frame m (walk m vStr defStr).mem)
    (m : Mem) (v : Arg) (d : Option Val) : Mem.Frame m (entry walk m v d).mem := by
  cases hv : validationError m v d with
  | some msg => rw [entry_of_validationError_some hv]; exact memFrame_refl m
  | none =>
    obtain ⟨dv, _, he⟩ := entry_of_validationError_none hv walk
    rw [he]
    exact hw m _ _ (Arg.Elem_wf m v)

theorem SetDefaults_frame (depth : Nat) (m : Mem) (v : Arg) (d : Option Val) :
    Mem.Frame m (SetDefaults depth m v d).mem := by
  rw [SetDefaults_eq_entry]
  exact entry_frame _ (fun m vs ds h => walkStruct_frame setLeaf setLeaf_frame depth m vs ds h)
    m v d

theorem StripDefaults_frame (depth : Nat) (m : Mem) (v : Arg) (d : Option Val) :
    Mem.Frame m (StripDefaults depth m v d).mem := by
  rw [StripDefaults_eq_entry]
  exact entry_frame _
    (fun m vs ds h => walkStruct_frame stripLeaf stripLeaf_frame depth m vs ds h) m v d

/-- Over storage in which every pointer refers to a whole heap struct:
for every call of `SetDefaults` or
`StripDefaults`, whatever the arguments and whether or not it succeeds: a path `p`
below the root variable or a heap struct `b` that names an unexported field, or
anything nested by value below one, reads the same after the call as before. -/
theorem hidden_paths_unchanged (depth : Nat) (m : Mem) (v : Arg) (d : Option Val)
    (b : Base) (x : Val) (p : List Nat)
    (hb : m.base b = some x) (hp : x.hiddenPath p = true) :
    (SetDefaults depth m v d).mem.read b p = m.read b p ∧
    (StripDefaults depth m v d).mem.read b p = m.read b p :=
  ⟨(SetDefaults_frame depth m v d).read_hidden hb hp,
   (StripDefaults_frame depth m v d).read_hidden hb hp⟩

/-! ## Reading and writing along paths -/

theorem Val.setPath_self {v : Val} {p : List Nat} {x : Val} (h : v.getPath p = some x) :
    v.setPath p x = some v := by
  induction p generalizing v with
  | nil =>
    simp [Val.getPath] at h
    simp [Val.setPath, h]
  | cons i p ih =>
    cases v <;> simp [Val.getPath] at h
    rename_i pk n fs
    cases hf : fs[i]? with
    | none => simp [hf] at h
    | some f =>
      simp only [hf] at h
      simp only [Val.setPath, hf, ih h, Option.some.injEq, Val.struct.injEq, true_and]
      apply List.ext_getElem?
      intro j
      simp only [List.getElem?_set]
      by_cases hij : i = j
      · subst hij
        have hlt : i < fs.length := by
          by_contra hc
          rw [List.getElem?_eq_none (Nat.le_of_not_lt hc)] at hf
          simp at hf
        simp [hlt, hf]
      · simp [hij]

theorem Val.setPath_isSome {v : Val} {p : List Nat} {x : Val} (h : v.getPath p = some x)
    (w : Val) : ∃ v', v.setPath p w = some v' := by
  induction p generalizing v with
  | nil => exact ⟨w, by simp [Val.setPath]⟩
  | cons i p ih =>
    cases v <;> simp [Val.getPath] at h
    rename_i pk n fs
    cases hf : fs[i]? with
    | none => simp [hf] at h
    | some f =>
      simp only [hf] at h
      obtain ⟨x', hx'⟩ := ih h
      exact ⟨.struct pk n (fs.set i { f with val := x' }), by simp [Val.setPath, hf, hx']⟩

theorem Val.getPath_setPath {v v' : Val} {p : List Nat} {w : Val}
    (h : v.setPath p w = some v') : v'.getPath p = some w := by
  induction p generalizing v v' with
  | nil =>
    simp [Val.setPath] at h
    simp [Val.getPath, h]
  | cons i p ih =>
    cases v <;> simp [Val.setPath] at h
    rename_i pk n fs
    cases hf : fs[i]? with
    | none => simp [hf] at h
    | some f =>
      simp only [hf] at h
      cases hx : f.val.setPath p w with
      | none => simp [hx] at h
      | some x =>
        simp only [hx, Option.some.injEq] at h
        subst h
        have hlt : i < fs.length := by
          by_contra hc
          rw [List.getElem?_eq_none (Nat.le_of_not_lt hc)] at hf
          simp at hf
        simp [Val.getPath, List.getElem?_set, hlt, ih hx]

theorem Val.setPath_setPath {v v' : Val} {p : List Nat} {w : Val}
    (h : v.setPath p w = some v') (z : Val) : v'.setPath p z = v.setPath p z := by
  induction p generalizing v v' with
  | nil => simp [Val.setPath]
  | cons i p ih =>
    cases v <;> simp [Val.setPath] at h
    rename_i pk n fs
    cases hf : fs[i]? with
    | none => simp [hf] at h
    | some f =>
      simp only [hf] at h
      cases hx : f.val.setPath p w with
      | none => simp [hx] at h
      | some x =>
        simp only [hx, Option.some.injEq] at h
        subst h
        have hlt : i < fs.length := by
          by_contra hc
          rw [List.getElem?_eq_none (Nat.le_of_not_lt hc)] at hf
          simp at hf
        have hz := ih hx
        simp only [Val.setPath, List.getElem?_set, hlt, if_true, hf, hz]
        cases f.val.setPath p z with
        | none => rfl
        | some y => simp

theorem Val.setPath_snoc {v : Val} {p : List Nat} {pk n : String} {fs : List (FieldOf Val)}
    {i : Nat} {f : FieldOf Val} (hg : v.getPath p = some (.struct pk n fs))
    (hf : fs[i]? = some f) (w : Val) :
    v.setPath (p ++ [i]) w = v.setPath p (.struct pk n (fs.set i { f with val := w })) := by
  induction p generalizing v with
  | nil =>
    simp [Val.getPath] at hg
    subst hg
    simp [Val.setPath, hf]
  | cons j p ih =>
    cases v <;> simp [Val.getPath] at hg
    rename_i pk' n' gs
    cases hj : gs[j]? with
    | none => simp [hj] at hg
    | some g =>
      simp only [hj] at hg
      have := ih hg
      show Val.setPath (.struct pk' n' gs) (j :: (p ++ [i])) w = _
      simp only [Val.setPath, hj, this]
/-! ## The walk never writes the root through a heap location -/

theorem RValue.Field_of_read {m : Mem} {b : Base} {p : List Nat} {r : Bool} {pk n : String}
    {fs : List (FieldOf Val)} {i : Nat} {f : FieldOf Val}
    (hr : m.read b p = some (.struct pk n fs)) (hf : fs[i]? = some f) :
    (RValue.ref b p r).Field m i = .ok (.ref b (p ++ [i]) (r || !f.exported)) := by
  simp [RValue.Field, RValue.load, hr, hf]

theorem RValue.Field_held {m : Mem} {r : Bool} {pk n : String}
    {fs : List (FieldOf Val)} {i : Nat} {f : FieldOf Val} (hf : fs[i]? = some f) :
    (RValue.held (.struct pk n fs) r).Field m i = .ok (.held f.val (r || !f.exported)) := by
  simp [RValue.Field, RValue.load, hf]

theorem RValue.offRoot_Field {m : Mem} {v vf : RValue} {i : Nat} (ho : v.offRoot)
    (h : v.Field m i = .ok vf) : vf.offRoot := by
  cases v with
  | invalid => simp [RValue.Field, RValue.load] at h
  | held x r =>
    unfold RValue.Field at h
    simp only [RValue.load] at h
    cases x <;> simp at h
    rename_i pk n fs
    cases hfi : fs[i]? with
    | none => simp [hfi] at h
    | some f =>
      simp only [hfi, Except.ok.injEq] at h
      subst h; trivial
  | ref b p r =>
    obtain ⟨pk, n, fs, f, _, _, rfl, _⟩ := RValue.Field_ref h
    cases b with
    | root => exact ho.elim
    | obj a => trivial

theorem RValue.offRoot_toStruct (m : Mem) {v : RValue} (ho : v.offRoot) :
    (toStructOrStructPointer m v).offRoot := by
  unfold toStructOrStructPointer
  split
  · trivial
  · split
    · exact ho
    · split
      · unfold RValue.Elem
        split
        · split <;> trivial
        · trivial
      · trivial

theorem Mem.write_obj_root {m m' : Mem} {a : Nat} {p : List Nat} {w : Val}
    (h : m.write (.obj a) p w = some m') : m'.root = m.root := by
  simp only [Mem.write] at h
  cases ho : m.heap[a]? with
  | none => simp [ho] at h
  | some o =>
    simp only [ho] at h
    cases hs : o.toVal.setPath p w with
    | none => simp [hs] at h
    | some r =>
      cases r <;> simp only [hs] at h
      all_goals first | (simp at h; done) | skip
      injection h with h
      subst h; rfl

theorem RValue.Set_offRoot {m m1 : Mem} {v x : RValue} (ho : v.offRoot)
    (h : v.Set m x = .ok m1) : m1.root = m.root := by
  unfold RValue.Set at h
  split at h
  · rename_i b p old new _ _
    cases b with
    | root => exact ho.elim
    | obj a =>
      split at h
      · simp at h
      · split at h
        · split at h
          · rename_i m2 hw
            simp only [Except.ok.injEq] at h
            subst h
            exact Mem.write_obj_root hw
          · simp at h
        · simp at h
  · simp at h

theorem setLeaf_offRoot (m : Mem) (vf df : RValue) (ho : vf.offRoot) :
    (setLeaf m vf df).mem.root = m.root := by
  unfold setLeaf
  split
  · rfl
  · rfl
  · split
    · rfl
    · rename_i m1 h
      exact RValue.Set_offRoot ho h

theorem stripLeaf_offRoot (m : Mem) (vf df : RValue) (ho : vf.offRoot) :
    (stripLeaf m vf df).mem.root = m.root := by
  unfold stripLeaf
  split
  · rfl
  · split
    · rfl
    · split
      · split
        · rfl
        · split
          · rfl
          · rename_i m1 h
            exact RValue.Set_offRoot ho h
      · rfl

theorem walkStruct_offRoot (leaf : Mem → RValue → RValue → Res)
    (hl : ∀ m vf df, vf.offRoot → (leaf m vf df).mem.root = m.root)
    (depth : Nat) (m : Mem) (vStr defStr : RValue) (ho : vStr.offRoot) :
    (walkStruct leaf depth m vStr defStr).mem.root = m.root := by
  induction depth generalizing m vStr defStr with
  | zero => rfl
  | succ n ih =>
    unfold walkStruct
    cases hn : vStr.NumField m with
    | error e => rfl
    | ok k =>
      exact walkFields_rule (fun _ => True) (fun m r => r.mem.root = m.root)
        (fun m => rfl) (fun m => rfl)
        (fun m m1 r h1 h2 => h2.trans h1)
        (fun _ _ _ _ => trivial)
        (fun m i vf df _ hv _ _ _ =>
          ih m _ _ (RValue.offRoot_toStruct m (RValue.offRoot_Field ho hv)))
        (fun m i vf df _ hv _ _ _ => hl m vf df (RValue.offRoot_Field ho hv))
        _ m trivial
/-! ## The leaf actions compute the leaf rules -/

mutual
theorem Ty.zero_typeOf : ∀ (t : Ty), t.zero.typeOf = t
  | .int => rfl
  | .str => rfl
  | .bool => rfl
  | .float => rfl
  | .ints => rfl
  | .mapIS => rfl
  | .ptr _ => rfl
  | .struct p n fs => by
      simp only [Ty.zero, Val.typeOf, zeroFields_typeOf fs]
theorem zeroFields_typeOf : ∀ (fs : List (FieldOf Ty)), typeOfFields (zeroFields fs) = fs
  | [] => rfl
  | f :: r => by
      simp only [zeroFields, typeOfFields, Ty.zero_typeOf f.val, zeroFields_typeOf r]
end

theorem Ty.beq_self (t : Ty) : Ty.beq t t = true := (Ty.beq_iff t t).mpr rfl

theorem Mem.write_root {m : Mem} {p : List Nat} {w r : Val}
    (h : m.root.setPath p w = some r) : m.write .root p w = some { m with root := r } := by
  simp [Mem.write, h]

theorem RValue.Set_root {m : Mem} {p : List Nat} {x g r : Val} (rd : RValue)
    (hx : m.root.getPath p = some x) (hd : rd.load m = some g) (hro : rd.ro = false)
    (ht : g.typeOf = x.typeOf) (hs : m.root.setPath p g = some r) :
    (RValue.ref .root p false).Set m rd = .ok { m with root := r } := by
  unfold RValue.Set
  have hl : (RValue.ref .root p false).load m = some x := hx
  simp only [hl, hd, hro, ht, Ty.beq_self, Mem.write_root hs]
  simp

theorem setLeaf_spec : LeafSpec setLeaf fillLeaf := by
  intro m p x g hx _ ht
  have hl : (RValue.ref .root p false).load m = some x := hx
  unfold setLeaf fillLeaf RValue.IsZero
  simp only [hl]
  cases hz : x.isZero with
  | false =>
    refine ⟨m.root, by simpa using Val.setPath_self hx, ?_⟩
    simp
  | true =>
    obtain ⟨r, hr⟩ := Val.setPath_isSome hx g
    refine ⟨r, by simpa using hr, ?_⟩
    simp only [RValue.Set_root (.held g false) hx rfl rfl ht hr]

theorem stripLeaf_spec : LeafSpec stripLeaf stripLeafVal := by
  intro m p x g hx _ ht
  have hl : (RValue.ref .root p false).load m = some x := hx
  unfold stripLeaf stripLeafVal RValue.Interface RValue.Type
  simp only [RValue.load, RValue.ro, Mem.read_root, hx]
  cases hz : x.deepEqual g with
  | false =>
    refine ⟨m.root, by simpa [hz] using Val.setPath_self hx, ?_⟩
    simp [hz]
  | true =>
    obtain ⟨r, hr⟩ := Val.setPath_isSome hx x.typeOf.zero
    refine ⟨r, by simpa [hz] using hr, ?_⟩
    simp [hz, RValue.Set_root (.held x.typeOf.zero false) hx rfl rfl (Ty.zero_typeOf _) hr]
/-! ## List bookkeeping for the loop -/

theorem List.drop_cons_inv {α : Type} {l : List α} {k : Nat} {x : α} {s : List α}
    (h : l.drop k = x :: s) : l[k]? = some x ∧ l.drop (k + 1) = s := by
  constructor
  · have := List.getElem?_drop (L := l) (i := k) (j := 0)
    rw [h] at this
    simpa using this.symm
  · have : l.drop (k + 1) = (l.drop k).drop 1 := by
      rw [List.drop_drop]
    rw [this, h, List.drop_one]; rfl

theorem List.drop_of_getElem? {α : Type} {l : List α} {k : Nat} {x : α}
    (h : l[k]? = some x) : l.drop k = x :: l.drop (k + 1) := by
  have hlt : k < l.length := by
    by_contra hc
    rw [List.getElem?_eq_none (Nat.le_of_not_lt hc)] at h
    simp at h
  rw [List.drop_eq_getElem_cons hlt]
  congr 1
  rw [List.getElem?_eq_getElem hlt] at h
  exact Option.some.inj h

theorem List.take_succ_set {α : Type} {l : List α} {k : Nat} (hlt : k < l.length) (a : α) :
    (l.set k a).take (k + 1) = l.take k ++ [a] := by
  have h1 : (l.set k a).take k = l.take k := by
    rw [List.set_take]
    apply List.set_eq_of_length_le
    simp
  rw [List.take_succ, h1]
  simp [List.getElem?_set, hlt]

theorem List.drop_succ_set {α : Type} {l : List α} {k : Nat} (a : α) :
    (l.set k a).drop (k + 1) = l.drop (k + 1) := by
  exact List.drop_set_of_lt a l (Nat.lt_succ_self k)

theorem List.take_succ_of_getElem? {α : Type} {l : List α} {k : Nat} {x : α}
    (h : l[k]? = some x) : l.take (k + 1) = l.take k ++ [x] := by
  rw [List.take_succ, h]; rfl
/-! ## No cell is allocated or freed -/

theorem Mem.write_heap_length {m m' : Mem} {b : Base} {p : List Nat} {w : Val}
    (h : m.write b p w = some m') : m'.heap.length = m.heap.length := by
  cases b with
  | root =>
    simp only [Mem.write] at h
    cases hs : m.root.setPath p w with
    | none => simp [hs] at h
    | some r =>
      simp only [hs, Option.some.injEq] at h
      subst h; rfl
  | obj a =>
    simp only [Mem.write] at h
    cases ho : m.heap[a]? with
    | none => simp [ho] at h
    | some o =>
      simp only [ho] at h
      cases hs : o.toVal.setPath p w with
      | none => simp [hs] at h
      | some r =>
        cases r <;> simp only [hs] at h
        all_goals first | (simp at h; done) | skip
        injection h with h
        subst h; simp

theorem RValue.Set_heap_length {m m1 : Mem} {v x : RValue} (h : v.Set m x = .ok m1) :
    m1.heap.length = m.heap.length := by
  unfold RValue.Set at h
  split at h
  · split at h
    · simp at h
    · split at h
      · split at h
        · rename_i m2 hw
          simp only [Except.ok.injEq] at h
          subst h
          exact Mem.write_heap_length hw
        · simp at h
      · simp at h
  · simp at h

theorem setLeaf_heap_length (m : Mem) (vf df : RValue) :
    (setLeaf m vf df).mem.heap.length = m.heap.length := by
  unfold setLeaf
  split
  · rfl
  · rfl
  · split
    · rfl
    · rename_i m1 h
      exact RValue.Set_heap_length h

theorem stripLeaf_heap_length (m : Mem) (vf df : RValue) :
    (stripLeaf m vf df).mem.heap.length = m.heap.length := by
  unfold stripLeaf
  split
  · rfl
  · split
    · rfl
    · split
      · split
        · rfl
        · split
          · rfl
          · rename_i m1 h
            exact RValue.Set_heap_length h
      · rfl

theorem walkStruct_heap_length (leaf : Mem → RValue → RValue → Res)
    (hl : ∀ m vf df, (leaf m vf df).mem.heap.length = m.heap.length)
    (depth : Nat) (m : Mem) (vStr defStr : RValue) :
    (walkStruct leaf depth m vStr defStr).mem.heap.length = m.heap.length := by
  induction depth generalizing m vStr defStr with
  | zero => rfl
  | succ n ih =>
    unfold walkStruct
    cases hn : vStr.NumField m with
    | error e => rfl
    | ok k =>
      exact walkFields_rule (fun _ => True) (fun m r => r.mem.heap.length = m.heap.length)
        (fun m => rfl) (fun m => rfl)
        (fun m m1 r h1 h2 => h2.trans h1)
        (fun _ _ _ _ => trivial)
        (fun m i vf df _ _ _ _ _ => ih m _ _)
        (fun m i vf df _ _ _ _ _ => hl m vf df)
        _ m trivial

/-! ## The value-level walk -/

theorem walkVal_struct (lf : Val → Val → Val) (h : Nat) (p n q k : String)
    (fs gs : List (FieldOf Val)) :
    walkVal lf h (.struct p n fs) (.struct q k gs) = .struct p n (walkVals lf h fs gs) := by
  simp [walkVal]

theorem walkVal_leaf (lf : Val → Val → Val) {h : Nat} {x : Val} (d : Val)
    (hx : x.isRecursed h = false) : walkVal lf h x d = lf x d := by
  simp only [Val.isRecursed, Bool.or_eq_false_iff, beq_eq_false_iff_ne] at hx
  cases x <;> simp [Val.Kind] at hx <;> simp [walkVal, hx]

theorem walkVal_live (lf : Val → Val → Val) {h : Nat} {x : Val} (d : Val)
    (hx : x.isLivePtr h = true) : walkVal lf h x d = x := by
  cases x <;> simp [Val.isLivePtr] at hx
  simp [walkVal, Val.isLivePtr, hx]

theorem walkVals_nil (lf : Val → Val → Val) (h : Nat) (gs : List (FieldOf Val)) :
    walkVals lf h [] gs = [] := by
  simp [walkVals]

theorem walkVals_cons (lf : Val → Val → Val) (h : Nat) (f g : FieldOf Val)
    (r s : List (FieldOf Val)) :
    walkVals lf h (f :: r) (g :: s) =
      (if f.exported then { f with val := walkVal lf h f.val g.val } else f)
        :: walkVals lf h r s := by
  simp [walkVals]

/-! ## The walk, seen from the root variable -/

theorem Val.getPath_snoc {v : Val} {p : List Nat} {pk n : String} {fs : List (FieldOf Val)}
    {i : Nat} {f : FieldOf Val} (hg : v.getPath p = some (.struct pk n fs))
    (hf : fs[i]? = some f) : v.getPath (p ++ [i]) = some f.val := by
  rw [Val.getPath_append, hg]
  simp [Val.getPath, hf]

theorem FieldOf.with_val_self (f : FieldOf Val) : { f with val := f.val } = f := by
  cases f; rfl

/-- The loop of a walk over a struct of the root variable at path `q`: when it
returns, the fields from index `k` on have been rewritten by `walkVals`. -/
theorem walkFields_root {leaf recur : Mem → RValue → RValue → Res} {lf : Val → Val → Val}
    (hspec : LeafSpec leaf lf)
    (R1 : ∀ (m : Mem) (q : List Nat) (t d : Val) (m' : Mem), m.root.getPath q = some t →
      t.typeOf = d.typeOf → recur m (.ref .root q false) (.held d false) = .ok m' →
      m.root.setPath q (walkVal lf m.heap.length t d) = some m'.root)
    (R2 : ∀ m v d, RValue.offRoot v → (recur m v d).mem.root = m.root)
    (R3 : ∀ m v d, (recur m v d).mem.heap.length = m.heap.length)
    (q : List Nat) (pk n pk' n' : String) (gs : List (FieldOf Val)) :
    ∀ (j k : Nat) (m : Mem) (fs : List (FieldOf Val)) (m' : Mem), k + j = fs.length →
      m.root.getPath q = some (.struct pk n fs) →
      typeOfFields (fs.drop k) = typeOfFields (gs.drop k) →
      walkFields leaf recur (.ref .root q false) (.held (.struct pk' n' gs) false)
        (List.range' k j) m = .ok m' →
      m.root.setPath q
          (.struct pk n (fs.take k ++ walkVals lf m.heap.length (fs.drop k) (gs.drop k)))
        = some m'.root ∧ m'.heap.length = m.heap.length := by
  intro j
  induction j with
  | zero =>
    intro k m fs m' hk hg _ hw
    simp only [List.range'_zero, walkFields, Res.ok.injEq] at hw
    subst hw
    have hk' : k = fs.length := by omega
    subst hk'
    simp only [List.take_length, List.drop_length, walkVals_nil, List.append_nil]
    exact ⟨Val.setPath_self hg, trivial⟩
  | succ j ih =>
    intro k m fs m' hk hg ht hw
    have hlt : k < fs.length := by omega
    obtain ⟨f, hf⟩ : ∃ f, fs[k]? = some f := ⟨fs[k], by simp [hlt]⟩
    have hfd := List.drop_of_getElem? hf
    rw [hfd] at ht
    cases hgd : gs.drop k with
    | nil => rw [hgd] at ht; simp [typeOfFields] at ht
    | cons g s =>
      obtain ⟨hgk, hs⟩ := List.drop_cons_inv hgd
      rw [hgd] at ht
      simp only [typeOfFields, List.cons.injEq, FieldOf.mk.injEq] at ht
      obtain ⟨⟨_, hexp, hty⟩, hrest⟩ := ht
      subst hs
      have hvF : (RValue.ref .root q false).Field m k =
          .ok (.ref .root (q ++ [k]) (false || !f.exported)) :=
        RValue.Field_of_read (b := .root) hg hf
      have hdF : (RValue.held (.struct pk' n' gs) false).Field m k =
          .ok (.held g.val (false || !g.exported)) := RValue.Field_held hgk
      rw [List.range'_succ] at hw
      rw [hfd, walkVals_cons]
      -- what remains to be done once field `k` has been rewritten to `w`
      have cont : ∀ (w : Val) (m1 : Mem), m.root.setPath (q ++ [k]) w = some m1.root →
          m1.heap.length = m.heap.length →
          walkFields leaf recur (.ref .root q false) (.held (.struct pk' n' gs) false)
            (List.range' (k + 1) j) m1 = .ok m' →
          m.root.setPath q (.struct pk n (fs.take k ++
              ({ f with val := w } :: walkVals lf m.heap.length (fs.drop (k + 1))
                (gs.drop (k + 1))))) = some m'.root ∧ m'.heap.length = m.heap.length := by
        intro w m1 hset hlen hw1
        rw [Val.setPath_snoc hg hf w] at hset
        have hg1 := Val.getPath_setPath hset
        have := ih (k + 1) m1 (fs.set k { f with val := w }) m'
          (by simp only [List.length_set]; omega) hg1
          (by rw [List.drop_succ_set]; exact hrest) hw1
        rw [Val.setPath_setPath hset, List.take_succ_set hlt, List.drop_succ_set, hlen,
          List.append_assoc, List.singleton_append] at this
        exact this
      by_cases hex : f.exported = true
      case neg =>
        have hcs : (RValue.ref Base.root (q ++ [k]) (false || !f.exported)).CanSet = false := by
          simp [RValue.CanSet, hex]
        rw [walkFields_cons_skip hvF hdF hcs] at hw
        have := ih (k + 1) m fs m' (by omega) hg hrest hw
        rw [List.take_succ_of_getElem? hf, List.append_assoc, List.singleton_append] at this
        rw [if_neg hex]
        exact this
      case pos =>
        have hgex : g.exported = true := by rw [← hexp, hex]
        simp only [hex, hgex, Bool.not_true, Bool.or_false] at hvF hdF
        have hcs : (RValue.ref Base.root (q ++ [k]) false).CanSet = true := rfl
        have hload : (RValue.ref Base.root (q ++ [k]) false).load m = some f.val :=
          Val.getPath_snoc hg hf
        have hdload : (RValue.held g.val false).load m = some g.val := rfl
        have hvalid := toStruct_valid_iff hload
        rw [if_pos hex]
        cases hrec : f.val.isRecursed m.heap.length with
        | false =>
          rw [hrec] at hvalid
          rw [walkFields_cons_leaf hvF hdF hcs hvalid] at hw
          obtain ⟨r, hr, hleaf⟩ := hspec m (q ++ [k]) f.val g.val hload hrec hty.symm
          rw [hleaf] at hw
          rw [walkVal_leaf lf g.val hrec]
          exact cont _ { m with root := r } hr rfl hw
        | true =>
          rw [hrec] at hvalid
          rw [walkFields_cons_recur hvF hdF hcs hvalid] at hw
          by_cases hk : f.val.Kind = .Struct
          · have hgk' : g.val.Kind = .Struct := by
              rw [← Val.typeOf_Kind, ← hty, Val.typeOf_Kind]; exact hk
            rw [toStruct_of_struct hload hk, toStruct_of_struct hdload hgk'] at hw
            cases hres : recur m (.ref .root (q ++ [k]) false) (.held g.val false) with
            | fail e m1 => rw [hres] at hw; simp at hw
            | ok m1 =>
              rw [hres] at hw
              have h1 := R1 m (q ++ [k]) f.val g.val m1 hload hty hres
              have h3 := R3 m (.ref .root (q ++ [k]) false) (.held g.val false)
              rw [hres] at h3
              exact cont _ m1 h1 h3 hw
          · have hp : f.val.isLivePtr m.heap.length = true := by
              simp only [Val.isRecursed, Bool.or_eq_true, beq_iff_eq] at hrec
              rcases hrec with h | h
              · exact absurd h hk
              · exact h
            rw [walkVal_live lf g.val hp, FieldOf.with_val_self]
            cases hfv : f.val <;> rw [hfv] at hp <;> simp [Val.isLivePtr] at hp
            rename_i e a
            cases a with
            | none => simp at hp
            | some a =>
              simp at hp
              rw [hfv] at hload
              rw [toStruct_of_live hload hp] at hw
              have h2 := R2 m (.ref (.obj a) [] (RValue.ref Base.root (q ++ [k]) false).ro)
                (toStructOrStructPointer m (.held g.val false)) trivial
              have h3 := R3 m (.ref (.obj a) [] (RValue.ref Base.root (q ++ [k]) false).ro)
                (toStructOrStructPointer m (.held g.val false))
              cases hres : recur m (.ref (.obj a) [] (RValue.ref Base.root (q ++ [k]) false).ro)
                  (toStructOrStructPointer m (.held g.val false)) with
              | fail e m1 => rw [hres] at hw; simp at hw
              | ok m1 =>
                rw [hres] at hw h2 h3
                simp only [Res.mem] at h2 h3
                have := ih (k + 1) m1 fs m' (by omega) (by rw [h2]; exact hg) hrest hw
                rw [h2, h3, List.take_succ_of_getElem? hf, List.append_assoc,
                  List.singleton_append] at this
                exact this
/-- A walk over a struct of the root variable at path `q`: when it returns, the
struct has been rewritten by `walkVal`. -/
theorem walkStruct_root {leaf : Mem → RValue → RValue → Res} {lf : Val → Val → Val}
    (hspec : LeafSpec leaf lf)
    (hlo : ∀ m vf df, RValue.offRoot vf → (leaf m vf df).mem.root = m.root)
    (hll : ∀ m vf df, (leaf m vf df).mem.heap.length = m.heap.length) :
    ∀ (depth : Nat) (m : Mem) (q : List Nat) (t d : Val) (m' : Mem),
      m.root.getPath q = some t → t.typeOf = d.typeOf →
      walkStruct leaf depth m (.ref .root q false) (.held d false) = .ok m' →
      m.root.setPath q (walkVal lf m.heap.length t d) = some m'.root := by
  intro depth
  induction depth with
  | zero => intro m q t d m' _ _ hw; simp [walkStruct] at hw
  | succ n ih =>
    intro m q t d m' hg ht hw
    unfold walkStruct at hw
    have hload : (RValue.ref Base.root q false).load m = some t := hg
    cases t
    case struct pk nm fs =>
      obtain ⟨gs, rfl, hfs⟩ := Val.typeOf_struct_inj ht
      simp only [RValue.NumField, hload, List.range_eq_range'] at hw
      have := walkFields_root hspec ih
        (fun m v d ho => walkStruct_offRoot leaf hlo n m v d ho)
        (fun m v d => walkStruct_heap_length leaf hll n m v d)
        q pk nm pk nm gs fs.length 0 m fs m' (by omega) hg (by simpa using hfs) hw
      rw [walkVal_struct]
      simpa using this.1
    all_goals simp [RValue.NumField, hload] at hw

theorem setStruct_root (depth : Nat) (m : Mem) (q : List Nat) (t d : Val) (m' : Mem)
    (hg : m.root.getPath q = some t) (ht : t.typeOf = d.typeOf)
    (hw : setStruct depth m (.ref .root q false) (.held d false) = .ok m') :
    m.root.setPath q (fillVal m.heap.length t d) = some m'.root := by
  rw [setStruct_eq_walk] at hw
  exact walkStruct_root setLeaf_spec setLeaf_offRoot setLeaf_heap_length depth m q t d m' hg ht hw

theorem stripStruct_root (depth : Nat) (m : Mem) (q : List Nat) (t d : Val) (m' : Mem)
    (hg : m.root.getPath q = some t) (ht : t.typeOf = d.typeOf)
    (hw : stripStruct depth m (.ref .root q false) (.held d false) = .ok m') :
    m.root.setPath q (stripVal m.heap.length t d) = some m'.root := by
  rw [stripStruct_eq_walk] at hw
  exact walkStruct_root stripLeaf_spec stripLeaf_offRoot stripLeaf_heap_length depth m q t d m'
    hg ht hw

/-- What a successful call on the root variable leaves there. -/
theorem entry_root {leaf : Mem → RValue → RValue → Res} {lf : Val → Val → Val}
    (hspec : LeafSpec leaf lf)
    (hlo : ∀ m vf df, RValue.offRoot vf → (leaf m vf df).mem.root = m.root)
    (hll : ∀ m vf df, (leaf m vf df).mem.heap.length = m.heap.length)
    (depth : Nat) (m : Mem) (dv : Val) (m' : Mem) (ht : m.root.typeOf = dv.typeOf)
    (h : entry (walkStruct leaf depth) m .rootPtr (some dv) = .ok m') :
    m'.root = walkVal lf m.heap.length m.root dv := by
  cases hv : validationError m .rootPtr (some dv) with
  | some msg => rw [entry_of_validationError_some hv] at h; simp at h
  | none =>
    obtain ⟨dv', hd, he⟩ := entry_of_validationError_none hv (walkStruct leaf depth)
    cases hd
    rw [he] at h
    have := walkStruct_root hspec hlo hll depth m [] m.root dv m' (by simp [Val.getPath]) ht h
    simpa [Val.setPath] using this.symm

theorem SetDefaults_root (depth : Nat) (m : Mem) (dv : Val) (m' : Mem)
    (ht : m.root.typeOf = dv.typeOf) (h : SetDefaults depth m .rootPtr (some dv) = .ok m') :
    m'.root = fillVal m.heap.length m.root dv := by
  rw [SetDefaults_eq_entry] at h
  exact entry_root setLeaf_spec setLeaf_offRoot setLeaf_heap_length depth m dv m' ht h

theorem StripDefaults_root (depth : Nat) (m : Mem) (dv : Val) (m' : Mem)
    (ht : m.root.typeOf = dv.typeOf) (h : StripDefaults depth m .rootPtr (some dv) = .ok m') :
    m'.root = stripVal m.heap.length m.root dv := by
  rw [StripDefaults_eq_entry] at h
  exact entry_root stripLeaf_spec stripLeaf_offRoot stripLeaf_heap_length depth m dv m' ht h

/-! ## Reading the rewritten value along a path -/

theorem walkVals_getElem? (lf : Val → Val → Val) (h : Nat) :
    ∀ (fs gs : List (FieldOf Val)) (i : Nat) (f g : FieldOf Val), fs[i]? = some f →
      gs[i]? = some g →
      (walkVals lf h fs gs)[i]? =
        some (if f.exported then { f with val := walkVal lf h f.val g.val } else f)
  | [], _, _, _, _, hf, _ => by simp at hf
  | _ :: _, [], _, _, _, _, hg => by simp at hg
  | f0 :: r, g0 :: s, 0, f, g, hf, hg => by
      simp only [List.getElem?_cons_zero, Option.some.injEq] at hf hg
      subst hf; subst hg
      simp [walkVals_cons]
  | f0 :: r, g0 :: s, i + 1, f, g, hf, hg => by
      simp only [List.getElem?_cons_succ] at hf hg
      simp only [walkVals_cons, List.getElem?_cons_succ]
      exact walkVals_getElem? lf h r s i f g hf hg

/-- Along an exported path, the rewritten value holds the rewriting of what the
target held there against what the defaults hold there. -/
theorem walkVal_getPath (lf : Val → Val → Val) (h : Nat) (p : List Nat) :
    ∀ (t d x : Val), t.typeOf = d.typeOf → t.exportedPath p = true → t.getPath p = some x →
      ∃ y, d.getPath p = some y ∧ x.typeOf = y.typeOf ∧
        (walkVal lf h t d).getPath p = some (walkVal lf h x y) := by
  induction p with
  | nil =>
    intro t d x ht _ hx
    simp only [Val.getPath, Option.some.injEq] at hx
    subst hx
    exact ⟨d, by simp [Val.getPath], ht, by simp [Val.getPath]⟩
  | cons i p ih =>
    intro t d x ht he hx
    cases t <;> simp [Val.getPath] at hx
    rename_i pk n fs
    obtain ⟨gs, rfl, hfs⟩ := Val.typeOf_struct_inj ht
    cases hf : fs[i]? with
    | none => simp [hf] at hx
    | some f =>
      simp only [hf] at hx
      simp only [Val.exportedPath, hf, Bool.and_eq_true] at he
      obtain ⟨g, hg, _, _, hty⟩ := typeOfFields_getElem? hfs hf
      obtain ⟨y, hy, hxy, hw⟩ := ih f.val g.val x hty.symm he.2 hx
      refine ⟨y, by simp [Val.getPath, hg, hy], hxy, ?_⟩
      rw [walkVal_struct]
      simp only [Val.getPath, walkVals_getElem? lf h fs gs i f g hf hg, he.1, if_true]
      exact hw

/-- Over storage in which every pointer refers to a whole heap struct:
after a successful `SetDefaults(&T, D)` with `T` and `D` of one
struct type, every exported leaf field of `T`, reached through exported nested
struct fields at any depth, holds the corresponding field of `D` if it was zero
before the call, and its own previous value if it was not. -/
theorem root_zero_fill (depth : Nat) (m : Mem) (D : Val) (m' : Mem) (p : List Nat) (x : Val)
    (ht : m.root.typeOf = D.typeOf)
    (h : SetDefaults depth m .rootPtr (some D) = .ok m')
    (he : m.root.exportedPath p = true) (hx : m.root.getPath p = some x)
    (hleaf : x.isRecursed m.heap.length = false) :
    (x.isZero = true → ∃ y, D.getPath p = some y ∧ m'.root.getPath p = some y) ∧
    (x.isZero = false → m'.root.getPath p = some x) := by
  have hroot := SetDefaults_root depth m D m' ht h
  obtain ⟨y, hy, _, hw⟩ := walkVal_getPath fillLeaf m.heap.length p m.root D x ht he hx
  rw [walkVal_leaf fillLeaf y hleaf] at hw
  rw [hroot, fillVal, hw]
  constructor
  · intro hz; exact ⟨y, hy, by simp [fillLeaf, hz]⟩
  · intro hz; simp [fillLeaf, hz]

/-- Over storage in which every pointer refers to a whole heap struct:
after a successful `StripDefaults(&T, D)` with `T` and `D`
of one struct type, every exported leaf field of `T`, at any nesting depth, holds
the zero value of its type if it was deeply equal to the corresponding field of
`D`, and its own previous value if it was not. -/
theorem root_equality_strip (depth : Nat) (m : Mem) (D : Val) (m' : Mem) (p : List Nat) (x : Val)
    (ht : m.root.typeOf = D.typeOf)
    (h : StripDefaults depth m .rootPtr (some D) = .ok m')
    (he : m.root.exportedPath p = true) (hx : m.root.getPath p = some x)
    (hleaf : x.isRecursed m.heap.length = false) :
    ∃ y, D.getPath p = some y ∧
      (x.deepEqual y = true → m'.root.getPath p = some x.typeOf.zero) ∧
      (x.deepEqual y = false → m'.root.getPath p = some x) := by
  have hroot := StripDefaults_root depth m D m' ht h
  obtain ⟨y, hy, _, hw⟩ := walkVal_getPath stripLeafVal m.heap.length p m.root D x ht he hx
  rw [walkVal_leaf stripLeafVal y hleaf] at hw
  rw [hroot, stripVal, hw]
  refine ⟨y, hy, ?_, ?_⟩
  · intro hz; simp [stripLeafVal, hz]
  · intro hz; simp [stripLeafVal, hz]
/-! ## Walks that stay in the root variable return -/

theorem Val.plain_struct_succ (h n : Nat) (pk nm : String) (fs : List (FieldOf Val)) :
    (Val.struct pk nm fs).plain h (n + 1) =
      fs.all (fun f => !f.exported || Val.plain h n f.val) := by
  simp [Val.plain]

theorem Val.plain_not_struct {h n : Nat} {x : Val} (hk : x.Kind ≠ .Struct) :
    x.plain h n = !x.isLivePtr h := by
  cases x <;> simp [Val.Kind] at hk <;> cases n <;> simp [Val.plain]

theorem Val.plain_struct_pos {h n : Nat} {x : Val} (hk : x.Kind = .Struct)
    (hp : x.plain h n = true) : ∃ k, n = k + 1 := by
  cases x <;> simp [Val.Kind] at hk
  cases n with
  | zero => simp [Val.plain] at hp
  | succ k => exact ⟨k, rfl⟩

/-- The loop over a struct of the root variable returns, without touching the
heap, when the fields still to be visited are plain. -/
theorem walkFields_ok {leaf recur : Mem → RValue → RValue → Res} {lf : Val → Val → Val}
    (hspec : LeafSpec leaf lf) (n h : Nat)
    (R1 : ∀ (m : Mem) (q : List Nat) (t d : Val) (m' : Mem), m.root.getPath q = some t →
      t.typeOf = d.typeOf → recur m (.ref .root q false) (.held d false) = .ok m' →
      m.root.setPath q (walkVal lf m.heap.length t d) = some m'.root)
    (S1 : ∀ (m : Mem) (q : List Nat) (t d : Val), m.heap.length = h →
      m.root.getPath q = some t → t.typeOf = d.typeOf → t.Kind = .Struct →
      t.plain h n = true →
      ∃ m', recur m (.ref .root q false) (.held d false) = .ok m' ∧ m'.heap = m.heap)
    (q : List Nat) (pk nm pk' nm' : String) (gs : List (FieldOf Val)) :
    ∀ (j k : Nat) (m : Mem) (fs : List (FieldOf Val)), k + j = fs.length →
      m.heap.length = h → m.root.getPath q = some (.struct pk nm fs) →
      typeOfFields (fs.drop k) = typeOfFields (gs.drop k) →
      (fs.drop k).all (fun f => !f.exported || Val.plain h n f.val) = true →
      ∃ m', walkFields leaf recur (.ref .root q false) (.held (.struct pk' nm' gs) false)
        (List.range' k j) m = .ok m' ∧ m'.heap = m.heap := by
  intro j
  induction j with
  | zero => intro k m fs _ _ _ _ _; exact ⟨m, by simp [walkFields], rfl⟩
  | succ j ih =>
    intro k m fs hk hh hg ht hpl
    have hlt : k < fs.length := by omega
    obtain ⟨f, hf⟩ : ∃ f, fs[k]? = some f := ⟨fs[k], by simp [hlt]⟩
    have hfd := List.drop_of_getElem? hf
    rw [hfd] at ht hpl
    cases hgd : gs.drop k with
    | nil => rw [hgd] at ht; simp [typeOfFields] at ht
    | cons g s =>
      obtain ⟨hgk, hs⟩ := List.drop_cons_inv hgd
      rw [hgd] at ht
      simp only [typeOfFields, List.cons.injEq, FieldOf.mk.injEq] at ht
      obtain ⟨⟨_, hexp, hty⟩, hrest⟩ := ht
      subst hs
      simp only [List.all_cons, Bool.and_eq_true] at hpl
      obtain ⟨hpf, hpr⟩ := hpl
      have hvF : (RValue.ref .root q false).Field m k =
          .ok (.ref .root (q ++ [k]) (false || !f.exported)) :=
        RValue.Field_of_read (b := .root) hg hf
      have hdF : (RValue.held (.struct pk' nm' gs) false).Field m k =
          .ok (.held g.val (false || !g.exported)) := RValue.Field_held hgk
      rw [List.range'_succ]
      -- the rest of the loop, once field `k` has been rewritten to `w`
      have cont : ∀ (w : Val) (m1 : Mem), m.root.setPath (q ++ [k]) w = some m1.root →
          m1.heap = m.heap →
          ∃ m', walkFields leaf recur (.ref .root q false) (.held (.struct pk' nm' gs) false)
            (List.range' (k + 1) j) m1 = .ok m' ∧ m'.heap = m.heap := by
        intro w m1 hset hheap
        rw [Val.setPath_snoc hg hf w] at hset
        have hg1 := Val.getPath_setPath hset
        obtain ⟨m', hm', hh'⟩ := ih (k + 1) m1 (fs.set k { f with val := w })
          (by simp only [List.length_set]; omega) (by rw [hheap]; exact hh) hg1
          (by rw [List.drop_succ_set]; exact hrest) (by rw [List.drop_succ_set]; exact hpr)
        exact ⟨m', hm', hh'.trans hheap⟩
      by_cases hex : f.exported = true
      case neg =>
        have hcs : (RValue.ref Base.root (q ++ [k]) (false || !f.exported)).CanSet = false := by
          simp [RValue.CanSet, hex]
        rw [walkFields_cons_skip hvF hdF hcs]
        exact ih (k + 1) m fs (by omega) hh hg hrest hpr
      case pos =>
        have hgex : g.exported = true := by rw [← hexp, hex]
        simp only [hex, hgex, Bool.not_true, Bool.or_false] at hvF hdF
        simp only [hex, Bool.not_true, Bool.false_or] at hpf
        have hcs : (RValue.ref Base.root (q ++ [k]) false).CanSet = true := rfl
        have hload : (RValue.ref Base.root (q ++ [k]) false).load m = some f.val :=
          Val.getPath_snoc hg hf
        have hdload : (RValue.held g.val false).load m = some g.val := rfl
        have hvalid := toStruct_valid_iff hload
        by_cases hkd : f.val.Kind = .Struct
        · have hrec : f.val.isRecursed m.heap.length = true := by
            simp [Val.isRecursed, hkd]
          rw [hrec] at hvalid
          have hgk' : g.val.Kind = .Struct := by
            rw [← Val.typeOf_Kind, ← hty, Val.typeOf_Kind]; exact hkd
          rw [walkFields_cons_recur hvF hdF hcs hvalid, toStruct_of_struct hload hkd,
            toStruct_of_struct hdload hgk']
          obtain ⟨m1, hm1, hh1⟩ := S1 m (q ++ [k]) f.val g.val hh hload hty hkd hpf
          rw [hm1]
          exact cont _ m1 (R1 m (q ++ [k]) f.val g.val m1 hload hty hm1) hh1
        · rw [Val.plain_not_struct hkd] at hpf
          have hrec : f.val.isRecursed m.heap.length = false := by
            simp only [Val.isRecursed, Bool.or_eq_false_iff, beq_eq_false_iff_ne]
            rw [hh]
            exact ⟨hkd, by simpa using hpf⟩
          rw [hrec] at hvalid
          rw [walkFields_cons_leaf hvF hdF hcs hvalid]
          obtain ⟨r, hr, hleaf⟩ := hspec m (q ++ [k]) f.val g.val hload hrec hty.symm
          rw [hleaf]
          exact cont _ { m with root := r } hr rfl

/-- A walk of stack depth `n` over a plain struct of the root variable returns and
leaves the heap as it was. -/
theorem walkStruct_ok {leaf : Mem → RValue → RValue → Res} {lf : Val → Val → Val}
    (hspec : LeafSpec leaf lf)
    (hlo : ∀ m vf df, RValue.offRoot vf → (leaf m vf df).mem.root = m.root)
    (hll : ∀ m vf df, (leaf m vf df).mem.heap.length = m.heap.length) (h : Nat) :
    ∀ (n : Nat) (m : Mem) (q : List Nat) (t d : Val), m.heap.length = h →
      m.root.getPath q = some t → t.typeOf = d.typeOf → t.Kind = .Struct →
      t.plain h n = true →
      ∃ m', walkStruct leaf n m (.ref .root q false) (.held d false) = .ok m' ∧
        m'.heap = m.heap := by
  intro n
  induction n with
  | zero =>
    intro m q t d _ _ _ hk hp
    obtain ⟨k, hk'⟩ := Val.plain_struct_pos hk hp
    omega
  | succ n ih =>
    intro m q t d hh hg ht hk hp
    cases t <;> simp [Val.Kind] at hk
    rename_i pk nm fs
    obtain ⟨gs, rfl, hfs⟩ := Val.typeOf_struct_inj ht
    rw [Val.plain_struct_succ] at hp
    have hload : (RValue.ref Base.root q false).load m = some (.struct pk nm fs) := hg
    unfold walkStruct
    simp only [RValue.NumField, hload, List.range_eq_range']
    exact walkFields_ok hspec n h
      (walkStruct_root hspec hlo hll n) ih q pk nm pk nm gs fs.length 0 m fs (by omega) hh hg
      (by simpa using hfs) (by simpa using hp)

/-! ## Composing walks -/

theorem walkVal_not_struct (lf : Val → Val → Val) (h : Nat) {x : Val} (d : Val)
    (hk : x.Kind ≠ .Struct) : walkVal lf h x d = if x.isLivePtr h then x else lf x d := by
  cases x <;> simp [Val.Kind] at hk <;> simp [walkVal]

theorem leavesAll_not_struct (P : Val → Val → Bool) (h : Nat) {x : Val} (d : Val)
    (hk : x.Kind ≠ .Struct) : leavesAll P h x d = (x.isLivePtr h || P x d) := by
  cases x <;> simp [Val.Kind] at hk <;> simp [leavesAll]

theorem leavesAll_struct (P : Val → Val → Bool) (h : Nat) (p n q k : String)
    (fs gs : List (FieldOf Val)) :
    leavesAll P h (.struct p n fs) (.struct q k gs) = leavesAllFields P h fs gs := by
  simp [leavesAll]

theorem leavesAllFields_cons (P : Val → Val → Bool) (h : Nat) (f g : FieldOf Val)
    (r s : List (FieldOf Val)) :
    leavesAllFields P h (f :: r) (g :: s) =
      ((!f.exported || leavesAll P h f.val g.val) && leavesAllFields P h r s) := by
  simp [leavesAllFields]

theorem Val.struct_of_Kind {x : Val} (hk : x.Kind = .Struct) :
    ∃ pk nm fs, x = .struct pk nm fs := by
  cases x <;> simp [Val.Kind] at hk
  exact ⟨_, _, _, rfl⟩

theorem walkVal_comp_leaf (lf1 lf2 lf3 : Val → Val → Val) (h : Nat) (P : Val → Val → Bool)
    (hleaf : ∀ x g, x.Kind ≠ .Struct → x.isLivePtr h = false → x.typeOf = g.typeOf →
      P x g = true → (lf1 x g).Kind ≠ .Struct ∧
        (if (lf1 x g).isLivePtr h then lf1 x g else lf2 (lf1 x g) g) = lf3 x g)
    (t d : Val) (hk : t.Kind ≠ .Struct) (ht : t.typeOf = d.typeOf)
    (hl : leavesAll P h t d = true) :
    walkVal lf2 h (walkVal lf1 h t d) d = walkVal lf3 h t d := by
  rw [leavesAll_not_struct P h d hk] at hl
  rw [walkVal_not_struct lf1 h d hk, walkVal_not_struct lf3 h d hk]
  cases hlive : t.isLivePtr h with
  | true =>
    simp only [if_true]
    rw [walkVal_not_struct lf2 h d hk, hlive]
    simp
  | false =>
    rw [hlive, Bool.false_or] at hl
    obtain ⟨h1, h2⟩ := hleaf t d hk hlive ht hl
    simp only [Bool.false_eq_true, if_false]
    rw [walkVal_not_struct lf2 h d h1, h2]

mutual
/-- Two walks in a row amount to one walk with the leaf rule `lf3`, on every value. -/
theorem walkVal_comp_gen (lf1 lf2 lf3 : Val → Val → Val) (h : Nat) (P : Val → Val → Bool)
    (hleaf : ∀ x g, x.Kind ≠ .Struct → x.isLivePtr h = false → x.typeOf = g.typeOf →
      P x g = true → (lf1 x g).Kind ≠ .Struct ∧
        (if (lf1 x g).isLivePtr h then lf1 x g else lf2 (lf1 x g) g) = lf3 x g) :
    ∀ (t d : Val), t.typeOf = d.typeOf → leavesAll P h t d = true →
      walkVal lf2 h (walkVal lf1 h t d) d = walkVal lf3 h t d
  | .struct pk nm fs, d, ht, hl => by
      obtain ⟨gs, rfl, hfs⟩ := Val.typeOf_struct_inj ht
      rw [leavesAll_struct] at hl
      simp only [walkVal_struct]
      rw [walkVals_comp_gen lf1 lf2 lf3 h P hleaf fs gs hfs hl]
  | .int a, d, ht, hl =>
      walkVal_comp_leaf lf1 lf2 lf3 h P hleaf _ d (by simp [Val.Kind]) ht hl
  | .str a, d, ht, hl =>
      walkVal_comp_leaf lf1 lf2 lf3 h P hleaf _ d (by simp [Val.Kind]) ht hl
  | .bool a, d, ht, hl =>
      walkVal_comp_leaf lf1 lf2 lf3 h P hleaf _ d (by simp [Val.Kind]) ht hl
  | .float a, d, ht, hl =>
      walkVal_comp_leaf lf1 lf2 lf3 h P hleaf _ d (by simp [Val.Kind]) ht hl
  | .ints a, d, ht, hl =>
      walkVal_comp_leaf lf1 lf2 lf3 h P hleaf _ d (by simp [Val.Kind]) ht hl
  | .mapIS a, d, ht, hl =>
      walkVal_comp_leaf lf1 lf2 lf3 h P hleaf _ d (by simp [Val.Kind]) ht hl
  | .ptr e a, d, ht, hl =>
      walkVal_comp_leaf lf1 lf2 lf3 h P hleaf _ d (by simp [Val.Kind]) ht hl
/-- The same, for the fields of two structs. -/
theorem walkVals_comp_gen (lf1 lf2 lf3 : Val → Val → Val) (h : Nat) (P : Val → Val → Bool)
    (hleaf : ∀ x g, x.Kind ≠ .Struct → x.isLivePtr h = false → x.typeOf = g.typeOf →
      P x g = true → (lf1 x g).Kind ≠ .Struct ∧
        (if (lf1 x g).isLivePtr h then lf1 x g else lf2 (lf1 x g) g) = lf3 x g) :
    ∀ (fs gs : List (FieldOf Val)), typeOfFields fs = typeOfFields gs →
      leavesAllFields P h fs gs = true →
      walkVals lf2 h (walkVals lf1 h fs gs) gs = walkVals lf3 h fs gs
  | [], gs, _, _ => by simp [walkVals_nil]
  | f :: r, [], hfs, _ => by simp [typeOfFields] at hfs
  | f :: r, g :: s, hfs, hl => by
      simp only [typeOfFields, List.cons.injEq, FieldOf.mk.injEq] at hfs
      obtain ⟨⟨_, _, hty⟩, hrest⟩ := hfs
      rw [leavesAllFields_cons, Bool.and_eq_true] at hl
      simp only [walkVals_cons]
      rw [walkVals_comp_gen lf1 lf2 lf3 h P hleaf r s hrest hl.2]
      congr 1
      by_cases hex : f.exported = true
      · have hlf := hl.1
        simp only [hex, Bool.not_true, Bool.false_or] at hlf
        simp only [hex, if_true]
        rw [walkVal_comp_gen lf1 lf2 lf3 h P hleaf f.val g.val hty hlf]
      · simp [hex]
end

mutual
/-- A walk whose leaf rule keeps every leaf keeps every value. -/
theorem walkVal_id_gen (h : Nat) :
    ∀ (t d : Val), t.typeOf = d.typeOf → walkVal (fun x _ => x) h t d = t
  | .struct pk nm fs, d, ht => by
      obtain ⟨gs, rfl, hfs⟩ := Val.typeOf_struct_inj ht
      rw [walkVal_struct, walkVals_id_gen h fs gs hfs]
  | .int a, d, _ => by rw [walkVal_not_struct _ h d (by simp [Val.Kind])]; simp
  | .str a, d, _ => by rw [walkVal_not_struct _ h d (by simp [Val.Kind])]; simp
  | .bool a, d, _ => by rw [walkVal_not_struct _ h d (by simp [Val.Kind])]; simp
  | .float a, d, _ => by rw [walkVal_not_struct _ h d (by simp [Val.Kind])]; simp
  | .ints a, d, _ => by rw [walkVal_not_struct _ h d (by simp [Val.Kind])]; simp
  | .mapIS a, d, _ => by rw [walkVal_not_struct _ h d (by simp [Val.Kind])]; simp
  | .ptr e a, d, _ => by rw [walkVal_not_struct _ h d (by simp [Val.Kind])]; simp
/-- The same, for the fields of two structs. -/
theorem walkVals_id_gen (h : Nat) :
    ∀ (fs gs : List (FieldOf Val)), typeOfFields fs = typeOfFields gs →
      walkVals (fun x _ => x) h fs gs = fs
  | [], gs, _ => by simp [walkVals_nil]
  | f :: r, [], hfs => by simp [typeOfFields] at hfs
  | f :: r, g :: s, hfs => by
      simp only [typeOfFields, List.cons.injEq, FieldOf.mk.injEq] at hfs
      obtain ⟨⟨_, _, hty⟩, hrest⟩ := hfs
      simp only [walkVals_cons]
      rw [walkVals_id_gen h r s hrest]
      congr 1
      by_cases hex : f.exported = true
      · rw [if_pos hex, walkVal_id_gen h f.val g.val hty, FieldOf.with_val_self]
      · simp [hex]
end

mutual
theorem leavesAll_true (h : Nat) : ∀ (t d : Val), leavesAll (fun _ _ => true) h t d = true
  | .struct _ _ fs, .struct _ _ gs => by
      rw [leavesAll_struct]; exact leavesAllFields_true h fs gs
  | .struct _ _ _, .int _ => by simp [leavesAll]
  | .struct _ _ _, .str _ => by simp [leavesAll]
  | .struct _ _ _, .bool _ => by simp [leavesAll]
  | .struct _ _ _, .float _ => by simp [leavesAll]
  | .struct _ _ _, .ints _ => by simp [leavesAll]
  | .struct _ _ _, .mapIS _ => by simp [leavesAll]
  | .struct _ _ _, .ptr _ _ => by simp [leavesAll]
  | .int _, _ => by simp [leavesAll]
  | .str _, _ => by simp [leavesAll]
  | .bool _, _ => by simp [leavesAll]
  | .float _, _ => by simp [leavesAll]
  | .ints _, _ => by simp [leavesAll]
  | .mapIS _, _ => by simp [leavesAll]
  | .ptr _ _, _ => by simp [leavesAll]
theorem leavesAllFields_true (h : Nat) :
    ∀ (fs gs : List (FieldOf Val)), leavesAllFields (fun _ _ => true) h fs gs = true
  | [], _ => by simp [leavesAllFields]
  | _ :: _, [] => by simp [leavesAllFields]
  | f :: r, g :: s => by
      rw [leavesAllFields_cons, leavesAll_true h f.val g.val, leavesAllFields_true h r s]
      simp
end

/-- A walk keeps a plain value plain when its leaf rule never produces a struct or
a live pointer at a leaf that satisfies `Q`. -/
theorem walkVal_plain (lf : Val → Val → Val) (h : Nat) (Q : Val → Val → Bool)
    (hleaf : ∀ x g, x.Kind ≠ .Struct → x.isLivePtr h = false → x.typeOf = g.typeOf →
      Q x g = true → (lf x g).Kind ≠ .Struct ∧ (lf x g).isLivePtr h = false) :
    ∀ (n : Nat) (t d : Val), t.typeOf = d.typeOf → t.plain h n = true →
      leavesAll Q h t d = true → (walkVal lf h t d).plain h n = true := by
  intro n
  induction n with
  | zero =>
    intro t d ht hp hl
    by_cases hk : t.Kind = .Struct
    · obtain ⟨k, hk'⟩ := Val.plain_struct_pos hk hp
      omega
    · rw [Val.plain_not_struct hk] at hp
      have hnl : t.isLivePtr h = false := by simpa using hp
      rw [leavesAll_not_struct Q h d hk, hnl, Bool.false_or] at hl
      obtain ⟨h1, h2⟩ := hleaf t d hk hnl ht hl
      rw [walkVal_not_struct lf h d hk, hnl]
      simp only [Bool.false_eq_true, if_false]
      rw [Val.plain_not_struct h1, h2]; rfl
  | succ n ih =>
    intro t d ht hp hl
    by_cases hk : t.Kind = .Struct
    · obtain ⟨pk, nm, fs, rfl⟩ := Val.struct_of_Kind hk
      obtain ⟨gs, rfl, hfs⟩ := Val.typeOf_struct_inj ht
      rw [Val.plain_struct_succ] at hp
      rw [leavesAll_struct] at hl
      rw [walkVal_struct, Val.plain_struct_succ]
      have key : ∀ (fs gs : List (FieldOf Val)), typeOfFields fs = typeOfFields gs →
          fs.all (fun f => !f.exported || Val.plain h n f.val) = true →
          leavesAllFields Q h fs gs = true →
          (walkVals lf h fs gs).all (fun f => !f.exported || Val.plain h n f.val) = true := by
        intro fs
        induction fs with
        | nil => intro gs _ _ _; simp [walkVals_nil]
        | cons f r ihr =>
          intro gs hfs hp hl
          cases gs with
          | nil => simp [typeOfFields] at hfs
          | cons g s =>
            simp only [typeOfFields, List.cons.injEq, FieldOf.mk.injEq] at hfs
            obtain ⟨⟨_, _, hty⟩, hrest⟩ := hfs
            simp only [List.all_cons, Bool.and_eq_true] at hp
            rw [leavesAllFields_cons, Bool.and_eq_true] at hl
            simp only [walkVals_cons, List.all_cons, Bool.and_eq_true]
            refine ⟨?_, ihr s hrest hp.2 hl.2⟩
            by_cases hex : f.exported = true
            · have hpf := hp.1
              have hlf := hl.1
              simp only [hex, Bool.not_true, Bool.false_or] at hpf hlf
              simp only [hex, if_true, Bool.not_true, Bool.false_or]
              exact ih f.val g.val hty hpf hlf
            · simp [hex]
      exact key fs gs hfs hp hl
    · rw [Val.plain_not_struct hk] at hp
      have hnl : t.isLivePtr h = false := by simpa using hp
      rw [leavesAll_not_struct Q h d hk, hnl, Bool.false_or] at hl
      obtain ⟨h1, h2⟩ := hleaf t d hk hnl ht hl
      rw [walkVal_not_struct lf h d hk, hnl]
      simp only [Bool.false_eq_true, if_false]
      rw [Val.plain_not_struct h1, h2]; rfl

/-- On two plain values of one type, every exported leaf of the second is no live
pointer. -/
theorem leavesAll_of_plain (h : Nat) (P : Val → Val → Bool)
    (hP : ∀ x g, x.Kind ≠ .Struct → x.typeOf = g.typeOf → g.isLivePtr h = false →
      P x g = true) :
    ∀ (n : Nat) (t d : Val), t.typeOf = d.typeOf → t.plain h n = true →
      d.plain h n = true → leavesAll P h t d = true := by
  intro n
  induction n with
  | zero =>
    intro t d ht hp hd
    by_cases hk : t.Kind = .Struct
    · obtain ⟨k, hk'⟩ := Val.plain_struct_pos hk hp
      omega
    · have hkd : d.Kind ≠ .Struct := by
        rw [← Val.typeOf_Kind, ← ht, Val.typeOf_Kind]; exact hk
      rw [Val.plain_not_struct hkd] at hd
      rw [leavesAll_not_struct P h d hk, hP t d hk ht (by simpa using hd)]
      simp
  | succ n ih =>
    intro t d ht hp hd
    by_cases hk : t.Kind = .Struct
    · obtain ⟨pk, nm, fs, rfl⟩ := Val.struct_of_Kind hk
      obtain ⟨gs, rfl, hfs⟩ := Val.typeOf_struct_inj ht
      rw [Val.plain_struct_succ] at hp hd
      rw [leavesAll_struct]
      have key : ∀ (fs gs : List (FieldOf Val)), typeOfFields fs = typeOfFields gs →
          fs.all (fun f => !f.exported || Val.plain h n f.val) = true →
          gs.all (fun f => !f.exported || Val.plain h n f.val) = true →
          leavesAllFields P h fs gs = true := by
        intro fs
        induction fs with
        | nil => intro gs _ _ _; simp [leavesAllFields]
        | cons f r ihr =>
          intro gs hfs hp hd
          cases gs with
          | nil => simp [typeOfFields] at hfs
          | cons g s =>
            simp only [typeOfFields, List.cons.injEq, FieldOf.mk.injEq] at hfs
            obtain ⟨⟨_, hexp, hty⟩, hrest⟩ := hfs
            simp only [List.all_cons, Bool.and_eq_true] at hp hd
            rw [leavesAllFields_cons, Bool.and_eq_true]
            refine ⟨?_, ihr s hrest hp.2 hd.2⟩
            by_cases hex : f.exported = true
            · have hpf := hp.1
              have hdf := hd.1
              simp only [hex, ← hexp, Bool.not_true, Bool.false_or] at hpf hdf
              simp only [hex, Bool.not_true, Bool.false_or]
              exact ih f.val g.val hty hpf hdf
            · simp [hex]
      exact key fs gs hfs hp hd
    · have hkd : d.Kind ≠ .Struct := by
        rw [← Val.typeOf_Kind, ← ht, Val.typeOf_Kind]; exact hk
      rw [Val.plain_not_struct hkd] at hd
      rw [leavesAll_not_struct P h d hk, hP t d hk ht (by simpa using hd)]
      simp
/-! ## Leaf rules -/

theorem Val.eq_of_deepEqual_leaf {x g : Val} (hk : x.Kind ≠ .Struct)
    (h : x.deepEqual g = true) : x = g := by
  cases x <;> simp [Val.Kind] at hk <;> cases g <;> simp [Val.deepEqual] at h
  all_goals first
    | (subst h; rfl)
    | (obtain ⟨h1, h2⟩ := h; subst h2; rfl)
    | (obtain ⟨h1, h2⟩ := h; have := (Ty.beq_iff _ _).mp h1; subst this; subst h2; rfl)

theorem Val.zero_leaf {x : Val} (hk : x.Kind ≠ .Struct) (h : Nat) :
    x.typeOf.zero.Kind ≠ .Struct ∧ x.typeOf.zero.isLivePtr h = false ∧
      x.typeOf.zero.isZero = true := by
  cases x <;> simp [Val.Kind] at hk <;>
    simp [Val.typeOf, Ty.zero, Val.Kind, Val.isLivePtr, Val.isZero]

theorem Val.Kind_of_typeOf_eq {x g : Val} (h : x.typeOf = g.typeOf) : x.Kind = g.Kind := by
  rw [← Val.typeOf_Kind, h, Val.typeOf_Kind]

theorem stripLeafVal_plain (h : Nat) (x g : Val) (hk : x.Kind ≠ .Struct)
    (hl : x.isLivePtr h = false) :
    (stripLeafVal x g).Kind ≠ .Struct ∧ (stripLeafVal x g).isLivePtr h = false := by
  unfold stripLeafVal
  split
  · exact ⟨(Val.zero_leaf hk h).1, (Val.zero_leaf hk h).2.1⟩
  · exact ⟨hk, hl⟩

theorem fillLeaf_plain (h : Nat) (x g : Val) (hk : x.Kind ≠ .Struct)
    (hl : x.isLivePtr h = false) (ht : x.typeOf = g.typeOf) (hg : g.isLivePtr h = false) :
    (fillLeaf x g).Kind ≠ .Struct ∧ (fillLeaf x g).isLivePtr h = false := by
  unfold fillLeaf
  split
  · exact ⟨by rw [← Val.Kind_of_typeOf_eq ht]; exact hk, hg⟩
  · exact ⟨hk, hl⟩

/-- Filling after stripping gives the leaf back, unless it was zero while
differing from the default. -/
theorem fill_strip_leaf (h : Nat) (x g : Val) (hk : x.Kind ≠ .Struct)
    (hl : x.isLivePtr h = false) (hP : (!x.isZero || x.deepEqual g) = true) :
    (stripLeafVal x g).Kind ≠ .Struct ∧
      (if (stripLeafVal x g).isLivePtr h then stripLeafVal x g
        else fillLeaf (stripLeafVal x g) g) = x := by
  refine ⟨(stripLeafVal_plain h x g hk hl).1, ?_⟩
  rw [(stripLeafVal_plain h x g hk hl).2]
  simp only [Bool.false_eq_true, if_false]
  unfold stripLeafVal fillLeaf
  cases hde : x.deepEqual g with
  | true =>
    simp only [if_true, (Val.zero_leaf hk h).2.2]
    exact (Val.eq_of_deepEqual_leaf hk hde).symm
  | false =>
    simp only [hde, Bool.or_false, Bool.not_eq_true'] at hP
    simp [hP]

/-- Filling twice is filling once. -/
theorem fill_fill_leaf (h : Nat) (x g : Val) (hk : x.Kind ≠ .Struct)
    (ht : x.typeOf = g.typeOf) :
    (fillLeaf x g).Kind ≠ .Struct ∧
      (if (fillLeaf x g).isLivePtr h then fillLeaf x g
        else fillLeaf (fillLeaf x g) g) = fillLeaf x g := by
  constructor
  · unfold fillLeaf
    split
    · rw [← Val.Kind_of_typeOf_eq ht]; exact hk
    · exact hk
  · split
    · rfl
    · unfold fillLeaf
      cases hz : x.isZero with
      | true => simp
      | false => simp [hz]

/-! ## Calls on a plain target -/

theorem validationError_rootPtr {m : Mem} {D : Val} (hk : m.root.Kind = .Struct)
    (ht : m.root.typeOf = D.typeOf) : validationError m .rootPtr (some D) = none := by
  have hkd : D.Kind = .Struct := by rw [← Val.Kind_of_typeOf_eq ht]; exact hk
  have h1 : Arg.TypeOf m .rootPtr = some (.ptr m.root.typeOf) := rfl
  have h2 : (Arg.Elem m .rootPtr).Kind m = m.root.Kind := by
    simp [Arg.Elem, RValue.Kind, RValue.load, Mem.read_root, Val.getPath]
  have h3 : D.typeOf.Kind = .Struct := by rw [Val.typeOf_Kind]; exact hkd
  have h4 : (Ty.ptr m.root.typeOf).Kind = .Ptr := rfl
  unfold validationError
  simp only [h1, h2, hk, h3, h4, Ty.Elem, ht]
  simp [Ty.Kind]

/-- A call of stack depth `depth` on a plain target returns, leaves the heap as it
was and the rewritten value in the target. -/
theorem entry_plain_ok {leaf : Mem → RValue → RValue → Res} {lf : Val → Val → Val}
    (hspec : LeafSpec leaf lf)
    (hlo : ∀ m vf df, RValue.offRoot vf → (leaf m vf df).mem.root = m.root)
    (hll : ∀ m vf df, (leaf m vf df).mem.heap.length = m.heap.length)
    (depth : Nat) (m : Mem) (D : Val) (hk : m.root.Kind = .Struct)
    (ht : m.root.typeOf = D.typeOf) (hp : m.root.plain m.heap.length depth = true) :
    entry (walkStruct leaf depth) m .rootPtr (some D) =
      .ok ⟨walkVal lf m.heap.length m.root D, m.heap⟩ := by
  obtain ⟨dv, hd, he⟩ :=
    entry_of_validationError_none (validationError_rootPtr hk ht) (walkStruct leaf depth)
  cases hd
  rw [he]
  obtain ⟨m', hm', hh⟩ := walkStruct_ok hspec hlo hll m.heap.length depth m [] m.root D rfl
    (by simp [Val.getPath]) ht hk hp
  have hr := walkStruct_root hspec hlo hll depth m [] m.root D m' (by simp [Val.getPath]) ht hm'
  simp only [Val.setPath, Option.some.injEq] at hr
  simp only [Arg.Elem]
  rw [hm']
  cases m'
  simp only at hr hh
  rw [hr, hh]

theorem SetDefaults_plain (depth : Nat) (m : Mem) (D : Val) (hk : m.root.Kind = .Struct)
    (ht : m.root.typeOf = D.typeOf) (hp : m.root.plain m.heap.length depth = true) :
    SetDefaults depth m .rootPtr (some D) = .ok ⟨fillVal m.heap.length m.root D, m.heap⟩ := by
  rw [SetDefaults_eq_entry]
  exact entry_plain_ok setLeaf_spec setLeaf_offRoot setLeaf_heap_length depth m D hk ht hp

theorem StripDefaults_plain (depth : Nat) (m : Mem) (D : Val) (hk : m.root.Kind = .Struct)
    (ht : m.root.typeOf = D.typeOf) (hp : m.root.plain m.heap.length depth = true) :
    StripDefaults depth m .rootPtr (some D) = .ok ⟨stripVal m.heap.length m.root D, m.heap⟩ := by
  rw [StripDefaults_eq_entry]
  exact entry_plain_ok stripLeaf_spec stripLeaf_offRoot stripLeaf_heap_length depth m D hk ht hp
/-! ## Round trip and idempotence -/

/-- C3 as stated fails.  Target and defaults are of one type and share the struct
`N{X: 1}` behind `P`; no field of the target is zero.  `StripDefaults` succeeds and
zeroes `X` through the shared pointer, `SetDefaults` succeeds and finds the default
`X` zero as well: the target's `P.X` ends as `0`, not `1`. -/
theorem round_trip_counterexample :
    sharedMem.root.typeOf = sharedDefaults.typeOf ∧
    noZeroOverride sharedMem.heap.length sharedMem.root sharedDefaults = true ∧
    sharedMem.read (.obj 0) [0] = some (.int 1) ∧
    (StripDefaults 4 sharedMem .rootPtr (some sharedDefaults)).err = none ∧
    (SetDefaults 4 (StripDefaults 4 sharedMem .rootPtr (some sharedDefaults)).mem .rootPtr
      (some sharedDefaults)).err = none ∧
    (SetDefaults 4 (StripDefaults 4 sharedMem .rootPtr (some sharedDefaults)).mem .rootPtr
      (some sharedDefaults)).mem.read (.obj 0) [0] = some (.int 0) := by
  refine ⟨rfl, rfl, rfl, rfl, rfl, rfl⟩

/-- Over storage in which every pointer refers to a whole heap struct:
let the target `T` be a struct of the type of the defaults `D`,
and let no exported leaf field of `T` be zero while differing from the
corresponding field of `D`.  Whenever `StripDefaults(&T, D)` and then
`SetDefaults(&T, D)` both succeed, every field of `T` itself holds what it held at
first (a pointer field its old address; the struct behind it is not covered).  When
moreover `T` holds no live pointer in an exported field and nests fewer than `depth`
structs, both calls do succeed and the whole storage is exactly what it was. -/
theorem root_round_trip (depth : Nat) (m : Mem) (D : Val) (hk : m.root.Kind = .Struct)
    (ht : m.root.typeOf = D.typeOf)
    (hz : noZeroOverride m.heap.length m.root D = true) :
    (∀ d1 d2 m1 m2, StripDefaults d1 m .rootPtr (some D) = .ok m1 →
      SetDefaults d2 m1 .rootPtr (some D) = .ok m2 → m2.root = m.root) ∧
    (m.root.plain m.heap.length depth = true →
      ∃ m1, StripDefaults depth m .rootPtr (some D) = .ok m1 ∧
        SetDefaults depth m1 .rootPtr (some D) = .ok m) := by
  have hcomp : fillVal m.heap.length (stripVal m.heap.length m.root D) D = m.root := by
    simp only [fillVal, stripVal]
    rw [walkVal_comp_gen stripLeafVal fillLeaf (fun x _ => x) m.heap.length _
      (fun x g hkx hl _ hP => fill_strip_leaf m.heap.length x g hkx hl hP) m.root D ht hz,
      walkVal_id_gen m.heap.length m.root D ht]
  constructor
  · intro d1 d2 m1 m2 h1 h2
    have hfr := StripDefaults_frame d1 m .rootPtr (some D)
    rw [h1] at hfr
    have hr1 := StripDefaults_root d1 m D m1 ht h1
    have hr2 := SetDefaults_root d2 m1 D m2 (hfr.1.1.trans ht) h2
    have hlen : m1.heap.length = m.heap.length := hfr.2.1
    rw [hr2, hlen, hr1, hcomp]
  · intro hp
    have h1 := StripDefaults_plain depth m D hk ht hp
    refine ⟨_, h1, ?_⟩
    have hfr := StripDefaults_frame depth m .rootPtr (some D)
    rw [h1] at hfr
    have hty : (stripVal m.heap.length m.root D).typeOf = m.root.typeOf := hfr.1.1
    have hp1 : (stripVal m.heap.length m.root D).plain m.heap.length depth = true :=
      walkVal_plain stripLeafVal m.heap.length _
        (fun x g hkx hl _ _ => stripLeafVal_plain m.heap.length x g hkx hl)
        depth m.root D ht hp hz
    rw [SetDefaults_plain depth ⟨stripVal m.heap.length m.root D, m.heap⟩ D
      (by rw [← Val.typeOf_Kind, hty, Val.typeOf_Kind]; exact hk) (hty.trans ht) hp1]
    simp only [hcomp]

/-- C4 as stated fails.  The target's `Q` and the defaults' `P` point at the same
struct.  The first `SetDefaults` succeeds, leaving `P.X = 0` and filling that shared
struct through `Q`; the second succeeds too and now fills `P.X` with `5`. -/
theorem set_idempotent_counterexample :
    aliasMem.root.typeOf = aliasDefaults.typeOf ∧
    (SetDefaults 4 aliasMem .rootPtr (some aliasDefaults)).err = none ∧
    (SetDefaults 4 aliasMem .rootPtr (some aliasDefaults)).mem.read (.obj 0) [0]
      = some (.int 0) ∧
    (SetDefaults 4 (SetDefaults 4 aliasMem .rootPtr (some aliasDefaults)).mem .rootPtr
      (some aliasDefaults)).err = none ∧
    (SetDefaults 4 (SetDefaults 4 aliasMem .rootPtr (some aliasDefaults)).mem .rootPtr
      (some aliasDefaults)).mem.read (.obj 0) [0] = some (.int 5) := by
  refine ⟨rfl, rfl, rfl, rfl, rfl⟩

/-- Over storage in which every pointer refers to a whole heap struct:
let the target `T` be a struct of the type of the defaults `D`.
Whenever `SetDefaults(&T, D)` succeeds and a second `SetDefaults(&T, D)` succeeds,
the second call leaves every field of `T` itself as the first call left it (a
pointer field its address; the struct behind it is not covered).  When moreover
neither `T` nor `D` holds a live pointer in an exported field and both nest fewer
than `depth` structs, the first call succeeds, the second succeeds as well, and it
leaves the whole storage exactly as the first call left it. -/
theorem root_set_idempotent (depth : Nat) (m : Mem) (D : Val) (hk : m.root.Kind = .Struct)
    (ht : m.root.typeOf = D.typeOf) :
    (∀ d1 d2 m1 m2, SetDefaults d1 m .rootPtr (some D) = .ok m1 →
      SetDefaults d2 m1 .rootPtr (some D) = .ok m2 → m2.root = m1.root) ∧
    (m.root.plain m.heap.length depth = true → D.plain m.heap.length depth = true →
      ∃ m1, SetDefaults depth m .rootPtr (some D) = .ok m1 ∧
        SetDefaults depth m1 .rootPtr (some D) = .ok m1) := by
  have hcomp : fillVal m.heap.length (fillVal m.heap.length m.root D) D
      = fillVal m.heap.length m.root D := by
    simp only [fillVal]
    exact walkVal_comp_gen fillLeaf fillLeaf fillLeaf m.heap.length _
      (fun x g hkx _ htx _ => fill_fill_leaf m.heap.length x g hkx htx) m.root D ht
      (leavesAll_true m.heap.length m.root D)
  constructor
  · intro d1 d2 m1 m2 h1 h2
    have hfr := SetDefaults_frame d1 m .rootPtr (some D)
    rw [h1] at hfr
    have hr1 := SetDefaults_root d1 m D m1 ht h1
    have hr2 := SetDefaults_root d2 m1 D m2 (hfr.1.1.trans ht) h2
    have hlen : m1.heap.length = m.heap.length := hfr.2.1
    rw [hr2, hlen, hr1, hcomp]
  · intro hp hd
    have h1 := SetDefaults_plain depth m D hk ht hp
    refine ⟨_, h1, ?_⟩
    have hfr := SetDefaults_frame depth m .rootPtr (some D)
    rw [h1] at hfr
    have hty : (fillVal m.heap.length m.root D).typeOf = m.root.typeOf := hfr.1.1
    have hl : leavesAll (fun _ g => !g.isLivePtr m.heap.length) m.heap.length m.root D
        = true :=
      leavesAll_of_plain m.heap.length _ (fun x g _ _ hg => by simp [hg]) depth m.root D
        ht hp hd
    have hp1 : (fillVal m.heap.length m.root D).plain m.heap.length depth = true :=
      walkVal_plain fillLeaf m.heap.length _
        (fun x g hkx hlx htx hg =>
          fillLeaf_plain m.heap.length x g hkx hlx htx (by simpa using hg))
        depth m.root D ht hp hl
    rw [SetDefaults_plain depth ⟨fillVal m.heap.length m.root D, m.heap⟩ D
      (by rw [← Val.typeOf_Kind, hty, Val.typeOf_Kind]; exact hk) (hty.trans ht) hp1]
    simp only [hcomp]

/-! ## Nested structs -/

theorem entry_nested {leaf : Mem → RValue → RValue → Res} {lf : Val → Val → Val}
    (hspec : LeafSpec leaf lf)
    (hlo : ∀ m vf df, RValue.offRoot vf → (leaf m vf df).mem.root = m.root)
    (hll : ∀ m vf df, (leaf m vf df).mem.heap.length = m.heap.length)
    (depth : Nat) (m : Mem) (D : Val) (p : List Nat) (tn dn : Val)
    (ht : m.root.typeOf = D.typeOf) (he : m.root.exportedPath p = true)
    (hn : m.root.getPath p = some tn) (hkn : tn.Kind = .Struct) (hd : D.getPath p = some dn)
    (m' : Mem) (h : entry (walkStruct leaf depth) m .rootPtr (some D) = .ok m') :
    (∀ (hs : List Obj) (depth' : Nat) (ms' : Mem), hs.length = m.heap.length →
        entry (walkStruct leaf depth') ⟨tn, hs⟩ .rootPtr (some dn) = .ok ms' →
        m'.root.getPath p = some ms'.root) ∧
    (∀ depth', tn.plain m.heap.length depth' = true →
        ∃ ms', entry (walkStruct leaf depth') ⟨tn, m.heap⟩ .rootPtr (some dn) = .ok ms' ∧
          m'.root.getPath p = some ms'.root) := by
  have hroot := entry_root hspec hlo hll depth m D m' ht h
  obtain ⟨y, hy, hty, hw⟩ := walkVal_getPath lf m.heap.length p m.root D tn ht he hn
  rw [hd] at hy
  cases hy
  rw [← hroot] at hw
  constructor
  · intro hs depth' ms' hlen hrun
    have := entry_root hspec hlo hll depth' ⟨tn, hs⟩ dn ms' hty hrun
    simp only [hlen] at this
    rw [hw, this]
  · intro depth' hp
    have := entry_plain_ok hspec hlo hll depth' ⟨tn, m.heap⟩ dn hkn hty hp
    exact ⟨_, this, hw⟩

/-- Over storage in which every pointer refers to a whole heap struct:
let `N` be an exported by-value nested
struct field, at any depth, of a target `T` and defaults `D` of one type.  After a
successful `SetDefaults(&T, D)`, `T.N` holds the value that `SetDefaults` leaves
when run on the pair `(T.N, D.N)` by itself, on any heap of the same size and at
any stack depth at which that run returns; the run by itself does return when
`T.N` holds no live pointer and the stack suffices for its nesting.  Likewise for
`StripDefaults`.  The sibling fields of `N` and the levels above it play no part. -/
theorem root_nested_compositional (depth : Nat) (m : Mem) (D : Val) (p : List Nat) (tn dn : Val)
    (ht : m.root.typeOf = D.typeOf) (he : m.root.exportedPath p = true)
    (hn : m.root.getPath p = some tn) (hkn : tn.Kind = .Struct)
    (hd : D.getPath p = some dn) :
    (∀ m', SetDefaults depth m .rootPtr (some D) = .ok m' →
      (∀ (hs : List Obj) (depth' : Nat) (ms' : Mem), hs.length = m.heap.length →
          SetDefaults depth' ⟨tn, hs⟩ .rootPtr (some dn) = .ok ms' →
          m'.root.getPath p = some ms'.root) ∧
      (∀ depth', tn.plain m.heap.length depth' = true →
          ∃ ms', SetDefaults depth' ⟨tn, m.heap⟩ .rootPtr (some dn) = .ok ms' ∧
            m'.root.getPath p = some ms'.root)) ∧
    (∀ m', StripDefaults depth m .rootPtr (some D) = .ok m' →
      (∀ (hs : List Obj) (depth' : Nat) (ms' : Mem), hs.length = m.heap.length →
          StripDefaults depth' ⟨tn, hs⟩ .rootPtr (some dn) = .ok ms' →
          m'.root.getPath p = some ms'.root) ∧
      (∀ depth', tn.plain m.heap.length depth' = true →
          ∃ ms', StripDefaults depth' ⟨tn, m.heap⟩ .rootPtr (some dn) = .ok ms' ∧
            m'.root.getPath p = some ms'.root)) := by
  constructor
  · intro m' h
    simp only [SetDefaults_eq_entry] at h ⊢
    exact entry_nested setLeaf_spec setLeaf_offRoot setLeaf_heap_length depth m D p tn dn
      ht he hn hkn hd m' h
  · intro m' h
    simp only [StripDefaults_eq_entry] at h ⊢
    exact entry_nested stripLeaf_spec stripLeaf_offRoot stripLeaf_heap_length depth m D p tn dn
      ht he hn hkn hd m' h

/-! ## Slices and maps -/

/-- C14 as stated fails.  The target holds an allocated empty slice in `IS` and an
allocated empty map in `MIS`, both of length 0; `reflect.Value.IsZero` is false of
them.  `SetDefaults` succeeds and leaves both as they were, although the defaults
hold `[1, 2, 3]` and a map of three entries. -/
theorem empty_containers_counterexample :
    emptyContainersMem.root.typeOf = DefaultOptions.typeOf ∧
    emptyContainersMem.root.exportedPath [2] = true ∧
    emptyContainersMem.root.exportedPath [3] = true ∧
    emptyContainersMem.root.getPath [2] = some (.ints (some [])) ∧
    emptyContainersMem.root.getPath [3] = some (.mapIS (some [])) ∧
    (Val.ints (some [])).len = some 0 ∧ (Val.mapIS (some [])).len = some 0 ∧
    DefaultOptions.getPath [2] = some (.ints (some [1, 2, 3])) ∧
    (SetDefaults 8 emptyContainersMem .rootPtr (some DefaultOptions)).err = none ∧
    (SetDefaults 8 emptyContainersMem .rootPtr (some DefaultOptions)).mem.root.getPath [2]
      = some (.ints (some [])) ∧
    (SetDefaults 8 emptyContainersMem .rootPtr (some DefaultOptions)).mem.root.getPath [3]
      = some (.mapIS (some [])) := by
  refine ⟨rfl, rfl, rfl, rfl, rfl, rfl, rfl, rfl, rfl, rfl, rfl⟩

/-- Over storage in which every pointer refers to a whole heap struct:
after a successful `SetDefaults(&T, D)` with `T` and `D` of one
struct type, an exported leaf field of slice or map type, at any nesting depth,
holds the corresponding field of `D` if it was nil before the call, and its own
previous value if it was allocated, also when it was allocated with length 0. -/
theorem root_nil_containers (depth : Nat) (m : Mem) (D : Val) (m' : Mem) (p : List Nat)
    (x : Val) (ht : m.root.typeOf = D.typeOf)
    (h : SetDefaults depth m .rootPtr (some D) = .ok m')
    (he : m.root.exportedPath p = true) (hx : m.root.getPath p = some x)
    (hc : x.len.isSome = true) :
    (x.isNilContainer = true → ∃ y, D.getPath p = some y ∧ m'.root.getPath p = some y) ∧
    (x.isNilContainer = false → m'.root.getPath p = some x) := by
  have hroot := SetDefaults_root depth m D m' ht h
  obtain ⟨y, hy, -, hw⟩ := walkVal_getPath fillLeaf m.heap.length p m.root D x ht he hx
  have hleaf : x.isRecursed m.heap.length = false := by
    cases x <;> simp [Val.len] at hc <;> simp [Val.isRecursed, Val.Kind, Val.isLivePtr]
  have hz : x.isZero = x.isNilContainer := by
    cases x <;> simp [Val.len] at hc <;> rename_i a <;> cases a <;>
      simp [Val.isZero, Val.isNilContainer]
  rw [walkVal_leaf fillLeaf y hleaf] at hw
  rw [hroot, fillVal, hw]
  constructor
  · intro hn; exact ⟨y, hy, by simp [fillLeaf, hz, hn]⟩
  · intro hn; simp [fillLeaf, hz, hn]

/-! ## Nil pointer fields -/

/-- The struct above the last step of a path, and the field the step selects. -/
theorem Val.getPath_snoc_inv {v : Val} {q : List Nat} {i : Nat} {x : Val}
    (h : v.getPath (q ++ [i]) = some x) :
    ∃ pk n fs f, v.getPath q = some (.struct pk n fs) ∧ fs[i]? = some f ∧ f.val = x := by
  rw [Val.getPath_append] at h
  cases hq : v.getPath q with
  | none => simp [hq] at h
  | some tq =>
    simp only [hq, Option.some_bind] at h
    cases tq <;> simp [Val.getPath] at h
    rename_i pk n fs
    cases hf : fs[i]? with
    | none => simp [hf] at h
    | some f =>
      simp only [hf, Option.some.injEq] at h
      exact ⟨pk, n, fs, f, rfl, hf, h⟩

/-- Over storage in which every pointer refers to a whole heap struct:
let `P` be an exported field of
pointer-to-struct type, at any nesting depth, that is nil in the target `T`, with `T`
and the defaults `D` of one struct type.  The loop step of `setStruct` for `P` makes
no recursive call, whatever the recursive call would do, and stores the value of
`D.P` in `P`, nil or not; the loop step of `stripStruct` makes no recursive call and
leaves the storage as it is.  Accordingly, after a successful `SetDefaults(&T, D)` the
field holds the value of `D.P`, and after a successful `StripDefaults(&T, D)` it is
still nil. -/
theorem root_null_pointer (m : Mem) (D : Val) (q : List Nat) (i : Nat) (e : Ty)
    (ht : m.root.typeOf = D.typeOf)
    (he : m.root.exportedPath (q ++ [i]) = true)
    (hx : m.root.getPath (q ++ [i]) = some (.ptr e none)) :
    ∃ dq y r, D.getPath q = some dq ∧ D.getPath (q ++ [i]) = some y ∧
      y.typeOf = .ptr e ∧ m.root.setPath (q ++ [i]) y = some r ∧
      (∀ recur, setFields recur (.ref .root q false) (.held dq false) [i] m
          = .ok { m with root := r }) ∧
      (∀ recur, stripFields recur (.ref .root q false) (.held dq false) [i] m = .ok m) ∧
      (∀ depth m', SetDefaults depth m .rootPtr (some D) = .ok m' →
          m'.root.getPath (q ++ [i]) = some y) ∧
      (∀ depth m', StripDefaults depth m .rootPtr (some D) = .ok m' →
          m'.root.getPath (q ++ [i]) = some (.ptr e none)) := by
  obtain ⟨pk, n, fs, f, hq, hf, hfv⟩ := Val.getPath_snoc_inv hx
  have hexp := Val.exportedPath_snoc hq hf
  rw [he] at hexp
  have heq : m.root.exportedPath q = true := by
    cases h1 : m.root.exportedPath q <;> simp [h1] at hexp ⊢
  have hfe : f.exported = true := by
    cases h1 : f.exported <;> simp [h1] at hexp ⊢
  obtain ⟨dq, hdq, htq, -⟩ :=
    walkVal_getPath fillLeaf m.heap.length q m.root D _ ht heq hq
  obtain ⟨gs, rfl, hgs⟩ := Val.typeOf_struct_inj htq
  obtain ⟨g, hg, -, hge, hgt⟩ := typeOfFields_getElem? hgs hf
  have hleaf : (Val.ptr e none).isRecursed m.heap.length = false := by
    simp [Val.isRecursed, Val.Kind, Val.isLivePtr]
  have hgty : g.val.typeOf = (Val.ptr e none).typeOf := by rw [hgt, hfv]
  have hdy : D.getPath (q ++ [i]) = some g.val := by
    rw [Val.getPath_append, hdq]
    simp [Val.getPath, hg]
  obtain ⟨r, hr, hset⟩ := setLeaf_spec m (q ++ [i]) _ g.val hx hleaf hgty
  obtain ⟨r2, hr2, hstrip⟩ := stripLeaf_spec m (q ++ [i]) _ g.val hx hleaf hgty
  have hfill : fillLeaf (.ptr e none) g.val = g.val := by simp [fillLeaf, Val.isZero]
  have hsl : stripLeafVal (.ptr e none) g.val = .ptr e none := by
    simp [stripLeafVal, Val.typeOf, Ty.zero]
  rw [hfill] at hr
  rw [hsl, Val.setPath_self hx, Option.some.injEq] at hr2
  subst hr2
  have hv : (RValue.ref .root q false).Field m i = .ok (.ref .root (q ++ [i]) false) := by
    have := RValue.Field_of_read (m := m) (b := .root) (r := false) hq hf
    simpa [hfe] using this
  have hd : (RValue.held (.struct pk n gs) false).Field m i = .ok (.held g.val false) := by
    have := @RValue.Field_held m false pk n gs i g hg
    simpa [hge, hfe] using this
  have hnr : (toStructOrStructPointer m (.ref .root (q ++ [i]) false)).IsValid m = false := by
    have hl : (RValue.ref .root (q ++ [i]) false).load m = some (.ptr e none) := hx
    rw [toStruct_of_leaf hl hleaf]
    exact invalid_not_valid m
  refine ⟨_, g.val, r, hdq, hdy, by simpa [Val.typeOf] using hgty, hr, ?_, ?_, ?_, ?_⟩
  · intro recur
    rw [setFields_eq_walk, walkFields_cons_leaf hv hd rfl hnr, hset]
    rfl
  · intro recur
    rw [stripFields_eq_walk, walkFields_cons_leaf hv hd rfl hnr, hstrip]
    rfl
  · intro depth m' h
    have hroot := SetDefaults_root depth m D m' ht h
    obtain ⟨y, hy, -, hw⟩ :=
      walkVal_getPath fillLeaf m.heap.length (q ++ [i]) m.root D _ ht he hx
    rw [hdy] at hy
    cases hy
    rw [walkVal_leaf fillLeaf g.val hleaf, hfill] at hw
    rw [hroot, fillVal, hw]
  · intro depth m' h
    have hroot := StripDefaults_root depth m D m' ht h
    obtain ⟨y, hy, -, hw⟩ :=
      walkVal_getPath stripLeafVal m.heap.length (q ++ [i]) m.root D _ ht he hx
    rw [hdy] at hy
    cases hy
    rw [walkVal_leaf stripLeafVal g.val hleaf, hsl] at hw
    rw [hroot, stripVal, hw]

/-! ## Filling the zero value -/

/-- Filling the zero value of a type whose fields are all exported gives the
defaults, and the zero value is plain. -/
theorem fill_zero_all (h : Nat) : ∀ (n : Nat) (D : Val), D.typeOf.allExported n = true →
    (D.typeOf.zero).plain h n = true ∧ walkVal fillLeaf h D.typeOf.zero D = D := by
  intro n
  induction n with
  | zero =>
    intro D ha
    by_cases hk : D.Kind = .Struct
    · obtain ⟨pk, nm, gs, rfl⟩ := Val.struct_of_Kind hk
      simp [Val.typeOf, Ty.allExported] at ha
    · have hz := Val.zero_leaf hk h
      refine ⟨?_, ?_⟩
      · rw [Val.plain_not_struct hz.1]; simp [hz.2.1]
      · rw [walkVal_leaf fillLeaf D (by simp [Val.isRecursed, hz.1, hz.2.1])]
        simp [fillLeaf, hz.2.2]
  | succ n ih =>
    intro D ha
    by_cases hk : D.Kind = .Struct
    · obtain ⟨pk, nm, gs, rfl⟩ := Val.struct_of_Kind hk
      simp only [Val.typeOf, Ty.allExported] at ha
      have key : ∀ gs : List (FieldOf Val),
          (typeOfFields gs).all (fun f => f.exported && Ty.allExported n f.val) = true →
          (zeroFields (typeOfFields gs)).all
              (fun f => !f.exported || Val.plain h n f.val) = true ∧
            walkVals fillLeaf h (zeroFields (typeOfFields gs)) gs = gs := by
        intro gs
        induction gs with
        | nil => intro _; simp [typeOfFields, zeroFields, walkVals_nil]
        | cons g s ihs =>
          intro hall
          simp only [typeOfFields, List.all_cons, Bool.and_eq_true] at hall
          obtain ⟨⟨hge, hga⟩, hrest⟩ := hall
          obtain ⟨hp, hw⟩ := ih g.val hga
          obtain ⟨hps, hws⟩ := ihs hrest
          simp only [typeOfFields, zeroFields, List.all_cons, walkVals_cons, hp, hps, hw, hws,
            hge, Bool.or_true, Bool.and_self, if_true, true_and]
          cases g
          simp_all
      obtain ⟨hp, hw⟩ := key gs ha
      refine ⟨?_, ?_⟩
      · simp only [Val.typeOf, Ty.zero, Val.plain]; exact hp
      · simp only [Val.typeOf, Ty.zero]
        rw [walkVal_struct, hw]
    · have hz := Val.zero_leaf hk h
      refine ⟨?_, ?_⟩
      · rw [Val.plain_not_struct hz.1]; simp [hz.2.1]
      · rw [walkVal_leaf fillLeaf D (by simp [Val.isRecursed, hz.1, hz.2.1])]
        simp [fillLeaf, hz.2.2]

/-- C17 as stated fails.  The type `NestedOptions` has exported fields only; the
defaults hold a NaN in `F`.  `SetDefaults` on the zero value succeeds and leaves
exactly the defaults in the target, NaN included, and `reflect.DeepEqual` of the
target and the defaults is then false, a NaN being unequal to itself. -/
theorem fill_zero_counterexample :
    nanDefaults.typeOf = tyNestedOptions ∧
    nanDefaults.typeOf.allExported 1 = true ∧
    SetDefaults 1 ⟨nanDefaults.typeOf.zero, []⟩ .rootPtr (some nanDefaults)
      = .ok ⟨nanDefaults, []⟩ ∧
    (SetDefaults 1 ⟨nanDefaults.typeOf.zero, []⟩ .rootPtr (some nanDefaults)).mem.root.deepEqual
      nanDefaults = false := by
  refine ⟨rfl, rfl, rfl, rfl⟩

/-- C17, amended.  Let `D` be a struct of a type all of whose fields are exported at
every nesting level, nesting fewer than `depth` structs.  `SetDefaults` applied to a
target holding the zero value of that type succeeds, leaves the heap as it was and
leaves in the target exactly the value `D`, field for field (a pointer field holds
the address that the field of `D` holds).  The target is then deeply equal to `D`
precisely when `D` is deeply equal to itself, that is, when `D` holds no NaN. -/
theorem fill_zero_gives_defaults (depth : Nat) (hs : List Obj) (D : Val)
    (hk : D.Kind = .Struct) (ha : D.typeOf.allExported depth = true) :
    SetDefaults depth ⟨D.typeOf.zero, hs⟩ .rootPtr (some D) = .ok ⟨D, hs⟩ ∧
    (SetDefaults depth ⟨D.typeOf.zero, hs⟩ .rootPtr (some D)).mem.root.deepEqual D
      = D.deepEqual D := by
  obtain ⟨hp, hw⟩ := fill_zero_all hs.length depth D ha
  have hkz : (D.typeOf.zero).Kind = .Struct := by
    rw [← Val.typeOf_Kind, Ty.zero_typeOf, Val.typeOf_Kind]; exact hk
  have h1 := SetDefaults_plain depth ⟨D.typeOf.zero, hs⟩ D hkz (Ty.zero_typeOf _) hp
  simp only [fillVal, hw] at h1
  rw [h1]
  exact ⟨rfl, rfl⟩

/-- C17, amended, on the sample's defaults with `PointerTest` nil. -/
theorem fill_zero_gives_defaults_witness :
    (DefaultOptions.Kind = .Struct ∧ DefaultOptions.typeOf.allExported 2 = true) ∧
    SetDefaults 2 ⟨DefaultOptions.typeOf.zero, []⟩ .rootPtr (some DefaultOptions)
      = .ok ⟨DefaultOptions, []⟩ ∧
    (SetDefaults 2 ⟨DefaultOptions.typeOf.zero, []⟩ .rootPtr
      (some DefaultOptions)).mem.root.deepEqual DefaultOptions
      = DefaultOptions.deepEqual DefaultOptions :=
  ⟨⟨rfl, rfl⟩, fill_zero_gives_defaults 2 [] DefaultOptions rfl rfl⟩

/-! ## Stripping after filling -/

theorem Val.zero_of_isZero {x : Val} (hk : x.Kind ≠ .Struct) (hz : x.isZero = true) :
    x.typeOf.zero = x := by
  cases x <;> simp [Val.Kind] at hk <;> simp [Val.isZero] at hz <;>
    simp [Val.typeOf, Ty.zero, hz]

theorem plain_of_noPtr (h : Nat) : ∀ (n : Nat) (x : Val), x.typeOf.noPtr n = true →
    x.plain h n = true := by
  intro n
  induction n with
  | zero =>
    intro x hx
    cases x <;> simp [Val.typeOf, Ty.noPtr] at hx <;> simp [Val.plain, Val.isLivePtr]
  | succ n ih =>
    intro x hx
    cases x <;> simp only [Val.typeOf, Ty.noPtr] at hx <;>
      try simp [Val.plain, Val.isLivePtr]
    · simp at hx
    · rename_i pk nm fs
      have key : ∀ fs : List (FieldOf Val),
          (typeOfFields fs).all (fun f => Ty.noPtr n f.val) = true →
          ∀ f ∈ fs, f.exported = true → Val.plain h n f.val = true := by
        intro fs
        induction fs with
        | nil => intro _ f hf; simp at hf
        | cons g s ihs =>
          intro hall f hf _
          simp only [typeOfFields, List.all_cons, Bool.and_eq_true] at hall
          rcases List.mem_cons.mp hf with rfl | hm
          · exact ih _ hall.1
          · exact ihs hall.2 f hm (by assumption)
      intro f hf
      cases hfe : f.exported with
      | false => exact Or.inl rfl
      | true => exact Or.inr (key fs hx f hf hfe)

mutual
theorem leavesAll_and (P Q : Val → Val → Bool) (h : Nat) :
    ∀ (t d : Val), leavesAll P h t d = true → leavesAll Q h t d = true →
      leavesAll (fun x g => P x g && Q x g) h t d = true
  | .struct _ _ fs, .struct _ _ gs => by
      simp only [leavesAll_struct]; exact leavesAllFields_and P Q h fs gs
  | .struct _ _ _, .int _ => by
      simp only [leavesAll, Bool.or_eq_true, Bool.and_eq_true]
      intro a b
      rcases a with a | a
      · exact Or.inl a
      · rcases b with b | b
        · exact Or.inl b
        · exact Or.inr ⟨a, b⟩
  | .struct _ _ _, .str _ => by
      simp only [leavesAll, Bool.or_eq_true, Bool.and_eq_true]
      intro a b
      rcases a with a | a
      · exact Or.inl a
      · rcases b with b | b
        · exact Or.inl b
        · exact Or.inr ⟨a, b⟩
  | .struct _ _ _, .bool _ => by
      simp only [leavesAll, Bool.or_eq_true, Bool.and_eq_true]
      intro a b
      rcases a with a | a
      · exact Or.inl a
      · rcases b with b | b
        · exact Or.inl b
        · exact Or.inr ⟨a, b⟩
  | .struct _ _ _, .float _ => by
      simp only [leavesAll, Bool.or_eq_true, Bool.and_eq_true]
      intro a b
      rcases a with a | a
      · exact Or.inl a
      · rcases b with b | b
        · exact Or.inl b
        · exact Or.inr ⟨a, b⟩
  | .struct _ _ _, .ints _ => by
      simp only [leavesAll, Bool.or_eq_true, Bool.and_eq_true]
      intro a b
      rcases a with a | a
      · exact Or.inl a
      · rcases b with b | b
        · exact Or.inl b
        · exact Or.inr ⟨a, b⟩
  | .struct _ _ _, .mapIS _ => by
      simp only [leavesAll, Bool.or_eq_true, Bool.and_eq_true]
      intro a b
      rcases a with a | a
      · exact Or.inl a
      · rcases b with b | b
        · exact Or.inl b
        · exact Or.inr ⟨a, b⟩
  | .struct _ _ _, .ptr _ _ => by
      simp only [leavesAll, Bool.or_eq_true, Bool.and_eq_true]
      intro a b
      rcases a with a | a
      · exact Or.inl a
      · rcases b with b | b
        · exact Or.inl b
        · exact Or.inr ⟨a, b⟩
  | .int _, _ => by
      simp only [leavesAll, Bool.or_eq_true, Bool.and_eq_true]
      intro a b
      rcases a with a | a
      · exact Or.inl a
      · rcases b with b | b
        · exact Or.inl b
        · exact Or.inr ⟨a, b⟩
  | .str _, _ => by
      simp only [leavesAll, Bool.or_eq_true, Bool.and_eq_true]
      intro a b
      rcases a with a | a
      · exact Or.inl a
      · rcases b with b | b
        · exact Or.inl b
        · exact Or.inr ⟨a, b⟩
  | .bool _, _ => by
      simp only [leavesAll, Bool.or_eq_true, Bool.and_eq_true]
      intro a b
      rcases a with a | a
      · exact Or.inl a
      · rcases b with b | b
        · exact Or.inl b
        · exact Or.inr ⟨a, b⟩
  | .float _, _ => by
      simp only [leavesAll, Bool.or_eq_true, Bool.and_eq_true]
      intro a b
      rcases a with a | a
      · exact Or.inl a
      · rcases b with b | b
        · exact Or.inl b
        · exact Or.inr ⟨a, b⟩
  | .ints _, _ => by
      simp only [leavesAll, Bool.or_eq_true, Bool.and_eq_true]
      intro a b
      rcases a with a | a
      · exact Or.inl a
      · rcases b with b | b
        · exact Or.inl b
        · exact Or.inr ⟨a, b⟩
  | .mapIS _, _ => by
      simp only [leavesAll, Bool.or_eq_true, Bool.and_eq_true]
      intro a b
      rcases a with a | a
      · exact Or.inl a
      · rcases b with b | b
        · exact Or.inl b
        · exact Or.inr ⟨a, b⟩
  | .ptr _ _, _ => by
      simp only [leavesAll, Bool.or_eq_true, Bool.and_eq_true]
      intro a b
      rcases a with a | a
      · exact Or.inl a
      · rcases b with b | b
        · exact Or.inl b
        · exact Or.inr ⟨a, b⟩
theorem leavesAllFields_and (P Q : Val → Val → Bool) (h : Nat) :
    ∀ (fs gs : List (FieldOf Val)), leavesAllFields P h fs gs = true →
      leavesAllFields Q h fs gs = true →
      leavesAllFields (fun x g => P x g && Q x g) h fs gs = true
  | [], _ => by simp [leavesAllFields]
  | _ :: _, [] => by simp [leavesAllFields]
  | f :: r, g :: s => by
      simp only [leavesAllFields_cons, Bool.and_eq_true, Bool.or_eq_true]
      intro a b
      refine ⟨?_, leavesAllFields_and P Q h r s a.2 b.2⟩
      rcases a.1 with a1 | a1
      · exact Or.inl a1
      · rcases b.1 with b1 | b1
        · exact Or.inl b1
        · exact Or.inr (leavesAll_and P Q h f.val g.val a1 b1)
end

/-- Stripping a leaf that was filled gives what stripping it at once gives, when
the default equals itself and is no live pointer. -/
theorem strip_fill_leaf (h : Nat) (x g : Val) (hk : x.Kind ≠ .Struct)
    (hl : x.isLivePtr h = false) (ht : x.typeOf = g.typeOf)
    (hP : (g.deepEqual g && !g.isLivePtr h) = true) :
    (fillLeaf x g).Kind ≠ .Struct ∧
      (if (fillLeaf x g).isLivePtr h then fillLeaf x g
        else stripLeafVal (fillLeaf x g) g) = stripLeafVal x g := by
  simp only [Bool.and_eq_true, Bool.not_eq_true', ] at hP
  obtain ⟨hk2, hl2⟩ := fillLeaf_plain h x g hk hl ht hP.2
  refine ⟨hk2, ?_⟩
  rw [hl2]
  simp only [Bool.false_eq_true, if_false]
  unfold fillLeaf stripLeafVal
  cases hz : x.isZero with
  | false => simp
  | true =>
    simp only [if_true, hP.1, ← ht, Val.zero_of_isZero hk hz]
    split <;> rfl

/-! ## Stripping only zeroes -/

theorem valZeroed_refl (h : Nat) (v : Val) : Val.Zeroed h v v :=
  ⟨rfl, fun _ _ hx _ => Or.inl hx⟩

theorem Val.zero_zero {x : Val} : x.typeOf.zero.typeOf.zero = x.typeOf.zero := by
  rw [Ty.zero_typeOf]

theorem valZeroed_trans {h : Nat} {a b c : Val} (h1 : Val.Zeroed h a b)
    (h2 : Val.Zeroed h b c) : Val.Zeroed h a c := by
  refine ⟨h2.1.trans h1.1, fun p x hx hk => ?_⟩
  rcases h1.2 p x hx hk with hb | ⟨hl, hb⟩
  · exact h2.2 p x hb hk
  · have hz := Val.zero_leaf hk h
    rcases h2.2 p _ hb hz.1 with hc | ⟨_, hc⟩
    · exact Or.inr ⟨hl, hc⟩
    · rw [Val.zero_zero] at hc
      exact Or.inr ⟨hl, hc⟩

theorem memZeroed_refl (m : Mem) : Mem.Zeroed m m := by
  refine ⟨valZeroed_refl _ _, rfl, fun a o o' h h' => ?_⟩
  rw [h] at h'
  cases h'
  exact valZeroed_refl _ _

theorem memZeroed_trans {a b c : Mem} (h1 : Mem.Zeroed a b) (h2 : Mem.Zeroed b c) :
    Mem.Zeroed a c := by
  have hlen := h1.2.1
  refine ⟨valZeroed_trans h1.1 (hlen ▸ h2.1), h2.2.1.trans h1.2.1, fun i o o'' ho ho'' => ?_⟩
  have hlt : i < a.heap.length := by
    by_contra hc
    rw [List.getElem?_eq_none (Nat.le_of_not_lt hc)] at ho
    simp at ho
  have hlt' : i < b.heap.length := by rw [h1.2.1]; exact hlt
  have ho' : b.heap[i]? = some b.heap[i] := by simp [hlt']
  exact valZeroed_trans (h1.2.2 i o _ ho ho') (hlen ▸ h2.2.2 i _ o'' ho' ho'')

/-- Overwriting one value that is not a struct leaves every other such value in place. -/
theorem Val.setPath_other {v : Val} {p : List Nat} {old new v' : Val}
    (hg : v.getPath p = some old) (hk : old.Kind ≠ .Struct)
    (hs : v.setPath p new = some v') :
    ∀ (q : List Nat) (x : Val), v.getPath q = some x → x.Kind ≠ .Struct → q ≠ p →
      v'.getPath q = some x := by
  induction p generalizing v v' with
  | nil =>
    intro q x hx hkx hne
    simp [Val.getPath] at hg
    subst hg
    cases q with
    | nil => exact absurd rfl hne
    | cons j q => cases v <;> simp [Val.getPath, Val.Kind] at hx hk
  | cons i p ih =>
    intro q x hx hkx hne
    cases v <;> simp [Val.getPath] at hg
    rename_i pk n fs
    cases hf : fs[i]? with
    | none => simp [hf] at hg
    | some f =>
      simp only [hf] at hg
      simp only [Val.setPath, hf] at hs
      cases hw : f.val.setPath p new with
      | none => simp [hw] at hs
      | some w =>
        simp only [hw, Option.some.injEq] at hs
        subst hs
        cases q with
        | nil =>
          simp only [Val.getPath, Option.some.injEq] at hx
          subst hx
          simp [Val.Kind] at hkx
        | cons j q =>
          simp only [Val.getPath, List.getElem?_set] at hx ⊢
          by_cases hij : i = j
          · subst hij
            have hlt : i < fs.length := by
              by_contra hc
              rw [List.getElem?_eq_none (Nat.le_of_not_lt hc)] at hf
              simp at hf
            simp only [hf] at hx
            simp only [hlt, if_true]
            exact ih hg hw q x hx hkx (fun hqp => hne (by rw [hqp]))
          · simp only [hij, if_false]
            exact hx

theorem Val.Zeroed_of_setPath {h : Nat} {v : Val} {p : List Nat} {old v' : Val}
    (hg : v.getPath p = some old) (hk : old.Kind ≠ .Struct) (hl : old.isLivePtr h = false)
    (hs : v.setPath p old.typeOf.zero = some v') : Val.Zeroed h v v' := by
  refine ⟨Val.setPath_typeOf hg (Ty.zero_typeOf _) hs, fun q x hx hkx => ?_⟩
  by_cases hqp : q = p
  · subst hqp
    rw [hg] at hx
    cases hx
    exact Or.inr ⟨hl, Val.getPath_setPath hs⟩
  · exact Or.inl (Val.setPath_other hg hk hs q x hx hkx hqp)
theorem Mem.Zeroed_of_write {m m' : Mem} {b : Base} {p : List Nat} {old : Val}
    (hw : m.write b p old.typeOf.zero = some m') (hr : m.read b p = some old)
    (hk : old.Kind ≠ .Struct) (hl : old.isLivePtr m.heap.length = false) :
    Mem.Zeroed m m' := by
  cases b with
  | root =>
    simp only [Mem.write] at hw
    cases hs : m.root.setPath p old.typeOf.zero with
    | none => simp [hs] at hw
    | some r =>
      simp only [hs, Option.some.injEq] at hw
      subst hw
      refine ⟨Val.Zeroed_of_setPath hr hk hl hs, rfl, fun a o o' h h' => ?_⟩
      simp only at h'
      rw [h] at h'; cases h'
      exact valZeroed_refl _ _
  | obj a =>
    simp only [Mem.write] at hw
    cases ho : m.heap[a]? with
    | none => simp [ho] at hw
    | some o =>
      have hr' : o.toVal.getPath p = some old := by
        simpa [Mem.read, Mem.base, ho] using hr
      simp only [ho] at hw
      cases hs : o.toVal.setPath p old.typeOf.zero with
      | none => simp [hs] at hw
      | some r =>
        have hf := Val.Zeroed_of_setPath hr' hk hl hs
        cases r <;> simp only [hs] at hw
        all_goals first | (simp at hw; done) | skip
        rename_i pk n fs
        injection hw with hw
        subst hw
        refine ⟨valZeroed_refl _ _, by simp, fun i o1 o2 h1 h2 => ?_⟩
        simp only [List.getElem?_set] at h2
        by_cases hia : a = i
        · subst hia
          rw [ho] at h1; cases h1
          have hlt : a < m.heap.length := by
            by_contra hc
            rw [List.getElem?_eq_none (Nat.le_of_not_lt hc)] at ho
            simp at ho
          simp only [hlt, if_true, Option.some.injEq] at h2
          subst h2
          exact hf
        · simp only [hia, if_false] at h2
          rw [h1] at h2; cases h2
          exact valZeroed_refl _ _

theorem memZeroed_base {m m' : Mem} (h : Mem.Zeroed m m') {b : Base} {x : Val}
    (hb : m.base b = some x) :
    ∃ x', m'.base b = some x' ∧ Val.Zeroed m.heap.length x x' := by
  cases b with
  | root =>
    simp only [Mem.base, Option.some.injEq] at hb
    subst hb
    exact ⟨m'.root, rfl, h.1⟩
  | obj a =>
    simp only [Mem.base] at hb ⊢
    cases ho : m.heap[a]? with
    | none => simp [ho] at hb
    | some o =>
      simp only [ho, Option.map_some', Option.some.injEq] at hb
      subst hb
      have hlt : a < m.heap.length := by
        by_contra hc
        rw [List.getElem?_eq_none (Nat.le_of_not_lt hc)] at ho
        simp at ho
      have hlt' : a < m'.heap.length := by rw [h.2.1]; exact hlt
      have ho' : m'.heap[a]? = some m'.heap[a] := by simp [hlt']
      exact ⟨(m'.heap[a]).toVal, by simp [ho'], h.2.2 a o _ ho ho'⟩

/-- Values of one type have the same paths, with values of one type at each. -/
theorem Val.getPath_typeOf_congr {v v' : Val} (h : v.typeOf = v'.typeOf) :
    ∀ (p : List Nat) (x : Val), v.getPath p = some x →
      ∃ x', v'.getPath p = some x' ∧ x'.typeOf = x.typeOf := by
  intro p
  induction p generalizing v v' with
  | nil =>
    intro x hx
    simp only [Val.getPath, Option.some.injEq] at hx
    subst hx
    exact ⟨v', by simp [Val.getPath], h.symm⟩
  | cons i p ih =>
    intro x hx
    cases v <;> simp [Val.getPath] at hx
    rename_i pk n fs
    obtain ⟨gs, rfl, hfs⟩ := Val.typeOf_struct_inj h
    cases hf : fs[i]? with
    | none => simp [hf] at hx
    | some f =>
      simp only [hf] at hx
      obtain ⟨g, hg, -, -, hty⟩ := typeOfFields_getElem? hfs hf
      obtain ⟨x', hx', hxt⟩ := ih hty.symm x hx
      exact ⟨x', by simp [Val.getPath, hg, hx'], hxt⟩

theorem valZeroed_getPath {h : Nat} {v v' : Val} (hz : Val.Zeroed h v v') {p : List Nat}
    {x : Val} (hx : v.getPath p = some x) :
    ∃ x', v'.getPath p = some x' ∧ x'.typeOf = x.typeOf ∧
      (x.Kind ≠ .Struct → x' = x ∨ (x.isLivePtr h = false ∧ x' = x.typeOf.zero)) := by
  obtain ⟨x', hx', hxt⟩ := Val.getPath_typeOf_congr hz.1.symm p x hx
  refine ⟨x', hx', hxt, fun hk => ?_⟩
  rcases hz.2 p x hx hk with h1 | ⟨hl, h1⟩
  · rw [hx'] at h1; cases h1; exact Or.inl rfl
  · rw [hx'] at h1; cases h1; exact Or.inr ⟨hl, rfl⟩

/-- After some zeroing, a location holds a value of the type it held, and a value
that was not a struct is the same or the zero value. -/
theorem memZeroed_load {m m' : Mem} (hz : Mem.Zeroed m m') {v : RValue} {x : Val}
    (hx : v.load m = some x) :
    ∃ x', v.load m' = some x' ∧ x'.typeOf = x.typeOf ∧
      (x.Kind ≠ .Struct → x' = x ∨ (x.isLivePtr m.heap.length = false ∧ x' = x.typeOf.zero)) := by
  cases v with
  | invalid => simp [RValue.load] at hx
  | held y r =>
    simp only [RValue.load, Option.some.injEq] at hx
    subst hx
    exact ⟨y, rfl, rfl, fun _ => Or.inl rfl⟩
  | ref b p r =>
    simp only [RValue.load, Mem.read] at hx ⊢
    cases hb : m.base b with
    | none => simp [hb] at hx
    | some y =>
      simp only [hb] at hx
      obtain ⟨y', hb', hzy⟩ := memZeroed_base hz hb
      simp only [hb']
      exact valZeroed_getPath hzy hx
theorem Val.leaf_of_not_recursed {h : Nat} {x : Val} (hr : x.isRecursed h = false) :
    x.Kind ≠ .Struct ∧ x.isLivePtr h = false := by
  simp only [Val.isRecursed, Bool.or_eq_false_iff, beq_eq_false_iff_ne] at hr
  exact hr

theorem RValue.Set_zeroed {m m1 : Mem} {vf : RValue} {t : Ty}
    (h : vf.Set m (.held t.zero false) = .ok m1) (ht : vf.Type m = .ok t)
    (hv : (toStructOrStructPointer m vf).IsValid m = false) : Mem.Zeroed m m1 := by
  unfold RValue.Set at h
  split at h
  · rename_i b p old new hln hlo
    simp only [RValue.load, Option.some.injEq] at hln
    subst hln
    have hlo' : (RValue.ref b p false).load m = some old := hlo
    simp only [RValue.Type, hlo', Except.ok.injEq] at ht
    subst ht
    split at h
    · simp at h
    · split at h
      · cases hwr : m.write b p old.typeOf.zero with
        | none => simp [hwr] at h
        | some m2 =>
          simp only [hwr, Except.ok.injEq] at h
          subst h
          have hrec := toStruct_valid_iff hlo
          rw [hv] at hrec
          obtain ⟨hk, hl⟩ := Val.leaf_of_not_recursed hrec.symm
          exact Mem.Zeroed_of_write hwr hlo hk hl
      · simp at h
  · simp at h

theorem stripLeaf_zeroed (m : Mem) (vf df : RValue)
    (hv : (toStructOrStructPointer m vf).IsValid m = false) :
    Mem.Zeroed m (stripLeaf m vf df).mem := by
  unfold stripLeaf
  split
  · exact memZeroed_refl m
  · split
    · exact memZeroed_refl m
    · split
      · split
        · exact memZeroed_refl m
        · rename_i t ht
          split
          · exact memZeroed_refl m
          · rename_i m1 h
            exact RValue.Set_zeroed h ht hv
      · exact memZeroed_refl m

/-- The walk of `StripDefaults` only zeroes, whether it returns or aborts. -/
theorem walkStruct_zeroed (depth : Nat) (m : Mem) (vStr defStr : RValue) :
    Mem.Zeroed m (walkStruct stripLeaf depth m vStr defStr).mem := by
  induction depth generalizing m vStr defStr with
  | zero => exact memZeroed_refl m
  | succ n ih =>
    unfold walkStruct
    cases hn : vStr.NumField m with
    | error e => exact memZeroed_refl m
    | ok k =>
      exact walkFields_rule (fun _ => True) (fun m r => Mem.Zeroed m r.mem)
        (fun m => memZeroed_refl m) (fun m => memZeroed_refl m)
        (fun m m1 r h1 h2 => memZeroed_trans h1 h2)
        (fun m m1 _ _ => trivial)
        (fun m i vf df _ _ _ _ _ => ih m _ _)
        (fun m i vf df _ _ _ _ hr => stripLeaf_zeroed m vf df hr)
        _ m trivial

theorem StripDefaults_zeroed (depth : Nat) (m : Mem) (v : Arg) (d : Option Val) :
    Mem.Zeroed m (StripDefaults depth m v d).mem := by
  rw [StripDefaults_eq_entry]
  cases hv : validationError m v d with
  | some msg => rw [entry_of_validationError_some hv]; exact memZeroed_refl m
  | none =>
    obtain ⟨dv, _, he⟩ := entry_of_validationError_none hv (walkStruct stripLeaf depth)
    rw [he]
    exact walkStruct_zeroed depth m _ _
/-- C11 (`StripDefaults` never fills a field).  For every call of `StripDefaults`,
whatever the arguments and whether or not it succeeds: a field that is not a struct,
in the target at any nesting depth or in a struct on the heap, and that held the
zero value of its type before the call, holds the same zero value after it. -/
theorem strip_never_fills (depth : Nat) (m : Mem) (v : Arg) (d : Option Val) (b : Base)
    (p : List Nat) (x : Val) (hx : m.read b p = some x) (hk : x.Kind ≠ .Struct)
    (hz : x.isZero = true) :
    (StripDefaults depth m v d).mem.read b p = some x := by
  have hzd := StripDefaults_zeroed depth m v d
  have hl : (RValue.ref b p false).load m = some x := hx
  obtain ⟨x', hx', -, hor⟩ := memZeroed_load hzd hl
  have : x' = x := by
    rcases hor hk with h1 | ⟨-, h1⟩
    · exact h1
    · rw [h1, Val.zero_of_isZero hk hz]
  rw [← this]
  exact hx'

/-- C11 on the values of its example: `StripDefaults` succeeds and leaves the
target exactly as it was; `I`, read here, `IS` and `NO.I` stay zero. -/
theorem strip_never_fills_witness :
    (sparseTargetMem.read .root [1] = some (.int 0) ∧ (Val.int 0).Kind ≠ .Struct ∧
      (Val.int 0).isZero = true) ∧
    (StripDefaults 8 sparseTargetMem .rootPtr (some partialDefaults)).mem.read .root [1]
      = some (.int 0) ∧
    StripDefaults 8 sparseTargetMem .rootPtr (some partialDefaults) = .ok sparseTargetMem :=
  ⟨⟨rfl, by decide, rfl⟩,
   strip_never_fills 8 sparseTargetMem .rootPtr (some partialDefaults) .root [1] (.int 0)
     rfl (by decide) rfl, rfl⟩

/-! ## A second `StripDefaults` changes nothing -/

theorem RValue.Interface_ok_iff {m : Mem} {v : RValue} {x : Val} :
    v.Interface m = .ok x ↔ v.load m = some x ∧ v.ro = false := by
  unfold RValue.Interface
  cases hl : v.load m with
  | none => simp
  | some y =>
    cases hr : v.ro <;> simp

theorem Mem.write_self {m : Mem} {b : Base} {p : List Nat} {x : Val}
    (h : m.read b p = some x) : m.write b p x = some m := by
  cases b with
  | root =>
    have h' : m.root.getPath p = some x := h
    simp [Mem.write, Val.setPath_self h']
  | obj a =>
    simp only [Mem.read, Mem.base] at h
    cases ho : m.heap[a]? with
    | none => simp [ho] at h
    | some o =>
      simp only [ho, Option.map_some'] at h
      have hlt : a < m.heap.length := by
        by_contra hc
        rw [List.getElem?_eq_none (Nat.le_of_not_lt hc)] at ho
        simp at ho
      have hset : m.heap.set a ⟨o.pkg, o.name, o.fs⟩ = m.heap := by
        apply List.ext_getElem?
        intro i
        simp only [List.getElem?_set]
        by_cases hia : a = i
        · subst hia
          simp [hlt, ho]
        · simp [hia]
      have hs : (Val.struct o.pkg o.name o.fs).setPath p x = some (.struct o.pkg o.name o.fs) :=
        Val.setPath_self h
      simp only [Mem.write, ho, Obj.toVal, hs, hset]

theorem Mem.read_write {m m' : Mem} {b : Base} {p : List Nat} {w : Val}
    (h : m.write b p w = some m') : m'.read b p = some w := by
  cases b with
  | root =>
    simp only [Mem.write] at h
    cases hs : m.root.setPath p w with
    | none => simp [hs] at h
    | some r =>
      simp only [hs, Option.some.injEq] at h
      subst h
      exact Val.getPath_setPath hs
  | obj a =>
    simp only [Mem.write] at h
    cases ho : m.heap[a]? with
    | none => simp [ho] at h
    | some o =>
      simp only [ho] at h
      have hlt : a < m.heap.length := by
        by_contra hc
        rw [List.getElem?_eq_none (Nat.le_of_not_lt hc)] at ho
        simp at ho
      cases hs : o.toVal.setPath p w with
      | none => simp [hs] at h
      | some r =>
        have hg := Val.getPath_setPath hs
        cases r <;> simp only [hs] at h
        all_goals first | (simp at h; done) | skip
        rename_i pk n fs
        injection h with h
        subst h
        simp only [Mem.read, Mem.base, List.getElem?_set, hlt, if_true, Option.map_some',
          Obj.toVal]
        exact hg
/-- What `stripLeaf` does when it returns: nothing when the leaf differs from the
default, a write of the zero value when it equals it. -/
theorem stripLeaf_ok {m m1 : Mem} {b : Base} {p : List Nat} {df : RValue}
    (h : stripLeaf m (.ref b p false) df = .ok m1) :
    ∃ x y, m.read b p = some x ∧ df.load m = some y ∧ df.ro = false ∧
      ((x.deepEqual y = false ∧ m1 = m) ∨
       (x.deepEqual y = true ∧ m.write b p x.typeOf.zero = some m1)) := by
  unfold stripLeaf at h
  cases hvi : (RValue.ref b p false).Interface m with
  | error e => simp [hvi] at h
  | ok x =>
    obtain ⟨hlx, -⟩ := RValue.Interface_ok_iff.mp hvi
    cases hdi : df.Interface m with
    | error e => simp [hvi, hdi] at h
    | ok y =>
      obtain ⟨hly, hro⟩ := RValue.Interface_ok_iff.mp hdi
      refine ⟨x, y, hlx, hly, hro, ?_⟩
      simp only [hvi, hdi] at h
      cases hde : x.deepEqual y with
      | false =>
        simp only [hde, Bool.false_eq_true, if_false, Res.ok.injEq] at h
        exact Or.inl ⟨rfl, h.symm⟩
      | true =>
        right
        refine ⟨rfl, ?_⟩
        have hrd : m.read b p = some x := hlx
        simp only [hde, if_true, RValue.Type, RValue.load, hrd] at h
        unfold RValue.Set at h
        simp only [RValue.load, hrd, RValue.ro, Bool.false_eq_true, if_false,
          Ty.zero_typeOf, Ty.beq_self, if_true] at h
        cases hw : m.write b p x.typeOf.zero with
        | none => simp [hw] at h
        | some m2 =>
          simp only [hw, Res.ok.injEq] at h
          rw [h]

/-- When `stripLeaf` finds the leaf at its zero value whenever it equals the
default, it returns and leaves the storage as it is. -/
theorem stripLeaf_noop {m : Mem} {b : Base} {p : List Nat} {df : RValue} {x y : Val}
    (hx : m.read b p = some x) (hy : df.load m = some y) (hro : df.ro = false)
    (hz : x.deepEqual y = true → x.typeOf.zero = x) :
    stripLeaf m (.ref b p false) df = .ok m := by
  have hvi : (RValue.ref b p false).Interface m = .ok x :=
    RValue.Interface_ok_iff.mpr ⟨hx, rfl⟩
  have hdi : df.Interface m = .ok y := RValue.Interface_ok_iff.mpr ⟨hy, hro⟩
  unfold stripLeaf
  simp only [hvi, hdi]
  cases hde : x.deepEqual y with
  | false => simp
  | true =>
    have hl : (RValue.ref b p false).load m = some x := hx
    simp only [if_true, RValue.Type, hl]
    unfold RValue.Set
    simp only [RValue.load, hx, RValue.ro, Bool.false_eq_true, if_false,
      Ty.zero_typeOf, Ty.beq_self, if_true, hz hde, Mem.write_self hx]

/-- A leaf step that returned keeps returning, without an effect, on any storage
obtained by further zeroing from the storage it left. -/
theorem stripLeaf_stable {m m1 m2 : Mem} {vf df : RValue}
    (h : stripLeaf m vf df = .ok m1) (hz : Mem.Zeroed m1 m2) (hs : vf.CanSet = true)
    (hv : (toStructOrStructPointer m vf).IsValid m = false) :
    stripLeaf m2 vf df = .ok m2 := by
  obtain ⟨b, p, rfl⟩ := RValue.CanSet_ref hs
  obtain ⟨x, y, hx, hy, hro, hcase⟩ := stripLeaf_ok h
  have hl : (RValue.ref b p false).load m = some x := hx
  have hrec := toStruct_valid_iff hl
  rw [hv] at hrec
  obtain ⟨hk, hlive⟩ := Val.leaf_of_not_recursed hrec.symm
  have hzk := Val.zero_leaf hk m.heap.length
  rcases hcase with ⟨hde, rfl⟩ | ⟨hde, hw⟩
  · obtain ⟨x2, hx2, -, hor⟩ := memZeroed_load hz hl
    obtain ⟨y2, hy2, hyt, hyor⟩ := memZeroed_load hz hy
    refine stripLeaf_noop hx2 hy2 hro (fun hde2 => ?_)
    rcases hor hk with rfl | ⟨-, rfl⟩
    · have hxy := Val.eq_of_deepEqual_leaf hk hde2
      have hky : y.Kind ≠ .Struct := by
        rw [← Val.Kind_of_typeOf_eq hyt, ← hxy]; exact hk
      rcases hyor hky with rfl | ⟨-, rfl⟩
      · rw [hde] at hde2; cases hde2
      · rw [hxy, Val.zero_zero]
    · exact Val.zero_zero
  · have hl1 : (RValue.ref b p false).load m1 = some x.typeOf.zero := Mem.read_write hw
    have hzm := Mem.Zeroed_of_write hw hx hk hlive
    obtain ⟨y1, hy1, -, -⟩ := memZeroed_load hzm hy
    obtain ⟨x2, hx2, -, hor⟩ := memZeroed_load hz hl1
    obtain ⟨y2, hy2, -, -⟩ := memZeroed_load hz hy1
    refine stripLeaf_noop hx2 hy2 hro (fun _ => ?_)
    rcases hor hzk.1 with rfl | ⟨-, rfl⟩
    · exact Val.zero_zero
    · rw [Val.zero_zero]
theorem RValue.Field_zeroed {m m2 : Mem} (hz : Mem.Zeroed m m2) {v vf : RValue} {i : Nat}
    (h : v.Field m i = .ok vf) : v.Field m2 i = .ok vf := by
  unfold RValue.Field at h ⊢
  cases hl : v.load m with
  | none => simp [hl] at h
  | some x =>
    obtain ⟨x2, hl2, hxt, -⟩ := memZeroed_load hz hl
    cases x <;> simp only [hl] at h <;> try contradiction
    rename_i pk n fs
    obtain ⟨gs, rfl, hfs⟩ := Val.typeOf_struct_inj hxt.symm
    cases hf : fs[i]? with
    | none => simp [hf] at h
    | some f =>
      obtain ⟨g, hg, -, hge, -⟩ := typeOfFields_getElem? hfs hf
      simp only [hf] at h
      simp only [hl2, hg]
      cases v with
      | invalid => simp at h
      | held w r =>
        simp only [RValue.load, Option.some.injEq] at hl hl2
        rw [hl] at hl2
        injection hl2 with _ _ hfg
        subst hfg
        rw [hf] at hg
        cases hg
        exact h
      | ref b p r =>
        simp only [hge]
        exact h

theorem RValue.Field_load {m : Mem} {v vf : RValue} {i : Nat} (h : v.Field m i = .ok vf) :
    ∃ x, vf.load m = some x := by
  unfold RValue.Field at h
  cases hl : v.load m with
  | none => simp [hl] at h
  | some x =>
    cases x <;> simp only [hl] at h <;> try contradiction
    rename_i pk n fs
    cases hf : fs[i]? with
    | none => simp [hf] at h
    | some f =>
      simp only [hf] at h
      cases v with
      | invalid => simp at h
      | held w r =>
        simp only [Except.ok.injEq] at h
        subst h
        exact ⟨f.val, rfl⟩
      | ref b p r =>
        simp only [Except.ok.injEq] at h
        subst h
        refine ⟨f.val, ?_⟩
        simp only [RValue.load, Mem.read] at hl ⊢
        cases hb : m.base b with
        | none => simp [hb] at hl
        | some y =>
          simp only [hb] at hl ⊢
          exact Val.getPath_snoc hl hf

theorem RValue.NumField_zeroed {m m2 : Mem} (hz : Mem.Zeroed m m2) {v : RValue} {k : Nat}
    (h : v.NumField m = .ok k) : v.NumField m2 = .ok k := by
  unfold RValue.NumField at h ⊢
  cases hl : v.load m with
  | none => simp [hl] at h
  | some x =>
    obtain ⟨x2, hl2, hxt, -⟩ := memZeroed_load hz hl
    cases x <;> simp only [hl] at h <;> try contradiction
    rename_i pk n fs
    obtain ⟨gs, rfl, hfs⟩ := Val.typeOf_struct_inj hxt.symm
    simp only [hl2]
    have := congrArg List.length hfs
    rw [typeOfFields_length, typeOfFields_length] at this
    rw [← this]
    exact h

/-- Zeroing does not change which fields the walk descends into, nor where to. -/
theorem toStruct_zeroed {m m2 : Mem} (hz : Mem.Zeroed m m2) {v : RValue} {x : Val}
    (hl : v.load m = some x) :
    toStructOrStructPointer m2 v = toStructOrStructPointer m v ∧
      (toStructOrStructPointer m2 v).IsValid m2 = (toStructOrStructPointer m v).IsValid m := by
  obtain ⟨x2, hl2, hxt, hor⟩ := memZeroed_load hz hl
  have hlen := hz.2.1
  rw [toStruct_valid_iff hl2, toStruct_valid_iff hl, hlen]
  by_cases hk : x.Kind = .Struct
  · have hk2 : x2.Kind = .Struct := by rw [Val.Kind_of_typeOf_eq hxt]; exact hk
    rw [toStruct_of_struct hl hk, toStruct_of_struct hl2 hk2]
    simp [Val.isRecursed, hk, hk2]
  · cases hlive : x.isLivePtr m.heap.length with
    | true =>
      have hx2 : x2 = x := by
        rcases hor hk with h1 | ⟨h1, -⟩
        · exact h1
        · rw [hlive] at h1; cases h1
      subst hx2
      refine ⟨?_, rfl⟩
      cases x2 <;> simp [Val.isLivePtr] at hlive
      rename_i e a
      cases a with
      | none => simp at hlive
      | some a =>
        simp at hlive
        rw [toStruct_of_live hl hlive, toStruct_of_live hl2 (by rw [hlen]; exact hlive)]
    | false =>
      have hr : x.isRecursed m.heap.length = false := by
        simp [Val.isRecursed, hk, hlive]
      have hr2 : x2.isRecursed m.heap.length = false := by
        rcases hor hk with h1 | ⟨-, h1⟩
        · rw [h1]; exact hr
        · have hzl := Val.zero_leaf hk m.heap.length
          rw [h1]
          simp [Val.isRecursed, hzl.1, hzl.2.1]
      rw [toStruct_of_leaf hl hr, toStruct_of_leaf hl2 (by rw [hlen]; exact hr2), hr, hr2]
      exact ⟨rfl, rfl⟩
theorem walkFields_zeroed {recur : Mem → RValue → RValue → Res} (vStr defStr : RValue)
    (hrz : ∀ m v d, Mem.Zeroed m (recur m v d).mem) (is : List Nat) (m : Mem) :
    Mem.Zeroed m (walkFields stripLeaf recur vStr defStr is m).mem :=
  walkFields_rule (fun _ => True) (fun m r => Mem.Zeroed m r.mem)
    (fun m => memZeroed_refl m) (fun m => memZeroed_refl m)
    (fun _ _ _ h1 h2 => memZeroed_trans h1 h2)
    (fun _ _ _ _ => trivial)
    (fun m _ _ _ _ _ _ _ _ => hrz m _ _)
    (fun m _ vf df _ _ _ _ hr => stripLeaf_zeroed m vf df hr)
    is m trivial

/-- A loop of `stripStruct` that returned keeps returning, without an effect, on
any storage obtained by further zeroing from the storage it left; and every step
of the loop on that storage, recursive call or leaf action, returns without an
effect. -/
theorem stripFields_fix {recur : Mem → RValue → RValue → Res} {vStr defStr : RValue}
    (hrz : ∀ m v d, Mem.Zeroed m (recur m v d).mem)
    (hrs : ∀ m v d m1 m2, recur m v d = .ok m1 → Mem.Zeroed m1 m2 → recur m2 v d = .ok m2) :
    ∀ (is : List Nat) (m m1 m2 : Mem),
      walkFields stripLeaf recur vStr defStr is m = .ok m1 → Mem.Zeroed m1 m2 →
      walkFields stripLeaf recur vStr defStr is m2 = .ok m2 ∧
      ∀ i ∈ is, ∃ vf df, vStr.Field m2 i = .ok vf ∧ defStr.Field m2 i = .ok df ∧
        (vf.CanSet = true →
          ((toStructOrStructPointer m2 vf).IsValid m2 = true →
            recur m2 (toStructOrStructPointer m2 vf) (toStructOrStructPointer m2 df)
              = .ok m2) ∧
          ((toStructOrStructPointer m2 vf).IsValid m2 = false →
            stripLeaf m2 vf df = .ok m2)) := by
  intro is
  induction is with
  | nil => intro m m1 m2 _ _; exact ⟨rfl, fun i hi => by simp at hi⟩
  | cons i is ih =>
    intro m m1 m2 h hz
    have hz01 : Mem.Zeroed m m1 := by
      have := walkFields_zeroed vStr defStr hrz (i :: is) m
      rw [h] at this
      exact this
    have hz02 := memZeroed_trans hz01 hz
    cases hvf : vStr.Field m i with
    | error e => simp [walkFields, hvf] at h
    | ok vf =>
      cases hdf : defStr.Field m i with
      | error e => simp [walkFields, hvf, hdf] at h
      | ok df =>
        have hvf2 := RValue.Field_zeroed hz02 hvf
        have hdf2 := RValue.Field_zeroed hz02 hdf
        cases hs : vf.CanSet with
        | false =>
          rw [walkFields_cons_skip hvf hdf hs] at h
          rw [walkFields_cons_skip hvf2 hdf2 hs]
          obtain ⟨hrun, hsteps⟩ := ih m m1 m2 h hz
          refine ⟨hrun, fun j hj => ?_⟩
          rcases List.mem_cons.mp hj with rfl | hj
          · exact ⟨vf, df, hvf2, hdf2, fun hs' => by rw [hs] at hs'; cases hs'⟩
          · exact hsteps j hj
        | true =>
          obtain ⟨x, hlx⟩ := RValue.Field_load hvf
          obtain ⟨y, hly⟩ := RValue.Field_load hdf
          obtain ⟨htv, hvalid⟩ := toStruct_zeroed hz02 hlx
          obtain ⟨htd, -⟩ := toStruct_zeroed hz02 hly
          cases hr : (toStructOrStructPointer m vf).IsValid m with
          | true =>
            rw [walkFields_cons_recur hvf hdf hs hr] at h
            rw [walkFields_cons_recur hvf2 hdf2 hs (by rw [hvalid]; exact hr), htv, htd]
            cases hrec : recur m (toStructOrStructPointer m vf)
                (toStructOrStructPointer m df) with
            | fail e ma => simp [hrec] at h
            | ok ma =>
              simp only [hrec] at h
              have hza : Mem.Zeroed ma m1 := by
                have := walkFields_zeroed vStr defStr hrz is ma
                rw [h] at this
                exact this
              have hstep := hrs m _ _ ma m2 hrec (memZeroed_trans hza hz)
              rw [hstep]
              obtain ⟨hrun, hsteps⟩ := ih ma m1 m2 h hz
              refine ⟨hrun, fun j hj => ?_⟩
              rcases List.mem_cons.mp hj with rfl | hj
              · refine ⟨vf, df, hvf2, hdf2, fun _ => ⟨fun _ => ?_, fun hc => ?_⟩⟩
                · rw [htv, htd]; exact hstep
                · rw [hvalid, hr] at hc; cases hc
              · exact hsteps j hj
          | false =>
            rw [walkFields_cons_leaf hvf hdf hs hr] at h
            rw [walkFields_cons_leaf hvf2 hdf2 hs (by rw [hvalid]; exact hr)]
            cases hleaf : stripLeaf m vf df with
            | fail e ma => simp [hleaf] at h
            | ok ma =>
              simp only [hleaf] at h
              have hza : Mem.Zeroed ma m1 := by
                have := walkFields_zeroed vStr defStr hrz is ma
                rw [h] at this
                exact this
              have hstep := stripLeaf_stable hleaf (memZeroed_trans hza hz) hs hr
              rw [hstep]
              obtain ⟨hrun, hsteps⟩ := ih ma m1 m2 h hz
              refine ⟨hrun, fun j hj => ?_⟩
              rcases List.mem_cons.mp hj with rfl | hj
              · refine ⟨vf, df, hvf2, hdf2, fun _ => ⟨fun hc => ?_, fun _ => hstep⟩⟩
                rw [hvalid, hr] at hc
                cases hc
              · exact hsteps j hj

theorem stripFields_stable {recur : Mem → RValue → RValue → Res} {vStr defStr : RValue}
    (hrz : ∀ m v d, Mem.Zeroed m (recur m v d).mem)
    (hrs : ∀ m v d m1 m2, recur m v d = .ok m1 → Mem.Zeroed m1 m2 → recur m2 v d = .ok m2)
    (is : List Nat) (m m1 m2 : Mem)
    (h : walkFields stripLeaf recur vStr defStr is m = .ok m1) (hz : Mem.Zeroed m1 m2) :
    walkFields stripLeaf recur vStr defStr is m2 = .ok m2 :=
  (stripFields_fix hrz hrs is m m1 m2 h hz).1

/-- A walk of `StripDefaults` that returned keeps returning, without an effect, on
any storage obtained by further zeroing from the storage it left. -/
theorem walkStruct_stable : ∀ (depth : Nat) (m : Mem) (vStr defStr : RValue) (m1 m2 : Mem),
    walkStruct stripLeaf depth m vStr defStr = .ok m1 → Mem.Zeroed m1 m2 →
    walkStruct stripLeaf depth m2 vStr defStr = .ok m2 := by
  intro depth
  induction depth with
  | zero => intro m vStr defStr m1 m2 h _; simp [walkStruct] at h
  | succ n ih =>
    intro m vStr defStr m1 m2 h hz
    have hz01 : Mem.Zeroed m m1 := by
      have := walkStruct_zeroed (n + 1) m vStr defStr
      rw [h] at this
      exact this
    unfold walkStruct at h ⊢
    cases hn : vStr.NumField m with
    | error e => simp [hn] at h
    | ok k =>
      simp only [hn] at h
      rw [RValue.NumField_zeroed (memZeroed_trans hz01 hz) hn]
      exact stripFields_stable (fun m v d => walkStruct_zeroed n m v d)
        (fun m v d ma mb => ih m v d ma mb) _ m m1 m2 h hz

theorem Arg.Elem_zeroed {m m2 : Mem} (hz : Mem.Zeroed m m2) (v : Arg) :
    v.Elem m2 = v.Elem m := by
  cases v with
  | nil => rfl
  | rootPtr => rfl
  | val x => simp only [Arg.Elem, RValue.Elem, RValue.load, hz.2.1]

theorem validationError_zeroed {m m2 : Mem} (hz : Mem.Zeroed m m2) {v : Arg}
    {d : Option Val} (h : validationError m v d = none) : validationError m2 v d = none := by
  have hty : v.TypeOf m2 = v.TypeOf m := by
    cases v <;> simp [Arg.TypeOf, hz.1.1]
  unfold validationError at h ⊢
  rw [hty, Arg.Elem_zeroed hz]
  cases hT : v.TypeOf m with
  | none => simp [hT] at h
  | some vType =>
    simp only [hT] at h ⊢
    by_cases h1 : vType.Kind ≠ .Ptr
    · simp [h1] at h
    · simp only [h1, if_false] at h ⊢
      by_cases h2 : (v.Elem m).Kind m ≠ .Struct
      · simp [h2] at h
      · simp only [h2, if_false] at h
        have h2' : (v.Elem m).Kind m2 = .Struct := by
          simp only [ne_eq, not_not] at h2
          unfold RValue.Kind at h2 ⊢
          cases hl : (v.Elem m).load m with
          | none => simp [hl] at h2
          | some x =>
            obtain ⟨x2, hl2, hxt, -⟩ := memZeroed_load hz hl
            simp only [hl] at h2
            simp only [hl2]
            rw [Val.Kind_of_typeOf_eq hxt]
            exact h2
        simp only [h2', ne_eq, not_true_eq_false, if_false]
        exact h

/-- Over storage in which every pointer refers to a whole heap struct:
for every target and defaults, whatever
pointers they hold and share: if `StripDefaults(&T, D)` succeeds, a second
`StripDefaults(&T, D)` with the same `D` succeeds too and leaves the whole storage,
the target and every struct behind a pointer, exactly as the first call left it. -/
theorem StripDefaults_stable (depth : Nat) (m : Mem) (v : Arg) (d : Option Val) (m1 : Mem)
    (h : StripDefaults depth m v d = .ok m1) : StripDefaults depth m1 v d = .ok m1 := by
  have hz : Mem.Zeroed m m1 := by
    have := StripDefaults_zeroed depth m v d
    rw [h] at this
    exact this
  rw [StripDefaults_eq_entry] at h ⊢
  cases hv : validationError m v d with
  | some msg => rw [entry_of_validationError_some hv] at h; cases h
  | none =>
    obtain ⟨dv, hd, he⟩ := entry_of_validationError_none hv (walkStruct stripLeaf depth)
    obtain ⟨dv2, hd2, he2⟩ :=
      entry_of_validationError_none (validationError_zeroed hz hv) (walkStruct stripLeaf depth)
    rw [hd] at hd2
    cases hd2
    rw [he] at h
    rw [he2, Arg.Elem_zeroed hz]
    exact walkStruct_stable depth m _ _ m1 m1 h (memZeroed_refl m1)

/-! ## What a successful `StripDefaults` leaves behind -/

theorem RValue.Field_spec {m : Mem} {v : RValue} {pk n : String} {fs : List (FieldOf Val)}
    {i : Nat} {f : FieldOf Val} (hl : v.load m = some (.struct pk n fs))
    (hf : fs[i]? = some f) :
    ∃ df, v.Field m i = .ok df ∧ df.load m = some f.val ∧ df.ro = (v.ro || !f.exported) := by
  cases v with
  | invalid => simp [RValue.load] at hl
  | held w r =>
    simp only [RValue.load, Option.some.injEq] at hl
    subst hl
    exact ⟨_, RValue.Field_held hf, rfl, rfl⟩
  | ref b p r =>
    refine ⟨_, RValue.Field_of_read hl hf, ?_, rfl⟩
    simp only [RValue.load, Mem.read] at hl ⊢
    cases hb : m.base b with
    | none => simp [hb] at hl
    | some y =>
      simp only [hb] at hl ⊢
      exact Val.getPath_snoc hl hf

theorem RValue.Field_lt {m : Mem} {v vf : RValue} {i k : Nat} (h : v.Field m i = .ok vf)
    (hn : v.NumField m = .ok k) : i < k := by
  unfold RValue.Field at h
  unfold RValue.NumField at hn
  cases hl : v.load m with
  | none => simp [hl] at h
  | some x =>
    cases x <;> simp only [hl] at h hn <;> try contradiction
    rename_i pk n fs
    simp only [Except.ok.injEq] at hn
    subst hn
    by_contra hc
    rw [List.getElem?_eq_none (Nat.le_of_not_lt hc)] at h
    simp at h

/-- At a storage that a walk of `StripDefaults` leaves as it is, every step of the
loop leaves it as it is. -/
theorem walkStruct_fix_step {n : Nat} {m : Mem} {V Dv : RValue}
    (hst : walkStruct stripLeaf (n + 1) m V Dv = .ok m) {i : Nat} {vf : RValue}
    (hvf : V.Field m i = .ok vf) :
    ∃ df, Dv.Field m i = .ok df ∧ (vf.CanSet = true →
      ((toStructOrStructPointer m vf).IsValid m = true →
        walkStruct stripLeaf n m (toStructOrStructPointer m vf) (toStructOrStructPointer m df)
          = .ok m) ∧
      ((toStructOrStructPointer m vf).IsValid m = false → stripLeaf m vf df = .ok m)) := by
  unfold walkStruct at hst
  cases hn : V.NumField m with
  | error e => simp [hn] at hst
  | ok k =>
    simp only [hn] at hst
    have hi : i ∈ List.range k := List.mem_range.mpr (RValue.Field_lt hvf hn)
    obtain ⟨vf', df, hvf', hdf, H⟩ :=
      (stripFields_fix (fun m v d => walkStruct_zeroed n m v d)
        (fun m v d ma mb => walkStruct_stable n m v d ma mb) _ m m m hst
        (memZeroed_refl m)).2 i hi
    rw [hvf] at hvf'
    cases hvf'
    exact ⟨df, hdf, H⟩

/-- At a storage that a walk of `StripDefaults` leaves as it is: along an exported
path of the walked struct, a leaf that deeply equals the default is zero, and the
struct behind a live pointer is left as it is by the walk against the struct behind
the default pointer. -/
theorem strip_fix_descend : ∀ (p : List Nat) (n : Nat) (m : Mem) (B : Base) (q : List Nat)
    (Dv : RValue) (t d x : Val),
    walkStruct stripLeaf n m (.ref B q false) Dv = .ok m → m.read B q = some t →
    Dv.load m = some d → Dv.ro = false → t.typeOf = d.typeOf → p ≠ [] →
    t.exportedPath p = true → t.getPath p = some x →
    ∃ y, d.getPath p = some y ∧ x.typeOf = y.typeOf ∧
      (x.isRecursed m.heap.length = false → x.deepEqual y = true → x.typeOf.zero = x) ∧
      (∀ e a e' b, x = .ptr e (some a) → a < m.heap.length → y = .ptr e' (some b) →
        b < m.heap.length →
        ∃ n', walkStruct stripLeaf n' m (.ref (.obj a) [] false) (.ref (.obj b) [] false)
          = .ok m) := by
  intro p
  induction p with
  | nil => intro n m B q Dv t d x _ _ _ _ _ hne; exact absurd rfl hne
  | cons i p ih =>
    intro n m B q Dv t d x hst ht hd hro hty _ he hx
    cases n with
    | zero => simp [walkStruct] at hst
    | succ n =>
      cases t <;> simp [Val.getPath] at hx
      rename_i pk nm fs
      obtain ⟨gs, rfl, hfs⟩ := Val.typeOf_struct_inj hty
      cases hf : fs[i]? with
      | none => simp [hf] at hx
      | some f =>
        simp only [hf] at hx
        simp only [Val.exportedPath, hf, Bool.and_eq_true] at he
        obtain ⟨g, hg, -, hge, hgt⟩ := typeOfFields_getElem? hfs hf
        have hvf : (RValue.ref B q false).Field m i = .ok (.ref B (q ++ [i]) false) := by
          have := RValue.Field_of_read (r := false) ht hf
          simpa [he.1] using this
        obtain ⟨df, hdf, hstep⟩ := walkStruct_fix_step hst hvf
        obtain ⟨df', hdf', hdl, hdro⟩ := RValue.Field_spec hd hg
        rw [hdf] at hdf'
        cases hdf'
        have hdro' : df.ro = false := by rw [hdro, hro, hge, he.1]; rfl
        have hvl : (RValue.ref B (q ++ [i]) false).load m = some f.val := by
          simp only [RValue.load, Mem.read] at ht ⊢
          cases hb : m.base B with
          | none => simp [Mem.read, hb] at ht
          | some y =>
            simp only [Mem.read, hb] at ht ⊢
            exact Val.getPath_snoc ht hf
        obtain ⟨hrec, hleaf⟩ := hstep rfl
        have hvalid := toStruct_valid_iff hvl
        cases p with
        | nil =>
          simp only [Val.getPath, Option.some.injEq] at hx
          subst hx
          refine ⟨g.val, by simp [Val.getPath, hg], hgt.symm, ?_, ?_⟩
          · intro hnr hde
            rw [hnr] at hvalid
            obtain ⟨x0, y0, hx0, hy0, -, hcase⟩ := stripLeaf_ok (hleaf hvalid)
            have hx0' : (RValue.ref B (q ++ [i]) false).load m = some x0 := hx0
            rw [hvl] at hx0'
            cases hx0'
            rw [hdl] at hy0
            cases hy0
            rcases hcase with ⟨hde', -⟩ | ⟨-, hw⟩
            · rw [hde] at hde'; cases hde'
            · have := Mem.read_write hw
              have hvl' : m.read B (q ++ [i]) = some f.val := hvl
              rw [hvl'] at this
              exact (Option.some.inj this).symm
          · intro e a e' b hxa ha hyb hb
            have hlive : f.val.isRecursed m.heap.length = true := by
              simp [hxa, Val.isRecursed, Val.isLivePtr, ha]
            rw [hlive] at hvalid
            have h1 := hrec hvalid
            rw [hxa] at hvl
            rw [hyb] at hdl
            rw [toStruct_of_live hvl ha, toStruct_of_live hdl hb, hdro'] at h1
            exact ⟨n, h1⟩
        | cons j p' =>
          have hks : f.val.Kind = .Struct := by
            cases hfv : f.val <;> simp [hfv, Val.getPath] at hx
            simp [Val.Kind]
          have hkg : g.val.Kind = .Struct := by
            rw [Val.Kind_of_typeOf_eq hgt]; exact hks
          have hlive : f.val.isRecursed m.heap.length = true := by
            simp [Val.isRecursed, hks]
          rw [hlive] at hvalid
          have h1 := hrec hvalid
          rw [toStruct_of_struct hvl hks, toStruct_of_struct hdl hkg] at h1
          obtain ⟨y, hy, hxy, hA, hB⟩ := ih n m B (q ++ [i]) df f.val g.val x h1 hvl hdl hdro'
            hgt.symm (by simp) he.2 hx
          exact ⟨y, by simp only [Val.getPath, hg]; exact hy, hxy, hA, hB⟩

theorem deepEqualFields_getElem? : ∀ (fs gs : List (FieldOf Val)) (i : Nat) (f : FieldOf Val),
    deepEqualFields fs gs = true → fs[i]? = some f →
    ∃ g, gs[i]? = some g ∧ f.val.deepEqual g.val = true
  | [], _, _, _, _, hf => by simp at hf
  | _ :: _, [], _, _, h, _ => by simp [deepEqualFields] at h
  | f0 :: r, g0 :: s, 0, f, h, hf => by
      simp only [deepEqualFields, Bool.and_eq_true] at h
      simp only [List.getElem?_cons_zero, Option.some.injEq] at hf
      subst hf
      exact ⟨g0, by simp, h.1.2⟩
  | f0 :: r, g0 :: s, i + 1, f, h, hf => by
      simp only [deepEqualFields, Bool.and_eq_true] at h
      simp only [List.getElem?_cons_succ] at hf ⊢
      exact deepEqualFields_getElem? r s i f h.2 hf

/-- Deeply equal values hold deeply equal values at every path. -/
theorem Val.deepEqual_getPath : ∀ (r : List Nat) (v w x : Val), v.deepEqual w = true →
    v.getPath r = some x → ∃ y, w.getPath r = some y ∧ x.deepEqual y = true := by
  intro r
  induction r with
  | nil =>
    intro v w x h hx
    simp only [Val.getPath, Option.some.injEq] at hx
    subst hx
    exact ⟨w, by simp [Val.getPath], h⟩
  | cons i r ih =>
    intro v w x h hx
    cases v <;> simp [Val.getPath] at hx
    rename_i pk nm fs
    cases w <;> simp [Val.deepEqual] at h
    rename_i pk' nm' gs
    cases hf : fs[i]? with
    | none => simp [hf] at hx
    | some f =>
      simp only [hf] at hx
      obtain ⟨g, hg, hfg⟩ := deepEqualFields_getElem? fs gs i f h.2 hf
      obtain ⟨y, hy, hxy⟩ := ih f.val g.val x hfg hx
      exact ⟨y, by simp only [Val.getPath, hg]; exact hy, hxy⟩

/-- A plain value holds no live pointer at the end of an exported path. -/
theorem Val.plain_getPath (h : Nat) : ∀ (r : List Nat) (n : Nat) (v x : Val),
    v.plain h n = true → v.exportedPath r = true → v.getPath r = some x →
    x.Kind ≠ .Struct → x.isLivePtr h = false := by
  intro r
  induction r with
  | nil =>
    intro n v x hp _ hx hk
    simp only [Val.getPath, Option.some.injEq] at hx
    subst hx
    rw [Val.plain_not_struct hk] at hp
    simpa using hp
  | cons i r ih =>
    intro n v x hp he hx hk
    cases v <;> simp [Val.getPath] at hx
    rename_i pk nm fs
    cases hf : fs[i]? with
    | none => simp [hf] at hx
    | some f =>
      simp only [hf] at hx
      simp only [Val.exportedPath, hf, Bool.and_eq_true] at he
      cases n with
      | zero => simp [Val.plain] at hp
      | succ n =>
        simp only [Val.plain, List.all_eq_true] at hp
        have hmem : f ∈ fs := List.getElem?_mem hf
        have := hp f hmem
        simp only [he.1, Bool.not_true, Bool.false_or] at this
        exact ih n f.val x this he.2 hx hk

/-- A value of a type with exported fields only is zero when all its leaves are. -/
theorem Val.isZero_of_leaves : ∀ (n : Nat) (v : Val), v.typeOf.allExported n = true →
    (∀ r x, v.exportedPath r = true → v.getPath r = some x → x.Kind ≠ .Struct →
      x.isZero = true) → v.isZero = true := by
  intro n
  induction n with
  | zero =>
    intro v ha hl
    by_cases hk : v.Kind = .Struct
    · obtain ⟨pk, nm, fs, rfl⟩ := Val.struct_of_Kind hk
      simp [Val.typeOf, Ty.allExported] at ha
    · exact hl [] v (Val.exportedPath_nil v) (by simp [Val.getPath]) hk
  | succ n ih =>
    intro v ha hl
    by_cases hk : v.Kind = .Struct
    · obtain ⟨pk, nm, fs, rfl⟩ := Val.struct_of_Kind hk
      simp only [Val.typeOf, Ty.allExported] at ha
      have key : ∀ fs : List (FieldOf Val),
          (typeOfFields fs).all (fun f => f.exported && Ty.allExported n f.val) = true →
          (∀ (i : Nat) (f : FieldOf Val), fs[i]? = some f → ∀ (r : List Nat) (x : Val),
            f.val.exportedPath r = true → f.val.getPath r = some x → x.Kind ≠ .Struct →
            x.isZero = true) →
          isZeroFields fs = true := by
        intro fs
        induction fs with
        | nil => intro _ _; simp [isZeroFields]
        | cons f s ihs =>
          intro hall hlf
          simp only [typeOfFields, List.all_cons, Bool.and_eq_true] at hall
          simp only [isZeroFields, Bool.and_eq_true]
          refine ⟨ih f.val hall.1.2 (hlf 0 f (by simp)), ?_⟩
          exact ihs hall.2 (fun i g hg => hlf (i + 1) g (by simpa using hg))
      simp only [Val.isZero]
      refine key fs ha (fun i f hf r x her hxr hkx => ?_)
      have hfe : f.exported = true := by
        have hmem : (⟨f.name, f.exported, f.val.typeOf⟩ : FieldOf Ty) ∈ typeOfFields fs := by
          rw [typeOfFields_eq_map]
          exact List.mem_map.mpr ⟨f, List.getElem?_mem hf, rfl⟩
        have := (List.all_eq_true.mp ha) _ hmem
        simp only [Bool.and_eq_true] at this
        exact this.1
      exact hl (i :: r) x (by simp [Val.exportedPath, hf, hfe, her])
        (by simp [Val.getPath, hf, hxr]) hkx
    · exact hl [] v (Val.exportedPath_nil v) (by simp [Val.getPath]) hk
theorem StripDefaults_walk {depth : Nat} {m : Mem} {D : Val} {m1 : Mem}
    (h : StripDefaults depth m .rootPtr (some D) = .ok m1) :
    m.root.Kind = .Struct ∧
      walkStruct stripLeaf depth m (.ref .root [] false) (.held D false) = .ok m1 := by
  rw [StripDefaults_eq_entry] at h
  cases hv : validationError m .rootPtr (some D) with
  | some msg => rw [entry_of_validationError_some hv] at h; cases h
  | none =>
    obtain ⟨dv, hd, he⟩ := entry_of_validationError_none hv (walkStruct stripLeaf depth)
    cases hd
    rw [he] at h
    refine ⟨?_, h⟩
    by_contra hk
    have : validationError m .rootPtr (some D) = some "value must be a struct pointer" := by
      simp [validationError, Arg.TypeOf, Ty.Kind, Arg.Elem, RValue.Kind, RValue.load,
        Mem.read, Mem.base, Val.getPath, hk]
    rw [hv] at this
    cases this

/-- C18 as stated fails.  The target's `P` and the defaults' `P` point at two
structs `H{a: 5, B: 1}`, deeply equal to each other; the field `a` is unexported.
`StripDefaults` succeeds, keeps the pointer and zeroes `B`, but skips `a`: the struct
behind `P` ends as `H{a: 5, B: 0}`, which is not all-zero. -/
theorem strip_pointee_counterexample :
    hiddenPointeeMem.root.typeOf = hiddenPointeeDefaults.typeOf ∧
    hiddenPointeeMem.root.exportedPath [0] = true ∧
    hiddenPointeeMem.root.getPath [0] = some (.ptr tyH (some 0)) ∧
    hiddenPointeeDefaults.getPath [0] = some (.ptr tyH (some 1)) ∧
    hiddenPointeeMem.heap[0]? = some (objH 5 1) ∧
    hiddenPointeeMem.heap[1]? = some (objH 5 1) ∧
    (objH 5 1).toVal.deepEqual (objH 5 1).toVal = true ∧
    StripDefaults 4 hiddenPointeeMem .rootPtr (some hiddenPointeeDefaults)
      = .ok ⟨mkW (some 0), [objH 5 0, objH 5 1]⟩ ∧
    (objH 5 0).toVal.isZero = false := by
  refine ⟨rfl, rfl, rfl, rfl, rfl, rfl, rfl, rfl, rfl⟩

/-- Over storage in which every pointer refers to a whole heap struct:
let `P` be an exported field of pointer-to-struct type, at any
nesting depth by value, that is non-nil in the target `T` and in the defaults `D` of
the same struct type, with structs of one type behind the two pointers.  After a
successful `StripDefaults(&T, D)`:
the field holds the address it held;
every field of the struct behind it that is not a struct holds what it held or, if
it was no live pointer, the zero value of its type;
no exported leaf field of that struct, at any nesting depth by value, is left
non-zero while deeply equal to the corresponding field of the struct behind `D.P`
as the call leaves it;
and if the struct behind `P` has exported fields only, holds no live pointer, was
deeply equal to the struct behind `D.P`, and the call left that struct as it was (or
the two pointers are the same), the struct behind `P` ends all-zero. -/
theorem root_strip_live_pointer (depth : Nat) (m : Mem) (D : Val) (m1 : Mem) (p : List Nat)
    (e : Ty) (a b : Nat) (o ob : Obj) (ht : m.root.typeOf = D.typeOf)
    (h : StripDefaults depth m .rootPtr (some D) = .ok m1)
    (he : m.root.exportedPath p = true)
    (hx : m.root.getPath p = some (.ptr e (some a)))
    (hd : D.getPath p = some (.ptr e (some b)))
    (ho : m.heap[a]? = some o) (hob : m.heap[b]? = some ob)
    (hto : o.toVal.typeOf = ob.toVal.typeOf) :
    m1.root.getPath p = some (.ptr e (some a)) ∧
    ∃ o1 ob1, m1.heap[a]? = some o1 ∧ m1.heap[b]? = some ob1 ∧
      Val.Zeroed m.heap.length o.toVal o1.toVal ∧
      (∀ r x1, o1.toVal.exportedPath r = true → o1.toVal.getPath r = some x1 →
        x1.isRecursed m.heap.length = false →
        ∃ y1, ob1.toVal.getPath r = some y1 ∧ (x1.deepEqual y1 = true → x1.isZero = true)) ∧
      (∀ n, o.toVal.typeOf.allExported n = true → o.toVal.plain m.heap.length n = true →
        o.toVal.deepEqual ob.toVal = true → (ob1 = ob ∨ a = b) → o1.toVal.isZero = true) := by
  have hz : Mem.Zeroed m m1 := by
    have := StripDefaults_zeroed depth m .rootPtr (some D)
    rw [h] at this
    exact this
  have hlen : m1.heap.length = m.heap.length := hz.2.1
  have ha : a < m.heap.length := by
    by_contra hc
    rw [List.getElem?_eq_none (Nat.le_of_not_lt hc)] at ho
    simp at ho
  have hb : b < m.heap.length := by
    by_contra hc
    rw [List.getElem?_eq_none (Nat.le_of_not_lt hc)] at hob
    simp at hob
  obtain ⟨hk, hwalk⟩ := StripDefaults_walk h
  have hfix := walkStruct_stable depth m _ _ m1 m1 hwalk (memZeroed_refl m1)
  -- the pointer field
  have hlive : (Val.ptr e (some a)).isLivePtr m.heap.length = true := by
    simp [Val.isLivePtr, ha]
  have hl : (RValue.ref .root p false).load m = some (.ptr e (some a)) := hx
  obtain ⟨x', hx', -, hor⟩ := memZeroed_load hz hl
  have hxe : x' = .ptr e (some a) := by
    rcases hor (by simp [Val.Kind]) with h1 | ⟨h1, -⟩
    · exact h1
    · rw [hlive] at h1; cases h1
  subst hxe
  have hx1 : m1.root.getPath p = some (.ptr e (some a)) := hx'
  have hp : p ≠ [] := by
    intro hp
    subst hp
    simp only [Val.getPath, Option.some.injEq] at hx
    rw [hx] at hk
    simp [Val.Kind] at hk
  -- the two structs after the call
  have ha1 : a < m1.heap.length := by rw [hlen]; exact ha
  have hb1 : b < m1.heap.length := by rw [hlen]; exact hb
  have ho1 : m1.heap[a]? = some m1.heap[a] := by simp [ha1]
  have hob1 : m1.heap[b]? = some m1.heap[b] := by simp [hb1]
  have hzo := hz.2.2 a o _ ho ho1
  have hzb := hz.2.2 b ob _ hob hob1
  -- the walk of the struct behind the pointer leaves the final storage as it is
  obtain ⟨y, hy, -, -, hptr⟩ := strip_fix_descend p depth m1 .root [] (.held D false)
    m1.root D (.ptr e (some a)) hfix (by simp [Mem.read, Mem.base, Val.getPath]) rfl rfl
    (hz.1.1.trans ht) hp
    (by rw [Val.exportedPath_congr hz.1.1]; exact he) hx1
  rw [hd] at hy
  cases hy
  obtain ⟨n', hsub⟩ := hptr e a e b rfl ha1 rfl hb1
  have hra : m1.read (.obj a) [] = some (m1.heap[a]).toVal := by
    obtain ⟨o', ho', hr'⟩ := Mem.read_obj_nil ha1
    rw [ho1] at ho'
    cases ho'
    exact hr'
  have hrb : (RValue.ref (.obj b) [] false).load m1 = some (m1.heap[b]).toVal := by
    obtain ⟨o', ho', hr'⟩ := Mem.read_obj_nil hb1
    rw [hob1] at ho'
    cases ho'
    exact hr'
  have hty1 : (m1.heap[a]).toVal.typeOf = (m1.heap[b]).toVal.typeOf := by
    rw [hzo.1, hzb.1]; exact hto
  have hfixleaf : ∀ r x1, (m1.heap[a]).toVal.exportedPath r = true →
      (m1.heap[a]).toVal.getPath r = some x1 → x1.isRecursed m.heap.length = false →
      ∃ y1, (m1.heap[b]).toVal.getPath r = some y1 ∧
        (x1.deepEqual y1 = true → x1.isZero = true) := by
    intro r x1 her hxr hnr
    have hr : r ≠ [] := by
      intro hr
      subst hr
      simp only [Val.getPath, Option.some.injEq] at hxr
      subst hxr
      simp [Val.isRecursed, Obj.toVal, Val.Kind] at hnr
    obtain ⟨y1, hy1, -, hzero, -⟩ := strip_fix_descend r n' m1 (.obj a) []
      (.ref (.obj b) [] false) _ _ x1 hsub hra hrb rfl hty1 hr her hxr
    refine ⟨y1, hy1, fun hde => ?_⟩
    have hxz := hzero (by rw [hlen]; exact hnr) hde
    rw [← hxz]
    exact (Val.zero_leaf (Val.leaf_of_not_recursed hnr).1 m.heap.length).2.2
  refine ⟨hx1, m1.heap[a], m1.heap[b], ho1, hob1, hzo, hfixleaf, ?_⟩
  intro n hae hpl hde hcase
  refine Val.isZero_of_leaves n _ (by rw [hzo.1]; exact hae) (fun r x1 her hxr hkx => ?_)
  obtain ⟨x, hxo, hxt⟩ := Val.getPath_typeOf_congr hzo.1 r x1 hxr
  have hkxo : x.Kind ≠ .Struct := by rw [Val.Kind_of_typeOf_eq hxt]; exact hkx
  have hero : o.toVal.exportedPath r = true := by
    rw [← Val.exportedPath_congr hzo.1]; exact her
  have hnl : x.isLivePtr m.heap.length = false :=
    Val.plain_getPath m.heap.length r n o.toVal x hpl hero hxo hkxo
  rcases hzo.2 r x hxo hkxo with h1 | ⟨-, h1⟩
  · rw [hxr] at h1
    cases h1
    have hnr : x1.isRecursed m.heap.length = false := by
      simp [Val.isRecursed, hkx, hnl]
    obtain ⟨y1, hy1, hzero⟩ := hfixleaf r x1 her hxr hnr
    apply hzero
    rcases hcase with hsame | hab
    · obtain ⟨y, hyo, hxy⟩ := Val.deepEqual_getPath r o.toVal ob.toVal x1 hde hxo
      rw [hsame, hyo] at hy1
      cases hy1
      exact hxy
    · subst hab
      rw [ho] at hob
      cases hob
      obtain ⟨y, hyo, hxy⟩ := Val.deepEqual_getPath r o.toVal o.toVal x1 hde hxo
      rw [hxo] at hyo
      cases hyo
      rw [hxr] at hy1
      cases hy1
      exact hxy
  · rw [hxr] at h1
    cases h1
    exact (Val.zero_leaf hkxo m.heap.length).2.2

/-! ## The structs a walk of `StripDefaults` can reach -/

theorem mem_livePtrsFields {h : Nat} {a : Nat} : ∀ (fs : List (FieldOf Val)) (i : Nat)
    (f : FieldOf Val), fs[i]? = some f → f.exported = true → a ∈ f.val.livePtrs h →
    a ∈ livePtrsFields h fs
  | [], _, _, hf, _, _ => by simp at hf
  | f0 :: r, 0, f, hf, he, ha => by
      simp only [List.getElem?_cons_zero, Option.some.injEq] at hf
      subst hf
      simp only [livePtrsFields, he, if_true, List.mem_append]
      exact Or.inl ha
  | f0 :: r, i + 1, f, hf, he, ha => by
      simp only [List.getElem?_cons_succ] at hf
      simp only [livePtrsFields, List.mem_append]
      exact Or.inr (mem_livePtrsFields r i f hf he ha)

theorem mem_livePtrs_of_path {h : Nat} : ∀ (p : List Nat) (v : Val) (e : Ty) (a : Nat),
    v.exportedPath p = true → v.getPath p = some (.ptr e (some a)) → a < h →
    a ∈ v.livePtrs h := by
  intro p
  induction p with
  | nil =>
    intro v e a _ hx ha
    simp only [Val.getPath, Option.some.injEq] at hx
    subst hx
    simp [Val.livePtrs, ha]
  | cons i p ih =>
    intro v e a he hx ha
    cases v <;> simp [Val.getPath] at hx
    rename_i pk nm fs
    cases hf : fs[i]? with
    | none => simp [hf] at hx
    | some f =>
      simp only [hf] at hx
      simp only [Val.exportedPath, hf, Bool.and_eq_true] at he
      simp only [Val.livePtrs]
      exact mem_livePtrsFields fs i f hf he.1 (ih f.val e a he.2 hx ha)

theorem pathClosed_of_closedUnder {m : Mem} {S : Nat → Bool}
    (h : m.closedUnder S = true) : m.PathClosed S := by
  simp only [Mem.closedUnder, Bool.and_eq_true, List.all_eq_true, List.mem_range,
    Bool.or_eq_true, Bool.not_eq_true'] at h
  intro B v p e a hb hw he hx ha
  have hmem := mem_livePtrs_of_path p v e a he hx ha
  cases B with
  | root =>
    simp only [Mem.base, Option.some.injEq] at hb
    subst hb
    exact h.1 a hmem
  | obj c =>
    simp only [Mem.base] at hb
    cases ho : m.heap[c]? with
    | none => simp [ho] at hb
    | some o =>
      simp only [ho, Option.map_some', Option.some.injEq] at hb
      subst hb
      have hc : c < m.heap.length := by
        by_contra hc
        rw [List.getElem?_eq_none (Nat.le_of_not_lt hc)] at ho
        simp at ho
      rcases h.2 c hc with h1 | h1
      · simp only [Base.within] at hw
        rw [hw] at h1
        cases h1
      · simp only [ho] at h1
        exact (List.all_eq_true.mp h1) a hmem

/-- Zeroing keeps the closure: it neither moves nor creates a live pointer. -/
theorem pathClosed_zeroed {m m' : Mem} {S : Nat → Bool} (hz : Mem.Zeroed m m')
    (h : m.PathClosed S) : m'.PathClosed S := by
  intro B v' p e a hb' hw he hx ha
  have hlen := hz.2.1
  -- the base exists before as well
  have hbex : ∃ v, m.base B = some v := by
    cases B with
    | root => exact ⟨m.root, rfl⟩
    | obj c =>
      simp only [Mem.base] at hb' ⊢
      cases ho : m'.heap[c]? with
      | none => simp [ho] at hb'
      | some o' =>
        have hc : c < m'.heap.length := by
          by_contra hc
          rw [List.getElem?_eq_none (Nat.le_of_not_lt hc)] at ho
          simp at ho
        rw [hlen] at hc
        exact ⟨(m.heap[c]).toVal, by simp [hc]⟩
  obtain ⟨v, hb⟩ := hbex
  obtain ⟨v2, hb2, hzv⟩ := memZeroed_base hz hb
  rw [hb'] at hb2
  cases hb2
  obtain ⟨x, hxv, hxt⟩ := Val.getPath_typeOf_congr hzv.1 p _ hx
  have hkx : x.Kind ≠ .Struct := by
    rw [Val.Kind_of_typeOf_eq hxt]; simp [Val.Kind]
  have hxe : x = .ptr e (some a) := by
    rcases hzv.2 p x hxv hkx with h1 | ⟨-, h1⟩
    · rw [hx] at h1
      exact (Option.some.inj h1).symm
    · rw [hx] at h1
      have h2 := Option.some.inj h1
      cases x <;> simp [Val.typeOf, Ty.zero] at h2
  subst hxe
  exact h B v p e a hb hw (by rw [← Val.exportedPath_congr hzv.1]; exact he) hxv
    (by rw [← hlen]; exact ha)
theorem Mem.write_outside {m m' : Mem} {B : Base} {p : List Nat} {w : Val}
    (h : m.write B p w = some m') (c : Nat) (hc : B ≠ .obj c) : m'.heap[c]? = m.heap[c]? := by
  cases B with
  | root =>
    simp only [Mem.write] at h
    cases hs : m.root.setPath p w with
    | none => simp [hs] at h
    | some r =>
      simp only [hs, Option.some.injEq] at h
      subst h
      rfl
  | obj a =>
    simp only [Mem.write] at h
    cases ho : m.heap[a]? with
    | none => simp [ho] at h
    | some o =>
      simp only [ho] at h
      cases hs : o.toVal.setPath p w with
      | none => simp [hs] at h
      | some r =>
        cases r <;> simp only [hs] at h
        all_goals first | (simp at h; done) | skip
        rename_i pk n fs
        injection h with h
        subst h
        have hac : a ≠ c := fun hac => hc (by rw [hac])
        simp [List.getElem?_set, hac]

theorem RValue.wf_of_zeroed {m m' : Mem} (h : Mem.Zeroed m m') {v : RValue} (hv : v.wf m) :
    v.wf m' := by
  cases v with
  | invalid => trivial
  | held x r => trivial
  | ref b p r =>
    cases r with
    | true => trivial
    | false =>
      obtain ⟨x, hb, he⟩ := hv
      obtain ⟨x', hb', hf⟩ := memZeroed_base h hb
      exact ⟨x', hb', by rw [Val.exportedPath_congr hf.1]; exact he⟩

theorem RValue.Set_outside {m m1 : Mem} {vf x : RValue} {S : Nat → Bool}
    (h : vf.Set m x = .ok m1) (hw : vf.within S = true) (c : Nat) (hc : S c = false) :
    m1.heap[c]? = m.heap[c]? := by
  unfold RValue.Set at h
  split at h
  · rename_i b p old new _ _
    split at h
    · simp at h
    · split at h
      · cases hwr : m.write b p new with
        | none => simp [hwr] at h
        | some m2 =>
          simp only [hwr, Except.ok.injEq] at h
          subst h
          refine Mem.write_outside hwr c (fun hb => ?_)
          subst hb
          simp only [RValue.within, Base.within] at hw
          rw [hw] at hc
          cases hc
      · simp at h
  · simp at h

theorem stripLeaf_outside (m : Mem) (vf df : RValue) {S : Nat → Bool}
    (hw : vf.within S = true) (c : Nat) (hc : S c = false) :
    (stripLeaf m vf df).mem.heap[c]? = m.heap[c]? := by
  unfold stripLeaf
  split
  · rfl
  · split
    · rfl
    · split
      · split
        · rfl
        · split
          · rfl
          · rename_i m1 h
            exact RValue.Set_outside h hw c hc
      · rfl

theorem RValue.within_Field {m : Mem} {v vf : RValue} {i : Nat} {S : Nat → Bool}
    (hw : v.within S = true) (hf : v.Field m i = .ok vf) : vf.within S = true := by
  unfold RValue.Field at hf
  cases hl : v.load m with
  | none => simp [hl] at hf
  | some x =>
    cases x <;> simp only [hl] at hf <;> try contradiction
    rename_i pk n fs
    cases hfi : fs[i]? with
    | none => simp [hfi] at hf
    | some f =>
      simp only [hfi] at hf
      cases v with
      | invalid => simp at hf
      | held w r =>
        simp only [Except.ok.injEq] at hf
        subst hf
        rfl
      | ref b p r =>
        simp only [Except.ok.injEq] at hf
        subst hf
        exact hw

theorem RValue.within_toStruct {m : Mem} {vf : RValue} {S : Nat → Bool}
    (hc : m.PathClosed S) (hwf : vf.wf m) (hs : vf.CanSet = true)
    (hw : vf.within S = true) : (toStructOrStructPointer m vf).within S = true := by
  cases hl : vf.load m with
  | none =>
    have : toStructOrStructPointer m vf = .invalid := by
      simp [toStructOrStructPointer, RValue.IsValid, hl]
    rw [this]; rfl
  | some x =>
    cases hr : x.isRecursed m.heap.length with
    | false => rw [toStruct_of_leaf hl hr]; rfl
    | true =>
      simp only [Val.isRecursed, Bool.or_eq_true, beq_iff_eq] at hr
      by_cases hk : x.Kind = .Struct
      · rw [toStruct_of_struct hl hk]; exact hw
      · have hp : x.isLivePtr m.heap.length = true := by
          rcases hr with h | h
          · exact absurd h hk
          · exact h
        cases x <;> simp [Val.isLivePtr] at hp
        rename_i e a
        cases a with
        | none => simp at hp
        | some a =>
          simp at hp
          rw [toStruct_of_live hl hp]
          obtain ⟨b, p, rfl⟩ := RValue.CanSet_ref hs
          obtain ⟨y, hb, he⟩ := hwf
          have hx : y.getPath p = some (.ptr e (some a)) := by
            simpa [RValue.load, Mem.read, hb] using hl
          exact hc b y p e a hb hw he hx hp

/-- A walk of `StripDefaults` over a struct within a closed set `S` of heap cells
changes no heap cell outside `S`, whether it returns or aborts. -/
theorem walkStruct_outside {S : Nat → Bool} (depth : Nat) (m : Mem) (vStr defStr : RValue)
    (hc : m.PathClosed S) (hwf : vStr.wf m) (hw : vStr.within S = true) :
    ∀ c, S c = false → (walkStruct stripLeaf depth m vStr defStr).mem.heap[c]? = m.heap[c]? := by
  induction depth generalizing m vStr defStr with
  | zero => intro c _; rfl
  | succ n ih =>
    unfold walkStruct
    cases hn : vStr.NumField m with
    | error e => intro c _; rfl
    | ok k =>
      have := @walkFields_rule stripLeaf (walkStruct stripLeaf n) vStr defStr
        (fun m => m.PathClosed S ∧ vStr.wf m)
        (fun m r => Mem.Zeroed m r.mem ∧ ∀ c, S c = false → r.mem.heap[c]? = m.heap[c]?)
        (fun m => ⟨memZeroed_refl m, fun _ _ => rfl⟩)
        (fun m => ⟨memZeroed_refl m, fun _ _ => rfl⟩)
        (fun _ _ _ h1 h2 =>
          ⟨memZeroed_trans h1.1 h2.1, fun c hcS => (h2.2 c hcS).trans (h1.2 c hcS)⟩)
        (fun _ _ hI hq => ⟨pathClosed_zeroed hq.1 hI.1, RValue.wf_of_zeroed hq.1 hI.2⟩)
        (fun m _ vf _ hI hv _ hs _ =>
          ⟨walkStruct_zeroed n m _ _,
            ih m _ _ hI.1 (RValue.wf_toStruct (RValue.wf_Field hI.2 hv hs) hs)
              (RValue.within_toStruct hI.1 (RValue.wf_Field hI.2 hv hs) hs
                (RValue.within_Field hw hv))⟩)
        (fun m _ vf df _ hv _ _ hr =>
          ⟨stripLeaf_zeroed m vf df hr,
            fun c hcS => stripLeaf_outside m vf df (RValue.within_Field hw hv) c hcS⟩)
        (List.range k) m ⟨hc, hwf⟩
      exact this.2

/-- `StripDefaults` changes no struct on the heap outside a set that holds every
struct the target can reach through exported pointer fields. -/
theorem StripDefaults_outside {S : Nat → Bool} (depth : Nat) (m : Mem) (d : Option Val)
    (hc : m.closedUnder S = true) (c : Nat) (hcS : S c = false) :
    (StripDefaults depth m .rootPtr d).mem.heap[c]? = m.heap[c]? := by
  rw [StripDefaults_eq_entry]
  cases hv : validationError m .rootPtr d with
  | some msg => rw [entry_of_validationError_some hv]; rfl
  | none =>
    obtain ⟨dv, _, he⟩ := entry_of_validationError_none hv (walkStruct stripLeaf depth)
    rw [he]
    exact walkStruct_outside depth m _ _ (pathClosed_of_closedUnder hc)
      (Arg.Elem_wf m .rootPtr) rfl c hcS
/-! ## The structs behind the defaults -/

/-- C12 as stated fails.  The target is `O{}`, the defaults are `O{P: n}` with
`n := &N{X: 1}`.  `SetDefaults` succeeds and copies the pointer `n` into the target's
`P`, leaving `n.X = 1`.  The following `StripDefaults` with the same defaults succeeds
and walks the struct behind the target's `P`, which is the struct behind the
defaults' `P`: it finds `X` equal to the default and zeroes it, so the struct
reachable from the defaults holds `X = 0` after the call. -/
theorem defaults_mutated_counterexample :
    nilPtrMem.root.typeOf = sharedDefaults.typeOf ∧
    sharedDefaults.getPath [0] = some (.ptr tyN (some 0)) ∧
    nilPtrMem.read (.obj 0) [0] = some (.int 1) ∧
    (SetDefaults 4 nilPtrMem .rootPtr (some sharedDefaults)).err = none ∧
    (SetDefaults 4 nilPtrMem .rootPtr (some sharedDefaults)).mem.read (.obj 0) [0]
      = some (.int 1) ∧
    (StripDefaults 4 (SetDefaults 4 nilPtrMem .rootPtr (some sharedDefaults)).mem .rootPtr
      (some sharedDefaults)).err = none ∧
    (StripDefaults 4 (SetDefaults 4 nilPtrMem .rootPtr (some sharedDefaults)).mem .rootPtr
      (some sharedDefaults)).mem.read (.obj 0) [0] = some (.int 0) := by
  refine ⟨rfl, rfl, rfl, rfl, rfl, rfl, rfl⟩

/-- C12, amended.  `StripDefaults`, whether it succeeds or not, changes no struct on
the heap outside a set `S` that holds every struct the target can reach through
exported pointer fields: the structs reachable from the defaults are the same after
the call unless the target reaches them too.  `SetDefaults` on a target of the type
of the defaults that holds no live pointer in an exported field, and nests fewer
than `depth` structs, succeeds and leaves every struct on the heap as it was.  The
defaults value itself is a copy held by the call: an attempt to set it would panic. -/
theorem defaults_unchanged (depth : Nat) (m : Mem) (D : Val) (S : Nat → Bool)
    (hc : m.closedUnder S = true) :
    (∀ c, S c = false →
      (StripDefaults depth m .rootPtr (some D)).mem.heap[c]? = m.heap[c]?) ∧
    (m.root.Kind = .Struct → m.root.typeOf = D.typeOf →
      m.root.plain m.heap.length depth = true →
      (SetDefaults depth m .rootPtr (some D)).err = none ∧
        (SetDefaults depth m .rootPtr (some D)).mem.heap = m.heap) ∧
    (∀ (m' : Mem) (r : Bool) (x : RValue), (RValue.held D r).Set m' x = .error .panic) := by
  refine ⟨fun c hcS => StripDefaults_outside depth m (some D) hc c hcS, ?_, ?_⟩
  · intro hk ht hp
    rw [SetDefaults_plain depth m D hk ht hp]
    exact ⟨rfl, rfl⟩
  · intro m' r x
    simp [RValue.Set]

/-- C12, amended, on a target `O{P: &N{X: 1}}` and defaults `O{P: &N{X: 1}}` with a
struct of their own in cell 1: the target reaches cell 0 only, and `StripDefaults`
leaves cell 1 as it was. -/
theorem defaults_unchanged_witness :
    equalPointeeMem.closedUnder (fun a => a == 0) = true ∧
    (∀ c, (fun a => a == 0) c = false →
      (StripDefaults 4 equalPointeeMem .rootPtr (some equalPointeeDefaults)).mem.heap[c]?
        = equalPointeeMem.heap[c]?) ∧
    (StripDefaults 4 equalPointeeMem .rootPtr (some equalPointeeDefaults)).mem.heap[1]?
      = some (objN 1) :=
  ⟨rfl, (defaults_unchanged 4 equalPointeeMem equalPointeeDefaults (fun a => a == 0) rfl).1,
   rfl⟩

/-! ## Storage without interior pointers

With the empty table of interior locations the definitions of the section on
pointers into a struct are the definitions given first. -/

theorem resolve_nil (m : Mem) (a : Nat) :
    resolve [] m a = if a < m.heap.length then some (.obj a, []) else none := by
  simp [resolve]

theorem interior_Elem_nil (m : Mem) (v : RValue) : Interior.Elem [] m v = v.Elem m := by
  unfold Interior.Elem RValue.Elem
  cases hl : v.load m with
  | none => rfl
  | some x =>
    cases x <;> try rfl
    rename_i e a
    cases a with
    | none => rfl
    | some a =>
      simp only [resolve_nil]
      by_cases ha : a < m.heap.length
      · obtain ⟨o, _, ho⟩ := Mem.read_obj_nil ha
        simp [ha, ho]
      · simp [ha]

theorem interior_toStruct_nil (m : Mem) (v : RValue) :
    Interior.toStructOrStructPointer [] m v = Options.toStructOrStructPointer m v := by
  simp only [Interior.toStructOrStructPointer, Options.toStructOrStructPointer,
    interior_Elem_nil]

theorem interior_ptrEqual_dangling (m : Mem) (fuel a b : Nat) (ha : m.heap.length ≤ a) :
    Interior.ptrEqual [] m (fuel + 1) a b = (a == b) := by
  simp [Interior.ptrEqual, resolve_nil, Nat.not_lt.mpr ha]

theorem interior_DeepEqual_leaf (m : Mem) (x d : Val) (hk : x.Kind ≠ .Struct)
    (hp : x.isLivePtr m.heap.length = false) :
    Interior.DeepEqual [] m x d = x.deepEqual d := by
  unfold Interior.DeepEqual
  cases x with
  | struct pk n fs => simp [Val.Kind] at hk
  | ptr e a =>
    cases d with
    | ptr e' b =>
      cases a with
      | none => cases b <;> simp [Val.deepEqualWith, Val.deepEqual]
      | some a =>
        cases b with
        | none => simp [Val.deepEqualWith, Val.deepEqual]
        | some b =>
          simp only [Val.isLivePtr, decide_eq_false_iff_not, Nat.not_lt] at hp
          simp [Val.deepEqualWith, Val.deepEqual, interior_ptrEqual_dangling m _ a b hp]
    | _ => cases a <;> simp [Val.deepEqualWith, Val.deepEqual]
  | _ => cases d <;> simp [Val.deepEqualWith, Val.deepEqual]

theorem interior_setFields_nil (recur recur' : Mem → RValue → RValue → Res)
    (hr : ∀ m v d, recur m v d = recur' m v d) (vStr defStr : RValue) :
    ∀ (is : List Nat) (m : Mem),
      Interior.setFields [] recur vStr defStr is m = Options.setFields recur' vStr defStr is m
  | [], m => by simp [Interior.setFields, Options.setFields]
  | i :: is, m => by
    have ih := interior_setFields_nil recur recur' hr vStr defStr is
    simp only [Interior.setFields, Options.setFields, interior_toStruct_nil, ih, hr]
    try rfl

theorem interior_setStruct_nil : ∀ (depth : Nat) (m : Mem) (vStr defStr : RValue),
    Interior.setStruct [] depth m vStr defStr = Options.setStruct depth m vStr defStr
  | 0, m, _, _ => by simp [Interior.setStruct, Options.setStruct]
  | depth + 1, m, vStr, defStr => by
    simp only [Interior.setStruct, Options.setStruct]
    cases vStr.NumField m with
    | error e => rfl
    | ok n => exact interior_setFields_nil _ _ (interior_setStruct_nil depth) vStr defStr _ m

theorem interior_stripFields_nil (recur recur' : Mem → RValue → RValue → Res)
    (hr : ∀ m v d, recur m v d = recur' m v d) (vStr defStr : RValue) :
    ∀ (is : List Nat) (m : Mem),
      Interior.stripFields [] recur vStr defStr is m =
        Options.stripFields recur' vStr defStr is m
  | [], m => by simp [Interior.stripFields, Options.stripFields]
  | i :: is, m => by
    have ih := interior_stripFields_nil recur recur' hr vStr defStr is
    simp only [Interior.stripFields, Options.stripFields, interior_toStruct_nil, ih, hr]
    cases hvf : vStr.Field m i with
    | error e => rfl
    | ok vf =>
      cases hdf : defStr.Field m i with
      | error e => rfl
      | ok df =>
        simp only []
        split
        · rfl
        · split
          · rfl
          · rename_i hvalid
            cases hx : vf.Interface m with
            | error e => rfl
            | ok x =>
              cases hd : df.Interface m with
              | error e => rfl
              | ok d =>
                have hl := (RValue.Interface_ok_iff.mp hx).1
                have hrec : x.isRecursed m.heap.length = false := by
                  rw [← toStruct_valid_iff hl]
                  simpa using hvalid
                obtain ⟨hk, hp⟩ := Val.leaf_of_not_recursed hrec
                simp only [interior_DeepEqual_leaf m x d hk hp]
                try rfl

theorem interior_stripStruct_nil : ∀ (depth : Nat) (m : Mem) (vStr defStr : RValue),
    Interior.stripStruct [] depth m vStr defStr = Options.stripStruct depth m vStr defStr
  | 0, m, _, _ => by simp [Interior.stripStruct, Options.stripStruct]
  | depth + 1, m, vStr, defStr => by
    simp only [Interior.stripStruct, Options.stripStruct]
    cases vStr.NumField m with
    | error e => rfl
    | ok n =>
      exact interior_stripFields_nil _ _ (interior_stripStruct_nil depth) vStr defStr _ m

theorem interior_argElem_nil (m : Mem) (v : Arg) : Interior.argElem [] m v = v.Elem m := by
  cases v <;> simp [Interior.argElem, Arg.Elem, interior_Elem_nil]

theorem interior_SetDefaults_nil (depth : Nat) (m : Mem) (v : Arg) (d : Option Val) :
    Interior.SetDefaults [] depth m v d = Options.SetDefaults depth m v d := by
  simp only [Interior.SetDefaults, Options.SetDefaults, interior_argElem_nil,
    interior_setStruct_nil]
  try rfl

theorem interior_StripDefaults_nil (depth : Nat) (m : Mem) (v : Arg) (d : Option Val) :
    Interior.StripDefaults [] depth m v d = Options.StripDefaults depth m v d := by
  simp only [Interior.StripDefaults, Options.StripDefaults, interior_argElem_nil,
    interior_stripStruct_nil]
  try rfl

/-! ## Writes that succeed -/

theorem Mem.write_isSome {m : Mem} {b : Base} {p : List Nat} {x : Val} (w : Val)
    (h : m.read b p = some x) (ht : w.typeOf = x.typeOf) : ∃ m', m.write b p w = some m' := by
  cases b with
  | root =>
    have h' : m.root.getPath p = some x := h
    obtain ⟨r, hr⟩ := Val.setPath_isSome h' w
    exact ⟨{ m with root := r }, by simp [Mem.write, hr]⟩
  | obj a =>
    simp only [Mem.read, Mem.base] at h
    cases ho : m.heap[a]? with
    | none => simp [ho] at h
    | some o =>
      simp only [ho, Option.map_some'] at h
      obtain ⟨r, hr⟩ := Val.setPath_isSome h w
      have hty := Val.setPath_typeOf h ht hr
      obtain ⟨gs, rfl, -⟩ := @Val.typeOf_struct_inj o.pkg o.name o.fs r hty.symm
      exact ⟨{ m with heap := m.heap.set a ⟨o.pkg, o.name, gs⟩ }, by simp [Mem.write, ho, hr]⟩

theorem RValue.Set_ok {m : Mem} {b : Base} {p : List Nat} {x g : Val} (rd : RValue)
    (hx : m.read b p = some x) (hd : rd.load m = some g) (hro : rd.ro = false)
    (ht : g.typeOf = x.typeOf) :
    ∃ m1, m.write b p g = some m1 ∧ (RValue.ref b p false).Set m rd = .ok m1 := by
  obtain ⟨m1, hw⟩ := Mem.write_isSome g hx ht
  refine ⟨m1, hw, ?_⟩
  unfold RValue.Set
  have hl : (RValue.ref b p false).load m = some x := hx
  simp only [hl, hd, hro, ht, Ty.beq_self, hw]
  simp

/-! ## Leaf steps, over storage with interior pointers -/

theorem interior_toStruct_leaf (I : List (Base × List Nat)) {m : Mem} {vf : RValue} {x : Val}
    (hl : vf.load m = some x) (hk : x.Kind ≠ .Struct) (hp : ∀ e a, x ≠ .ptr e (some a)) :
    Interior.toStructOrStructPointer I m vf = .invalid := by
  unfold Interior.toStructOrStructPointer
  simp only [RValue.IsValid_of_load hl, RValue.Kind_of_load hl, hk]
  cases x <;> simp [Val.Kind] at hk ⊢
  rename_i e a
  cases a with
  | none =>
    have hE : Interior.Elem I m vf = .invalid := by
      unfold Interior.Elem
      rw [hl]
    simp [hE, RValue.Kind, RValue.load]
  | some a => exact absurd rfl (hp e a)

theorem interior_setFields_leaf_step (I : List (Base × List Nat))
    (recur : Mem → RValue → RValue → Res) {m : Mem} {vStr defStr vf df : RValue} {i : Nat}
    {x : Val} (hv : vStr.Field m i = .ok vf) (hd : defStr.Field m i = .ok df)
    (hs : vf.CanSet = true) (hl : vf.load m = some x) (hk : x.Kind ≠ .Struct)
    (hp : ∀ e a, x ≠ .ptr e (some a)) :
    Interior.setFields I recur vStr defStr [i] m =
      if x.isZero then
        match vf.Set m df with
        | .ok m1 => .ok m1
        | .error err => .fail err m
      else .ok m := by
  simp only [Interior.setFields, hv, hd, hs, RValue.CanInterface_of_CanSet hs,
    interior_toStruct_leaf I hl hk hp, invalid_not_valid, RValue.IsZero, hl]
  cases x.isZero with
  | false => simp
  | true =>
    simp only [Bool.not_true, Bool.or_self, Bool.false_eq_true, if_false, if_true]
    cases vf.Set m df <;> rfl

theorem interior_DeepEqual_nil (I : List (Base × List Nat)) (m : Mem) (e : Ty) (d : Val) :
    Interior.DeepEqual I m (.ptr e none) d = true → d = .ptr e none := by
  unfold Interior.DeepEqual
  cases d with
  | ptr e' b =>
    cases b with
    | none =>
      simp only [Val.deepEqualWith]
      intro h
      rw [(Ty.beq_iff e e').mp h]
    | some b => simp [Val.deepEqualWith]
  | _ => simp [Val.deepEqualWith]

theorem interior_stripFields_nil_step (I : List (Base × List Nat))
    (recur : Mem → RValue → RValue → Res) {m : Mem} {vStr defStr vf df : RValue} {i : Nat}
    {e : Ty} {d : Val} (hv : vStr.Field m i = .ok vf) (hd : defStr.Field m i = .ok df)
    (hs : vf.CanSet = true) (hl : vf.load m = some (.ptr e none))
    (hdi : df.Interface m = .ok d) :
    Interior.stripFields I recur vStr defStr [i] m = .ok m := by
  obtain ⟨b, p, rfl⟩ := RValue.CanSet_ref hs
  have hvi : (RValue.ref b p false).Interface m = .ok (.ptr e none) :=
    RValue.Interface_ok_iff.mpr ⟨hl, rfl⟩
  have hrd : m.read b p = some (.ptr e none) := hl
  simp only [Interior.stripFields, hv, hd, hs, RValue.CanInterface_of_CanSet hs,
    interior_toStruct_leaf I hl (by simp [Val.Kind]) (by intro e' a; simp),
    invalid_not_valid, hvi, hdi]
  cases hde : Interior.DeepEqual I m (.ptr e none) d with
  | false => simp
  | true =>
    simp only [Bool.not_true, Bool.or_self, Bool.false_eq_true, if_false, if_true,
      RValue.Type, hl, Val.typeOf, Ty.zero]
    unfold RValue.Set
    simp only [RValue.load, hrd, RValue.ro, Bool.false_eq_true, if_false, Val.typeOf,
      Ty.beq_self, if_true, Mem.write_self hrd]

/-! ## The claims that hold without interior pointers

The statements of this section are about the functions over storage with interior
pointers, under the hypothesis `I = []` that there is none: every non-nil pointer
refers to a whole struct on the heap, none to a field, to a variable that is no
struct, or to the variable the caller passes. -/

/-- C9 as stated fails, in two ways.  `type U struct { P *N; a N }` with
`u.P = &u.a`: `SetDefaults` succeeds and fills `X` of the unexported field `a`
through `P`.  `type V struct { p *N; Q *N }` with `v.p` and `v.Q` pointing to one
struct: `SetDefaults` succeeds and fills, through `Q`, the struct below the
unexported field `p`. -/
theorem unexported_untouched_counterexample :
    (mkU (some 1) 0).hiddenPath [1] = true ∧
    resolve fieldATable ⟨mkU (some 1) 0, [objN 2]⟩ 1 = some (.root, [1]) ∧
    Interior.SetDefaults fieldATable 4 ⟨mkU (some 1) 0, [objN 2]⟩ .rootPtr
      (some (mkU (some 0) 0)) = .ok ⟨mkU (some 1) 2, [objN 2]⟩ ∧
    (mkU (some 1) 0).getPath [1, 0] = some (.int 0) ∧
    (mkU (some 1) 2).getPath [1, 0] = some (.int 2) ∧
    (mkV (some 0) (some 0)).hiddenPath [0] = true ∧
    Interior.SetDefaults [] 4 ⟨mkV (some 0) (some 0), [objN 0, objN 5]⟩ .rootPtr
      (some (mkV none (some 1))) = .ok ⟨mkV (some 0) (some 0), [objN 5, objN 5]⟩ := by
  refine ⟨rfl, rfl, rfl, rfl, rfl, rfl, rfl⟩

/-- C10 as stated fails.  `type T struct { P *N; A N }`, target `t` with
`t.P = &t.A` and `t.A.X = 0`, defaults `T{P: &N{X: 2}, A: N{X: 1}}`.  After the
successful `SetDefaults(&t, D)` the field `A` holds `N{X: 2}`, filled through the
sibling `P`, whereas `SetDefaults` run on the pair `(t.A, D.A)` by itself leaves
`N{X: 1}`. -/
theorem nested_compositional_counterexample :
    (selfPointerMem 0 2).root.typeOf = (mkT (some 0) 1).typeOf ∧
    (selfPointerMem 0 2).root.exportedPath [1] = true ∧
    (selfPointerMem 0 2).root.getPath [1] = some (objN 0).toVal ∧
    (mkT (some 0) 1).getPath [1] = some (objN 1).toVal ∧
    (Interior.SetDefaults fieldATable 4 (selfPointerMem 0 2) .rootPtr
      (some (mkT (some 0) 1))).err = none ∧
    (Interior.SetDefaults fieldATable 4 (selfPointerMem 0 2) .rootPtr
      (some (mkT (some 0) 1))).mem.root.getPath [1] = some (objN 2).toVal ∧
    Interior.SetDefaults [] 4 ⟨(objN 0).toVal, [objN 2]⟩ .rootPtr (some (objN 1).toVal)
      = .ok ⟨(objN 1).toVal, [objN 2]⟩ := by
  refine ⟨rfl, rfl, rfl, rfl, rfl, rfl, rfl⟩

/-- C10, amended.  Let no pointer refer to a field or to the target variable
(`I = []`), and let `N` be an exported by-value nested struct field, at any depth,
of a target `T` and defaults `D` of one type.  After a successful
`SetDefaults(&T, D)`, `T.N` holds the value that `SetDefaults` leaves when run on
the pair `(T.N, D.N)` by itself, on any heap of the same size and at any stack depth
at which that run returns; the run by itself does return when `T.N` holds no non-nil
pointer to a struct and the stack suffices for its nesting.  Likewise for
`StripDefaults`.  The sibling fields of `N` and the levels above it play no part. -/
theorem nested_compositional (I : List (Base × List Nat)) (depth : Nat) (m : Mem) (D : Val)
    (p : List Nat) (tn dn : Val) (hI : I = [])
    (ht : m.root.typeOf = D.typeOf) (he : m.root.exportedPath p = true)
    (hn : m.root.getPath p = some tn) (hkn : tn.Kind = .Struct)
    (hd : D.getPath p = some dn) :
    (∀ m', Interior.SetDefaults I depth m .rootPtr (some D) = .ok m' →
      (∀ (hs : List Obj) (depth' : Nat) (ms' : Mem), hs.length = m.heap.length →
          Interior.SetDefaults I depth' ⟨tn, hs⟩ .rootPtr (some dn) = .ok ms' →
          m'.root.getPath p = some ms'.root) ∧
      (∀ depth', tn.plain m.heap.length depth' = true →
          ∃ ms', Interior.SetDefaults I depth' ⟨tn, m.heap⟩ .rootPtr (some dn) = .ok ms' ∧
            m'.root.getPath p = some ms'.root)) ∧
    (∀ m', Interior.StripDefaults I depth m .rootPtr (some D) = .ok m' →
      (∀ (hs : List Obj) (depth' : Nat) (ms' : Mem), hs.length = m.heap.length →
          Interior.StripDefaults I depth' ⟨tn, hs⟩ .rootPtr (some dn) = .ok ms' →
          m'.root.getPath p = some ms'.root) ∧
      (∀ depth', tn.plain m.heap.length depth' = true →
          ∃ ms', Interior.StripDefaults I depth' ⟨tn, m.heap⟩ .rootPtr (some dn) = .ok ms' ∧
            m'.root.getPath p = some ms'.root)) := by
  subst hI
  simp only [interior_SetDefaults_nil, interior_StripDefaults_nil]
  exact root_nested_compositional depth m D p tn dn ht he hn hkn hd

/-- C10, amended, on the sample's values (with `PointerTest` nil): the field `NO`. -/
theorem nested_compositional_witness :
    (fillTargetMem.root.typeOf = DefaultOptions.typeOf ∧
      fillTargetMem.root.exportedPath [4] = true ∧
      fillTargetMem.root.getPath [4] = some (NestedOptions 666 0) ∧
      (NestedOptions 666 0).Kind = .Struct ∧
      DefaultOptions.getPath [4] = some (NestedOptions 800 1) ∧
      Interior.SetDefaults [] 8 fillTargetMem .rootPtr (some DefaultOptions)
        = .ok fillTargetResult ∧
      Interior.SetDefaults [] 2 ⟨NestedOptions 666 0, []⟩ .rootPtr
        (some (NestedOptions 800 1)) = .ok ⟨NestedOptions 666 1, []⟩) ∧
    fillTargetResult.root.getPath [4] = some (NestedOptions 666 1) :=
  ⟨⟨rfl, rfl, rfl, rfl, rfl, rfl, rfl⟩,
   ((nested_compositional [] 8 fillTargetMem DefaultOptions [4] (NestedOptions 666 0)
      (NestedOptions 800 1) rfl rfl rfl rfl rfl rfl).1 fillTargetResult rfl).1 [] 2
      ⟨NestedOptions 666 1, []⟩ rfl rfl⟩

/-- C13 as stated fails.  `type M struct { P *N }`, `type T2 struct { X *M; Y *M }`,
target `T2{X: a, Y: a}` with `a = &M{P: nil}`, defaults
`T2{X: &M{P: &N{X: 7}}, Y: &M{P: &N{X: 9}}}`.  The field `P` of the struct behind `Y`
is nil in the target.  `SetDefaults` succeeds; the walk reaches that struct first
through `X` and stores the defaults' `X.P` in `P`, and when it reaches it again
through `Y` the field is no longer nil: `P` ends as the defaults' `X.P` (address `2`),
not as the defaults' `Y.P` (address `4`). -/
theorem null_pointer_is_leaf_counterexample :
    twiceReachedMem.root.typeOf = twiceReachedDefaults.typeOf ∧
    twiceReachedMem.root.getPath [1] = some (.ptr tyM (some 0)) ∧
    twiceReachedMem.read (.obj 0) [0] = some (.ptr tyN none) ∧
    twiceReachedDefaults.getPath [1] = some (.ptr tyM (some 3)) ∧
    twiceReachedMem.read (.obj 3) [0] = some (.ptr tyN (some 4)) ∧
    (Interior.SetDefaults [] 4 twiceReachedMem .rootPtr (some twiceReachedDefaults)).err
      = none ∧
    (Interior.SetDefaults [] 4 twiceReachedMem .rootPtr
      (some twiceReachedDefaults)).mem.read (.obj 0) [0] = some (.ptr tyN (some 2)) := by
  refine ⟨rfl, rfl, rfl, rfl, rfl, rfl, rfl⟩

/-- C15 as stated fails.  `type W2 struct { PI *int; X int }`, target `t` with
`t.PI = &t.X` and `t.X = 1`, defaults `W2{PI: &v, X: 1}` with `v = 0`.  The first
`StripDefaults` succeeds: `PI` differs from the default (`1` against `0` behind the
pointers) and is kept, `X` equals the default and is zeroed.  Now `*t.PI` is `0`,
and the second `StripDefaults` finds `PI` deeply equal to the default and sets it to
nil: it does not leave `t` as the first call left it. -/
theorem strip_idempotent_counterexample :
    resolve intPointerTable (intPointerMem 1 0) 1 = some (.root, [1]) ∧
    resolve intPointerTable (intPointerMem 1 0) 2 = some (.obj 0, [0]) ∧
    Interior.StripDefaults intPointerTable 4 (intPointerMem 1 0) .rootPtr
      (some (mkPI (some 2) 1)) = .ok (intPointerMem 0 0) ∧
    Interior.StripDefaults intPointerTable 4 (intPointerMem 0 0) .rootPtr
      (some (mkPI (some 2) 1)) = .ok ⟨mkPI none 0, [intVar 0]⟩ ∧
    (intPointerMem 0 0).root ≠ mkPI none 0 := by
  refine ⟨rfl, rfl, rfl, rfl, ?_⟩
  simp [intPointerMem, mkPI]

/-- C15, amended.  Let no pointer refer to a field, to a variable that is no struct,
or to the target variable (`I = []`).  For every target and defaults, however the
structs on the heap are shared between them: if `StripDefaults(&T, D)` succeeds, a
second `StripDefaults(&T, D)` with the same `D` succeeds too and leaves the whole
storage, the target and every struct behind a pointer, exactly as the first call
left it. -/
theorem strip_idempotent (I : List (Base × List Nat)) (depth : Nat) (m : Mem) (v : Arg)
    (d : Option Val) (m1 : Mem) (hI : I = [])
    (h : Interior.StripDefaults I depth m v d = .ok m1) :
    Interior.StripDefaults I depth m1 v d = .ok m1 := by
  subst hI
  rw [interior_StripDefaults_nil] at h ⊢
  exact StripDefaults_stable depth m v d m1 h

/-- C15, amended, on a target and defaults that share the struct behind `P`: the
first call zeroes `X` through the shared pointer, the second changes nothing. -/
theorem strip_idempotent_witness :
    Interior.StripDefaults [] 4 sharedMem .rootPtr (some sharedDefaults)
      = .ok ⟨mkO (some 0) none, [objN 0]⟩ ∧
    Interior.StripDefaults [] 4 ⟨mkO (some 0) none, [objN 0]⟩ .rootPtr (some sharedDefaults)
      = .ok ⟨mkO (some 0) none, [objN 0]⟩ :=
  ⟨rfl, strip_idempotent [] 4 sharedMem .rootPtr (some sharedDefaults)
    ⟨mkO (some 0) none, [objN 0]⟩ rfl rfl⟩

/-- C16 as stated fails.  `type W2 struct { PI *int; X int }` has no
pointer-to-struct field.  Target `t` with `t.PI = &t.X` and `t.X = 0`, defaults
`W2{PI: &v, X: 1}` with `v = 1`, whose leaves are deeply equal to themselves.
`StripDefaults` alone leaves `t` as it is.  `SetDefaults` fills `X` with `1`, after
which `*t.PI` equals `*D.PI` and the following `StripDefaults` sets `PI` to nil. -/
theorem strip_absorbs_fill_counterexample :
    (intPointerMem 0 1).root.typeOf = (mkPI (some 2) 1).typeOf ∧
    Interior.DeepEqual intPointerTable (intPointerMem 0 1) (.ptr .int (some 2))
      (.ptr .int (some 2)) = true ∧
    Interior.DeepEqual intPointerTable (intPointerMem 0 1) (.int 1) (.int 1) = true ∧
    Interior.StripDefaults intPointerTable 4 (intPointerMem 0 1) .rootPtr
      (some (mkPI (some 2) 1)) = .ok (intPointerMem 0 1) ∧
    Interior.SetDefaults intPointerTable 4 (intPointerMem 0 1) .rootPtr
      (some (mkPI (some 2) 1)) = .ok (intPointerMem 1 1) ∧
    Interior.StripDefaults intPointerTable 4 (intPointerMem 1 1) .rootPtr
      (some (mkPI (some 2) 1)) = .ok ⟨mkPI none 0, [intVar 1]⟩ ∧
    (intPointerMem 0 1).root ≠ mkPI none 0 := by
  refine ⟨rfl, rfl, rfl, rfl, rfl, rfl, ?_⟩
  simp [intPointerMem, mkPI]

/-- C18, amended.  Let no pointer refer to a field, to a variable that is no struct,
or to the target variable (`I = []`), and let `P` be an exported field of
pointer-to-struct type, reached by value at any nesting depth, that is non-nil in the
target `T` and in the defaults `D` of the same struct type, with structs of one type
behind the two pointers.  After a successful `StripDefaults(&T, D)`:
the field holds the address it held;
every field of the struct behind it that is not a struct holds what it held or, if
it was no non-nil pointer to a struct, the zero value of its type;
no exported leaf field of that struct, at any nesting depth by value, is left
non-zero while deeply equal to the corresponding field of the struct behind `D.P`
as the call leaves it;
and if the struct behind `P` has exported fields only, holds no non-nil pointer to a
struct, was deeply equal to the struct behind `D.P`, and the call left that struct
as it was (or the two pointers are the same), the struct behind `P` ends all-zero. -/
theorem strip_keeps_live_pointer (I : List (Base × List Nat)) (depth : Nat) (m : Mem)
    (D : Val) (m1 : Mem) (p : List Nat) (e : Ty) (a b : Nat) (o ob : Obj) (hI : I = [])
    (ht : m.root.typeOf = D.typeOf)
    (h : Interior.StripDefaults I depth m .rootPtr (some D) = .ok m1)
    (he : m.root.exportedPath p = true)
    (hx : m.root.getPath p = some (.ptr e (some a)))
    (hd : D.getPath p = some (.ptr e (some b)))
    (ho : m.heap[a]? = some o) (hob : m.heap[b]? = some ob)
    (hto : o.toVal.typeOf = ob.toVal.typeOf) :
    m1.root.getPath p = some (.ptr e (some a)) ∧
    ∃ o1 ob1, m1.heap[a]? = some o1 ∧ m1.heap[b]? = some ob1 ∧
      Val.Zeroed m.heap.length o.toVal o1.toVal ∧
      (∀ r x1, o1.toVal.exportedPath r = true → o1.toVal.getPath r = some x1 →
        x1.isRecursed m.heap.length = false →
        ∃ y1, ob1.toVal.getPath r = some y1 ∧ (x1.deepEqual y1 = true → x1.isZero = true)) ∧
      (∀ n, o.toVal.typeOf.allExported n = true → o.toVal.plain m.heap.length n = true →
        o.toVal.deepEqual ob.toVal = true → (ob1 = ob ∨ a = b) → o1.toVal.isZero = true) := by
  subst hI
  rw [interior_StripDefaults_nil] at h
  exact root_strip_live_pointer depth m D m1 p e a b o ob ht h he hx hd ho hob hto

/-- C18, amended, on a target `O{P: &N{X: 1}}` and defaults `O{P: &N{X: 1}}` with a
struct of their own: `P` keeps its address and the struct behind it ends as `N{}`. -/
theorem strip_keeps_live_pointer_witness :
    (equalPointeeMem.root.typeOf = equalPointeeDefaults.typeOf ∧
      Interior.StripDefaults [] 4 equalPointeeMem .rootPtr (some equalPointeeDefaults)
        = .ok equalPointeeResult ∧
      equalPointeeMem.root.exportedPath [0] = true ∧
      equalPointeeMem.root.getPath [0] = some (.ptr tyN (some 0)) ∧
      equalPointeeDefaults.getPath [0] = some (.ptr tyN (some 1)) ∧
      equalPointeeMem.heap[0]? = some (objN 1) ∧ equalPointeeMem.heap[1]? = some (objN 1) ∧
      (objN 1).toVal.typeOf = (objN 1).toVal.typeOf) ∧
    equalPointeeResult.root.getPath [0] = some (.ptr tyN (some 0)) ∧
    ∃ o1 ob1, equalPointeeResult.heap[0]? = some o1 ∧ equalPointeeResult.heap[1]? = some ob1 ∧
      Val.Zeroed equalPointeeMem.heap.length (objN 1).toVal o1.toVal ∧
      (∀ r x1, o1.toVal.exportedPath r = true → o1.toVal.getPath r = some x1 →
        x1.isRecursed equalPointeeMem.heap.length = false →
        ∃ y1, ob1.toVal.getPath r = some y1 ∧ (x1.deepEqual y1 = true → x1.isZero = true)) ∧
      (∀ n, (objN 1).toVal.typeOf.allExported n = true →
        (objN 1).toVal.plain equalPointeeMem.heap.length n = true →
        (objN 1).toVal.deepEqual (objN 1).toVal = true → (ob1 = objN 1 ∨ 0 = 1) →
        o1.toVal.isZero = true) :=
  ⟨⟨rfl, rfl, rfl, rfl, rfl, rfl, rfl, rfl⟩,
   strip_keeps_live_pointer [] 4 equalPointeeMem equalPointeeDefaults equalPointeeResult [0]
     tyN 0 1 (objN 1) (objN 1) rfl rfl rfl rfl rfl rfl rfl rfl rfl⟩

/-! ## What a walk can reach depends on the cells reached only -/

theorem getElem?_none_of_length {heap heap' : List Obj} (hl : heap'.length = heap.length)
    {a : Nat} (h : heap[a]? = none) : heap'[a]? = none := by
  rw [List.getElem?_eq_none_iff] at h ⊢
  omega

theorem reachField_agree {heap heap' : List Obj} (hl : heap'.length = heap.length)
    {r r' : Val → List Nat} (x : Val)
    (hr : ∀ v, (∀ c ∈ r v, heap'[c]? = heap[c]?) → r' v = r v)
    (hag : ∀ c ∈ reachField heap r x, heap'[c]? = heap[c]?) :
    reachField heap' r' x = reachField heap r x := by
  cases x with
  | struct pk nm fs => exact hr _ hag
  | ptr e a =>
    cases a with
    | none => rfl
    | some a =>
      cases ho : heap[a]? with
      | none => simp [reachField, ho, getElem?_none_of_length hl ho]
      | some o =>
        simp only [reachField, ho] at hag ⊢
        have ha := hag a (by simp)
        rw [ho] at ha
        simp only [ha]
        rw [hr o.toVal (fun c hc => hag c (by simp [hc]))]
  | _ => rfl

theorem reachFields_agree {heap heap' : List Obj} (hl : heap'.length = heap.length)
    {r r' : Val → List Nat}
    (hr : ∀ v, (∀ c ∈ r v, heap'[c]? = heap[c]?) → r' v = r v) :
    ∀ (fs : List (FieldOf Val)), (∀ c ∈ reachFields heap r fs, heap'[c]? = heap[c]?) →
      reachFields heap' r' fs = reachFields heap r fs
  | [], _ => rfl
  | f :: fs, hag => by
    simp only [reachFields] at hag ⊢
    rw [reachFields_agree hl hr fs (fun c hc => hag c (by simp [hc]))]
    cases hf : f.exported with
    | false => simp
    | true =>
      simp only [if_true]
      rw [reachField_agree hl f.val hr (fun c hc => hag c (by simp [hf, hc]))]

theorem reach_agree {heap heap' : List Obj} (hl : heap'.length = heap.length) :
    ∀ (n : Nat) (v : Val), (∀ c ∈ reach heap n v, heap'[c]? = heap[c]?) →
      reach heap' n v = reach heap n v
  | 0, _, _ => rfl
  | n + 1, v, hag => by
    cases v <;> try rfl
    rename_i pk nm fs
    simp only [reach] at hag ⊢
    exact reachFields_agree hl (fun v hv => reach_agree hl n v hv) fs hag

theorem deepField_agree {heap heap' : List Obj} (hl : heap'.length = heap.length)
    {rr : Val → List Nat} {r r' : Val → Val} (x : Val)
    (hr : ∀ v, (∀ c ∈ rr v, heap'[c]? = heap[c]?) → r' v = r v)
    (hag : ∀ c ∈ reachField heap rr x, heap'[c]? = heap[c]?) :
    deepField heap' r' x = deepField heap r x := by
  cases x with
  | struct pk nm fs => exact hr _ hag
  | ptr e a =>
    cases a with
    | none => rfl
    | some a =>
      cases ho : heap[a]? with
      | none => simp [deepField, ho, getElem?_none_of_length hl ho]
      | some o =>
        simp only [reachField, ho] at hag
        have ha := hag a (by simp)
        rw [ho] at ha
        simp only [deepField, ho, ha]
        exact hr o.toVal (fun c hc => hag c (by simp [hc]))
  | _ => rfl

theorem deepFields_agree {heap heap' : List Obj} (hl : heap'.length = heap.length)
    {rr : Val → List Nat} {r r' : Val → Val}
    (hr : ∀ v, (∀ c ∈ rr v, heap'[c]? = heap[c]?) → r' v = r v) :
    ∀ (fs : List (FieldOf Val)), (∀ c ∈ reachFields heap rr fs, heap'[c]? = heap[c]?) →
      deepFields heap' r' fs = deepFields heap r fs
  | [], _ => rfl
  | f :: fs, hag => by
    simp only [reachFields] at hag
    simp only [deepFields]
    rw [deepFields_agree hl hr fs (fun c hc => hag c (by simp [hc]))]
    cases hf : f.exported with
    | false => simp
    | true =>
      simp only [if_true]
      rw [deepField_agree hl f.val hr (fun c hc => hag c (by simp [hf, hc]))]

theorem deepVal_agree {heap heap' : List Obj} (hl : heap'.length = heap.length) :
    ∀ (n : Nat) (v : Val), (∀ c ∈ reach heap n v, heap'[c]? = heap[c]?) →
      deepVal heap' n v = deepVal heap n v
  | 0, v, _ => by cases v <;> rfl
  | n + 1, v, hag => by
    cases v <;> try rfl
    rename_i pk nm fs
    simp only [reach] at hag
    simp only [deepVal]
    rw [deepFields_agree hl (fun v hv => deepVal_agree hl n v hv) fs hag]

theorem alikeField_agree {heap heap' : List Obj} (hl : heap'.length = heap.length)
    {rr : Val → List Nat} {r r' : Val → Val → Bool} (x g : Val)
    (hr : ∀ v w, (∀ c ∈ rr v, heap'[c]? = heap[c]?) → (∀ c ∈ rr w, heap'[c]? = heap[c]?) →
      r' v w = r v w)
    (hx : ∀ c ∈ reachField heap rr x, heap'[c]? = heap[c]?)
    (hg : ∀ c ∈ reachField heap rr g, heap'[c]? = heap[c]?) :
    alikeField heap' r' x g = alikeField heap r x g := by
  cases x with
  | struct pk nm fs =>
    cases g with
    | struct pk' nm' gs => exact hr _ _ hx hg
    | _ => rfl
  | ptr e a =>
    cases a with
    | none => rfl
    | some a =>
      cases ho : heap[a]? with
      | none => simp [alikeField, ho, getElem?_none_of_length hl ho]
      | some o =>
        simp only [reachField, ho] at hx
        have ha := hx a (by simp)
        rw [ho] at ha
        cases g with
        | ptr e' b =>
          cases b with
          | none => simp [alikeField, ho, ha]
          | some b =>
            cases hob : heap[b]? with
            | none => simp [alikeField, ho, ha, hob, getElem?_none_of_length hl hob]
            | some ob =>
              simp only [reachField, hob] at hg
              have hb := hg b (by simp)
              rw [hob] at hb
              simp only [alikeField, ho, ha, hob, hb]
              exact hr _ _ (fun c hc => hx c (by simp [hc])) (fun c hc => hg c (by simp [hc]))
        | _ => simp [alikeField, ho, ha]
  | _ => rfl

theorem alikeFields_agree {heap heap' : List Obj} (hl : heap'.length = heap.length)
    {rr : Val → List Nat} {r r' : Val → Val → Bool}
    (hr : ∀ v w, (∀ c ∈ rr v, heap'[c]? = heap[c]?) → (∀ c ∈ rr w, heap'[c]? = heap[c]?) →
      r' v w = r v w) :
    ∀ (fs gs : List (FieldOf Val)), (∀ c ∈ reachFields heap rr fs, heap'[c]? = heap[c]?) →
      (∀ c ∈ reachFields heap rr gs, heap'[c]? = heap[c]?) →
      typeOfFields fs = typeOfFields gs →
      alikeFields heap' r' fs gs = alikeFields heap r fs gs
  | [], _, _, _, _ => rfl
  | _ :: _, [], _, _, _ => rfl
  | f :: fs, g :: gs, hx, hg, ht => by
    simp only [reachFields] at hx hg
    simp only [typeOfFields, List.cons.injEq, FieldOf.mk.injEq] at ht
    obtain ⟨⟨-, hexp, -⟩, hrest⟩ := ht
    simp only [alikeFields]
    rw [alikeFields_agree hl hr fs gs (fun c hc => hx c (by simp [hc]))
      (fun c hc => hg c (by simp [hc])) hrest]
    cases hf : f.exported with
    | false => simp
    | true =>
      have hge : g.exported = true := by rw [← hexp, hf]
      rw [alikeField_agree hl f.val g.val hr (fun c hc => hx c (by simp [hf, hc]))
        (fun c hc => hg c (by simp [hge, hc]))]

theorem alike_agree {heap heap' : List Obj} (hl : heap'.length = heap.length) :
    ∀ (n : Nat) (t d : Val), (∀ c ∈ reach heap n t, heap'[c]? = heap[c]?) →
      (∀ c ∈ reach heap n d, heap'[c]? = heap[c]?) →
      alike heap' n t d = alike heap n t d
  | 0, _, _, _, _ => rfl
  | n + 1, t, d, hx, hg => by
    cases t <;> try rfl
    rename_i pk nm fs
    cases d <;> try rfl
    rename_i pk' nm' gs
    simp only [reach] at hx hg
    simp only [alike]
    cases hb : Ty.beq (Val.struct pk nm fs).typeOf (Val.struct pk' nm' gs).typeOf with
    | false => simp
    | true =>
      have hty := (Ty.beq_iff _ _).mp hb
      simp only [Val.typeOf, Ty.struct.injEq] at hty
      rw [alikeFields_agree hl (fun v w hv hw => alike_agree hl n v w hv hw) fs gs hx hg hty.2.2]

theorem settledField_agree {heap heap' : List Obj} (hl : heap'.length = heap.length)
    {rr : Val → List Nat} {r r' : Val → Val → Bool} (x g : Val)
    (hr : ∀ v w, (∀ c ∈ rr v, heap'[c]? = heap[c]?) → (∀ c ∈ rr w, heap'[c]? = heap[c]?) →
      r' v w = r v w)
    (hx : ∀ c ∈ reachField heap rr x, heap'[c]? = heap[c]?)
    (hg : ∀ c ∈ reachField heap rr g, heap'[c]? = heap[c]?) :
    settledField heap' r' x g = settledField heap r x g := by
  cases x with
  | struct pk nm fs =>
    cases g with
    | struct pk' nm' gs => exact hr _ _ hx hg
    | _ => rfl
  | ptr e a =>
    cases a with
    | none => rfl
    | some a =>
      cases ho : heap[a]? with
      | none => simp [settledField, ho, getElem?_none_of_length hl ho]
      | some o =>
        simp only [reachField, ho] at hx
        have ha := hx a (by simp)
        rw [ho] at ha
        cases g with
        | ptr e' b =>
          cases b with
          | none => simp [settledField, ho, ha]
          | some b =>
            cases hob : heap[b]? with
            | none => simp [settledField, ho, ha, hob, getElem?_none_of_length hl hob]
            | some ob =>
              simp only [reachField, hob] at hg
              have hb := hg b (by simp)
              rw [hob] at hb
              simp only [settledField, ho, ha, hob, hb]
              exact hr _ _ (fun c hc => hx c (by simp [hc])) (fun c hc => hg c (by simp [hc]))
        | _ => simp [settledField, ho, ha]
  | _ => rfl

theorem settledFields_agree {heap heap' : List Obj} (hl : heap'.length = heap.length)
    {rr : Val → List Nat} {r r' : Val → Val → Bool}
    (hr : ∀ v w, (∀ c ∈ rr v, heap'[c]? = heap[c]?) → (∀ c ∈ rr w, heap'[c]? = heap[c]?) →
      r' v w = r v w) :
    ∀ (fs gs : List (FieldOf Val)), (∀ c ∈ reachFields heap rr fs, heap'[c]? = heap[c]?) →
      (∀ c ∈ reachFields heap rr gs, heap'[c]? = heap[c]?) →
      typeOfFields fs = typeOfFields gs →
      settledFields heap' r' fs gs = settledFields heap r fs gs
  | [], _, _, _, _ => rfl
  | _ :: _, [], _, _, _ => rfl
  | f :: fs, g :: gs, hx, hg, ht => by
    simp only [reachFields] at hx hg
    simp only [typeOfFields, List.cons.injEq, FieldOf.mk.injEq] at ht
    obtain ⟨⟨-, hexp, -⟩, hrest⟩ := ht
    simp only [settledFields]
    rw [settledFields_agree hl hr fs gs (fun c hc => hx c (by simp [hc]))
      (fun c hc => hg c (by simp [hc])) hrest]
    cases hf : f.exported with
    | false => simp
    | true =>
      have hge : g.exported = true := by rw [← hexp, hf]
      rw [settledField_agree hl f.val g.val hr (fun c hc => hx c (by simp [hf, hc]))
        (fun c hc => hg c (by simp [hge, hc]))]

theorem settled_agree {heap heap' : List Obj} (hl : heap'.length = heap.length) :
    ∀ (n : Nat) (t d : Val), (∀ c ∈ reach heap n t, heap'[c]? = heap[c]?) →
      (∀ c ∈ reach heap n d, heap'[c]? = heap[c]?) →
      settled heap' n t d = settled heap n t d
  | 0, _, _, _, _ => rfl
  | n + 1, t, d, hx, hg => by
    cases t <;> try rfl
    rename_i pk nm fs
    cases d <;> try rfl
    rename_i pk' nm' gs
    simp only [reach] at hx hg
    simp only [settled]
    cases hb : Ty.beq (Val.struct pk nm fs).typeOf (Val.struct pk' nm' gs).typeOf with
    | false => simp
    | true =>
      have hty := (Ty.beq_iff _ _).mp hb
      simp only [Val.typeOf, Ty.struct.injEq] at hty
      rw [settledFields_agree hl (fun v w hv hw => settled_agree hl n v w hv hw) fs gs hx hg hty.2.2]

/-! ## Leaf actions at any location -/

theorem Mem.write_base {m m' : Mem} {B : Base} {p : List Nat} {w : Val}
    (h : m.write B p w = some m') :
    ∃ vB vB', m.base B = some vB ∧ vB.setPath p w = some vB' ∧ m'.base B = some vB' := by
  cases B with
  | root =>
    simp only [Mem.write] at h
    cases hs : m.root.setPath p w with
    | none => simp [hs] at h
    | some r =>
      simp only [hs, Option.some.injEq] at h
      subst h
      exact ⟨m.root, r, rfl, hs, rfl⟩
  | obj a =>
    simp only [Mem.write] at h
    cases ho : m.heap[a]? with
    | none => simp [ho] at h
    | some o =>
      simp only [ho] at h
      have hlt : a < m.heap.length := by
        by_contra hc
        rw [List.getElem?_eq_none (Nat.le_of_not_lt hc)] at ho
        simp at ho
      cases hs : o.toVal.setPath p w with
      | none => simp [hs] at h
      | some r =>
        cases r <;> simp only [hs] at h
        all_goals first | (simp at h; done) | skip
        rename_i pk n fs
        injection h with h
        subst h
        refine ⟨o.toVal, .struct pk n fs, by simp [Mem.base, ho], hs, ?_⟩
        simp [Mem.base, List.getElem?_set, hlt, Obj.toVal]

theorem Mem.write_root_of_ne {m m' : Mem} {B : Base} {p : List Nat} {w : Val}
    (h : m.write B p w = some m') (hB : B ≠ .root) : m'.root = m.root := by
  cases B with
  | root => exact absurd rfl hB
  | obj a => exact Mem.write_obj_root h

theorem setLeaf_at : LeafAt setLeaf fillLeaf := by
  intro m B p x df g hx _ hd hro ht
  have hl : (RValue.ref B p false).load m = some x := hx
  unfold setLeaf fillLeaf RValue.IsZero
  simp only [hl]
  cases hz : x.isZero with
  | false => exact ⟨m, by simpa using Mem.write_self hx, rfl⟩
  | true =>
    obtain ⟨m1, hw, hset⟩ := RValue.Set_ok df hx hd hro ht
    exact ⟨m1, by simpa using hw, by simp [hset]⟩

theorem stripLeaf_at : LeafAt stripLeaf stripLeafVal := by
  intro m B p x df g hx _ hd hro ht
  have hvi : (RValue.ref B p false).Interface m = .ok x :=
    RValue.Interface_ok_iff.mpr ⟨hx, rfl⟩
  have hdi : df.Interface m = .ok g := RValue.Interface_ok_iff.mpr ⟨hd, hro⟩
  have hl : (RValue.ref B p false).load m = some x := hx
  unfold stripLeaf stripLeafVal
  simp only [hvi, hdi]
  cases hde : x.deepEqual g with
  | false => exact ⟨m, by simpa using Mem.write_self hx, by simp⟩
  | true =>
    obtain ⟨m1, hw, hset⟩ := RValue.Set_ok (RValue.held x.typeOf.zero false) hx rfl rfl
      (Ty.zero_typeOf x.typeOf)
    exact ⟨m1, by simpa using hw, by simp [RValue.Type, hl, hset]⟩

theorem fillLeaf_rule : LeafRule fillLeaf := by
  intro h x g _ _
  cases hz : x.isZero with
  | true => right; exact ⟨by simp [fillLeaf, hz], fun G => by simp [fillLeaf, hz]⟩
  | false => left; exact ⟨Or.inl (by simp [fillLeaf, hz]), fun G _ => by simp [fillLeaf, hz]⟩

theorem Val.deepEqual_live_false {h : Nat} {x g : Val} (hx : x.isRecursed h = false)
    (hg : g.isLivePtr h = true) : x.deepEqual g = false := by
  obtain ⟨hk, hp⟩ := Val.leaf_of_not_recursed hx
  cases g <;> simp [Val.isLivePtr] at hg
  rename_i e b
  cases b with
  | none => simp at hg
  | some b =>
    simp at hg
    cases x <;> simp [Val.deepEqual]
    rename_i e' a
    intro _
    cases a with
    | none => simp
    | some a =>
      simp [Val.isLivePtr] at hp
      simp
      omega

theorem Val.deepEqual_struct_false {x G : Val} (hk : x.Kind ≠ .Struct) (hG : G.Kind = .Struct) :
    x.deepEqual G = false := by
  cases G <;> simp [Val.Kind] at hG
  cases x <;> simp [Val.Kind] at hk <;> simp [Val.deepEqual]

theorem stripLeafVal_rule : LeafRule stripLeafVal := by
  intro h x g hx _
  left
  constructor
  · cases hde : x.deepEqual g <;> simp [stripLeafVal, hde]
  · intro G hG
    have h1 := Val.deepEqual_live_false hx hG.1
    have h2 := Val.deepEqual_struct_false (Val.leaf_of_not_recursed hx).1 hG.2
    simp [stripLeafVal, h1, h2]

theorem deepField_leaf {heap : List Obj} (r : Val → Val) {x : Val}
    (hx : x.isRecursed heap.length = false) : deepField heap r x = x := by
  obtain ⟨hk, hp⟩ := Val.leaf_of_not_recursed hx
  cases x <;> simp [Val.Kind] at hk <;> try rfl
  rename_i e a
  cases a with
  | none => rfl
  | some a =>
    simp [Val.isLivePtr] at hp
    simp [deepField, List.getElem?_eq_none hp]

theorem reachField_leaf {heap : List Obj} (r : Val → List Nat) {x : Val}
    (hx : x.isRecursed heap.length = false) : reachField heap r x = [] := by
  obtain ⟨hk, hp⟩ := Val.leaf_of_not_recursed hx
  cases x <;> simp [Val.Kind] at hk <;> try rfl
  rename_i e a
  cases a with
  | none => rfl
  | some a =>
    simp [Val.isLivePtr] at hp
    simp [reachField, List.getElem?_eq_none hp]

theorem RValue.heldOrIn_Field {m : Mem} {P : Nat → Prop} {v vf : RValue} {i : Nat}
    (hP : v.heldOrIn P) (h : v.Field m i = .ok vf) : vf.heldOrIn P := by
  unfold RValue.Field at h
  cases hl : v.load m with
  | none => simp [hl] at h
  | some x =>
    cases x with
    | struct pk n fs =>
      simp only [hl] at h
      cases hf : fs[i]? with
      | none => simp [hf] at h
      | some f =>
        simp only [hf] at h
        cases v with
        | invalid => simp at h
        | held w r => simp at h; subst h; trivial
        | ref b p r =>
          simp at h; subst h
          cases b with
          | root => exact hP
          | obj c => exact hP
    | _ => simp [hl] at h

theorem RValue.load_heldOrIn {m m1 : Mem} {P : Nat → Prop} {v : RValue}
    (hP : v.heldOrIn P) (hag : ∀ c, P c → m1.heap[c]? = m.heap[c]?) :
    v.load m1 = v.load m := by
  cases v with
  | invalid => rfl
  | held w r => rfl
  | ref b p r =>
    cases b with
    | root => exact absurd hP (by simp [RValue.heldOrIn])
    | obj c =>
      simp only [RValue.load, Mem.read, Mem.base]
      rw [hag c hP]

theorem List.set_getElem?_self {α : Type} {l : List α} {k : Nat} {x : α}
    (h : l[k]? = some x) : l.set k x = l := by
  apply List.ext_getElem?
  intro i
  simp only [List.getElem?_set]
  by_cases hik : k = i
  · subst hik
    have hlt : k < l.length := by
      by_contra hc
      rw [List.getElem?_eq_none (Nat.le_of_not_lt hc)] at h
      simp at h
    simp [hlt, h]
  · simp [hik]

theorem Mem.base_of_read {m : Mem} {B : Base} {q : List Nat} {t : Val}
    (h : m.read B q = some t) : ∃ vB, m.base B = some vB ∧ vB.getPath q = some t := by
  unfold Mem.read at h
  cases hb : m.base B with
  | none => simp [hb] at h
  | some vB => exact ⟨vB, rfl, by simpa [hb] using h⟩

theorem Mem.read_of_base {m : Mem} {B : Base} {q : List Nat} {vB : Val}
    (h : m.base B = some vB) : m.read B q = vB.getPath q := by
  simp [Mem.read, h]

/-! ## The walk, read through the pointers of the target -/

theorem Mem.base_snoc {m m1 : Mem} {B : Base} {q : List Nat} {k : Nat} {pk nm : String}
    {fs : List (FieldOf Val)} {f : FieldOf Val} {w : Val}
    (hread : m.read B q = some (.struct pk nm fs)) (hf : fs[k]? = some f)
    (hb : ∃ vB vB', m.base B = some vB ∧ vB.setPath (q ++ [k]) w = some vB' ∧
      m1.base B = some vB') :
    m1.read B q = some (.struct pk nm (fs.set k { f with val := w })) ∧
    ∃ vB vB', m.base B = some vB ∧
      vB.setPath q (.struct pk nm (fs.set k { f with val := w })) = some vB' ∧
      m1.base B = some vB' := by
  obtain ⟨vB, vB', hvB, hset, hvB'⟩ := hb
  obtain ⟨vB0, hvB0, hgq⟩ := Mem.base_of_read hread
  rw [hvB] at hvB0
  cases hvB0
  rw [Val.setPath_snoc hgq hf w] at hset
  exact ⟨by rw [Mem.read_of_base hvB']; exact Val.getPath_setPath hset, vB, vB', hvB, hset, hvB'⟩

theorem Mem.read_snoc {m : Mem} {B : Base} {q : List Nat} {k : Nat} {pk nm : String}
    {fs : List (FieldOf Val)} {f : FieldOf Val}
    (hread : m.read B q = some (.struct pk nm fs)) (hf : fs[k]? = some f) :
    m.read B (q ++ [k]) = some f.val := by
  obtain ⟨vB, hvB, hgq⟩ := Mem.base_of_read hread
  rw [Mem.read_of_base hvB]
  exact Val.getPath_snoc hgq hf

theorem Mem.base_self {m : Mem} {B : Base} {q : List Nat} {t : Val}
    (hread : m.read B q = some t) :
    ∃ vB vB', m.base B = some vB ∧ vB.setPath q t = some vB' ∧ m.base B = some vB' := by
  obtain ⟨vB, hvB, hgq⟩ := Mem.base_of_read hread
  exact ⟨vB, vB, hvB, Val.setPath_self hgq, hvB⟩

theorem Mem.base_congr {m m1 : Mem} {B : Base} (hr : m1.root = m.root)
    (hc : ∀ c, B = .obj c → m1.heap[c]? = m.heap[c]?) : m1.base B = m.base B := by
  cases B with
  | root => simp [Mem.base, hr]
  | obj c => simp [Mem.base, hc c rfl]

theorem Mem.heap_of_read_obj {m : Mem} {a : Nat} {t : Val}
    (h : m.read (.obj a) [] = some t) : ∃ o, m.heap[a]? = some o ∧ o.toVal = t := by
  simp only [Mem.read, Mem.base] at h
  cases ho : m.heap[a]? with
  | none => simp [ho] at h
  | some o =>
    simp only [ho, Option.map_some', Val.getPath, Option.some.injEq] at h
    exact ⟨o, rfl, h⟩

theorem deepField_struct {heap : List Obj} (r : Val → Val) {x : Val} (hk : x.Kind = .Struct) :
    deepField heap r x = r x := by
  cases x <;> simp [Val.Kind] at hk
  rfl

theorem reachField_struct {heap : List Obj} (r : Val → List Nat) {x : Val}
    (hk : x.Kind = .Struct) : reachField heap r x = r x := by
  cases x <;> simp [Val.Kind] at hk
  rfl

theorem alikeField_struct {heap : List Obj} (r : Val → Val → Bool) {x g : Val}
    (hk : x.Kind = .Struct) (hg : g.Kind = .Struct) : alikeField heap r x g = r x g := by
  cases x <;> simp [Val.Kind] at hk
  cases g <;> simp [Val.Kind] at hg
  rfl

theorem alikeField_leaf {heap : List Obj} (r : Val → Val → Bool) {x : Val}
    (hx : x.isRecursed heap.length = false) (g : Val) : alikeField heap r x g = true := by
  obtain ⟨hk, hp⟩ := Val.leaf_of_not_recursed hx
  cases x <;> simp [Val.Kind] at hk <;> try rfl
  rename_i e a
  cases a with
  | none => rfl
  | some a =>
    simp [Val.isLivePtr] at hp
    simp [alikeField, List.getElem?_eq_none hp]

theorem settledField_struct {heap : List Obj} (r : Val → Val → Bool) {x g : Val}
    (hk : x.Kind = .Struct) (hg : g.Kind = .Struct) : settledField heap r x g = r x g := by
  cases x <;> simp [Val.Kind] at hk
  cases g <;> simp [Val.Kind] at hg
  rfl

theorem settledField_leaf {heap : List Obj} (r : Val → Val → Bool) {x : Val}
    (hx : x.isRecursed heap.length = false) (g : Val) :
    settledField heap r x g = (!x.isZero || x.deepEqual g) := by
  obtain ⟨hk, hp⟩ := Val.leaf_of_not_recursed hx
  cases x <;> simp [Val.Kind] at hk <;> try rfl
  rename_i e a
  cases a with
  | none => rfl
  | some a =>
    simp [Val.isLivePtr] at hp
    simp [settledField, List.getElem?_eq_none hp, Val.isZero]

theorem deepVal_Kind (heap : List Obj) (n : Nat) {x : Val} (hk : x.Kind = .Struct) :
    (deepVal heap n x).Kind = .Struct := by
  cases x <;> simp [Val.Kind] at hk
  cases n <;> simp [deepVal, Val.Kind]

/-- One step of the loop of a walk, over field `k` of the struct at `(B, q)`. -/
theorem walkFields_step {leaf recur : Mem → RValue → RValue → Res} {lf : Val → Val → Val}
    (hleaf : LeafAt leaf lf) (hrule : LeafRule lf) (P : Nat → Prop) (n : Nat)
    (IH : ∀ (m : Mem) (B : Base) (q : List Nat) (Dv : RValue) (t d : Val),
      WalkPre P n m B q Dv t d →
      ∃ m', recur m (.ref B q false) Dv = .ok m' ∧ WalkPost lf P n m B q t d m')
    {B : Base} {q : List Nat} {Dv : RValue} {pk nm pk' nm' : String}
    {gs : List (FieldOf Val)} (hB : ∀ a, B = .obj a → ¬ P a) (hDro : Dv.ro = false)
    (hDP : Dv.heldOrIn P) (m : Mem) (fs : List (FieldOf Val)) (k : Nat) (f g : FieldOf Val)
    (hf : fs[k]? = some f) (hg : gs[k]? = some g)
    (hread : m.read B q = some (.struct pk nm fs))
    (hD : Dv.load m = some (.struct pk' nm' gs))
    (hexp : g.exported = f.exported) (hty : g.val.typeOf = f.val.typeOf)
    (hal : f.exported = true → alikeField m.heap (alike m.heap n) f.val g.val = true)
    (hnd : f.exported = true → (reachField m.heap (reach m.heap n) f.val).Nodup)
    (hnp : f.exported = true →
      ∀ c ∈ reachField m.heap (reach m.heap n) f.val, ¬ P c ∧ B ≠ .obj c)
    (hdp : f.exported = true → ∀ c ∈ reachField m.heap (reach m.heap n) g.val, P c) :
    ∃ m1 w,
      (∀ rest, walkFields leaf recur (.ref B q false) Dv (k :: rest) m =
        walkFields leaf recur (.ref B q false) Dv rest m1) ∧
      m1.read B q = some (.struct pk nm (fs.set k { f with val := w })) ∧
      (∃ vB vB', m.base B = some vB ∧
        vB.setPath q (.struct pk nm (fs.set k { f with val := w })) = some vB' ∧
        m1.base B = some vB') ∧
      w.typeOf = f.val.typeOf ∧
      (f.exported = false → w = f.val) ∧
      (f.exported = true → deepField m1.heap (deepVal m1.heap n) w =
        walkVal lf m.heap.length (deepField m.heap (deepVal m.heap n) f.val)
          (deepField m.heap (deepVal m.heap n) g.val)) ∧
      (f.exported = true → ∀ c ∈ reachField m1.heap (reach m1.heap n) w,
        c ∈ reachField m.heap (reach m.heap n) f.val ∨ P c) ∧
      (∀ c, (f.exported = true → c ∉ reachField m.heap (reach m.heap n) f.val) →
        B ≠ .obj c → m1.heap[c]? = m.heap[c]?) ∧
      (B ≠ .root → m1.root = m.root) ∧ m1.heap.length = m.heap.length ∧
      (LeafKeeps lf → f.exported = true →
        reachField m1.heap (reach m1.heap n) w = reachField m.heap (reach m.heap n) f.val ∧
        alikeField m1.heap (alike m1.heap n) w g.val = true) ∧
      (LeafSettles lf → f.exported = true →
        settledField m.heap (settled m.heap n) g.val g.val = true →
        settledField m1.heap (settled m1.heap n) w g.val = true) := by
  have hvF : (RValue.ref B q false).Field m k =
      .ok (.ref B (q ++ [k]) (false || !f.exported)) := RValue.Field_of_read hread hf
  obtain ⟨df, hdF, hdl, hdro⟩ := RValue.Field_spec hD hg
  have hdfP : df.heldOrIn P := RValue.heldOrIn_Field hDP hdF
  have hsame : fs.set k { f with val := f.val } = fs := by
    rw [FieldOf.with_val_self]; exact List.set_getElem?_self hf
  by_cases hex : f.exported = true
  case neg =>
    have hcs : (RValue.ref B (q ++ [k]) (false || !f.exported)).CanSet = false := by
      simp [RValue.CanSet, hex]
    refine ⟨m, f.val, fun rest => walkFields_cons_skip hvF hdF hcs, ?_, ?_, rfl,
      fun _ => rfl, fun h => absurd h hex, fun h => absurd h hex, fun _ _ _ => rfl,
      fun _ => rfl, rfl, fun _ h => absurd h hex, fun _ h => absurd h hex⟩
    · rw [hsame]; exact hread
    · rw [hsame]; exact Mem.base_self hread
  case pos =>
    have hgex : g.exported = true := by rw [hexp, hex]
    simp only [hex, Bool.not_true, Bool.or_false] at hvF
    rw [hDro, hgex] at hdro
    simp only [Bool.not_true, Bool.or_false] at hdro
    have hcs : (RValue.ref B (q ++ [k]) false).CanSet = true := rfl
    have hrk : m.read B (q ++ [k]) = some f.val := Mem.read_snoc hread hf
    have hload : (RValue.ref B (q ++ [k]) false).load m = some f.val := hrk
    have hvalid := toStruct_valid_iff hload
    have hal := hal hex
    have hnd := hnd hex
    have hnp := hnp hex
    have hdp := hdp hex
    cases hrec : f.val.isRecursed m.heap.length with
    | false =>
      rw [hrec] at hvalid
      obtain ⟨m1, hw, hlf⟩ := hleaf m B (q ++ [k]) f.val df g.val hrk hrec hdl hdro hty
      have hlen := Mem.write_heap_length hw
      have hfr : ∀ c, B ≠ .obj c → m1.heap[c]? = m.heap[c]? :=
        fun c hc => Mem.write_outside hw c hc
      obtain ⟨hr1, hb1⟩ := Mem.base_snoc hread hf (Mem.write_base hw)
      have hxleaf1 : f.val.isRecursed m1.heap.length = false := by rw [hlen]; exact hrec
      have hgk : g.val.Kind ≠ .Struct := by
        rw [Val.Kind_of_typeOf_eq hty]; exact (Val.leaf_of_not_recursed hrec).1
      -- the default, read through its pointer, in the storage before and after
      have hGag : ∀ c ∈ reachField m.heap (reach m.heap n) g.val,
          m1.heap[c]? = m.heap[c]? := by
        intro c hc
        exact hfr c (fun hBc => hB c hBc (hdp c hc))
      have hG1 : deepField m1.heap (deepVal m1.heap n) g.val =
          deepField m.heap (deepVal m.heap n) g.val :=
        deepField_agree hlen g.val (fun v hv => deepVal_agree hlen n v hv) hGag
      have hR1 : reachField m1.heap (reach m1.heap n) g.val =
          reachField m.heap (reach m.heap n) g.val :=
        reachField_agree hlen g.val (fun v hv => reach_agree hlen n v hv) hGag
      have hGcase : deepField m.heap (deepVal m.heap n) g.val = g.val ∨
          (g.val.isLivePtr m.heap.length = true ∧
            (deepField m.heap (deepVal m.heap n) g.val).Kind = .Struct) := by
        cases hgl : g.val.isLivePtr m.heap.length with
        | false =>
          left
          exact deepField_leaf _ (by simp [Val.isRecursed, hgk, hgl])
        | true =>
          right
          refine ⟨rfl, ?_⟩
          cases hgv : g.val <;> rw [hgv] at hgl <;> simp [Val.isLivePtr] at hgl
          rename_i e b
          cases b with
          | none => simp at hgl
          | some b =>
            simp at hgl
            obtain ⟨ob, hob, -⟩ := Mem.read_obj_nil hgl
            simp only [deepField, hob]
            exact deepVal_Kind _ _ rfl
      refine ⟨m1, lf f.val g.val, ?_, hr1, hb1, ?_,
        fun (h : f.exported = false) => absurd (hex.symm.trans h) (by decide), ?_, ?_,
        fun c _ hc => hfr c hc, fun hB' => Mem.write_root_of_ne hw hB', hlen, ?_, ?_⟩
      · intro rest
        rw [walkFields_cons_leaf hvF hdF hcs hvalid, hlf]
      · rcases hrule m.heap.length f.val g.val hrec hty with ⟨h1 | h1, -⟩ | ⟨h1, -⟩
        · rw [h1]
        · rw [h1, Ty.zero_typeOf]
        · rw [h1]; exact hty
      · intro _
        rw [deepField_leaf _ hrec, walkVal_leaf lf _ hrec]
        rcases hrule m.heap.length f.val g.val hrec hty with ⟨h1, h2⟩ | ⟨h1, h2⟩
        · have hres : (lf f.val g.val).isRecursed m1.heap.length = false := by
            rcases h1 with h1 | h1
            · rw [h1]; exact hxleaf1
            · rw [h1]
              have hz := Val.zero_leaf (Val.leaf_of_not_recursed hrec).1 m1.heap.length
              simp [Val.isRecursed, hz.1, hz.2.1]
          rw [deepField_leaf _ hres]
          rcases hGcase with hG | hG
          · rw [hG]
          · exact (h2 _ hG).symm
        · rw [h1, hG1, h2]
      · intro _ c hc
        rcases hrule m.heap.length f.val g.val hrec hty with ⟨h1, -⟩ | ⟨h1, -⟩
        · have hres : (lf f.val g.val).isRecursed m1.heap.length = false := by
            rcases h1 with h1 | h1
            · rw [h1]; exact hxleaf1
            · rw [h1]
              have hz := Val.zero_leaf (Val.leaf_of_not_recursed hrec).1 m1.heap.length
              simp [Val.isRecursed, hz.1, hz.2.1]
          rw [reachField_leaf _ hres] at hc
          simp at hc
        · rw [h1, hR1] at hc
          exact Or.inr (hdp c hc)
      · intro hK _
        have hres : (lf f.val g.val).isRecursed m1.heap.length = false := by
          rcases hK m.heap.length f.val g.val hrec hty with h1 | h1
          · rw [h1]; exact hxleaf1
          · rw [h1]
            have hz := Val.zero_leaf (Val.leaf_of_not_recursed hrec).1 m1.heap.length
            simp [Val.isRecursed, hz.1, hz.2.1]
        exact ⟨by rw [reachField_leaf _ hres, reachField_leaf _ hrec],
          alikeField_leaf _ hres _⟩
      · intro hS _ hgg
        rcases hS m.heap.length f.val g.val hrec hty with ⟨h1, hz⟩ | h1
        · rw [h1, settledField_leaf _ hxleaf1, hz]
          rfl
        · rw [h1, settledField_agree hlen g.val g.val
            (fun v w hv hw => settled_agree hlen n v w hv hw) hGag hGag]
          exact hgg
    | true =>
      rw [hrec] at hvalid
      by_cases hk : f.val.Kind = .Struct
      · -- a struct held by value
        have hgk : g.val.Kind = .Struct := by rw [Val.Kind_of_typeOf_eq hty]; exact hk
        rw [alikeField_struct _ hk hgk] at hal
        rw [reachField_struct _ hk] at hnd hnp
        rw [reachField_struct _ hgk] at hdp
        obtain ⟨m1, hrun, t', hr1, hb1, hty1, hdeep, hreach, hfr, hroot, hlen, hkeep, hset⟩ :=
          IH m B (q ++ [k]) df f.val g.val
            ⟨hrk, hdl, hdro, hdfP, hal, hnd, hnp, hdp, hB⟩
        have hk1 : t'.Kind = .Struct := by rw [Val.Kind_of_typeOf_eq hty1]; exact hk
        obtain ⟨hr2, hb2⟩ := Mem.base_snoc hread hf hb1
        refine ⟨m1, t', ?_, hr2, hb2, hty1,
          fun (h : f.exported = false) => absurd (hex.symm.trans h) (by decide), ?_, ?_, ?_,
          hroot, hlen, ?_, ?_⟩
        · intro rest
          rw [walkFields_cons_recur hvF hdF hcs hvalid, toStruct_of_struct hload hk,
            toStruct_of_struct hdl hgk, hrun]
        · intro _
          rw [deepField_struct _ hk1, deepField_struct _ hk, deepField_struct _ hgk]
          exact hdeep
        · intro _ c hc
          rw [reachField_struct _ hk1] at hc
          rw [reachField_struct _ hk]
          exact hreach c hc
        · intro c hc hBc
          rw [reachField_struct _ hk] at hc
          exact hfr c (hc hex) hBc
        · intro hK _
          rw [reachField_struct _ hk1, reachField_struct _ hk, alikeField_struct _ hk1 hgk]
          exact hkeep hK
        · intro hS _ hgg
          rw [settledField_struct _ hgk hgk] at hgg
          rw [settledField_struct _ hk1 hgk]
          exact hset hS hgg
      · -- a pointer to a struct on the heap
        have hp : f.val.isLivePtr m.heap.length = true := by
          simp only [Val.isRecursed, Bool.or_eq_true, beq_iff_eq] at hrec
          rcases hrec with h | h
          · exact absurd h hk
          · exact h
        cases hfv : f.val <;> rw [hfv] at hp <;> simp [Val.isLivePtr] at hp
        rename_i e a
        cases a with
        | none => simp at hp
        | some a =>
          simp at hp
          obtain ⟨o, ho, hro⟩ := Mem.read_obj_nil hp
          rw [hfv] at hal hnd hnp hload
          simp only [alikeField, ho] at hal
          simp only [reachField, ho] at hnd hnp
          cases hgv : g.val <;> rw [hgv] at hal <;> try (exact Bool.noConfusion hal)
          rename_i e' b
          cases b with
          | none => simp at hal
          | some b =>
            simp only at hal
            cases hob : m.heap[b]? with
            | none => simp [hob] at hal
            | some ob =>
              simp only [hob] at hal
              have hb : b < m.heap.length := by
                by_contra hc
                rw [List.getElem?_eq_none (Nat.le_of_not_lt hc)] at hob
                simp at hob
              obtain ⟨ob', hob', hrob⟩ := Mem.read_obj_nil hb
              rw [hob] at hob'
              cases hob'
              rw [hgv] at hdp hdl
              simp only [reachField, hob] at hdp
              have hPb : P b := hdp b (by simp)
              have haP : ¬ P a := (hnp a (by simp)).1
              have hnd' := List.nodup_cons.mp hnd
              obtain ⟨m1, hrun, t', hr1, hb1, hty1, hdeep, hreach, hfr, hroot, hlen, hkeep,
                  hset⟩ :=
                IH m (.obj a) [] (.ref (.obj b) [] false) o.toVal ob.toVal
                  ⟨hro, hrob, rfl, hPb, hal, hnd'.2,
                   fun c hc => ⟨(hnp c (by simp [hc])).1, fun heq => by
                     injection heq with heq
                     subst heq
                     exact hnd'.1 hc⟩,
                   fun c hc => hdp c (by simp [hc]),
                   fun a' heq => by injection heq with heq; subst heq; exact haP⟩
              obtain ⟨o1, ho1, ho1t⟩ := Mem.heap_of_read_obj hr1
              have hroot1 : m1.root = m.root := hroot (by simp)
              have hbase : m1.base B = m.base B := by
                apply Mem.base_congr hroot1
                intro c hBc
                have hca : c ≠ a := fun h => (hnp a (by simp)).2 (by rw [hBc, h])
                apply hfr c
                · intro hc
                  exact (hnp c (by simp [hc])).2 hBc
                · intro heq
                  injection heq with heq
                  exact hca heq.symm
              have hread1 : m1.read B q = some (.struct pk nm fs) := by
                simp only [Mem.read, hbase]
                exact hread
              refine ⟨m1, .ptr e (some a), ?_, ?_, ?_, rfl,
                fun (h : f.exported = false) => absurd (hex.symm.trans h) (by decide),
                ?_, ?_, ?_, fun _ => hroot1, hlen, ?_, ?_⟩
              · intro rest
                rw [walkFields_cons_recur hvF hdF hcs hvalid, toStruct_of_live hload hp,
                  toStruct_of_live hdl hb, hdro]
                simp only [RValue.ro]
                rw [hrun]
              · rw [← hfv, hsame]; exact hread1
              · rw [← hfv, hsame]
                obtain ⟨vB, vB', h1, h2, h3⟩ := Mem.base_self hread
                exact ⟨vB, vB', h1, h2, by rw [hbase]; exact h3⟩
              · intro _
                simp only [deepField, ho1, ho, hob, ho1t]
                exact hdeep
              · intro _ c hc
                simp only [reachField, ho1, ho1t, List.mem_cons] at hc
                rcases hc with hc | hc
                · left; simp [reachField, ho, hc]
                · rcases hreach c hc with h | h
                  · left; simp [reachField, ho, h]
                  · right; exact h
              · intro c hc _
                have hc := hc hex
                simp only [reachField, ho, List.mem_cons, not_or] at hc
                exact hfr c hc.2 (fun heq => by injection heq with heq; exact hc.1 heq.symm)
              · intro hK _
                have hob1 : m1.heap[b]? = some ob := by
                  rw [hfr b (fun hc => (hnp b (by simp [hc])).1 hPb)
                    (fun heq => by injection heq with heq; subst heq; exact haP hPb)]
                  exact hob
                obtain ⟨hk1, hk2⟩ := hkeep hK
                simp only [reachField, alikeField, ho1, ho1t, ho, hob1, hk1, hk2, and_self]
              · intro hS _ hgg
                have hob1 : m1.heap[b]? = some ob := by
                  rw [hfr b (fun hc => (hnp b (by simp [hc])).1 hPb)
                    (fun heq => by injection heq with heq; subst heq; exact haP hPb)]
                  exact hob
                simp only [settledField, hob] at hgg
                simp only [settledField, ho1, ho1t, hob1]
                exact hset hS hgg

/-- The loop of a walk over the struct at `(B, q)`, from field `k` on. -/
theorem walkFields_deep {leaf recur : Mem → RValue → RValue → Res} {lf : Val → Val → Val}
    (hleaf : LeafAt leaf lf) (hrule : LeafRule lf) (P : Nat → Prop) (n : Nat)
    (IH : ∀ (m : Mem) (B : Base) (q : List Nat) (Dv : RValue) (t d : Val),
      WalkPre P n m B q Dv t d →
      ∃ m', recur m (.ref B q false) Dv = .ok m' ∧ WalkPost lf P n m B q t d m')
    {B : Base} {q : List Nat} {Dv : RValue} {pk nm pk' nm' : String}
    {gs : List (FieldOf Val)} (hB : ∀ a, B = .obj a → ¬ P a) (hDro : Dv.ro = false)
    (hDP : Dv.heldOrIn P) :
    ∀ (j k : Nat) (m : Mem) (fs : List (FieldOf Val)), k + j = fs.length →
      m.read B q = some (.struct pk nm fs) →
      Dv.load m = some (.struct pk' nm' gs) →
      typeOfFields (fs.drop k) = typeOfFields (gs.drop k) →
      alikeFields m.heap (alike m.heap n) (fs.drop k) (gs.drop k) = true →
      (reachFields m.heap (reach m.heap n) (fs.drop k)).Nodup →
      (∀ c ∈ reachFields m.heap (reach m.heap n) (fs.drop k), ¬ P c ∧ B ≠ .obj c) →
      (∀ c ∈ reachFields m.heap (reach m.heap n) (gs.drop k), P c) →
      ∃ m' fs', walkFields leaf recur (.ref B q false) Dv (List.range' k j) m = .ok m' ∧
        m'.read B q = some (.struct pk nm fs') ∧
        (∃ vB vB', m.base B = some vB ∧ vB.setPath q (.struct pk nm fs') = some vB' ∧
          m'.base B = some vB') ∧
        fs'.take k = fs.take k ∧ typeOfFields fs' = typeOfFields fs ∧
        deepFields m'.heap (deepVal m'.heap n) (fs'.drop k) =
          walkVals lf m.heap.length (deepFields m.heap (deepVal m.heap n) (fs.drop k))
            (deepFields m.heap (deepVal m.heap n) (gs.drop k)) ∧
        (∀ c ∈ reachFields m'.heap (reach m'.heap n) (fs'.drop k),
          c ∈ reachFields m.heap (reach m.heap n) (fs.drop k) ∨ P c) ∧
        (∀ c, c ∉ reachFields m.heap (reach m.heap n) (fs.drop k) → B ≠ .obj c →
          m'.heap[c]? = m.heap[c]?) ∧
        (B ≠ .root → m'.root = m.root) ∧ m'.heap.length = m.heap.length ∧
        (LeafKeeps lf →
          reachFields m'.heap (reach m'.heap n) (fs'.drop k) =
            reachFields m.heap (reach m.heap n) (fs.drop k) ∧
          alikeFields m'.heap (alike m'.heap n) (fs'.drop k) (gs.drop k) = true) ∧
        (LeafSettles lf →
          settledFields m.heap (settled m.heap n) (gs.drop k) (gs.drop k) = true →
          settledFields m'.heap (settled m'.heap n) (fs'.drop k) (gs.drop k) = true) := by
  intro j
  induction j with
  | zero =>
    intro k m fs hk hread _ _ _ _ _ _
    have hk' : k = fs.length := by omega
    subst hk'
    refine ⟨m, fs, by simp [walkFields], hread, Mem.base_self hread, rfl, rfl, ?_, ?_,
      fun _ _ _ => rfl, fun _ => rfl, rfl,
      fun _ => by simp [List.drop_length, reachFields, alikeFields],
      fun _ _ => by simp [List.drop_length, settledFields]⟩
    · simp [List.drop_length, deepFields, walkVals_nil]
    · simp [List.drop_length, reachFields]
  | succ j ih =>
    intro k m fs hk hread hD ht hal hnd hnp hdp
    have hlt : k < fs.length := by omega
    obtain ⟨f, hf⟩ : ∃ f, fs[k]? = some f := ⟨fs[k], by simp [hlt]⟩
    have hfd := List.drop_of_getElem? hf
    rw [hfd] at ht hal hnd hnp
    cases hgd : gs.drop k with
    | nil => rw [hgd] at ht; simp [typeOfFields] at ht
    | cons g s =>
      obtain ⟨hgk, hs⟩ := List.drop_cons_inv hgd
      subst hs
      rw [hgd] at ht hal hdp
      simp only [typeOfFields, List.cons.injEq, FieldOf.mk.injEq] at ht
      obtain ⟨⟨-, hexp, hty⟩, hrest⟩ := ht
      simp only [alikeFields, Bool.and_eq_true, Bool.or_eq_true, Bool.not_eq_true'] at hal
      simp only [reachFields] at hnd hnp hdp
      obtain ⟨hndk, hndr, hdisj⟩ := List.nodup_append.mp hnd
      -- the step at field `k`
      obtain ⟨m1, w, hrun, hr1, hb1, htw, hwne, hdeep, hreach, hfr, hroot, hlen, hkeep, hset⟩ :=
        walkFields_step hleaf hrule P n IH hB hDro hDP m fs k f g hf hgk hread hD
          hexp.symm hty.symm
          (fun hex => by
            rcases hal.1 with h | h
            · rw [hex] at h; cases h
            · exact h)
          (fun hex => by simpa [hex] using hndk)
          (fun hex c hc => hnp c (by simp [hex, hc]))
          (fun hex c hc => hdp c (by simp [← hexp, hex, hc]))
      -- the storage after the step agrees with the storage before it on the cells
      -- that the remaining fields and the defaults reach
      have hagR : ∀ c ∈ reachFields m.heap (reach m.heap n) (fs.drop (k + 1)),
          m1.heap[c]? = m.heap[c]? := by
        intro c hc
        apply hfr c
        · intro hex hck
          exact hdisj (by simpa [hex] using hck) hc
        · exact (hnp c (by simp [hc])).2
      have hagP : ∀ c, P c → m1.heap[c]? = m.heap[c]? := by
        intro c hPc
        apply hfr c
        · intro hex hck
          exact (hnp c (by simp [hex, hck])).1 hPc
        · intro hBc
          exact hB c hBc hPc
      have hagD : ∀ c ∈ reachFields m.heap (reach m.heap n) (gs.drop (k + 1)),
          m1.heap[c]? = m.heap[c]? := fun c hc => hagP c (hdp c (by simp [hc]))
      have hD1 : Dv.load m1 = some (.struct pk' nm' gs) := by
        rw [RValue.load_heldOrIn hDP hagP]; exact hD
      have hRT : reachFields m1.heap (reach m1.heap n) (fs.drop (k + 1)) =
          reachFields m.heap (reach m.heap n) (fs.drop (k + 1)) :=
        reachFields_agree hlen (fun v hv => reach_agree hlen n v hv) _ hagR
      have hRD : reachFields m1.heap (reach m1.heap n) (gs.drop (k + 1)) =
          reachFields m.heap (reach m.heap n) (gs.drop (k + 1)) :=
        reachFields_agree hlen (fun v hv => reach_agree hlen n v hv) _ hagD
      have hAL : alikeFields m1.heap (alike m1.heap n) (fs.drop (k + 1)) (gs.drop (k + 1)) =
          alikeFields m.heap (alike m.heap n) (fs.drop (k + 1)) (gs.drop (k + 1)) :=
        alikeFields_agree hlen (fun v w hv hw => alike_agree hlen n v w hv hw) _ _ hagR hagD
          hrest
      have hdrop1 : (fs.set k { f with val := w }).drop (k + 1) = fs.drop (k + 1) :=
        List.drop_succ_set _
      obtain ⟨m', fs', hrun', hr', hb', htake, htyf, hdeep', hreach', hfr', hroot', hlen',
          hkeep', hset'⟩ :=
        ih (k + 1) m1 (fs.set k { f with val := w })
          (by simp only [List.length_set]; omega) hr1 hD1
          (by rw [hdrop1]; exact hrest)
          (by rw [hdrop1, hAL]; exact hal.2)
          (by rw [hdrop1, hRT]; exact hndr)
          (by rw [hdrop1, hRT]; exact fun c hc => hnp c (by simp [hc]))
          (by rw [hRD]; exact fun c hc => hdp c (by simp [hc]))
      rw [hdrop1, hRT] at hreach' hfr' hkeep'
      rw [hdrop1] at hdeep'
      have htake1 : fs'.take (k + 1) = fs.take k ++ [{ f with val := w }] := by
        rw [htake, List.take_succ_set hlt]
      have hfk : fs'[k]? = some { f with val := w } := by
        have h1 : (fs'.take (k + 1))[k]? = fs'[k]? := by
          rw [List.getElem?_take]; simp
        rw [← h1, htake1]
        have hlk : (fs.take k).length = k := by simp; omega
        rw [List.getElem?_append_right (by omega)]
        simp [hlk]
      have hfd' := List.drop_of_getElem? hfk
      -- the cells below field `k` are not touched by the rest of the loop
      have hagW : f.exported = true →
          ∀ c ∈ reachField m1.heap (reach m1.heap n) w, m'.heap[c]? = m1.heap[c]? := by
        intro hex c hc
        rcases hreach hex c hc with h | h
        · apply hfr' c
          · intro hcr
            exact hdisj (by simpa [hex] using h) hcr
          · exact (hnp c (by simp [hex, h])).2
        · apply hfr' c
          · intro hcr
            exact (hnp c (by simp [hcr])).1 h
          · intro hBc
            exact hB c hBc h
      refine ⟨m', fs', ?_, hr', ?_, ?_, ?_, ?_, ?_, ?_, ?_, ?_, ?_, ?_⟩
      · rw [List.range'_succ, hrun]; exact hrun'
      · obtain ⟨vB, vB1, h1, h2, h3⟩ := hb1
        obtain ⟨vB1', vB2, h4, h5, h6⟩ := hb'
        rw [h3] at h4
        cases h4
        exact ⟨vB, vB2, h1, by rw [← Val.setPath_setPath h2]; exact h5, h6⟩
      · have h1 : (fs'.take (k + 1)).take k = fs'.take k := by
          rw [List.take_take]; simp
        rw [← h1, htake1]
        have hlk : (fs.take k).length = k := by simp; omega
        rw [List.take_append_of_le_length (by omega), List.take_of_length_le (by omega)]
      · rw [htyf]; exact typeOfFields_set hf htw
      · rw [hfd', hfd]
        simp only [deepFields]
        rw [walkVals_cons, hdeep', hlen,
          deepFields_agree hlen (fun v hv => deepVal_agree hlen n v hv) _ hagR,
          deepFields_agree hlen (fun v hv => deepVal_agree hlen n v hv) _ hagD]
        congr 1
        cases hex : f.exported with
        | false =>
          simp only [hwne hex, hex, Bool.false_eq_true, if_false]
          cases f
          simp only at hex
          simp [hex]
        | true =>
          have hgex : g.exported = true := by rw [← hexp, hex]
          have hW : deepField m'.heap (deepVal m'.heap n) w =
              deepField m1.heap (deepVal m1.heap n) w :=
            deepField_agree hlen' w (fun v hv => deepVal_agree hlen' n v hv) (hagW hex)
          simp only [hex, hgex, if_true]
          rw [hW, hdeep hex]
      · intro c hc
        rw [hfd'] at hc
        rw [hfd]
        simp only [reachFields, List.mem_append] at hc ⊢
        rcases hc with hc | hc
        · cases hex : f.exported with
          | false => simp [hex] at hc
          | true =>
            simp only [hex, if_true] at hc ⊢
            rw [reachField_agree hlen' w (fun v hv => reach_agree hlen' n v hv) (hagW hex)]
              at hc
            rcases hreach hex c hc with h | h
            · exact Or.inl (Or.inl h)
            · exact Or.inr h
        · rcases hreach' c hc with h | h
          · exact Or.inl (Or.inr h)
          · exact Or.inr h
      · intro c hc hBc
        rw [hfd] at hc
        simp only [reachFields, List.mem_append, not_or] at hc
        rw [hfr' c hc.2 hBc]
        exact hfr c (fun hex => by simpa [hex] using hc.1) hBc
      · intro hBr
        rw [hroot' hBr, hroot hBr]
      · rw [hlen', hlen]
      · intro hK
        obtain ⟨hk1, hk2⟩ := hkeep' hK
        rw [hfd', hfd]
        simp only [reachFields, alikeFields, hk1, hk2, Bool.and_true]
        cases hex : f.exported with
        | false => simp
        | true =>
          have hgex : g.exported = true := by rw [← hexp, hex]
          obtain ⟨hk3, hk4⟩ := hkeep hK hex
          have hagG : ∀ c ∈ reachField m1.heap (reach m1.heap n) g.val,
              m'.heap[c]? = m1.heap[c]? := by
            intro c hc
            rw [reachField_agree hlen g.val (fun v hv => reach_agree hlen n v hv)
              (fun c hc => hagP c (hdp c (by simp [hgex, hc])))] at hc
            have hPc : P c := hdp c (by simp [hgex, hc])
            apply hfr' c
            · intro hcr
              exact (hnp c (by simp [hcr])).1 hPc
            · intro hBc
              exact hB c hBc hPc
          simp only [if_true, Bool.not_true, Bool.false_or]
          rw [reachField_agree hlen' w (fun v hv => reach_agree hlen' n v hv) (hagW hex), hk3,
            alikeField_agree hlen' w g.val
              (fun v w hv hw => alike_agree hlen' n v w hv hw) (hagW hex) hagG, hk4]
          simp
      · intro hS hgg
        simp only [settledFields, Bool.and_eq_true] at hgg
        have hgg1 : settledFields m1.heap (settled m1.heap n) (gs.drop (k + 1))
            (gs.drop (k + 1)) = true := by
          rw [settledFields_agree hlen (fun v w hv hw => settled_agree hlen n v w hv hw) _ _
            hagD hagD rfl]
          exact hgg.2
        have hs' := hset' hS hgg1
        rw [hfd']
        simp only [settledFields, hs', Bool.and_true]
        cases hex : f.exported with
        | false => simp
        | true =>
          have hgex : g.exported = true := by rw [← hexp, hex]
          have hgg0 : settledField m.heap (settled m.heap n) g.val g.val = true := by
            simpa [hgex] using hgg.1
          have h3 := hset hS hex hgg0
          have hagG : ∀ c ∈ reachField m1.heap (reach m1.heap n) g.val,
              m'.heap[c]? = m1.heap[c]? := by
            intro c hc
            rw [reachField_agree hlen g.val (fun v hv => reach_agree hlen n v hv)
              (fun c hc => hagP c (hdp c (by simp [hgex, hc])))] at hc
            have hPc : P c := hdp c (by simp [hgex, hc])
            apply hfr' c
            · intro hcr
              exact (hnp c (by simp [hcr])).1 hPc
            · intro hBc
              exact hB c hBc hPc
          simp only [if_true, Bool.not_true, Bool.false_or]
          rw [settledField_agree hlen' w g.val
            (fun v w hv hw => settled_agree hlen' n v w hv hw) (hagW hex) hagG, h3]

/-- A walk over a struct whose pointers lead to separate structs returns, and what
it leaves is `walkVal lf` of the target and the defaults, both read through their
pointers. -/
theorem walkStruct_deep {leaf : Mem → RValue → RValue → Res} {lf : Val → Val → Val}
    (hleaf : LeafAt leaf lf) (hrule : LeafRule lf) (P : Nat → Prop) :
    ∀ (n : Nat) (m : Mem) (B : Base) (q : List Nat) (Dv : RValue) (t d : Val),
      WalkPre P n m B q Dv t d →
      ∃ m', walkStruct leaf n m (.ref B q false) Dv = .ok m' ∧ WalkPost lf P n m B q t d m'
  | 0, m, B, q, Dv, t, d, h => by
    have := h.2.2.2.2.1
    simp [alike] at this
  | n + 1, m, B, q, Dv, t, d, ⟨hread, hD, hro, hDP, hal, hnd, hnp, hdp, hB⟩ => by
    cases t with
    | struct pk nm fs =>
      cases d with
      | struct pk' nm' gs =>
        simp only [alike, Bool.and_eq_true] at hal
        have hty := (Ty.beq_iff _ _).mp hal.1
        have htf : typeOfFields fs = typeOfFields gs := by
          simp only [Val.typeOf, Ty.struct.injEq] at hty
          exact hty.2.2
        simp only [reach] at hnd hnp hdp
        have hload : (RValue.ref B q false).load m = some (.struct pk nm fs) := hread
        obtain ⟨m', fs', hrun, hr', hb', -, htyf, hdeep, hreach, hfr, hroot, hlen, hkeep,
            hset⟩ :=
          walkFields_deep hleaf hrule P n (walkStruct_deep hleaf hrule P n) hB hro hDP
            fs.length 0 m fs (by omega) hread hD (by simpa using htf) (by simpa using hal.2)
            (by simpa using hnd) (by simpa using hnp) (by simpa using hdp)
        simp only [List.drop_zero] at hdeep hreach hfr hkeep hset
        refine ⟨m', ?_, .struct pk nm fs', hr', hb', ?_, ?_, ?_, ?_, hroot, hlen, ?_, ?_⟩
        · unfold walkStruct
          simp only [RValue.NumField, hload, List.range_eq_range']
          exact hrun
        · simp only [Val.typeOf, htyf]
        · simp only [deepVal, walkVal_struct, hdeep]
        · simpa only [reach] using hreach
        · simpa only [reach] using hfr
        · intro hK
          obtain ⟨hk1, hk2⟩ := hkeep hK
          refine ⟨by simpa only [reach] using hk1, ?_⟩
          simp only [alike, Bool.and_eq_true]
          refine ⟨?_, hk2⟩
          rw [Ty.beq_iff]
          simp only [Val.typeOf, htyf] at hty ⊢
          exact hty
        · intro hS hdd
          simp only [settled, Bool.and_eq_true] at hdd ⊢
          refine ⟨?_, hset hS hdd.2⟩
          rw [Ty.beq_iff]
          simp only [Val.typeOf, htyf] at hty ⊢
          exact hty
      | _ => simp [alike] at hal
    | _ => simp [alike] at hal

/-! ## Values read through pointers -/

theorem matching_struct (p n q k : String) (fs gs : List (FieldOf Val)) :
    matching (.struct p n fs) (.struct q k gs) = matchingFields fs gs := by
  simp [matching]

theorem matching_not_struct {x : Val} (d : Val) (hk : x.Kind ≠ .Struct) :
    matching x d = true := by
  cases x <;> simp [Val.Kind] at hk <;> simp [matching]

theorem matching_struct_right {pk nm : String} {fs : List (FieldOf Val)} {d : Val}
    (h : matching (.struct pk nm fs) d = true) :
    ∃ pk' nm' gs, d = .struct pk' nm' gs ∧ matchingFields fs gs = true := by
  cases d <;> simp [matching] at h
  exact ⟨_, _, _, rfl, h⟩

theorem matchingFields_cons (f g : FieldOf Val) (fs gs : List (FieldOf Val)) :
    matchingFields (f :: fs) (g :: gs) =
      ((f.exported == g.exported) && (!f.exported || matching f.val g.val) &&
        matchingFields fs gs) := by
  simp [matchingFields]

theorem matchingFields_getElem? :
    ∀ (fs gs : List (FieldOf Val)) (i : Nat) (f : FieldOf Val),
      matchingFields fs gs = true → fs[i]? = some f →
      ∃ g, gs[i]? = some g ∧ (f.exported = true → matching f.val g.val = true)
  | [], _, _, _, _, hf => by simp at hf
  | _ :: _, [], _, _, h, _ => by simp [matchingFields] at h
  | f0 :: fs, g0 :: gs, 0, f, h, hf => by
      simp only [List.getElem?_cons_zero, Option.some.injEq] at hf
      subst hf
      rw [matchingFields_cons] at h
      simp only [Bool.and_eq_true, Bool.or_eq_true, Bool.not_eq_true'] at h
      refine ⟨g0, by simp, fun hex => ?_⟩
      rcases h.1.2 with h1 | h1
      · rw [hex] at h1; cases h1
      · exact h1
  | f0 :: fs, g0 :: gs, i + 1, f, h, hf => by
      simp only [List.getElem?_cons_succ] at hf ⊢
      rw [matchingFields_cons] at h
      simp only [Bool.and_eq_true] at h
      exact matchingFields_getElem? fs gs i f h.2 hf

/-- Along an exported path, the rewritten value holds the rewriting of what the
target held there against what the defaults hold there, for defaults that hold a
struct wherever the target does. -/
theorem walkVal_getPath_matching (lf : Val → Val → Val) (h : Nat) (p : List Nat) :
    ∀ (t d x : Val), matching t d = true → t.exportedPath p = true → t.getPath p = some x →
      ∃ y, d.getPath p = some y ∧ matching x y = true ∧
        (walkVal lf h t d).getPath p = some (walkVal lf h x y) := by
  induction p with
  | nil =>
    intro t d x ht _ hx
    simp only [Val.getPath, Option.some.injEq] at hx
    subst hx
    exact ⟨d, by simp [Val.getPath], ht, by simp [Val.getPath]⟩
  | cons i p ih =>
    intro t d x ht he hx
    cases t <;> simp [Val.getPath] at hx
    rename_i pk n fs
    obtain ⟨pk', nm', gs, rfl, hfs⟩ := matching_struct_right ht
    cases hf : fs[i]? with
    | none => simp [hf] at hx
    | some f =>
      simp only [hf] at hx
      simp only [Val.exportedPath, hf, Bool.and_eq_true] at he
      obtain ⟨g, hg, hm⟩ := matchingFields_getElem? fs gs i f hfs hf
      obtain ⟨y, hy, hxy, hw⟩ := ih f.val g.val x (hm he.1) he.2 hx
      refine ⟨y, by simp [Val.getPath, hg, hy], hxy, ?_⟩
      rw [walkVal_struct]
      simp only [Val.getPath, walkVals_getElem? lf h fs gs i f g hf hg, he.1, if_true]
      exact hw

theorem walkVal_comp_leaf_aux (lf1 lf2 lf3 : Val → Val → Val) (h : Nat) (P : Val → Val → Bool)
    (hleaf : ∀ x g, x.Kind ≠ .Struct → x.isLivePtr h = false →
      P x g = true → (lf1 x g).Kind ≠ .Struct ∧
        (if (lf1 x g).isLivePtr h then lf1 x g else lf2 (lf1 x g) g) = lf3 x g)
    (t d : Val) (hk : t.Kind ≠ .Struct) (hl : leavesAll P h t d = true) :
    walkVal lf2 h (walkVal lf1 h t d) d = walkVal lf3 h t d := by
  rw [leavesAll_not_struct P h d hk] at hl
  rw [walkVal_not_struct lf1 h d hk, walkVal_not_struct lf3 h d hk]
  cases hlive : t.isLivePtr h with
  | true =>
    simp only [if_true]
    rw [walkVal_not_struct lf2 h d hk, hlive]
    simp
  | false =>
    rw [hlive, Bool.false_or] at hl
    obtain ⟨h1, h2⟩ := hleaf t d hk hlive hl
    simp only [Bool.false_eq_true, if_false]
    rw [walkVal_not_struct lf2 h d h1, h2]

mutual
/-- Two walks in a row amount to one walk, when the leaf rules compose on every
leaf that satisfies `P`; the defaults hold a struct wherever the target does. -/
theorem walkVal_comp_matching (lf1 lf2 lf3 : Val → Val → Val) (h : Nat) (P : Val → Val → Bool)
    (hleaf : ∀ x g, x.Kind ≠ .Struct → x.isLivePtr h = false →
      P x g = true → (lf1 x g).Kind ≠ .Struct ∧
        (if (lf1 x g).isLivePtr h then lf1 x g else lf2 (lf1 x g) g) = lf3 x g) :
    ∀ (t d : Val), matching t d = true → leavesAll P h t d = true →
      walkVal lf2 h (walkVal lf1 h t d) d = walkVal lf3 h t d
  | .struct pk nm fs, d, ht, hl => by
      obtain ⟨pk', nm', gs, rfl, hfs⟩ := matching_struct_right ht
      rw [leavesAll_struct] at hl
      rw [walkVal_struct, walkVal_struct, walkVal_struct,
        walkVals_comp_matching lf1 lf2 lf3 h P hleaf fs gs hfs hl]
  | .int a, d, _, hl => walkVal_comp_leaf_aux lf1 lf2 lf3 h P hleaf (.int a) d (by simp [Val.Kind]) hl
  | .str a, d, _, hl => walkVal_comp_leaf_aux lf1 lf2 lf3 h P hleaf (.str a) d (by simp [Val.Kind]) hl
  | .bool a, d, _, hl => walkVal_comp_leaf_aux lf1 lf2 lf3 h P hleaf (.bool a) d (by simp [Val.Kind]) hl
  | .float a, d, _, hl => walkVal_comp_leaf_aux lf1 lf2 lf3 h P hleaf (.float a) d (by simp [Val.Kind]) hl
  | .ints a, d, _, hl => walkVal_comp_leaf_aux lf1 lf2 lf3 h P hleaf (.ints a) d (by simp [Val.Kind]) hl
  | .mapIS a, d, _, hl => walkVal_comp_leaf_aux lf1 lf2 lf3 h P hleaf (.mapIS a) d (by simp [Val.Kind]) hl
  | .ptr e a, d, _, hl => walkVal_comp_leaf_aux lf1 lf2 lf3 h P hleaf (.ptr e a) d (by simp [Val.Kind]) hl
/-- The same, for the fields of two structs. -/
theorem walkVals_comp_matching (lf1 lf2 lf3 : Val → Val → Val) (h : Nat) (P : Val → Val → Bool)
    (hleaf : ∀ x g, x.Kind ≠ .Struct → x.isLivePtr h = false →
      P x g = true → (lf1 x g).Kind ≠ .Struct ∧
        (if (lf1 x g).isLivePtr h then lf1 x g else lf2 (lf1 x g) g) = lf3 x g) :
    ∀ (fs gs : List (FieldOf Val)), matchingFields fs gs = true →
      leavesAllFields P h fs gs = true →
      walkVals lf2 h (walkVals lf1 h fs gs) gs = walkVals lf3 h fs gs
  | [], gs, _, _ => by simp [walkVals_nil]
  | f :: r, [], hfs, _ => by simp [matchingFields] at hfs
  | f :: r, g :: s, hfs, hl => by
      rw [matchingFields_cons] at hfs
      simp only [Bool.and_eq_true] at hfs
      rw [leavesAllFields_cons, Bool.and_eq_true] at hl
      simp only [walkVals_cons]
      rw [walkVals_comp_matching lf1 lf2 lf3 h P hleaf r s hfs.2 hl.2]
      congr 1
      by_cases hex : f.exported = true
      · have hlf := hl.1
        have hm := hfs.1.2
        simp only [hex, Bool.not_true, Bool.false_or] at hlf hm
        simp only [hex, if_true]
        rw [walkVal_comp_matching lf1 lf2 lf3 h P hleaf f.val g.val hm hlf]
      · simp [hex]
end

mutual
/-- A walk whose leaf rule keeps every leaf keeps every value, whatever the defaults. -/
theorem walkVal_keep (h : Nat) : ∀ (t d : Val), walkVal (fun x _ => x) h t d = t
  | .struct pk nm fs, .struct pk' nm' gs => by
      rw [walkVal_struct, walkVals_keep h fs gs]
  | .struct pk nm fs, .int _ => by simp [walkVal, Val.isLivePtr]
  | .struct pk nm fs, .str _ => by simp [walkVal, Val.isLivePtr]
  | .struct pk nm fs, .bool _ => by simp [walkVal, Val.isLivePtr]
  | .struct pk nm fs, .float _ => by simp [walkVal, Val.isLivePtr]
  | .struct pk nm fs, .ints _ => by simp [walkVal, Val.isLivePtr]
  | .struct pk nm fs, .mapIS _ => by simp [walkVal, Val.isLivePtr]
  | .struct pk nm fs, .ptr _ _ => by simp [walkVal, Val.isLivePtr]
  | .int a, d => by rw [walkVal_not_struct _ h d (by simp [Val.Kind])]; simp
  | .str a, d => by rw [walkVal_not_struct _ h d (by simp [Val.Kind])]; simp
  | .bool a, d => by rw [walkVal_not_struct _ h d (by simp [Val.Kind])]; simp
  | .float a, d => by rw [walkVal_not_struct _ h d (by simp [Val.Kind])]; simp
  | .ints a, d => by rw [walkVal_not_struct _ h d (by simp [Val.Kind])]; simp
  | .mapIS a, d => by rw [walkVal_not_struct _ h d (by simp [Val.Kind])]; simp
  | .ptr e a, d => by rw [walkVal_not_struct _ h d (by simp [Val.Kind])]; simp
/-- The same, for the fields of two structs. -/
theorem walkVals_keep (h : Nat) :
    ∀ (fs gs : List (FieldOf Val)), walkVals (fun x _ => x) h fs gs = fs
  | [], gs => by simp [walkVals_nil]
  | f :: r, [] => by simp [walkVals]
  | f :: r, g :: s => by
      simp only [walkVals_cons]
      rw [walkVals_keep h r s]
      congr 1
      by_cases hex : f.exported = true
      · rw [if_pos hex, walkVal_keep h f.val g.val, FieldOf.with_val_self]
      · simp [hex]
end

/-! ## The calls on a target with separate structs behind its pointers -/

theorem stripLeafVal_keeps : LeafKeeps stripLeafVal := by
  intro h x g _ _
  cases hde : x.deepEqual g <;> simp [stripLeafVal, hde]

theorem alike_typeOf {heap : List Obj} {n : Nat} {t d : Val} (h : alike heap n t d = true) :
    t.Kind = .Struct ∧ t.typeOf = d.typeOf := by
  cases n with
  | zero => simp [alike] at h
  | succ n =>
    cases t with
    | struct pk nm fs =>
      cases d with
      | struct pk' nm' gs =>
        simp only [alike, Bool.and_eq_true] at h
        exact ⟨rfl, (Ty.beq_iff _ _).mp h.1⟩
      | _ => simp [alike] at h
    | _ => simp [alike] at h

theorem separate_iff {heap : List Obj} {n : Nat} {t d : Val} :
    separate heap n t d = true ↔
      (reach heap n t).Nodup ∧ ∀ c ∈ reach heap n t, c ∉ reach heap n d := by
  simp [separate]

theorem matchingField_of_alike {heap : List Obj} {n : Nat}
    (ih : ∀ t d, alike heap n t d = true → matching (deepVal heap n t) (deepVal heap n d) = true)
    (x g : Val) (h : alikeField heap (alike heap n) x g = true) :
    matching (deepField heap (deepVal heap n) x) (deepField heap (deepVal heap n) g) = true := by
  cases x with
  | struct pk nm fs =>
    cases g with
    | struct pk' nm' gs => exact ih _ _ h
    | _ => simp [alikeField] at h
  | ptr e a =>
    cases a with
    | none => rfl
    | some a =>
      cases ho : heap[a]? with
      | none => simp [deepField, ho, matching]
      | some o =>
        simp only [alikeField, ho] at h
        cases g with
        | ptr e' b =>
          cases b with
          | none => simp at h
          | some b =>
            cases hb : heap[b]? with
            | none => simp [hb] at h
            | some ob =>
              simp only [hb] at h
              simp only [deepField, ho, hb]
              exact ih _ _ h
        | _ => simp at h
  | _ => rfl

theorem matchingFields_of_alike {heap : List Obj} {n : Nat}
    (ih : ∀ t d, alike heap n t d = true → matching (deepVal heap n t) (deepVal heap n d) = true) :
    ∀ (fs gs : List (FieldOf Val)), typeOfFields fs = typeOfFields gs →
      alikeFields heap (alike heap n) fs gs = true →
      matchingFields (deepFields heap (deepVal heap n) fs) (deepFields heap (deepVal heap n) gs)
        = true
  | [], [], _, _ => rfl
  | [], _ :: _, ht, _ => by simp [typeOfFields] at ht
  | _ :: _, [], ht, _ => by simp [typeOfFields] at ht
  | f :: fs, g :: gs, ht, h => by
    simp only [typeOfFields, List.cons.injEq, FieldOf.mk.injEq] at ht
    obtain ⟨⟨_, hex, _⟩, hrest⟩ := ht
    simp only [alikeFields, Bool.and_eq_true] at h
    simp only [deepFields, matchingFields_cons, Bool.and_eq_true]
    refine ⟨⟨?_, ?_⟩, matchingFields_of_alike ih fs gs hrest h.2⟩
    · cases hf : f.exported <;> simp [← hex, hf]
    · cases hf : f.exported with
      | false => simp [hf]
      | true =>
        have h1 := h.1
        simp only [hf, Bool.not_true, Bool.false_or] at h1
        simp only [← hex, hf, if_true, Bool.not_true, Bool.false_or]
        exact matchingField_of_alike ih f.val g.val h1

/-- Read through their pointers, defaults of the shape of the target hold a struct
wherever the target does. -/
theorem matching_of_alike {heap : List Obj} :
    ∀ (n : Nat) (t d : Val), alike heap n t d = true →
      matching (deepVal heap n t) (deepVal heap n d) = true
  | 0, _, _, h => by simp [alike] at h
  | n + 1, t, d, h => by
    cases t with
    | struct pk nm fs =>
      cases d with
      | struct pk' nm' gs =>
        simp only [alike, Bool.and_eq_true] at h
        have hty := (Ty.beq_iff _ _).mp h.1
        simp only [Val.typeOf, Ty.struct.injEq] at hty
        simp only [deepVal, matching_struct]
        exact matchingFields_of_alike (matching_of_alike n) fs gs hty.2.2 h.2
      | _ => simp [alike] at h
    | _ => simp [alike] at h

theorem walkPre_root {m : Mem} {n : Nat} {D : Val} (hal : alike m.heap n m.root D = true)
    (hsep : separate m.heap n m.root D = true) :
    WalkPre (fun c => c ∈ reach m.heap n D) n m .root [] (.held D false) m.root D := by
  rw [separate_iff] at hsep
  refine ⟨by simp [Mem.read_root, Val.getPath], rfl, rfl, trivial, hal, hsep.1, ?_, ?_, ?_⟩
  · intro c hc
    exact ⟨hsep.2 c hc, by simp⟩
  · intro c hc
    exact hc
  · intro a ha
    cases ha

/-- Both entry points, on a target whose pointers lead to separate structs, with
defaults of the same shape: the call returns, and what it leaves in the target,
read through its pointers, is `walkVal lf` of the target and the defaults. -/
theorem entry_deep {leaf : Mem → RValue → RValue → Res} {lf : Val → Val → Val}
    (hleaf : LeafAt leaf lf) (hrule : LeafRule lf) (n : Nat) (m : Mem) (D : Val)
    (hal : alike m.heap n m.root D = true) (hsep : separate m.heap n m.root D = true) :
    ∃ m', entry (walkStruct leaf n) m .rootPtr (some D) = .ok m' ∧
      WalkPost lf (fun c => c ∈ reach m.heap n D) n m .root [] m.root D m' := by
  obtain ⟨hk, ht⟩ := alike_typeOf hal
  obtain ⟨dv, hdv, he⟩ :=
    entry_of_validationError_none (validationError_rootPtr hk ht) (walkStruct leaf n)
  cases hdv
  rw [he]
  exact walkStruct_deep hleaf hrule _ n m .root [] (.held D false) m.root D
    (walkPre_root hal hsep)

theorem Mem.read_root_nil (m : Mem) : m.read .root [] = some m.root := by
  simp [Mem.read_root, Val.getPath]

/-- A call on a target whose pointers lead to separate structs, with defaults of
the same shape: the call returns; read through its pointers, the target then holds
`walkVal lf` of what it held and of the defaults, so that a leaf `x` with the
default `y` in the same place has become `lf x y`; a heap cell that the walk does
not reach from the target is unchanged. -/
theorem entry_deep_leaves {leaf : Mem → RValue → RValue → Res} {lf : Val → Val → Val}
    (hleaf : LeafAt leaf lf) (hrule : LeafRule lf) (n : Nat) (m : Mem) (D : Val)
    (hal : alike m.heap n m.root D = true) (hsep : separate m.heap n m.root D = true) :
    ∃ m', entry (walkStruct leaf n) m .rootPtr (some D) = .ok m' ∧
      deepVal m'.heap n m'.root =
        walkVal lf m.heap.length (deepVal m.heap n m.root) (deepVal m.heap n D) ∧
      (∀ c, c ∉ reach m.heap n m.root → m'.heap[c]? = m.heap[c]?) ∧
      m'.heap.length = m.heap.length ∧
      ∀ p x, (deepVal m.heap n m.root).exportedPath p = true →
        (deepVal m.heap n m.root).getPath p = some x → x.isRecursed m.heap.length = false →
        ∃ y, (deepVal m.heap n D).getPath p = some y ∧
          (deepVal m'.heap n m'.root).getPath p = some (lf x y) := by
  obtain ⟨m', hrun, t', hr', -, -, hdeep, -, hfr, -, hlen, -, -⟩ :=
    entry_deep hleaf hrule n m D hal hsep
  rw [Mem.read_root_nil] at hr'
  cases hr'
  refine ⟨m', hrun, hdeep, fun c hc => hfr c hc (by simp), hlen, ?_⟩
  intro p x he hx hl
  obtain ⟨y, hy, -, hw⟩ := walkVal_getPath_matching lf m.heap.length p _ _ x
    (matching_of_alike n _ _ hal) he hx
  refine ⟨y, hy, ?_⟩
  rw [hdeep, hw, walkVal_leaf lf y hl]

theorem interior_SetDefaults_entry (depth : Nat) (m : Mem) (v : Arg) (d : Option Val) :
    Interior.SetDefaults [] depth m v d = entry (walkStruct setLeaf depth) m v d := by
  rw [interior_SetDefaults_nil, SetDefaults_eq_entry]

theorem interior_StripDefaults_entry (depth : Nat) (m : Mem) (v : Arg) (d : Option Val) :
    Interior.StripDefaults [] depth m v d = entry (walkStruct stripLeaf depth) m v d := by
  rw [interior_StripDefaults_nil, StripDefaults_eq_entry]

/-- `StripDefaults` and then `SetDefaults` on a target whose pointers lead to
separate structs: both calls return, and the target, read through its pointers,
holds what it held at first, provided no leaf was zero while differing from the
default. -/
theorem deep_round_trip (n : Nat) (m : Mem) (D : Val)
    (hal : alike m.heap n m.root D = true) (hsep : separate m.heap n m.root D = true)
    (hz : noZeroOverride m.heap.length (deepVal m.heap n m.root) (deepVal m.heap n D) = true) :
    ∃ m1 m2, entry (walkStruct stripLeaf n) m .rootPtr (some D) = .ok m1 ∧
      entry (walkStruct setLeaf n) m1 .rootPtr (some D) = .ok m2 ∧
      deepVal m2.heap n m2.root = deepVal m.heap n m.root ∧
      (∀ c, c ∉ reach m.heap n m.root → m2.heap[c]? = m.heap[c]?) ∧
      m2.heap.length = m.heap.length := by
  obtain ⟨m1, hrun1, t1, hr1, -, -, hdeep1, -, hfr1, -, hlen1, hkeep1, -⟩ :=
    entry_deep stripLeaf_at stripLeafVal_rule n m D hal hsep
  rw [Mem.read_root_nil] at hr1
  cases hr1
  obtain ⟨hreach1, hal1⟩ := hkeep1 stripLeafVal_keeps
  have hsep0 := separate_iff.mp hsep
  have hD : ∀ c ∈ reach m.heap n D, m1.heap[c]? = m.heap[c]? := fun c hc =>
    hfr1 c (fun hc' => hsep0.2 c hc' hc) (by simp)
  have hreachD : reach m1.heap n D = reach m.heap n D := reach_agree hlen1 n D hD
  have hdeepD : deepVal m1.heap n D = deepVal m.heap n D := deepVal_agree hlen1 n D hD
  have hsep1 : separate m1.heap n m1.root D = true := by
    rw [separate_iff, hreach1, hreachD]
    exact hsep0
  obtain ⟨m2, hrun2, t2, hr2, -, -, hdeep2, -, hfr2, -, hlen2, -, -⟩ :=
    entry_deep setLeaf_at fillLeaf_rule n m1 D hal1 hsep1
  rw [Mem.read_root_nil] at hr2
  cases hr2
  refine ⟨m1, m2, hrun1, hrun2, ?_, ?_, hlen2.trans hlen1⟩
  · rw [hdeep2, hdeep1, hdeepD, hlen1]
    rw [walkVal_comp_matching stripLeafVal fillLeaf (fun x _ => x) m.heap.length _
      (fun x g hk hl hP => fill_strip_leaf m.heap.length x g hk hl hP) _ _
      (matching_of_alike n _ _ hal) hz]
    exact walkVal_keep _ _ _
  · intro c hc
    rw [hfr2 c (by rw [hreach1]; exact hc) (by simp), hfr1 c hc (by simp)]

/-! ## A second `SetDefaults` finds nothing to fill -/

theorem fillLeaf_settles : LeafSettles fillLeaf := by
  intro h x g _ _
  cases hz : x.isZero with
  | true => right; simp [fillLeaf, hz]
  | false => left; exact ⟨by simp [fillLeaf, hz], rfl⟩

theorem Val.deepEqual_self_of_isZero {x : Val} (hk : x.Kind ≠ .Struct) (hz : x.isZero = true) :
    x.deepEqual x = true := by
  cases x <;> simp [Val.Kind] at hk <;> simp [Val.isZero] at hz <;>
    simp [Val.deepEqual, hz, Ty.beq_self]

theorem settledField_self {heap : List Obj} {n : Nat}
    (ih : ∀ d, alike heap n d d = true → settled heap n d d = true)
    (g : Val) (h : alikeField heap (alike heap n) g g = true) :
    settledField heap (settled heap n) g g = true := by
  cases g with
  | struct pk nm fs => exact ih _ h
  | ptr e a =>
    cases a with
    | none => simp [settledField, Val.isZero, Val.deepEqual, Ty.beq_self]
    | some a =>
      cases ho : heap[a]? with
      | none => simp [settledField, ho]
      | some o =>
        simp only [alikeField, ho] at h
        simp only [settledField, ho]
        exact ih _ h
  | int a =>
    by_cases hz : (Val.int a).isZero = true
    · simp [settledField, Val.deepEqual_self_of_isZero (by simp [Val.Kind]) hz]
    · simp [settledField, hz]
  | str a =>
    by_cases hz : (Val.str a).isZero = true
    · simp [settledField, Val.deepEqual_self_of_isZero (by simp [Val.Kind]) hz]
    · simp [settledField, hz]
  | bool a =>
    by_cases hz : (Val.bool a).isZero = true
    · simp [settledField, Val.deepEqual_self_of_isZero (by simp [Val.Kind]) hz]
    · simp [settledField, hz]
  | float a =>
    by_cases hz : (Val.float a).isZero = true
    · simp [settledField, Val.deepEqual_self_of_isZero (by simp [Val.Kind]) hz]
    · simp [settledField, hz]
  | ints a =>
    by_cases hz : (Val.ints a).isZero = true
    · simp [settledField, Val.deepEqual_self_of_isZero (by simp [Val.Kind]) hz]
    · simp [settledField, hz]
  | mapIS a =>
    by_cases hz : (Val.mapIS a).isZero = true
    · simp [settledField, Val.deepEqual_self_of_isZero (by simp [Val.Kind]) hz]
    · simp [settledField, hz]

theorem settledFields_self {heap : List Obj} {n : Nat}
    (ih : ∀ d, alike heap n d d = true → settled heap n d d = true) :
    ∀ (gs : List (FieldOf Val)), alikeFields heap (alike heap n) gs gs = true →
      settledFields heap (settled heap n) gs gs = true
  | [], _ => rfl
  | g :: gs, h => by
    simp only [alikeFields, Bool.and_eq_true] at h
    simp only [settledFields, Bool.and_eq_true]
    refine ⟨?_, settledFields_self ih gs h.2⟩
    cases hex : g.exported with
    | false => rfl
    | true =>
      have h1 := h.1
      simp only [hex, Bool.not_true, Bool.false_or] at h1
      simp only [Bool.not_true, Bool.false_or]
      exact settledField_self ih g.val h1

/-- Defaults that a stack of depth `n` suffices to walk need no filling from
themselves. -/
theorem settled_self {heap : List Obj} :
    ∀ (n : Nat) (d : Val), alike heap n d d = true → settled heap n d d = true
  | 0, _, h => by simp [alike] at h
  | n + 1, d, h => by
    cases d with
    | struct pk nm gs =>
      simp only [alike, Bool.and_eq_true] at h
      simp only [settled, Bool.and_eq_true]
      exact ⟨h.1, settledFields_self (settled_self n) gs h.2⟩
    | _ => simp [alike] at h

/-- The loop of `setStruct` over a struct that needs no filling leaves the storage
as it is. -/
theorem walkFields_settled {recur : Mem → RValue → RValue → Res} (n : Nat) (m : Mem)
    (IH : ∀ (B : Base) (q : List Nat) (Dv : RValue) (t d : Val),
      m.read B q = some t → Dv.load m = some d → Dv.ro = false →
      settled m.heap n t d = true → recur m (.ref B q false) Dv = .ok m)
    {B : Base} {q : List Nat} {Dv : RValue} {pk nm pk' nm' : String}
    {fs gs : List (FieldOf Val)} (hDro : Dv.ro = false)
    (hread : m.read B q = some (.struct pk nm fs))
    (hD : Dv.load m = some (.struct pk' nm' gs)) :
    ∀ (j k : Nat), k + j = fs.length →
      typeOfFields (fs.drop k) = typeOfFields (gs.drop k) →
      settledFields m.heap (settled m.heap n) (fs.drop k) (gs.drop k) = true →
      walkFields setLeaf recur (.ref B q false) Dv (List.range' k j) m = .ok m := by
  intro j
  induction j with
  | zero =>
    intro k _ _ _
    simp [walkFields]
  | succ j ih =>
    intro k hk ht hs
    have hlt : k < fs.length := by omega
    obtain ⟨f, hf⟩ : ∃ f, fs[k]? = some f := ⟨fs[k], by simp [hlt]⟩
    have hfd := List.drop_of_getElem? hf
    rw [hfd] at ht hs
    cases hgd : gs.drop k with
    | nil => rw [hgd] at ht; simp [typeOfFields] at ht
    | cons g s =>
      obtain ⟨hgk, hs'⟩ := List.drop_cons_inv hgd
      subst hs'
      rw [hgd] at ht hs
      simp only [typeOfFields, List.cons.injEq, FieldOf.mk.injEq] at ht
      obtain ⟨⟨-, hexp, hty⟩, hrest⟩ := ht
      simp only [settledFields, Bool.and_eq_true] at hs
      have hnext := ih (k + 1) (by omega) hrest hs.2
      rw [List.range'_succ]
      have hvF : (RValue.ref B q false).Field m k =
          .ok (.ref B (q ++ [k]) (false || !f.exported)) := RValue.Field_of_read hread hf
      obtain ⟨df, hdF, hdl, hdro⟩ := RValue.Field_spec hD hgk
      by_cases hex : f.exported = true
      case neg =>
        have hcs : (RValue.ref B (q ++ [k]) (false || !f.exported)).CanSet = false := by
          simp [RValue.CanSet, hex]
        rw [walkFields_cons_skip hvF hdF hcs]
        exact hnext
      case pos =>
        have hgex : g.exported = true := by rw [← hexp, hex]
        simp only [hex, Bool.not_true, Bool.or_false] at hvF
        rw [hDro, hgex] at hdro
        simp only [Bool.not_true, Bool.or_false] at hdro
        have hcs : (RValue.ref B (q ++ [k]) false).CanSet = true := rfl
        have hrk : m.read B (q ++ [k]) = some f.val := Mem.read_snoc hread hf
        have hload : (RValue.ref B (q ++ [k]) false).load m = some f.val := hrk
        have hvalid := toStruct_valid_iff hload
        have hsf : settledField m.heap (settled m.heap n) f.val g.val = true := by
          simpa [hex] using hs.1
        cases hrec : f.val.isRecursed m.heap.length with
        | false =>
          rw [hrec] at hvalid
          obtain ⟨m1, hw, hlf⟩ := setLeaf_at m B (q ++ [k]) f.val df g.val hrk hrec hdl hdro
            hty.symm
          rw [settledField_leaf _ hrec] at hsf
          have hfill : fillLeaf f.val g.val = f.val := by
            unfold fillLeaf
            cases hz : f.val.isZero with
            | false => simp
            | true =>
              simp only [hz, Bool.not_true, Bool.false_or] at hsf
              simp only [if_true]
              exact (Val.eq_of_deepEqual_leaf (Val.leaf_of_not_recursed hrec).1 hsf).symm
          rw [hfill, Mem.write_self hrk] at hw
          cases hw
          rw [walkFields_cons_leaf hvF hdF hcs hvalid, hlf]
          exact hnext
        | true =>
          rw [hrec] at hvalid
          by_cases hkS : f.val.Kind = .Struct
          · have hgk' : g.val.Kind = .Struct := by
              rw [← Val.Kind_of_typeOf_eq hty]; exact hkS
            rw [settledField_struct _ hkS hgk'] at hsf
            rw [walkFields_cons_recur hvF hdF hcs hvalid, toStruct_of_struct hload hkS,
              toStruct_of_struct hdl hgk', IH B (q ++ [k]) df f.val g.val hrk hdl hdro hsf]
            exact hnext
          · have hp : f.val.isLivePtr m.heap.length = true := by
              simp only [Val.isRecursed, Bool.or_eq_true, beq_iff_eq] at hrec
              rcases hrec with h | h
              · exact absurd h hkS
              · exact h
            cases hfv : f.val <;> rw [hfv] at hp <;> simp [Val.isLivePtr] at hp
            rename_i e a
            cases a with
            | none => simp at hp
            | some a =>
              simp at hp
              obtain ⟨o, ho, hro⟩ := Mem.read_obj_nil hp
              rw [hfv] at hsf hload
              simp only [settledField, ho] at hsf
              cases hgv : g.val <;> rw [hgv] at hsf <;> try (exact Bool.noConfusion hsf)
              rename_i e' b
              cases b with
              | none => simp at hsf
              | some b =>
                simp only at hsf
                cases hob : m.heap[b]? with
                | none => simp [hob] at hsf
                | some ob =>
                  simp only [hob] at hsf
                  have hb : b < m.heap.length := by
                    by_contra hc
                    rw [List.getElem?_eq_none (Nat.le_of_not_lt hc)] at hob
                    simp at hob
                  obtain ⟨ob', hob', hrob⟩ := Mem.read_obj_nil hb
                  rw [hob] at hob'
                  cases hob'
                  rw [hgv] at hdl
                  rw [walkFields_cons_recur hvF hdF hcs hvalid, toStruct_of_live hload hp,
                    toStruct_of_live hdl hb, hdro]
                  simp only [RValue.ro]
                  rw [IH (.obj a) [] (.ref (.obj b) [] false) o.toVal ob.toVal hro hrob rfl hsf]
                  exact hnext

/-- `setStruct` over a struct that needs no filling returns and leaves the storage
as it is. -/
theorem walkStruct_settled :
    ∀ (n : Nat) (m : Mem) (B : Base) (q : List Nat) (Dv : RValue) (t d : Val),
      m.read B q = some t → Dv.load m = some d → Dv.ro = false →
      settled m.heap n t d = true → walkStruct setLeaf n m (.ref B q false) Dv = .ok m
  | 0, m, B, q, Dv, t, d, _, _, _, h => by simp [settled] at h
  | n + 1, m, B, q, Dv, t, d, hread, hD, hro, h => by
    cases t with
    | struct pk nm fs =>
      cases d with
      | struct pk' nm' gs =>
        simp only [settled, Bool.and_eq_true] at h
        have hty := (Ty.beq_iff _ _).mp h.1
        simp only [Val.typeOf, Ty.struct.injEq] at hty
        have hload : (RValue.ref B q false).load m = some (.struct pk nm fs) := hread
        unfold walkStruct
        simp only [RValue.NumField, hload, List.range_eq_range']
        exact walkFields_settled n m (fun B q Dv t d => walkStruct_settled n m B q Dv t d) hro
          hread hD fs.length 0 (by omega) (by simpa using hty.2.2) (by simpa using h.2)
      | _ => simp [settled] at h
    | _ => simp [settled] at h

/-- `SetDefaults` twice on a target whose pointers lead to separate structs, with
defaults that a stack of depth `n` suffices to walk: both calls return, and the
second leaves the whole storage as the first left it. -/
theorem deep_set_twice (n : Nat) (m : Mem) (D : Val)
    (hal : alike m.heap n m.root D = true) (hsep : separate m.heap n m.root D = true)
    (hD : alike m.heap n D D = true) :
    ∃ m1, entry (walkStruct setLeaf n) m .rootPtr (some D) = .ok m1 ∧
      entry (walkStruct setLeaf n) m1 .rootPtr (some D) = .ok m1 := by
  obtain ⟨m1, hrun1, t1, hr1, -, hty1, -, -, -, -, -, -, hset⟩ :=
    entry_deep setLeaf_at fillLeaf_rule n m D hal hsep
  rw [Mem.read_root_nil] at hr1
  cases hr1
  have hs1 := hset fillLeaf_settles (settled_self n D hD)
  obtain ⟨hk, ht⟩ := alike_typeOf hal
  have hk1 : m1.root.Kind = .Struct := by rw [Val.Kind_of_typeOf_eq hty1]; exact hk
  obtain ⟨dv, hdv, he⟩ :=
    entry_of_validationError_none (validationError_rootPtr hk1 (hty1.trans ht))
      (walkStruct setLeaf n)
  cases hdv
  refine ⟨m1, hrun1, ?_⟩
  rw [he]
  exact walkStruct_settled n m1 .root [] (.held D false) m1.root D (Mem.read_root_nil m1) rfl
    rfl hs1

/-- `SetDefaults` on a target whose pointers lead to separate structs, with defaults
of the same shape, returns; read through its pointers, the target then holds at
every leaf the value `fillLeaf` gives. -/
theorem deep_SetDefaults (depth : Nat) (m : Mem) (D : Val)
    (hal : alike m.heap depth m.root D = true) (hsep : separate m.heap depth m.root D = true) :
    ∃ m', Interior.SetDefaults [] depth m .rootPtr (some D) = .ok m' ∧
      ∀ p x, (deepVal m.heap depth m.root).exportedPath p = true →
        (deepVal m.heap depth m.root).getPath p = some x → x.isRecursed m.heap.length = false →
        ∃ y, (deepVal m.heap depth D).getPath p = some y ∧
          (deepVal m'.heap depth m'.root).getPath p = some (fillLeaf x y) := by
  obtain ⟨m', hrun, -, -, -, hp⟩ := entry_deep_leaves setLeaf_at fillLeaf_rule depth m D hal hsep
  exact ⟨m', by rw [interior_SetDefaults_entry]; exact hrun, hp⟩

/-- `StripDefaults` on a target whose pointers lead to separate structs, with
defaults of the same shape, returns; read through its pointers, the target then
holds at every leaf the value `stripLeafVal` gives. -/
theorem deep_StripDefaults (depth : Nat) (m : Mem) (D : Val)
    (hal : alike m.heap depth m.root D = true) (hsep : separate m.heap depth m.root D = true) :
    ∃ m', Interior.StripDefaults [] depth m .rootPtr (some D) = .ok m' ∧
      ∀ p x, (deepVal m.heap depth m.root).exportedPath p = true →
        (deepVal m.heap depth m.root).getPath p = some x → x.isRecursed m.heap.length = false →
        ∃ y, (deepVal m.heap depth D).getPath p = some y ∧
          (deepVal m'.heap depth m'.root).getPath p = some (stripLeafVal x y) := by
  obtain ⟨m', hrun, -, -, -, hp⟩ :=
    entry_deep_leaves stripLeaf_at stripLeafVal_rule depth m D hal hsep
  exact ⟨m', by rw [interior_StripDefaults_entry]; exact hrun, hp⟩

/-- `SetDefaults` and `StripDefaults` on a target whose pointers lead to separate
structs, with defaults of the same shape, return and leave every struct on the heap
that the walk does not reach from the target as it was. -/
theorem deep_frame (depth : Nat) (m : Mem) (D : Val)
    (hal : alike m.heap depth m.root D = true) (hsep : separate m.heap depth m.root D = true) :
    (∃ m', Interior.SetDefaults [] depth m .rootPtr (some D) = .ok m' ∧
      ∀ c, c ∉ reach m.heap depth m.root → m'.heap[c]? = m.heap[c]?) ∧
    (∃ m', Interior.StripDefaults [] depth m .rootPtr (some D) = .ok m' ∧
      ∀ c, c ∉ reach m.heap depth m.root → m'.heap[c]? = m.heap[c]?) := by
  constructor
  · obtain ⟨m', hrun, -, hfr, -, -⟩ :=
      entry_deep_leaves setLeaf_at fillLeaf_rule depth m D hal hsep
    exact ⟨m', by rw [interior_SetDefaults_entry]; exact hrun, hfr⟩
  · obtain ⟨m', hrun, -, hfr, -, -⟩ :=
      entry_deep_leaves stripLeaf_at stripLeafVal_rule depth m D hal hsep
    exact ⟨m', by rw [interior_StripDefaults_entry]; exact hrun, hfr⟩

/-- Over storage in which every pointer refers to a whole heap struct:
let the target `T` and the defaults `D` be structs of one type that hold no non-nil
pointer to a struct in an exported field and nest fewer than `depth` structs, and let
every exported leaf field of `D` be deeply equal to itself.  Then `SetDefaults(&T, D)`
succeeds, the following `StripDefaults(&T, D)` succeeds, `StripDefaults(&T, D)` on
the original `T` succeeds, and the two ways leave the same storage. -/
theorem root_strip_absorbs_fill (depth : Nat) (m : Mem) (D : Val) (hk : m.root.Kind = .Struct)
    (ht : m.root.typeOf = D.typeOf) (hp : m.root.plain m.heap.length depth = true)
    (hd : D.plain m.heap.length depth = true)
    (hself : selfEqualLeaves m.heap.length m.root D = true) :
    ∃ m1 m2, SetDefaults depth m .rootPtr (some D) = .ok m1 ∧
      StripDefaults depth m1 .rootPtr (some D) = .ok m2 ∧
      StripDefaults depth m .rootPtr (some D) = .ok m2 := by
  have h1 := SetDefaults_plain depth m D hk ht hp
  have hfr := SetDefaults_frame depth m .rootPtr (some D)
  rw [h1] at hfr
  have hty : (fillVal m.heap.length m.root D).typeOf = m.root.typeOf := hfr.1.1
  have hl : leavesAll (fun _ g => !g.isLivePtr m.heap.length) m.heap.length m.root D
      = true :=
    leavesAll_of_plain m.heap.length _ (fun x g _ _ hg => by simp [hg]) depth m.root D
      ht hp hd
  have hp1 : (fillVal m.heap.length m.root D).plain m.heap.length depth = true :=
    walkVal_plain fillLeaf m.heap.length _
      (fun x g hkx hlx htx hg =>
        fillLeaf_plain m.heap.length x g hkx hlx htx (by simpa using hg))
      depth m.root D ht hp hl
  have h2 := StripDefaults_plain depth ⟨fillVal m.heap.length m.root D, m.heap⟩ D
    (by rw [← Val.typeOf_Kind, hty, Val.typeOf_Kind]; exact hk) (hty.trans ht) hp1
  have h3 := StripDefaults_plain depth m D hk ht hp
  have hcomp : stripVal m.heap.length (fillVal m.heap.length m.root D) D
      = stripVal m.heap.length m.root D := by
    simp only [fillVal, stripVal]
    exact walkVal_comp_gen fillLeaf stripLeafVal stripLeafVal m.heap.length _
      (fun x g hkx hlx htx hP => strip_fill_leaf m.heap.length x g hkx hlx htx hP)
      m.root D ht (leavesAll_and _ _ m.heap.length m.root D hself hl)
  refine ⟨_, _, h1, h2, ?_⟩
  rw [h3]
  simp only [hcomp]

/-! ## The claims that follow the target through its pointers

A statement of this section on the fields of the target has a part on the fields
the target holds by value, which holds however the structs on the heap are shared,
and a part on the fields behind the non-nil pointers of the target, which holds
when those structs are separate. -/

/-- C1 as stated fails, in two ways.  `type T struct { P *N; A N }`, target `t` with
`t.P = &t.A` and `t.A.X = 0`, defaults `T{P: &N{X: 2}, A: N{X: 1}}`: `SetDefaults`
succeeds; the leaf `A.X` is reached by value through the exported field `A` and was
zero; it ends as `2`, filled through `P`, and not as the defaults' `A.X`, which is
`1`.  And with no pointer into a struct: target `O{P: a, Q: a}` with `a = &N{X: 0}`,
defaults `O{P: &N{X: 1}, Q: &N{X: 2}}`: `SetDefaults` succeeds; the leaf `Q.X` was
zero and ends as `1`, filled through `P`, not as the defaults' `Q.X`, which is `2`. -/
theorem zero_fill_counterexample :
    ((selfPointerMem 0 2).root.typeOf = (mkT (some 0) 1).typeOf ∧
    resolve fieldATable (selfPointerMem 0 2) 1 = some (.root, [1]) ∧
    (selfPointerMem 0 2).root.exportedPath [1, 0] = true ∧
    (selfPointerMem 0 2).root.getPath [1, 0] = some (.int 0) ∧
    (mkT (some 0) 1).getPath [1, 0] = some (.int 1) ∧
    Interior.SetDefaults fieldATable 4 (selfPointerMem 0 2) .rootPtr (some (mkT (some 0) 1))
      = .ok (selfPointerMem 2 2) ∧
    (selfPointerMem 2 2).root.getPath [1, 0] = some (.int 2)) ∧
    ((sameStructMem 0 2).root.typeOf = (mkO (some 1) (some 2)).typeOf ∧
    separate (sameStructMem 0 2).heap 4 (sameStructMem 0 2).root (mkO (some 1) (some 2))
      = false ∧
    (deepVal (sameStructMem 0 2).heap 4 (sameStructMem 0 2).root).exportedPath [1, 0]
      = true ∧
    (deepVal (sameStructMem 0 2).heap 4 (sameStructMem 0 2).root).getPath [1, 0]
      = some (.int 0) ∧
    (deepVal (sameStructMem 0 2).heap 4 (mkO (some 1) (some 2))).getPath [1, 0]
      = some (.int 2) ∧
    Interior.SetDefaults [] 4 (sameStructMem 0 2) .rootPtr (some (mkO (some 1) (some 2)))
      = .ok (sameStructMem 1 2) ∧
    (deepVal (sameStructMem 1 2).heap 4 (sameStructMem 1 2).root).getPath [1, 0]
      = some (.int 1)) := by
  refine ⟨⟨rfl, rfl, rfl, rfl, rfl, rfl, rfl⟩, ⟨rfl, rfl, rfl, rfl, rfl, rfl, rfl⟩⟩

/-- C1, amended.  Let no pointer refer to a field or to the target variable
(`I = []`) and let `T` and `D` be of one struct type.  First, however the structs on
the heap are shared: after a successful `SetDefaults(&T, D)`, every exported leaf
field of `T` that is reached by value through exported nested struct fields, at any
depth, holds the corresponding field of `D` if it was zero before the call, and its
own previous value if it was not; a leaf is a field that holds neither a struct nor
a non-nil pointer to a struct.  Second, when the structs behind the pointers of `T`
are separate (each is reached in one way only and none is reached from `D`) and `D`
has the shape of `T`: the call returns, and the same holds of every exported leaf
reached through exported struct fields and non-nil pointers, at any depth, with `T`
and `D` read through their pointers. -/
theorem zero_fill (I : List (Base × List Nat)) (depth : Nat) (m : Mem) (D : Val)
    (hI : I = []) (ht : m.root.typeOf = D.typeOf) :
    (∀ m' p x, Interior.SetDefaults I depth m .rootPtr (some D) = .ok m' →
      m.root.exportedPath p = true → m.root.getPath p = some x →
      x.isRecursed m.heap.length = false →
      (x.isZero = true → ∃ y, D.getPath p = some y ∧ m'.root.getPath p = some y) ∧
      (x.isZero = false → m'.root.getPath p = some x)) ∧
    (alike m.heap depth m.root D = true → separate m.heap depth m.root D = true →
      ∃ m', Interior.SetDefaults I depth m .rootPtr (some D) = .ok m' ∧
        ∀ p x, (deepVal m.heap depth m.root).exportedPath p = true →
          (deepVal m.heap depth m.root).getPath p = some x →
          x.isRecursed m.heap.length = false →
          (x.isZero = true → ∃ y, (deepVal m.heap depth D).getPath p = some y ∧
            (deepVal m'.heap depth m'.root).getPath p = some y) ∧
          (x.isZero = false → (deepVal m'.heap depth m'.root).getPath p = some x)) := by
  subst hI
  constructor
  · intro m' p x h he hx hleaf
    rw [interior_SetDefaults_nil] at h
    exact root_zero_fill depth m D m' p x ht h he hx hleaf
  · intro hal hsep
    obtain ⟨m', hrun, hp⟩ := deep_SetDefaults depth m D hal hsep
    refine ⟨m', hrun, fun p x he hx hleaf => ?_⟩
    obtain ⟨y, hy, hr⟩ := hp p x he hx hleaf
    constructor
    · intro hz
      exact ⟨y, hy, by simpa [fillLeaf, hz] using hr⟩
    · intro hz
      simpa [fillLeaf, hz] using hr

/-- C1, amended, on the sample's values (with `PointerTest` nil), where `NO.I` was
zero and is filled with the default `1`, and on the target `O{P: &N{X: 0}}` with the
defaults `O{P: &N{X: 2}, Q: &N{X: 4}}`, where `P.X` is filled with `2`. -/
theorem zero_fill_witness :
    ((fillTargetMem.root.typeOf = DefaultOptions.typeOf ∧
      Interior.SetDefaults [] 8 fillTargetMem .rootPtr (some DefaultOptions)
        = .ok fillTargetResult ∧
      fillTargetMem.root.exportedPath [4, 1] = true ∧
      fillTargetMem.root.getPath [4, 1] = some (.int 0) ∧
      (Val.int 0).isRecursed fillTargetMem.heap.length = false) ∧
    (((Val.int 0).isZero = true →
        ∃ y, DefaultOptions.getPath [4, 1] = some y ∧
          fillTargetResult.root.getPath [4, 1] = some y) ∧
      ((Val.int 0).isZero = false →
        fillTargetResult.root.getPath [4, 1] = some (.int 0)))) ∧
    ((apartMem 0 2).root.typeOf = apartDefaults.typeOf ∧
      alike (apartMem 0 2).heap 4 (apartMem 0 2).root apartDefaults = true ∧
      separate (apartMem 0 2).heap 4 (apartMem 0 2).root apartDefaults = true ∧
      (deepVal (apartMem 0 2).heap 4 (apartMem 0 2).root).exportedPath [0, 0] = true ∧
      (deepVal (apartMem 0 2).heap 4 (apartMem 0 2).root).getPath [0, 0] = some (.int 0) ∧
      (deepVal (apartMem 0 2).heap 4 apartDefaults).getPath [0, 0] = some (.int 2) ∧
      Interior.SetDefaults [] 4 (apartMem 0 2) .rootPtr (some apartDefaults)
        = .ok ⟨mkO (some 0) (some 2), [objN 2, objN 2, objN 4]⟩) ∧
    (∃ m', Interior.SetDefaults [] 4 (apartMem 0 2) .rootPtr (some apartDefaults) = .ok m' ∧
      ∀ p x, (deepVal (apartMem 0 2).heap 4 (apartMem 0 2).root).exportedPath p = true →
        (deepVal (apartMem 0 2).heap 4 (apartMem 0 2).root).getPath p = some x →
        x.isRecursed (apartMem 0 2).heap.length = false →
        (x.isZero = true → ∃ y, (deepVal (apartMem 0 2).heap 4 apartDefaults).getPath p = some y ∧
          (deepVal m'.heap 4 m'.root).getPath p = some y) ∧
        (x.isZero = false → (deepVal m'.heap 4 m'.root).getPath p = some x)) :=
  ⟨⟨⟨rfl, rfl, rfl, rfl, rfl⟩,
    (zero_fill [] 8 fillTargetMem DefaultOptions rfl rfl).1 fillTargetResult [4, 1] (.int 0)
      rfl rfl rfl rfl⟩,
   ⟨rfl, rfl, rfl, rfl, rfl, rfl, rfl⟩,
   (zero_fill [] 4 (apartMem 0 2) apartDefaults rfl rfl).2 rfl rfl⟩

/-- C2 as stated fails, in two ways.  `type T struct { P *N; A N }`, target `t` with
`t.P = &t.A` and `t.A.X = 1`, defaults `T{P: &N{X: 1}, A: N{X: 5}}`: `StripDefaults`
succeeds; the leaf `A.X` is not deeply equal to the defaults' `A.X`, yet it ends as
`0`: it was zeroed through `P`, whose default struct holds `X: 1`.  And with no
pointer into a struct: target `O{P: a, Q: a}` with `a = &N{X: 1}`, defaults
`O{P: &N{X: 1}, Q: &N{X: 5}}`: `StripDefaults` succeeds; the leaf `Q.X` is not
deeply equal to the defaults' `Q.X`, yet it ends as `0`, zeroed through `P`. -/
theorem equality_strip_counterexample :
    ((selfPointerMem 1 1).root.typeOf = (mkT (some 0) 5).typeOf ∧
    resolve fieldATable (selfPointerMem 1 1) 1 = some (.root, [1]) ∧
    (selfPointerMem 1 1).root.exportedPath [1, 0] = true ∧
    (selfPointerMem 1 1).root.getPath [1, 0] = some (.int 1) ∧
    (mkT (some 0) 5).getPath [1, 0] = some (.int 5) ∧
    Interior.DeepEqual fieldATable (selfPointerMem 1 1) (.int 1) (.int 5) = false ∧
    Interior.StripDefaults fieldATable 4 (selfPointerMem 1 1) .rootPtr (some (mkT (some 0) 5))
      = .ok (selfPointerMem 0 1) ∧
    (selfPointerMem 0 1).root.getPath [1, 0] = some (.int 0)) ∧
    ((sameStructMem 1 5).root.typeOf = (mkO (some 1) (some 2)).typeOf ∧
    separate (sameStructMem 1 5).heap 4 (sameStructMem 1 5).root (mkO (some 1) (some 2))
      = false ∧
    (deepVal (sameStructMem 1 5).heap 4 (sameStructMem 1 5).root).exportedPath [1, 0]
      = true ∧
    (deepVal (sameStructMem 1 5).heap 4 (sameStructMem 1 5).root).getPath [1, 0]
      = some (.int 1) ∧
    (deepVal (sameStructMem 1 5).heap 4 (mkO (some 1) (some 2))).getPath [1, 0]
      = some (.int 5) ∧
    (Val.int 1).deepEqual (.int 5) = false ∧
    Interior.StripDefaults [] 4 (sameStructMem 1 5) .rootPtr (some (mkO (some 1) (some 2)))
      = .ok (sameStructMem 0 5) ∧
    (deepVal (sameStructMem 0 5).heap 4 (sameStructMem 0 5).root).getPath [1, 0]
      = some (.int 0)) := by
  refine ⟨⟨rfl, rfl, rfl, rfl, rfl, rfl, rfl, rfl⟩, ⟨rfl, rfl, rfl, rfl, rfl, rfl, rfl, rfl⟩⟩

/-- C2, amended.  Let no pointer refer to a field or to the target variable
(`I = []`) and let `T` and `D` be of one struct type.  First, however the structs on
the heap are shared: after a successful `StripDefaults(&T, D)`, every exported leaf
field of `T` that is reached by value through exported nested struct fields, at any
depth, holds the zero value of its type if it was deeply equal to the corresponding
field of `D`, and its own previous value if it was not.  Second, when the structs
behind the pointers of `T` are separate and `D` has the shape of `T`: the call
returns, and the same holds of every exported leaf reached through exported struct
fields and non-nil pointers, at any depth, with `T` and `D` read through their
pointers. -/
theorem equality_strip (I : List (Base × List Nat)) (depth : Nat) (m : Mem) (D : Val)
    (hI : I = []) (ht : m.root.typeOf = D.typeOf) :
    (∀ m' p x, Interior.StripDefaults I depth m .rootPtr (some D) = .ok m' →
      m.root.exportedPath p = true → m.root.getPath p = some x →
      x.isRecursed m.heap.length = false →
      ∃ y, D.getPath p = some y ∧
        (x.deepEqual y = true → m'.root.getPath p = some x.typeOf.zero) ∧
        (x.deepEqual y = false → m'.root.getPath p = some x)) ∧
    (alike m.heap depth m.root D = true → separate m.heap depth m.root D = true →
      ∃ m', Interior.StripDefaults I depth m .rootPtr (some D) = .ok m' ∧
        ∀ p x, (deepVal m.heap depth m.root).exportedPath p = true →
          (deepVal m.heap depth m.root).getPath p = some x →
          x.isRecursed m.heap.length = false →
          ∃ y, (deepVal m.heap depth D).getPath p = some y ∧
            (x.deepEqual y = true →
              (deepVal m'.heap depth m'.root).getPath p = some x.typeOf.zero) ∧
            (x.deepEqual y = false →
              (deepVal m'.heap depth m'.root).getPath p = some x)) := by
  subst hI
  constructor
  · intro m' p x h he hx hleaf
    rw [interior_StripDefaults_nil] at h
    exact root_equality_strip depth m D m' p x ht h he hx hleaf
  · intro hal hsep
    obtain ⟨m', hrun, hp⟩ := deep_StripDefaults depth m D hal hsep
    refine ⟨m', hrun, fun p x he hx hleaf => ?_⟩
    obtain ⟨y, hy, hr⟩ := hp p x he hx hleaf
    refine ⟨y, hy, ?_, ?_⟩
    · intro hde
      simpa [stripLeafVal, hde] using hr
    · intro hde
      simpa [stripLeafVal, hde] using hr

/-- C2, amended, on the sample's values (with `PointerTest` nil), where `I` equals
the default `8` and is reset to zero, and on the target `O{P: &N{X: 1}}` with the
defaults `O{P: &N{X: 1}}`, where `P.X` equals the default and is reset to zero. -/
theorem equality_strip_witness :
    ((stripTargetMem.root.typeOf = DefaultOptions.typeOf ∧
      Interior.StripDefaults [] 8 stripTargetMem .rootPtr (some DefaultOptions)
        = .ok stripTargetResult ∧
      stripTargetMem.root.exportedPath [1] = true ∧
      stripTargetMem.root.getPath [1] = some (.int 8) ∧
      (Val.int 8).isRecursed stripTargetMem.heap.length = false) ∧
    (∃ y, DefaultOptions.getPath [1] = some y ∧
      ((Val.int 8).deepEqual y = true →
        stripTargetResult.root.getPath [1] = some (Val.int 8).typeOf.zero) ∧
      ((Val.int 8).deepEqual y = false →
        stripTargetResult.root.getPath [1] = some (.int 8)))) ∧
    (equalPointeeMem.root.typeOf = equalPointeeDefaults.typeOf ∧
      alike equalPointeeMem.heap 4 equalPointeeMem.root equalPointeeDefaults = true ∧
      separate equalPointeeMem.heap 4 equalPointeeMem.root equalPointeeDefaults = true ∧
      (deepVal equalPointeeMem.heap 4 equalPointeeMem.root).exportedPath [0, 0] = true ∧
      (deepVal equalPointeeMem.heap 4 equalPointeeMem.root).getPath [0, 0] = some (.int 1) ∧
      (deepVal equalPointeeMem.heap 4 equalPointeeDefaults).getPath [0, 0] = some (.int 1) ∧
      Interior.StripDefaults [] 4 equalPointeeMem .rootPtr (some equalPointeeDefaults)
        = .ok equalPointeeResult) ∧
    (∃ m', Interior.StripDefaults [] 4 equalPointeeMem .rootPtr (some equalPointeeDefaults)
        = .ok m' ∧
      ∀ p x, (deepVal equalPointeeMem.heap 4 equalPointeeMem.root).exportedPath p = true →
        (deepVal equalPointeeMem.heap 4 equalPointeeMem.root).getPath p = some x →
        x.isRecursed equalPointeeMem.heap.length = false →
        ∃ y, (deepVal equalPointeeMem.heap 4 equalPointeeDefaults).getPath p = some y ∧
          (x.deepEqual y = true → (deepVal m'.heap 4 m'.root).getPath p = some x.typeOf.zero) ∧
          (x.deepEqual y = false → (deepVal m'.heap 4 m'.root).getPath p = some x)) :=
  ⟨⟨⟨rfl, rfl, rfl, rfl, rfl⟩,
    (equality_strip [] 8 stripTargetMem DefaultOptions rfl rfl).1 stripTargetResult [1]
      (.int 8) rfl rfl rfl rfl⟩,
   ⟨rfl, rfl, rfl, rfl, rfl, rfl, rfl⟩,
   (equality_strip [] 4 equalPointeeMem equalPointeeDefaults rfl rfl).2 rfl rfl⟩

/-- C3, amended.  Let no pointer refer to a field or to the target variable
(`I = []`), let the target `T` be a struct of the type of the defaults `D`, and let
no exported leaf field of `T` that is reached by value be zero while differing from
the corresponding field of `D`.  First, however the structs on the heap are shared:
whenever `StripDefaults(&T, D)` and then `SetDefaults(&T, D)` both succeed, the
variable `T` holds the value it held at first (a pointer field its old address).
Second, when `T` holds no non-nil pointer to a struct in an exported field and nests
fewer than `depth` structs, both calls do succeed and the whole storage is exactly
what it was.  Third, when the structs behind the pointers of `T` are separate, `D`
has the shape of `T`, and no exported leaf of `T`, read through its pointers, is
zero while differing from the leaf of `D` in the same place: both calls return, and
`T`, read through its pointers, holds what it held at first; the variable `T` is
what it was and so is every struct on the heap that is not reached from `T`. -/
theorem round_trip (I : List (Base × List Nat)) (depth : Nat) (m : Mem) (D : Val)
    (hI : I = []) (hk : m.root.Kind = .Struct) (ht : m.root.typeOf = D.typeOf)
    (hz : noZeroOverride m.heap.length m.root D = true) :
    (∀ d1 d2 m1 m2, Interior.StripDefaults I d1 m .rootPtr (some D) = .ok m1 →
      Interior.SetDefaults I d2 m1 .rootPtr (some D) = .ok m2 → m2.root = m.root) ∧
    (m.root.plain m.heap.length depth = true →
      ∃ m1, Interior.StripDefaults I depth m .rootPtr (some D) = .ok m1 ∧
        Interior.SetDefaults I depth m1 .rootPtr (some D) = .ok m) ∧
    (alike m.heap depth m.root D = true → separate m.heap depth m.root D = true →
      noZeroOverride m.heap.length (deepVal m.heap depth m.root) (deepVal m.heap depth D)
        = true →
      ∃ m1 m2, Interior.StripDefaults I depth m .rootPtr (some D) = .ok m1 ∧
        Interior.SetDefaults I depth m1 .rootPtr (some D) = .ok m2 ∧
        deepVal m2.heap depth m2.root = deepVal m.heap depth m.root ∧
        m2.root = m.root ∧
        ∀ c, c ∉ reach m.heap depth m.root → m2.heap[c]? = m.heap[c]?) := by
  subst hI
  have hroot := root_round_trip depth m D hk ht hz
  refine ⟨?_, ?_, ?_⟩
  · simp only [interior_SetDefaults_nil, interior_StripDefaults_nil]
    exact hroot.1
  · simp only [interior_SetDefaults_nil, interior_StripDefaults_nil]
    exact hroot.2
  · intro hal hsep hdz
    obtain ⟨m1, m2, h1, h2, hdeep, hfr, -⟩ := deep_round_trip depth m D hal hsep hdz
    rw [← StripDefaults_eq_entry] at h1
    rw [← SetDefaults_eq_entry] at h2
    exact ⟨m1, m2, by rw [interior_StripDefaults_nil]; exact h1,
      by rw [interior_SetDefaults_nil]; exact h2, hdeep, hroot.1 depth depth m1 m2 h1 h2, hfr⟩

/-- C3, amended, on the sample's values (with `PointerTest` nil), and on the target
`O{P: &N{X: 1}}` with the defaults `O{P: &N{X: 1}}`. -/
theorem round_trip_witness :
    ((stripTargetMem.root.Kind = .Struct ∧
      stripTargetMem.root.typeOf = DefaultOptions.typeOf ∧
      noZeroOverride stripTargetMem.heap.length stripTargetMem.root DefaultOptions = true ∧
      stripTargetMem.root.plain stripTargetMem.heap.length 8 = true) ∧
    ∃ m1, Interior.StripDefaults [] 8 stripTargetMem .rootPtr (some DefaultOptions) = .ok m1 ∧
      Interior.SetDefaults [] 8 m1 .rootPtr (some DefaultOptions) = .ok stripTargetMem) ∧
    (equalPointeeMem.root.Kind = .Struct ∧
      equalPointeeMem.root.typeOf = equalPointeeDefaults.typeOf ∧
      noZeroOverride equalPointeeMem.heap.length equalPointeeMem.root equalPointeeDefaults
        = true ∧
      alike equalPointeeMem.heap 4 equalPointeeMem.root equalPointeeDefaults = true ∧
      separate equalPointeeMem.heap 4 equalPointeeMem.root equalPointeeDefaults = true ∧
      noZeroOverride equalPointeeMem.heap.length
        (deepVal equalPointeeMem.heap 4 equalPointeeMem.root)
        (deepVal equalPointeeMem.heap 4 equalPointeeDefaults) = true ∧
      Interior.StripDefaults [] 4 equalPointeeMem .rootPtr (some equalPointeeDefaults)
        = .ok equalPointeeResult ∧
      Interior.SetDefaults [] 4 equalPointeeResult .rootPtr (some equalPointeeDefaults)
        = .ok equalPointeeMem) ∧
    (∃ m1 m2,
      Interior.StripDefaults [] 4 equalPointeeMem .rootPtr (some equalPointeeDefaults)
        = .ok m1 ∧
      Interior.SetDefaults [] 4 m1 .rootPtr (some equalPointeeDefaults) = .ok m2 ∧
      deepVal m2.heap 4 m2.root = deepVal equalPointeeMem.heap 4 equalPointeeMem.root ∧
      m2.root = equalPointeeMem.root ∧
      ∀ c, c ∉ reach equalPointeeMem.heap 4 equalPointeeMem.root →
        m2.heap[c]? = equalPointeeMem.heap[c]?) :=
  ⟨⟨⟨rfl, rfl, rfl, rfl⟩,
    (round_trip [] 8 stripTargetMem DefaultOptions rfl rfl rfl rfl).2.1 rfl⟩,
   ⟨rfl, rfl, rfl, rfl, rfl, rfl, rfl, rfl⟩,
   (round_trip [] 4 equalPointeeMem equalPointeeDefaults rfl rfl rfl rfl).2.2 rfl rfl rfl⟩

/-- C4, amended.  Let no pointer refer to a field or to the target variable
(`I = []`) and let the target `T` be a struct of the type of the defaults `D`.
First, however the structs on the heap are shared: whenever `SetDefaults(&T, D)`
succeeds and a second `SetDefaults(&T, D)` succeeds, the second call leaves the
variable `T` as the first call left it (a pointer field its address).  Second, when
neither `T` nor `D` holds a non-nil pointer to a struct in an exported field and both
nest fewer than `depth` structs, the first call succeeds, the second succeeds as
well, and it leaves the whole storage exactly as the first call left it.  Third,
when the structs behind the pointers of `T` are separate, `D` has the shape of `T`,
and a stack of depth `depth` suffices to walk `D` through its own pointers: the
first call returns, the second returns as well, and it leaves the whole storage, the
target and every struct behind a pointer, exactly as the first call left it. -/
theorem set_idempotent (I : List (Base × List Nat)) (depth : Nat) (m : Mem) (D : Val)
    (hI : I = []) (hk : m.root.Kind = .Struct) (ht : m.root.typeOf = D.typeOf) :
    (∀ d1 d2 m1 m2, Interior.SetDefaults I d1 m .rootPtr (some D) = .ok m1 →
      Interior.SetDefaults I d2 m1 .rootPtr (some D) = .ok m2 → m2.root = m1.root) ∧
    (m.root.plain m.heap.length depth = true → D.plain m.heap.length depth = true →
      ∃ m1, Interior.SetDefaults I depth m .rootPtr (some D) = .ok m1 ∧
        Interior.SetDefaults I depth m1 .rootPtr (some D) = .ok m1) ∧
    (alike m.heap depth m.root D = true → separate m.heap depth m.root D = true →
      alike m.heap depth D D = true →
      ∃ m1, Interior.SetDefaults I depth m .rootPtr (some D) = .ok m1 ∧
        Interior.SetDefaults I depth m1 .rootPtr (some D) = .ok m1) := by
  subst hI
  have hroot := root_set_idempotent depth m D hk ht
  simp only [interior_SetDefaults_entry]
  simp only [SetDefaults_eq_entry] at hroot
  exact ⟨hroot.1, hroot.2, fun hal hsep hD => deep_set_twice depth m D hal hsep hD⟩

/-- C4, amended, on the sample's values (with `PointerTest` nil), and on the target
`O{P: &N{X: 0}}` with the defaults `O{P: &N{X: 2}, Q: &N{X: 4}}`. -/
theorem set_idempotent_witness :
    ((fillTargetMem.root.Kind = .Struct ∧
      fillTargetMem.root.typeOf = DefaultOptions.typeOf ∧
      fillTargetMem.root.plain fillTargetMem.heap.length 8 = true ∧
      DefaultOptions.plain fillTargetMem.heap.length 8 = true) ∧
    ∃ m1, Interior.SetDefaults [] 8 fillTargetMem .rootPtr (some DefaultOptions) = .ok m1 ∧
      Interior.SetDefaults [] 8 m1 .rootPtr (some DefaultOptions) = .ok m1) ∧
    ((apartMem 0 2).root.Kind = .Struct ∧
      (apartMem 0 2).root.typeOf = apartDefaults.typeOf ∧
      alike (apartMem 0 2).heap 4 (apartMem 0 2).root apartDefaults = true ∧
      separate (apartMem 0 2).heap 4 (apartMem 0 2).root apartDefaults = true ∧
      alike (apartMem 0 2).heap 4 apartDefaults apartDefaults = true ∧
      Interior.SetDefaults [] 4 (apartMem 0 2) .rootPtr (some apartDefaults)
        = .ok ⟨mkO (some 0) (some 2), [objN 2, objN 2, objN 4]⟩ ∧
      Interior.SetDefaults [] 4 ⟨mkO (some 0) (some 2), [objN 2, objN 2, objN 4]⟩ .rootPtr
        (some apartDefaults) = .ok ⟨mkO (some 0) (some 2), [objN 2, objN 2, objN 4]⟩) ∧
    (∃ m1, Interior.SetDefaults [] 4 (apartMem 0 2) .rootPtr (some apartDefaults) = .ok m1 ∧
      Interior.SetDefaults [] 4 m1 .rootPtr (some apartDefaults) = .ok m1) :=
  ⟨⟨⟨rfl, rfl, rfl, rfl⟩,
    (set_idempotent [] 8 fillTargetMem DefaultOptions rfl rfl rfl).2.1 rfl rfl⟩,
   ⟨rfl, rfl, rfl, rfl, rfl, rfl, rfl⟩,
   (set_idempotent [] 4 (apartMem 0 2) apartDefaults rfl rfl rfl).2.2 rfl rfl rfl⟩

/-- C13, amended.  First, for the loop step, with or without interior pointers: when
the loop of `setStruct` reaches a settable field `vf` that holds a nil pointer at
that moment, it makes no recursive call, whatever the recursive call would do, and
the step is `vf.Set(df)` with the defaults' field `df`, which stores the value of
`df`, nil or not, when that value has the type of the field; the loop step of
`stripStruct` makes no recursive call and leaves the storage as it is.  Second, for
the call, when no pointer refers to a field or to the target variable (`I = []`),
however the structs on the heap are shared: a field of the target `T` that is
reached by value through exported fields, at any depth, and is a nil pointer before
the call holds the value of the defaults' field after a successful
`SetDefaults(&T, D)`, and is still nil after a successful `StripDefaults(&T, D)`.
Third, when `I = []`, the structs behind the pointers of `T` are separate and `D`
has the shape of `T`: both calls return, and the same holds of a nil pointer field
reached through exported struct fields and non-nil pointers, at any depth, with `T`
and `D` read through their pointers. -/
theorem null_pointer_is_leaf (I : List (Base × List Nat)) (m : Mem) (e : Ty) :
    (∀ (recur : Mem → RValue → RValue → Res) (vStr defStr vf df : RValue) (i : Nat),
      vStr.Field m i = .ok vf → defStr.Field m i = .ok df → vf.CanSet = true →
      vf.load m = some (.ptr e none) →
      (Interior.setFields I recur vStr defStr [i] m =
        match vf.Set m df with
        | .ok m1 => .ok m1
        | .error err => .fail err m) ∧
      (∀ y, df.load m = some y → df.ro = false → y.typeOf = .ptr e →
        ∃ m1, vf.Set m df = .ok m1 ∧ vf.load m1 = some y) ∧
      (∀ d, df.Interface m = .ok d →
        Interior.stripFields I recur vStr defStr [i] m = .ok m)) ∧
    (I = [] → ∀ (D : Val) (p : List Nat), m.root.typeOf = D.typeOf →
      m.root.exportedPath p = true → m.root.getPath p = some (.ptr e none) →
      (∀ depth m', Interior.SetDefaults I depth m .rootPtr (some D) = .ok m' →
        ∃ y, D.getPath p = some y ∧ m'.root.getPath p = some y) ∧
      (∀ depth m', Interior.StripDefaults I depth m .rootPtr (some D) = .ok m' →
        m'.root.getPath p = some (.ptr e none))) ∧
    (I = [] → ∀ (depth : Nat) (D : Val) (p : List Nat),
      alike m.heap depth m.root D = true → separate m.heap depth m.root D = true →
      (deepVal m.heap depth m.root).exportedPath p = true →
      (deepVal m.heap depth m.root).getPath p = some (.ptr e none) →
      (∃ m' y, Interior.SetDefaults I depth m .rootPtr (some D) = .ok m' ∧
        (deepVal m.heap depth D).getPath p = some y ∧
        (deepVal m'.heap depth m'.root).getPath p = some y) ∧
      (∃ m', Interior.StripDefaults I depth m .rootPtr (some D) = .ok m' ∧
        (deepVal m'.heap depth m'.root).getPath p = some (.ptr e none))) := by
  have hleaf : (Val.ptr e none).isRecursed m.heap.length = false := by
    simp [Val.isRecursed, Val.Kind, Val.isLivePtr]
  refine ⟨?_, ?_, ?_⟩
  · intro recur vStr defStr vf df i hv hd hs hl
    refine ⟨?_, ?_, ?_⟩
    · have := interior_setFields_leaf_step I recur hv hd hs hl (by simp [Val.Kind])
        (by intro e' a; simp)
      simpa [Val.isZero] using this
    · intro y hy hro hty
      obtain ⟨b, p, rfl⟩ := RValue.CanSet_ref hs
      have hrd : m.read b p = some (.ptr e none) := hl
      obtain ⟨m1, hw, hset⟩ := RValue.Set_ok df hrd hy hro (by simpa [Val.typeOf] using hty)
      exact ⟨m1, hset, Mem.read_write hw⟩
    · intro d hdi
      exact interior_stripFields_nil_step I recur hv hd hs hl hdi
  · intro hI D p ht he hx
    subst hI
    simp only [interior_SetDefaults_nil, interior_StripDefaults_nil]
    constructor
    · intro depth m' h
      exact (root_zero_fill depth m D m' p _ ht h he hx hleaf).1 (by simp [Val.isZero])
    · intro depth m' h
      obtain ⟨y, -, h1, h2⟩ := root_equality_strip depth m D m' p _ ht h he hx hleaf
      cases hde : (Val.ptr e none).deepEqual y with
      | true => simpa [Val.typeOf, Ty.zero] using h1 hde
      | false => exact h2 hde
  · intro hI depth D p hal hsep he hx
    subst hI
    constructor
    · obtain ⟨m', hrun, hp⟩ := deep_SetDefaults depth m D hal hsep
      obtain ⟨y, hy, hr⟩ := hp p _ he hx hleaf
      exact ⟨m', y, hrun, hy, by simpa [fillLeaf, Val.isZero] using hr⟩
    · obtain ⟨m', hrun, hp⟩ := deep_StripDefaults depth m D hal hsep
      obtain ⟨y, hy, hr⟩ := hp p _ he hx hleaf
      refine ⟨m', hrun, ?_⟩
      cases hde : (Val.ptr e none).deepEqual y with
      | true => simpa [stripLeafVal, hde, Val.typeOf, Ty.zero] using hr
      | false => simpa [stripLeafVal, hde] using hr

/-- C13, amended, on a target `O{}` and defaults `O{P: &N{X: 1}}`, the field `P`;
and on the target `T2{X: &M{P: nil}, Y: &M{P: nil}}` with two structs `M` and the
defaults `T2{X: &M{P: &N{X: 7}}, Y: &M{P: &N{X: 9}}}`, the field `X.P`. -/
theorem null_pointer_is_leaf_witness :
    ((nilPtrMem.root.typeOf = sharedDefaults.typeOf ∧
      nilPtrMem.root.exportedPath [0] = true ∧
      nilPtrMem.root.getPath [0] = some (.ptr tyN none) ∧
      Interior.SetDefaults [] 4 nilPtrMem .rootPtr (some sharedDefaults)
        = .ok ⟨mkO (some 0) none, [objN 1]⟩) ∧
    ∃ y, sharedDefaults.getPath [0] = some y ∧
      (⟨mkO (some 0) none, [objN 1]⟩ : Mem).root.getPath [0] = some y) ∧
    (alike onceReachedMem.heap 4 onceReachedMem.root twiceReachedDefaults = true ∧
      separate onceReachedMem.heap 4 onceReachedMem.root twiceReachedDefaults = true ∧
      (deepVal onceReachedMem.heap 4 onceReachedMem.root).exportedPath [0, 0] = true ∧
      (deepVal onceReachedMem.heap 4 onceReachedMem.root).getPath [0, 0]
        = some (.ptr tyN none) ∧
      (deepVal onceReachedMem.heap 4 twiceReachedDefaults).getPath [0, 0]
        = some (objN 7).toVal ∧
      Interior.SetDefaults [] 4 onceReachedMem .rootPtr (some twiceReachedDefaults)
        = .ok ⟨mkT2 (some 0) (some 5),
            [objM (some 2), objM (some 2), objN 7, objM (some 4), objN 9, objM (some 4)]⟩ ∧
      Interior.StripDefaults [] 4 onceReachedMem .rootPtr (some twiceReachedDefaults)
        = .ok onceReachedMem) ∧
    ((∃ m' y,
        Interior.SetDefaults [] 4 onceReachedMem .rootPtr (some twiceReachedDefaults)
          = .ok m' ∧
        (deepVal onceReachedMem.heap 4 twiceReachedDefaults).getPath [0, 0] = some y ∧
        (deepVal m'.heap 4 m'.root).getPath [0, 0] = some y) ∧
      (∃ m',
        Interior.StripDefaults [] 4 onceReachedMem .rootPtr (some twiceReachedDefaults)
          = .ok m' ∧
        (deepVal m'.heap 4 m'.root).getPath [0, 0] = some (.ptr tyN none))) :=
  ⟨⟨⟨rfl, rfl, rfl, rfl⟩,
    (((null_pointer_is_leaf [] nilPtrMem tyN).2.1 rfl sharedDefaults [0] rfl rfl rfl).1 4
      ⟨mkO (some 0) none, [objN 1]⟩ rfl)⟩,
   ⟨rfl, rfl, rfl, rfl, rfl, rfl, rfl⟩,
   (null_pointer_is_leaf [] onceReachedMem tyN).2.2 rfl 4 twiceReachedDefaults [0, 0] rfl rfl
     rfl rfl⟩

/-- C14, amended.  First, for the loop step, with or without interior pointers: when
the loop of `setStruct` reaches a settable field `vf` that holds a slice or a map at
that moment, it makes no recursive call; if the field is nil the step is
`vf.Set(df)` with the defaults' field `df`, and if it is allocated, also with length
0, the step leaves the storage as it is.  Second, for the call, when no pointer
refers to a field or to the target variable (`I = []`), however the structs on the
heap are shared: after a successful `SetDefaults(&T, D)` with `T` and `D` of one
struct type, a field of slice or map type that is reached by value through exported
fields, at any depth, holds the corresponding field of `D` if it was nil before the
call, and its own previous value if it was allocated.  Third, when `I = []`, the
structs behind the pointers of `T` are separate and `D` has the shape of `T`: the
call returns, and the same holds of a field of slice or map type reached through
exported struct fields and non-nil pointers, at any depth, with `T` and `D` read
through their pointers. -/
theorem nil_containers_filled (I : List (Base × List Nat)) (m : Mem) (x : Val)
    (hc : x.len.isSome = true) :
    (∀ (recur : Mem → RValue → RValue → Res) (vStr defStr vf df : RValue) (i : Nat),
      vStr.Field m i = .ok vf → defStr.Field m i = .ok df → vf.CanSet = true →
      vf.load m = some x →
      Interior.setFields I recur vStr defStr [i] m =
        if x.isNilContainer then
          match vf.Set m df with
          | .ok m1 => .ok m1
          | .error err => .fail err m
        else .ok m) ∧
    (I = [] → ∀ (depth : Nat) (D : Val) (m' : Mem) (p : List Nat),
      m.root.typeOf = D.typeOf →
      Interior.SetDefaults I depth m .rootPtr (some D) = .ok m' →
      m.root.exportedPath p = true → m.root.getPath p = some x →
      (x.isNilContainer = true → ∃ y, D.getPath p = some y ∧ m'.root.getPath p = some y) ∧
      (x.isNilContainer = false → m'.root.getPath p = some x)) ∧
    (I = [] → ∀ (depth : Nat) (D : Val) (p : List Nat),
      alike m.heap depth m.root D = true → separate m.heap depth m.root D = true →
      (deepVal m.heap depth m.root).exportedPath p = true →
      (deepVal m.heap depth m.root).getPath p = some x →
      ∃ m', Interior.SetDefaults I depth m .rootPtr (some D) = .ok m' ∧
        (x.isNilContainer = true → ∃ y, (deepVal m.heap depth D).getPath p = some y ∧
          (deepVal m'.heap depth m'.root).getPath p = some y) ∧
        (x.isNilContainer = false →
          (deepVal m'.heap depth m'.root).getPath p = some x)) := by
  have hz : x.isZero = x.isNilContainer := by
    cases x <;> simp [Val.len] at hc <;> rename_i a <;> cases a <;>
      simp [Val.isZero, Val.isNilContainer]
  refine ⟨?_, ?_, ?_⟩
  · intro recur vStr defStr vf df i hv hd hs hl
    have := interior_setFields_leaf_step I recur hv hd hs hl
      (by cases x <;> simp [Val.len] at hc <;> simp [Val.Kind])
      (by intro e' a; cases x <;> simp [Val.len] at hc <;> simp)
    rw [hz] at this
    exact this
  · intro hI depth D m' p ht h he hx
    subst hI
    rw [interior_SetDefaults_nil] at h
    exact root_nil_containers depth m D m' p x ht h he hx hc
  · intro hI depth D p hal hsep he hx
    subst hI
    have hleaf : x.isRecursed m.heap.length = false := by
      cases x <;> simp [Val.len] at hc <;> simp [Val.isRecursed, Val.Kind, Val.isLivePtr]
    obtain ⟨m', hrun, hp⟩ := deep_SetDefaults depth m D hal hsep
    obtain ⟨y, hy, hr⟩ := hp p x he hx hleaf
    refine ⟨m', hrun, ?_, ?_⟩
    · intro hn
      rw [← hz] at hn
      exact ⟨y, hy, by simpa [fillLeaf, hn] using hr⟩
    · intro hn
      rw [← hz] at hn
      simpa [fillLeaf, hn] using hr

/-- C14, amended, on the sample's values, where the nil map `MIS` is filled, and on
the target `PC{P: &C{IS: nil}}` with the defaults `PC{P: &C{IS: []int{9}}}`, where
the nil slice `P.IS` is filled. -/
theorem nil_containers_filled_witness :
    (((Val.mapIS none).len.isSome = true ∧
      fillTargetMem.root.typeOf = DefaultOptions.typeOf ∧
      Interior.SetDefaults [] 8 fillTargetMem .rootPtr (some DefaultOptions)
        = .ok fillTargetResult ∧
      fillTargetMem.root.exportedPath [3] = true ∧
      fillTargetMem.root.getPath [3] = some (.mapIS none)) ∧
    (((Val.mapIS none).isNilContainer = true →
        ∃ y, DefaultOptions.getPath [3] = some y ∧
          fillTargetResult.root.getPath [3] = some y) ∧
      ((Val.mapIS none).isNilContainer = false →
        fillTargetResult.root.getPath [3] = some (.mapIS none)))) ∧
    ((Val.ints none).len.isSome = true ∧
      alike nilSliceMem.heap 4 nilSliceMem.root (mkPC (some 1)) = true ∧
      separate nilSliceMem.heap 4 nilSliceMem.root (mkPC (some 1)) = true ∧
      (deepVal nilSliceMem.heap 4 nilSliceMem.root).exportedPath [0, 0] = true ∧
      (deepVal nilSliceMem.heap 4 nilSliceMem.root).getPath [0, 0] = some (.ints none) ∧
      (deepVal nilSliceMem.heap 4 (mkPC (some 1))).getPath [0, 0] = some (.ints (some [9])) ∧
      Interior.SetDefaults [] 4 nilSliceMem .rootPtr (some (mkPC (some 1)))
        = .ok ⟨mkPC (some 0), [objC (some [9]), objC (some [9])]⟩) ∧
    (∃ m', Interior.SetDefaults [] 4 nilSliceMem .rootPtr (some (mkPC (some 1))) = .ok m' ∧
      ((Val.ints none).isNilContainer = true →
        ∃ y, (deepVal nilSliceMem.heap 4 (mkPC (some 1))).getPath [0, 0] = some y ∧
          (deepVal m'.heap 4 m'.root).getPath [0, 0] = some y) ∧
      ((Val.ints none).isNilContainer = false →
        (deepVal m'.heap 4 m'.root).getPath [0, 0] = some (.ints none))) :=
  ⟨⟨⟨rfl, rfl, rfl, rfl, rfl⟩,
    (nil_containers_filled [] fillTargetMem (.mapIS none) rfl).2.1 rfl 8 DefaultOptions
      fillTargetResult [3] rfl rfl rfl rfl⟩,
   ⟨rfl, rfl, rfl, rfl, rfl, rfl, rfl⟩,
   (nil_containers_filled [] nilSliceMem (.ints none) rfl).2.2 rfl 4 (mkPC (some 1)) [0, 0]
     rfl rfl rfl rfl⟩

/-- C9, amended.  Let no pointer refer to a field or to the target variable
(`I = []`).  For every call of `SetDefaults` or `StripDefaults`, whatever the
arguments and whether or not it succeeds: an unexported field of the target or of
any struct on the heap, and everything nested by value below it, reads the same
after the call as before; for a pointer this is its address.  A struct on the heap
(behind an unexported pointer, say) is left as it was by `StripDefaults` when it
lies outside a set `S` that holds every struct the target reaches through exported
pointer fields; by `SetDefaults` when the target holds no non-nil pointer to a
struct in an exported field; and by both, which then return, when the structs
behind the pointers of the target are separate, the defaults have the shape of the
target, and the walk does not reach the struct from the target through exported
fields and non-nil pointers. -/
theorem unexported_untouched (I : List (Base × List Nat)) (depth : Nat) (m : Mem)
    (hI : I = []) :
    (∀ (v : Arg) (d : Option Val) (b : Base) (x : Val) (p : List Nat),
      m.base b = some x → x.hiddenPath p = true →
      (Interior.SetDefaults I depth m v d).mem.read b p = m.read b p ∧
      (Interior.StripDefaults I depth m v d).mem.read b p = m.read b p) ∧
    (∀ (d : Option Val) (S : Nat → Bool), m.closedUnder S = true → ∀ c, S c = false →
      (Interior.StripDefaults I depth m .rootPtr d).mem.heap[c]? = m.heap[c]?) ∧
    (∀ (D : Val), m.root.Kind = .Struct → m.root.typeOf = D.typeOf →
      m.root.plain m.heap.length depth = true →
      (Interior.SetDefaults I depth m .rootPtr (some D)).mem.heap = m.heap) ∧
    (∀ (D : Val), alike m.heap depth m.root D = true →
      separate m.heap depth m.root D = true →
      (∃ m', Interior.SetDefaults I depth m .rootPtr (some D) = .ok m' ∧
        ∀ c, c ∉ reach m.heap depth m.root → m'.heap[c]? = m.heap[c]?) ∧
      (∃ m', Interior.StripDefaults I depth m .rootPtr (some D) = .ok m' ∧
        ∀ c, c ∉ reach m.heap depth m.root → m'.heap[c]? = m.heap[c]?)) := by
  subst hI
  refine ⟨?_, ?_, ?_, fun D hal hsep => deep_frame depth m D hal hsep⟩
  · simp only [interior_SetDefaults_nil, interior_StripDefaults_nil]
    exact fun v d b x p hb hp => hidden_paths_unchanged depth m v d b x p hb hp
  · simp only [interior_StripDefaults_nil]
    exact fun d S hc c hcS => StripDefaults_outside depth m d hc c hcS
  · intro D hk ht hp
    rw [interior_SetDefaults_nil, SetDefaults_plain depth m D hk ht hp]
    rfl

/-- C9, amended, at two concrete targets.  The unexported field `a` keeps its zero
value although the defaults hold `a: 7`, in a call that succeeds and fills `B`.  The
struct behind the unexported pointer `p` of `V{p: a, Q: b}` is left as it was by a
call that succeeds and fills `X` of the struct behind `Q`. -/
theorem unexported_untouched_witness :
    ((hiddenFieldMem.base .root = some hiddenFieldMem.root ∧
      hiddenFieldMem.root.hiddenPath [0] = true ∧
      (Interior.SetDefaults [] 3 hiddenFieldMem .rootPtr (some hiddenFieldDefaults)).err
        = none ∧
      (Interior.SetDefaults [] 3 hiddenFieldMem .rootPtr
        (some hiddenFieldDefaults)).mem.read .root [1] = some (.int 9)) ∧
    ((Interior.SetDefaults [] 3 hiddenFieldMem .rootPtr
        (some hiddenFieldDefaults)).mem.read .root [0] = hiddenFieldMem.read .root [0] ∧
      (Interior.StripDefaults [] 3 hiddenFieldMem .rootPtr
        (some hiddenFieldDefaults)).mem.read .root [0] = hiddenFieldMem.read .root [0])) ∧
    (alike behindHiddenMem.heap 4 behindHiddenMem.root (mkV none (some 2)) = true ∧
      separate behindHiddenMem.heap 4 behindHiddenMem.root (mkV none (some 2)) = true ∧
      reach behindHiddenMem.heap 4 behindHiddenMem.root = [1] ∧
      Interior.SetDefaults [] 4 behindHiddenMem .rootPtr (some (mkV none (some 2)))
        = .ok ⟨mkV (some 0) (some 1), [objN 0, objN 5, objN 5]⟩) ∧
    ((∃ m', Interior.SetDefaults [] 4 behindHiddenMem .rootPtr (some (mkV none (some 2)))
        = .ok m' ∧
      ∀ c, c ∉ reach behindHiddenMem.heap 4 behindHiddenMem.root →
        m'.heap[c]? = behindHiddenMem.heap[c]?) ∧
    (∃ m', Interior.StripDefaults [] 4 behindHiddenMem .rootPtr (some (mkV none (some 2)))
        = .ok m' ∧
      ∀ c, c ∉ reach behindHiddenMem.heap 4 behindHiddenMem.root →
        m'.heap[c]? = behindHiddenMem.heap[c]?)) :=
  ⟨⟨⟨rfl, rfl, rfl, rfl⟩,
    (unexported_untouched [] 3 hiddenFieldMem rfl).1 .rootPtr (some hiddenFieldDefaults)
      .root hiddenFieldMem.root [0] rfl rfl⟩,
   ⟨rfl, rfl, rfl, rfl⟩,
   (unexported_untouched [] 4 behindHiddenMem rfl).2.2.2 (mkV none (some 2)) rfl rfl⟩

/-- C16, amended.  Let no pointer refer to a field, to a variable that is no struct,
or to the target variable (`I = []`), let the target `T` and the defaults `D` be
structs of one type that nest fewer than `depth` structs and hold no non-nil pointer
to a struct in an exported field (a pointer field may be there, it is nil; the
values of a type without pointer fields qualify, by `plain_of_noPtr`), and let
every exported leaf field of `D` be deeply equal to itself.  Then `SetDefaults(&T, D)`
succeeds, the following `StripDefaults(&T, D)` succeeds, `StripDefaults(&T, D)` on
the original `T` succeeds, and the two ways leave the same storage. -/
theorem strip_absorbs_fill (I : List (Base × List Nat)) (depth : Nat) (m : Mem) (D : Val)
    (hI : I = []) (hk : m.root.Kind = .Struct)
    (ht : m.root.typeOf = D.typeOf) (hp : m.root.plain m.heap.length depth = true)
    (hd : D.plain m.heap.length depth = true)
    (hself : selfEqualLeaves m.heap.length m.root D = true) :
    ∃ m1 m2, Interior.SetDefaults I depth m .rootPtr (some D) = .ok m1 ∧
      Interior.StripDefaults I depth m1 .rootPtr (some D) = .ok m2 ∧
      Interior.StripDefaults I depth m .rootPtr (some D) = .ok m2 := by
  subst hI
  simp only [interior_SetDefaults_nil, interior_StripDefaults_nil]
  exact root_strip_absorbs_fill depth m D hk ht hp hd hself

/-- C16, amended, on the sample's values, with the pointer field `PointerTest` nil in
the target and in the defaults. -/
theorem strip_absorbs_fill_witness :
    (fillTargetMem.root.Kind = .Struct ∧
      fillTargetMem.root.typeOf = DefaultOptions.typeOf ∧
      fillTargetMem.root.plain fillTargetMem.heap.length 8 = true ∧
      DefaultOptions.plain fillTargetMem.heap.length 8 = true ∧
      selfEqualLeaves fillTargetMem.heap.length fillTargetMem.root DefaultOptions = true ∧
      Interior.SetDefaults [] 8 fillTargetMem .rootPtr (some DefaultOptions)
        = .ok fillTargetResult ∧
      Interior.StripDefaults [] 8 fillTargetResult .rootPtr (some DefaultOptions)
        = .ok fillTargetMem ∧
      Interior.StripDefaults [] 8 fillTargetMem .rootPtr (some DefaultOptions)
        = .ok fillTargetMem) ∧
    ∃ m1 m2, Interior.SetDefaults [] 8 fillTargetMem .rootPtr (some DefaultOptions) = .ok m1 ∧
      Interior.StripDefaults [] 8 m1 .rootPtr (some DefaultOptions) = .ok m2 ∧
      Interior.StripDefaults [] 8 fillTargetMem .rootPtr (some DefaultOptions) = .ok m2 :=
  ⟨⟨rfl, rfl, rfl, rfl, rfl, rfl, rfl, rfl⟩,
   strip_absorbs_fill [] 8 fillTargetMem DefaultOptions rfl rfl rfl rfl rfl rfl⟩

end Options
